import Mathlib

/-!
# Flye: consensus polisher (`polishing/Worker.cpp`) and repeat-graph simplifier
(`repeat_graph/multiplicity_inferer.cpp`)

Shallow embedding of the two translation units and the properties proved about them.
Strings (`std::string`) are lists of characters, pointers are indices, loops are folds or
fuel-indexed recursions, and the state an object carries is passed explicitly.
-/

set_option autoImplicit false

namespace Polisher

/-! ## Data model of the polisher -/

/-- Output record of `Worker` (`Record` in `Worker.cpp`): the fields the code reads and
writes. The score type `S` stands for `double`. -/
structure Record (S : Type) where
  methodUsed : String
  score : S
  read : List Char
  del_index : Nat
  sub_index : Nat
  sub_letter : Char
  ins_index : Nat
  ins_letter : Char
deriving DecidableEq

/-- One bubble as stored in `Worker::_bubbles`. -/
structure Bubble where
  header : List Char
  position : Int
  candidate : List Char
  branches : List (List Char)
deriving DecidableEq

/-- Modelled from the spec: the interface of the class `Alignment` (its source is not part of
the translation unit). The object is stateful: `create n` is the constructor
`Alignment(n)`, `globalAlignment` returns the score and the updated object, the three probes
read the object without changing it (spec 4.2: probes are side-effect-free). The score matrix
pointer passed at each call is part of the closure. -/
structure Alignment (σ S : Type) where
  create : Nat → σ
  globalAlignment : σ → List Char → List Char → Nat → S × σ
  addDeletion : σ → Nat → Nat → S
  addSubstitution : σ → Nat → Nat → Char → List Char → S
  addInsertion : σ → Nat → Nat → Char → List Char → S

/-- The call `str.erase(i, 1)` for `i ≤ str.size()`. -/
def strErase (str : List Char) (i : Nat) : List Char :=
  str.take i ++ str.drop (i + 1)

/-- The call `str.insert(i, 1, letter)` for `i ≤ str.size()`. -/
def strInsert (str : List Char) (i : Nat) (letter : Char) : List Char :=
  str.take i ++ letter :: str.drop i

/-- The array `alphabet` of `runOneToAll`. -/
def alphabet : List Char := ['A', 'C', 'G', 'T']

section RunOneToAll

variable {σ S : Type} [Zero S] [Add S] [LT S] [DecidableRel (fun a b : S => a < b)]

/-- The loop `for i < branches.size(): score += align.globalAlignment(candidate, branches[i], i)`
(lines 81-84), started at branch index `i` with the running `score`. -/
def globalLoop (align : Alignment σ S) (candidate : List Char) :
    List (List Char) → Nat → S → σ → S × σ
  | [], _, score, st => (score, st)
  | b :: bs, i, score, st =>
      globalLoop align candidate bs (i + 1) (score + (align.globalAlignment st candidate b i).1)
        (align.globalAlignment st candidate b i).2

/-- The inner loop of every probe: `for i < branches.size(): score += probe(i, branches[i])`. -/
def probeLoop (probe : Nat → List Char → S) : List (List Char) → Nat → S → S
  | [], _, score => score
  | b :: bs, i, score => probeLoop probe bs (i + 1) (score + probe i b)

/-- Body of the deletion loop (lines 93-105). -/
def deletionStep (align : Alignment σ S) (st : σ) (candidate : List Char)
    (branches : List (List Char)) (rec : Record S) (del_index : Nat) : Record S :=
  let score := probeLoop (fun i _ => align.addDeletion st i (del_index + 1)) branches 0 0
  if rec.score < score then
    { rec with methodUsed := "deletion", score := score,
               read := strErase candidate del_index, del_index := del_index }
  else rec

/-- Body of the inner substitution loop (lines 114-133), `continue` included. -/
def substitutionStep (align : Alignment σ S) (st : σ) (candidate : List Char)
    (branches : List (List Char)) (sub_index : Nat) (rec : Record S) (letter : Char) :
    Record S :=
  if candidate[sub_index]? = some letter then rec
  else
    let score := probeLoop
      (fun i b => align.addSubstitution st i (sub_index + 1) letter b) branches 0 0
    if rec.score < score then
      { rec with methodUsed := "substitution", score := score,
                 read := strInsert (strErase candidate sub_index) sub_index letter,
                 sub_index := sub_index, sub_letter := letter }
    else rec

/-- Body of the inner insertion loop (lines 142-157). -/
def insertionStep (align : Alignment σ S) (st : σ) (candidate : List Char)
    (branches : List (List Char)) (ins_index : Nat) (rec : Record S) (letter : Char) :
    Record S :=
  let score := probeLoop
    (fun i b => align.addInsertion st i (ins_index + 1) letter b) branches 0 0
  if rec.score < score then
    { rec with methodUsed := "insertion", score := score,
               read := strInsert candidate ins_index letter,
               ins_index := ins_index, ins_letter := letter }
  else rec

/-- The method `Worker::runOneToAll`: `rec` is the in/out parameter, the result is its final value. -/
def runOneToAll (align : Alignment σ S) (candidate : List Char)
    (branches : List (List Char)) (rec : Record S) : Record S :=
  let g := globalLoop align candidate branches 0 0 (align.create branches.length)
  let rec0 : Record S := { rec with methodUsed := "global", score := g.1, read := candidate }
  let rec1 := (List.range candidate.length).foldl
    (deletionStep align g.2 candidate branches) rec0
  let rec2 := (List.range candidate.length).foldl
    (fun r sub_index => alphabet.foldl
      (substitutionStep align g.2 candidate branches sub_index) r) rec1
  (List.range (candidate.length + 1)).foldl
    (fun r ins_index => alphabet.foldl
      (insertionStep align g.2 candidate branches ins_index) r) rec2

/-- The refinement loop of `Worker::run` (lines 53-65) for one bubble:
`while (curCandidate != prevCandidate)`. `rec` is the local `Record rec`; the result is the
value of `rec` when the loop is left, `none` when `fuel` iterations were not enough. -/
def refineLoop (align : Alignment σ S) (branches : List (List Char)) :
    Nat → List Char → List Char → Record S → Option (Record S)
  | 0, prevCandidate, curCandidate, rec =>
      if curCandidate ≠ prevCandidate then none else some rec
  | fuel + 1, prevCandidate, curCandidate, rec =>
      if curCandidate ≠ prevCandidate then
        refineLoop align branches fuel curCandidate
          (runOneToAll align curCandidate branches rec).read
          (runOneToAll align curCandidate branches rec)
      else some rec

/-- Lines 53-65 of `Worker::run` for one bubble: `prevCandidate = ""`,
`curCandidate = bubble.candidate`, then the loop. `rec` is the default-constructed record. -/
def refine (align : Alignment σ S) (bubble : Bubble) (rec : Record S) (fuel : Nat) :
    Option (Record S) :=
  refineLoop align bubble.branches fuel [] bubble.candidate rec

end RunOneToAll

/-! ## The aligner of the spec: Needleman-Wunsch with linear gaps -/

/-- Modelled from the spec: `ScoreMatrix`, a 5x5 table over the alphabet `A, C, G, T, -`
(rows and columns in that order). The scores, `double` in the code, are exact rationals
here: every finite `double` is one. -/
structure ScoreMatrix where
  table : Fin 5 → Fin 5 → ℚ

/-- Modelled from the spec: row/column of a symbol in the score matrix, in the order
`A C G T -`; any other character is looked up in the gap row. -/
def symbolIndex (c : Char) : Fin 5 :=
  if c = 'A' then 0 else if c = 'C' then 1 else if c = 'G' then 2 else if c = 'T' then 3 else 4

/-- Modelled from the spec: `score(a, b)` of the score matrix. -/
def ScoreMatrix.getScore (m : ScoreMatrix) (a b : Char) : ℚ :=
  m.table (symbolIndex a) (symbolIndex b)

/-- Modelled from the spec: optimal score of an empty candidate against `branch`
(every branch letter faces a gap). -/
def nwGapRow (m : ScoreMatrix) : List Char → ℚ
  | [] => 0
  | y :: b => nwGapRow m b + m.getScore '-' y

/-- Modelled from the spec: one row of the Needleman-Wunsch recurrence: the optimal score of
`x :: c` against a branch, given the optimal scores `prev` of `c` against every branch. -/
def nwStep (m : ScoreMatrix) (x : Char) (prev : List Char → ℚ) : List Char → ℚ
  | [] => prev [] + m.getScore x '-'
  | y :: b =>
      max (prev b + m.getScore x y)
        (max (prev (y :: b) + m.getScore x '-') (nwStep m x prev b + m.getScore '-' y))

/-- Modelled from the spec: the optimal global alignment score (Needleman-Wunsch, linear gaps,
gap score `score(x, '-')`) of `candidate` against `branch`. -/
def nwScore (m : ScoreMatrix) : List Char → List Char → ℚ
  | [] => nwGapRow m
  | x :: c => nwStep m x (nwScore m c)

/-- Modelled from the spec: the `Alignment` object of section 4.2. The object remembers, per
branch slot, the candidate and branch of the last `globalAlignment`; `addDeletion(k, i)`,
`addSubstitution(k, i, letter, branch)` and `addInsertion(k, i, letter, branch)` return the
optimal score of the candidate with position `i - 1` removed, replaced by `letter`, or with
`letter` inserted before it. -/
def nwAlignment (m : ScoreMatrix) : Alignment (List (List Char × List Char)) ℚ where
  create := fun n => List.replicate n ([], [])
  globalAlignment := fun st candidate branch k =>
    (nwScore m candidate branch, st.set k (candidate, branch))
  addDeletion := fun st k i =>
    nwScore m (strErase (st.getD k ([], [])).1 (i - 1)) (st.getD k ([], [])).2
  addSubstitution := fun st k i letter branch =>
    nwScore m (strInsert (strErase (st.getD k ([], [])).1 (i - 1)) (i - 1) letter) branch
  addInsertion := fun st k i letter branch =>
    nwScore m (strInsert (st.getD k ([], [])).1 (i - 1) letter) branch

/-- The total global alignment score of `candidate` against all branches, summed in branch
order as `runOneToAll` does. -/
def totalScore (m : ScoreMatrix) (candidate : List Char) (branches : List (List Char)) : ℚ :=
  probeLoop (fun _ b => nwScore m candidate b) branches 0 0

/-- The maximum of the 25 entries of the score matrix (`max_score` of the spec). -/
def ScoreMatrix.maxScore (m : ScoreMatrix) : ℚ :=
  ((List.finRange 5).flatMap (fun i => (List.finRange 5).map (m.table i))).foldl max
    (m.table 0 0)

/-- The upper bound of the spec on the total score: `Σ_k |branch_k| · max_score`. -/
def scoreBound (m : ScoreMatrix) (branches : List (List Char)) : ℚ :=
  (branches.map (fun b => (b.length : ℚ) * m.maxScore)).sum

/-- A common denominator of the 25 entries of the score matrix: the product of their
denominators. Every alignment score is a multiple of `1 / denominator`. -/
def ScoreMatrix.denominator (m : ScoreMatrix) : Nat :=
  ((List.finRange 5).flatMap (fun i => (List.finRange 5).map (fun j => (m.table i j).den))).prod

/-- The least integer not below `q`. -/
def ceiling (q : ℚ) : Int :=
  -Rat.floor (-q)

/-- A score matrix whose 25 entries are all `+1` (gap columns included). -/
def onesMatrix : ScoreMatrix where
  table := fun _ _ => 1

/-- The bubble of scenario S1: candidate `ACGTA`, three branches `ACTA`. -/
def scenarioS1 : Bubble :=
  { header := ['b'], position := 0, candidate := ['A', 'C', 'G', 'T', 'A'],
    branches := [['A', 'C', 'T', 'A'], ['A', 'C', 'T', 'A'], ['A', 'C', 'T', 'A']] }

/-- The score matrix of the scenarios: match `+1`, mismatch `-1`, gap `-2`. -/
def scenarioMatrix : ScoreMatrix where
  table := fun i j => if i = 4 ∨ j = 4 then -2 else if i = j then 1 else -1

/-- A score matrix with fractional entries: match `3/2`, mismatch `-1/2`, gap `-5/4`. -/
def fractionMatrix : ScoreMatrix where
  table := fun i j => if i = 4 ∨ j = 4 then -5 / 4 else if i = j then 3 / 2 else -1 / 2

/-- A default-constructed `Record`: both strings are empty; the numeric fields, which C++
leaves unset, are zero here. -/
def Record.initial : Record ℚ :=
  { methodUsed := "", score := 0, read := [], del_index := 0, sub_index := 0,
    sub_letter := 'A', ins_index := 0, ins_letter := 'A' }

/-! ## The scanning order of `runOneToAll`, as the specification words it -/

/-- A candidate edit: the identity (`global`) or a single-base edit. -/
inductive Edit
  | global
  | deletion (index : Nat)
  | substitution (index : Nat) (letter : Char)
  | insertion (index : Nat) (letter : Char)
deriving DecidableEq

/-- The name `runOneToAll` stores in `methodUsed` for an edit. -/
def Edit.methodName : Edit → String
  | .global => "global"
  | .deletion _ => "deletion"
  | .substitution _ _ => "substitution"
  | .insertion _ _ => "insertion"

/-- The candidate with an edit applied, in terms of the list library. -/
def Edit.applyTo (candidate : List Char) : Edit → List Char
  | .global => candidate
  | .deletion i => candidate.eraseIdx i
  | .substitution i c => candidate.set i c
  | .insertion i c => candidate.insertIdx i c

/-- The scanning order of the specification: the identity; deletions by ascending index;
substitutions by ascending index, then letter order `A, C, G, T`, without the letter already
present; insertions by ascending index in `[0, |candidate|]`, then letter order. -/
def scanOrder (candidate : List Char) : List Edit :=
  Edit.global ::
    ((List.range candidate.length).map Edit.deletion ++
      ((List.range candidate.length).flatMap (fun i =>
          (alphabet.filter (fun c => decide (candidate[i]? ≠ some c))).map
            (Edit.substitution i)) ++
        (List.range (candidate.length + 1)).flatMap (fun i =>
          alphabet.map (Edit.insertion i))))

section EditScore

variable {σ S : Type} [Zero S] [Add S]

/-- The score of an edit summed over all branches, in branch order, on the aligner state
left by the global alignments of `candidate`. -/
def editScore (align : Alignment σ S) (candidate : List Char) (branches : List (List Char)) :
    Edit → S
  | .global => (globalLoop align candidate branches 0 0 (align.create branches.length)).1
  | .deletion d =>
      probeLoop (fun i _ => align.addDeletion
        (globalLoop align candidate branches 0 0 (align.create branches.length)).2 i (d + 1))
        branches 0 0
  | .substitution s c =>
      probeLoop (fun i b => align.addSubstitution
        (globalLoop align candidate branches 0 0 (align.create branches.length)).2 i (s + 1) c b)
        branches 0 0
  | .insertion n c =>
      probeLoop (fun i b => align.addInsertion
        (globalLoop align candidate branches 0 0 (align.create branches.length)).2 i (n + 1) c b)
        branches 0 0

/-- The sum of a list of scores in list order, from zero: `((0 + x₀) + x₁) + …`. -/
def sumInOrder (xs : List S) : S :=
  xs.foldl (fun acc x => acc + x) 0

/-- The aligner object once `candidate` has been aligned globally with the branches
`0, …, k - 1`, in branch order (spec 4.2: `globalAlignment(candidate, branch, k)` stores the
matrix of slot `k`). -/
def alignedState (align : Alignment σ S) (candidate : List Char) (branches : List (List Char)) :
    Nat → σ
  | 0 => align.create branches.length
  | k + 1 =>
    match branches[k]? with
    | some b => (align.globalAlignment (alignedState align candidate branches k) candidate b k).2
    | none => alignedState align candidate branches k

/-- The score of an edit against branch `k` alone, in the words of the specification: the
global alignment score of the candidate with the branch, or the probe of the edit on the
aligner object after all global alignments, with the 1-based index of spec 4.2. -/
def branchScore (align : Alignment σ S) (candidate : List Char) (branches : List (List Char))
    (e : Edit) (k : Nat) (b : List Char) : S :=
  match e with
  | .global =>
    (align.globalAlignment (alignedState align candidate branches k) candidate b k).1
  | .deletion d =>
    align.addDeletion (alignedState align candidate branches branches.length) k (d + 1)
  | .substitution i c =>
    align.addSubstitution (alignedState align candidate branches branches.length) k (i + 1) c b
  | .insertion i c =>
    align.addInsertion (alignedState align candidate branches branches.length) k (i + 1) c b

/-- The score of an edit summed over all branches, in the words of the specification
(`Σ_k probe(k, …)`): the scores against branch `0`, branch `1`, … added in that order from
zero. It is written with the list library, not with the loops of `runOneToAll`. -/
def specScore (align : Alignment σ S) (candidate : List Char) (branches : List (List Char))
    (e : Edit) : S :=
  sumInOrder (branches.enum.map (fun kb => branchScore align candidate branches e kb.1 kb.2))

/-- The record `rec` describes the edit `e` of `candidate`: method name, total score, edited
read, and the index and letter fields of that method. -/
def Describes (align : Alignment σ S) (candidate : List Char) (branches : List (List Char))
    (rec : Record S) (e : Edit) : Prop :=
  rec.methodUsed = e.methodName ∧ rec.score = editScore align candidate branches e ∧
    rec.read = e.applyTo candidate ∧
    match e with
    | .global => True
    | .deletion i => rec.del_index = i
    | .substitution i c => rec.sub_index = i ∧ rec.sub_letter = c
    | .insertion i c => rec.ins_index = i ∧ rec.ins_letter = c

/-- The edit is one `runOneToAll` can make on `candidate`: its index is in range. -/
def Edit.InRange (candidate : List Char) : Edit → Prop
  | .global => True
  | .deletion i => i < candidate.length
  | .substitution i c => i < candidate.length ∧ candidate[i]? ≠ some c
  | .insertion i _ => i ≤ candidate.length


end EditScore

section EditStep

variable {σ S : Type} [Zero S] [Add S] [LT S] [DecidableRel (fun a b : S => a < b)]

/-- What one scanning step does with the edit `e`: the record is replaced when the edit
scores strictly more. -/
def editStep (align : Alignment σ S) (candidate : List Char) (branches : List (List Char))
    (rec : Record S) (e : Edit) : Record S :=
  if rec.score < editScore align candidate branches e then
    match e with
    | .global => { rec with methodUsed := "global",
                            score := editScore align candidate branches e, read := candidate }
    | .deletion i => { rec with methodUsed := "deletion",
                                score := editScore align candidate branches e,
                                read := strErase candidate i, del_index := i }
    | .substitution i c => { rec with methodUsed := "substitution",
                                      score := editScore align candidate branches e,
                                      read := strInsert (strErase candidate i) i c,
                                      sub_index := i, sub_letter := c }
    | .insertion i c => { rec with methodUsed := "insertion",
                                   score := editScore align candidate branches e,
                                   read := strInsert candidate i c,
                                   ins_index := i, ins_letter := c }
  else rec

end EditStep

end Polisher

namespace Polisher

/-! ## `Worker::readBubbles` and the streams it reads -/

/-- State of a `std::istream` over a fixed text: the characters not yet extracted and the
two state bits the code depends on. -/
structure IStream where
  rest : List Char
  eofbit : Bool
  failbit : Bool
deriving DecidableEq

/-- A stream freshly opened on `content` (`std::ifstream file(fileName)` that opened, or
`std::stringstream ss(s)`). -/
def IStream.ofText (content : List Char) : IStream :=
  { rest := content, eofbit := false, failbit := false }

/-- The extraction loop of `std::getline` on a good stream: characters are appended to `str`
until the delimiter is extracted (and dropped) or the input ends; end of input sets
`eofbit`, and `failbit` too when nothing at all was extracted. -/
def extractLine (delim : Char) : List Char → List Char → IStream × List Char
  | [], str => ({ rest := [], eofbit := true, failbit := str.isEmpty }, str)
  | c :: cs, str =>
      if c = delim then ({ rest := cs, eofbit := false, failbit := false }, str)
      else extractLine delim cs (str ++ [c])

/-- The call `std::getline(is, str, delim)`: when the stream is not good the sentry fails, `failbit`
is set and `str` is left as it was; otherwise `str` is erased and refilled. -/
def getlineDelim (is : IStream) (str : List Char) (delim : Char) : IStream × List Char :=
  if is.eofbit || is.failbit then ({ is with failbit := true }, str)
  else extractLine delim is.rest []

/-- The call `std::getline(is, str)`. -/
def getline (is : IStream) (str : List Char) : IStream × List Char :=
  getlineDelim is str '\n'

/-- The loop `while (std::getline(ss, item, delim)) elems.push_back(item);` of
`splitString`. -/
def splitLoop (delim : Char) : Nat → IStream → List Char → List (List Char) →
    List (List Char)
  | 0, _, _, elems => elems
  | fuel + 1, ss, item, elems =>
      if (getlineDelim ss item delim).1.failbit then elems
      else splitLoop delim fuel (getlineDelim ss item delim).1 (getlineDelim ss item delim).2
        (elems ++ [(getlineDelim ss item delim).2])

/-- The function `splitString(s, delim)`; the loop runs at most `|s| + 1` times before `getline` fails. -/
def splitString (s : List Char) (delim : Char) : List (List Char) :=
  splitLoop delim (s.length + 2) (IStream.ofText s) [] []

/-- What `readBubbles` can throw: its own `std::runtime_error`, or the `std::invalid_argument`
and `std::out_of_range` of `std::stoi`. -/
inductive ParseError
  | runtimeError (what : String)
  | invalidArgument
  | outOfRange
deriving DecidableEq

/-- The function `isspace` in the C locale. -/
def isspace (c : Char) : Bool :=
  c = ' ' || (9 ≤ c.toNat && c.toNat ≤ 13)

/-- Value of a run of decimal digits, most significant first. -/
def digitsValue (ds : List Char) : Nat :=
  ds.foldl (fun acc d => 10 * acc + (d.toNat - '0'.toNat)) 0

/-- What `std::stoi` parses after the leading white space and the optional sign. -/
def stoiBody (str : List Char) : List Char :=
  if (str.dropWhile isspace).head? = some '-' ∨ (str.dropWhile isspace).head? = some '+' then
    (str.dropWhile isspace).tail
  else str.dropWhile isspace

/-- The value `std::stoi` converts, before the range check: the longest run of digits, negated
after a minus sign. -/
def stoiValue (str : List Char) : Int :=
  if (str.dropWhile isspace).head? = some '-' then
    -(digitsValue ((stoiBody str).takeWhile Char.isDigit) : Int)
  else (digitsValue ((stoiBody str).takeWhile Char.isDigit) : Int)

/-- The call `std::stoi(str)` (base 10, `int` of 32 bits): leading white space is skipped, an optional
sign is read, then the longest run of digits; no digit is `std::invalid_argument`, a value
outside `int` is `std::out_of_range`; what follows the digits is ignored. -/
def stoi (str : List Char) : Except ParseError Int :=
  if ((stoiBody str).takeWhile Char.isDigit).isEmpty then .error .invalidArgument
  else if stoiValue str < -2147483648 ∨ 2147483647 < stoiValue str then .error .outOfRange
  else .ok (stoiValue str)

/-- The call `std::transform(s.begin(), s.end(), s.begin(), ::toupper)`. -/
def toupperAll (s : List Char) : List Char := s.map Char.toUpper

/-- Locals of `readBubbles` that the inner loop (lines 232-242) reads and writes. -/
structure BranchLoopState where
  file : IStream
  buffer : List Char
  branches : List (List Char)
  count : Int
deriving DecidableEq

/-- The inner loop `while (count < numOfReads)` of `readBubbles` (lines 232-242), `break`
included. It runs at most `numOfReads - count` times; `fuel` is that number. -/
def readBranchesLoop (numOfReads : Int) : Nat → BranchLoopState → BranchLoopState
  | 0, st => st
  | fuel + 1, st =>
      if st.count < numOfReads then
        if st.buffer.isEmpty then st
        else
          readBranchesLoop numOfReads fuel
            { file := (getline (getline st.file st.buffer).1 (getline st.file st.buffer).2).1,
              buffer := toupperAll
                (getline (getline st.file st.buffer).1 (getline st.file st.buffer).2).2,
              branches := st.branches ++ [toupperAll
                (getline (getline st.file st.buffer).1 (getline st.file st.buffer).2).2],
              count := st.count + 1 }
      else st

/-- The outer loop `while (!file.eof())` of `readBubbles` (lines 212-247) on the locals
`file`, `buffer`, `candidate` and the member `_bubbles`. The result is `none` when `fuel`
iterations were not enough, otherwise the bubbles read or the exception thrown. -/
def readBubblesLoop : Nat → IStream → List Char → List Char → List Bubble →
    Option (Except ParseError (List Bubble))
  | 0, file, _, _, bubbles => if file.eofbit then some (.ok bubbles) else none
  | fuel + 1, file, buffer, candidate, bubbles =>
      if file.eofbit then some (.ok bubbles)
      else if (getline file buffer).2.isEmpty then some (.ok bubbles)
      else if (splitString (getline file buffer).2 ' ').length < 3 ∨
          ((splitString (getline file buffer).2 ' ').headD []).headD (Char.ofNat 0) ≠ '>' then
        some (.error (.runtimeError "Error parsing bubbles file"))
      else
        match stoi ((splitString (getline file buffer).2 ' ').getD 1 []) with
        | .error e => some (.error e)
        | .ok position =>
          match stoi ((splitString (getline file buffer).2 ' ').getD 2 []) with
          | .error e => some (.error e)
          | .ok numOfReads =>
            if (readBranchesLoop numOfReads numOfReads.toNat
                { file := (getline (getline file buffer).1 candidate).1,
                  buffer := (getline file buffer).2, branches := [], count := 0 }).count
                ≠ numOfReads then
              some (.error (.runtimeError "Error parsing bubbles file"))
            else
              readBubblesLoop fuel
                (readBranchesLoop numOfReads numOfReads.toNat
                  { file := (getline (getline file buffer).1 candidate).1,
                    buffer := (getline file buffer).2, branches := [], count := 0 }).file
                (readBranchesLoop numOfReads numOfReads.toNat
                  { file := (getline (getline file buffer).1 candidate).1,
                    buffer := (getline file buffer).2, branches := [], count := 0 }).buffer
                (toupperAll (getline (getline file buffer).1 candidate).2)
                (bubbles ++ [{
                  header := ((splitString (getline file buffer).2 ' ').headD []).drop 1,
                  position := position,
                  candidate := toupperAll (getline (getline file buffer).1 candidate).2,
                  branches := (readBranchesLoop numOfReads numOfReads.toNat
                    { file := (getline (getline file buffer).1 candidate).1,
                      buffer := (getline file buffer).2, branches := [], count := 0 }).branches }])

/-- The method `Worker::readBubbles` on a file that opened with the text `content`: the final
`_bubbles`, or the exception. Every iteration of the outer loop extracts at least one
character or sets `eofbit`, so `|content| + 1` iterations are enough. -/
def readBubbles (content : List Char) : Option (Except ParseError (List Bubble)) :=
  readBubblesLoop (content.length + 1) (IStream.ofText content) [] [] []

/-- The pieces of `s` between delimiters, as a recursion on the text: `item` is the piece being
read; a delimiter closes it, the end of the text closes it only when it is not empty. -/
def splitPieces (delim : Char) : List Char → List Char → List (List Char)
  | [], item => if item.isEmpty then [] else [item]
  | c :: cs, item =>
      if c = delim then item :: splitPieces delim cs [] else splitPieces delim cs (item ++ [c])

/-- One block of a bubble file, as text: the three tokens of the header line (the first one
without its `>`), the candidate line, and the (marker line, read line) pairs. -/
structure BubbleBlock where
  header : List Char
  position : List Char
  numReads : List Char
  candidate : List Char
  reads : List (List Char × List Char)
deriving DecidableEq

/-- The header line `><header> <position> <numReads>`. -/
def BubbleBlock.headerLine (b : BubbleBlock) : List Char :=
  '>' :: b.header ++ ' ' :: b.position ++ ' ' :: b.numReads

/-- The text of the (marker line, read line) pairs, every line closed by a newline. -/
def readsText (reads : List (List Char × List Char)) : List Char :=
  reads.flatMap (fun r => r.1 ++ '\n' :: r.2 ++ ['\n'])

/-- The text of a block, every line closed by a newline. -/
def BubbleBlock.text (b : BubbleBlock) : List Char :=
  b.headerLine ++ '\n' :: b.candidate ++ '\n' :: readsText b.reads

/-- A non-empty run of decimal digits. -/
def IsDecimal (tok : List Char) : Prop :=
  tok ≠ [] ∧ ∀ c ∈ tok, c.isDigit = true

/-- The decimal value of an integer token: digits, or a minus sign and digits. -/
def decimalValue (tok : List Char) : Int :=
  if tok.head? = some '-' then -(digitsValue tok.tail : Int) else (digitsValue tok : Int)

/-- The block follows the grammar: the header holds no white space, the position is a decimal
integer, the number of reads is a decimal non-negative integer equal to the number of pairs,
the candidate line is not empty, every read line is not empty, and no line holds a
newline. -/
def BubbleBlock.WellFormed (b : BubbleBlock) : Prop :=
  (∀ c ∈ b.header, isspace c = false) ∧
  (IsDecimal b.position ∨ (b.position.head? = some '-' ∧ IsDecimal b.position.tail)) ∧
  IsDecimal b.numReads ∧ digitsValue b.numReads = b.reads.length ∧
  b.candidate ≠ [] ∧ '\n' ∉ b.candidate ∧
  ∀ r ∈ b.reads, '\n' ∉ r.1 ∧ r.2 ≠ [] ∧ '\n' ∉ r.2

/-- The position and the number of reads of the block are values of a 32-bit `int`. -/
def BubbleBlock.FitsInt (b : BubbleBlock) : Prop :=
  -2147483648 ≤ decimalValue b.position ∧ decimalValue b.position ≤ 2147483647 ∧
  (digitsValue b.numReads : Int) ≤ 2147483647

/-- The bubble the specification assigns to a block. -/
def BubbleBlock.toBubble (b : BubbleBlock) : Bubble :=
  { header := b.header, position := decimalValue b.position,
    candidate := toupperAll b.candidate,
    branches := b.reads.map (fun r => toupperAll r.2) }

/-- A block that follows the grammar: header `h`, position `7`, one read. -/
def sampleBlock : BubbleBlock :=
  { header := ['h'], position := ['7'], numReads := ['1'], candidate := ['a', 'c'],
    reads := [(['>', 'r'], ['a', 'g'])] }

/-- A block that follows the grammar with a position beyond the range of `int`. -/
def farBlock : BubbleBlock :=
  { header := ['h'], position := ['9', '9', '9', '9', '9', '9', '9', '9', '9', '9', '9'],
    numReads := ['0'], candidate := ['A'], reads := [] }

end Polisher

namespace RepeatGraph

/-! ## Machine arithmetic

The type `float` is IEEE binary32 with round-to-nearest, ties to even; its values are
modelled as the rationals they denote. Infinities and NaN are outside the model and are
treated where they can arise. -/

/-- The power `2 ^ e` for an integer exponent. -/
def pow2 (e : Int) : ℚ :=
  if 0 ≤ e then ((2 ^ e.toNat : Nat) : ℚ) else 1 / ((2 ^ (-e).toNat : Nat) : ℚ)

/-- The loop that counts the halvings of `n` down to `1`. -/
def log2Loop : Nat → Nat → Nat
  | 0, _ => 0
  | fuel + 1, n => if 2 ≤ n then log2Loop fuel (n / 2) + 1 else 0

/-- The position of the leading bit of `n`: `⌊log₂ n⌋` for `n > 0`. -/
def natLog2 (n : Nat) : Nat :=
  log2Loop n n

/-- The binary exponent of a non-zero rational: the `e` with `2 ^ e ≤ |q| < 2 ^ (e + 1)`. -/
def binaryExponent (q : ℚ) : Int :=
  if pow2 ((natLog2 q.num.natAbs : Int) - (natLog2 q.den : Int)) ≤ |q| then
    (natLog2 q.num.natAbs : Int) - (natLog2 q.den : Int)
  else (natLog2 q.num.natAbs : Int) - (natLog2 q.den : Int) - 1

/-- Rounding to the nearest integer, halves to the even neighbour. -/
def roundHalfEven (q : ℚ) : Int :=
  if q - (Rat.floor q : ℚ) < 1 / 2 then Rat.floor q
  else if 1 / 2 < q - (Rat.floor q : ℚ) then Rat.floor q + 1
  else if Rat.floor q % 2 = 0 then Rat.floor q
  else Rat.floor q + 1

/-- The unit in the last place of the binary32 values around `q`: 24 significant bits, and
the spacing `2 ^ (-149)` of the subnormal range below `2 ^ (-126)`. -/
def float32Ulp (q : ℚ) : ℚ :=
  pow2 (max (binaryExponent q) (-126) - 23)

/-- Conversion to `float`, and the rounding of the exact result of a `float` operation:
the nearest multiple of the unit in the last place, ties to even. Results beyond the
largest finite `float` are not modelled. -/
def float32 (q : ℚ) : ℚ :=
  if q = 0 then 0 else (roundHalfEven (q / float32Ulp q) : ℚ) * float32Ulp q

/-- The value an `int32_t` holds after an arithmetic result `x` that may not fit: the
two's-complement wrap-around (what the hardware leaves; the C++ standard leaves signed
overflow undefined). -/
def wrapInt32 (x : Int) : Int :=
  (x + 2147483648) % 4294967296 - 2147483648

end RepeatGraph

namespace RepeatGraph

/-! ## Data model of the repeat graph

The classes `RepeatGraph`, `GraphEdge`, `GraphNode`, `FastaRecord::Id`, `GraphProcessor` and
`Config` are declared outside `multiplicity_inferer.cpp`; what follows holds the members
the passes use. Pointers are references (indices) into the graph's stores. -/

/-- Modelled from the spec: `FastaRecord::Id`, an integer with a strand bit. -/
structure SignedId where
  value : Nat
  strand : Bool
deriving DecidableEq

/-- Modelled from the spec: `id.rc()` flips the strand. -/
def SignedId.rc (id : SignedId) : SignedId :=
  { id with strand := !id.strand }

/-- A `GraphEdge*`. -/
abbrev EdgeRef := Nat

/-- A `GraphNode*`. -/
abbrev NodeRef := Nat

/-- The members of `GraphEdge` the passes read and write. -/
structure GraphEdge where
  edgeId : SignedId
  nodeLeft : NodeRef
  nodeRight : NodeRef
  meanCoverage : Int
  selfComplement : Bool
  length : Int
deriving DecidableEq

/-- The method `GraphEdge::isLooped()`: both ends are the same node (spec 3.2). -/
def GraphEdge.isLooped (e : GraphEdge) : Bool :=
  e.nodeLeft == e.nodeRight

/-- The members of `GraphNode`. -/
structure GraphNode where
  inEdges : List EdgeRef
  outEdges : List EdgeRef
deriving DecidableEq

/-- The graph: the store of nodes (`numNodes` of them allocated, `addNode` takes the next
reference), the store of edges, the edges `iterEdges()` enumerates, and the complement
pairing `complementEdge`. -/
structure Graph where
  numNodes : Nat
  nodes : NodeRef → GraphNode
  edges : EdgeRef → GraphEdge
  edgeList : List EdgeRef
  complementEdge : EdgeRef → EdgeRef

/-- Modelled from the spec: `vecRemove(v, val)` of `utils.h` erases `val` from the vector. -/
def vecRemove (v : List EdgeRef) (val : EdgeRef) : List EdgeRef :=
  v.filter (fun x => x != val)

/-- Modelled from the spec: `RepeatGraph::addNode()` allocates a node without edges; the new
reference is the old `numNodes`. -/
def Graph.addNode (g : Graph) : Graph :=
  { g with numNodes := g.numNodes + 1,
           nodes := Function.update g.nodes g.numNodes { inEdges := [], outEdges := [] } }

/-- Modelled from the spec: `RepeatGraph::removeEdge(edge)` takes the edge out of the lists of
its two nodes and out of the graph's edges. -/
def Graph.removeEdge (g : Graph) (edge : EdgeRef) : Graph :=
  { g with
    nodes := fun n =>
      { inEdges := if n = (g.edges edge).nodeRight then vecRemove (g.nodes n).inEdges edge
                   else (g.nodes n).inEdges,
        outEdges := if n = (g.edges edge).nodeLeft then vecRemove (g.nodes n).outEdges edge
                    else (g.nodes n).outEdges },
    edgeList := g.edgeList.filter (fun x => x != edge) }

/-- The members of `UnbranchingPath` the passes read (`GraphProcessor` computes them). -/
structure UnbranchingPath where
  path : List EdgeRef
  id : SignedId
  meanCoverage : Int
  length : Int
deriving DecidableEq

/-- The function `std::round` on an exact quotient: to the nearest integer, halves away from zero. -/
def roundHalfAway (q : ℚ) : Int :=
  if 0 ≤ q then Rat.floor (q + 1 / 2) else -Rat.floor (-q + 1 / 2)

/-- Conversion of a quotient to `int32_t`: truncation toward zero. -/
def truncate (q : ℚ) : Int :=
  if 0 ≤ q then Rat.floor q else -Rat.floor (-q)

/-! ## `removeUnsupportedEdges` -/

/-- Lines 105-111: the coverage cutoff. `meanCoverage` is `getMeanCoverage()`, cast to
`float`; `dropRate` is `Config::get("graph_cov_drop_rate")`, a `float`; the quotient is a
single-precision division, `std::round` rounds it to the nearest integer, halves away from
zero, and the result becomes an `int32_t`. `unevenCoverage` is
`Parameters::get().unevenCoverage`; `MIN_ABSOLUTE = 1`, `MAX_META_CUTOFF = 3`. -/
def removeCoverageThreshold (meanCoverage : Int) (dropRate : ℚ) (unevenCoverage : Bool) : Int :=
  if unevenCoverage then
    min (max 1 (roundHalfAway (float32 (float32 (meanCoverage : ℚ) / float32 dropRate)))) 3
  else max 1 (roundHalfAway (float32 (float32 (meanCoverage : ℚ) / float32 dropRate)))

/-- The call `edgesRemove.insert(edge)` on the set, kept in insertion order. -/
def setInsert (s : List EdgeRef) (edge : EdgeRef) : List EdgeRef :=
  if edge ∈ s then s else s ++ [edge]

/-- Lines 114-129: the set `edgesRemove`. -/
def collectEdgesRemove (g : Graph) (unbranchingPaths : List UnbranchingPath)
    (coverageThreshold : Int) : List EdgeRef :=
  unbranchingPaths.foldl (fun edgesRemove path =>
    if !path.id.strand then edgesRemove
    else if path.meanCoverage < coverageThreshold then
      path.path.foldl (fun s edge => setInsert (setInsert s edge) (g.complementEdge edge))
        edgesRemove
    else edgesRemove) []

/-- The pass `MultiplicityInferer::removeUnsupportedEdges` on the graph; `unbranchingPaths` is the
result of `proc.getUnbranchingPaths()`. -/
def removeUnsupportedEdges (g : Graph) (unbranchingPaths : List UnbranchingPath)
    (meanCoverage : Int) (dropRate : ℚ) (unevenCoverage : Bool) : Graph :=
  (collectEdgesRemove g unbranchingPaths
      (removeCoverageThreshold meanCoverage dropRate unevenCoverage)).foldl
    Graph.removeEdge g

/-- The edges the specification marks for removal: those on a positive-strand unbranching
path whose mean coverage is below the threshold, and the complement of each such edge. -/
def LowCoverage (g : Graph) (unbranchingPaths : List UnbranchingPath) (threshold : Int)
    (e : EdgeRef) : Prop :=
  ∃ p ∈ unbranchingPaths, p.id.strand = true ∧ p.meanCoverage < threshold ∧
    (e ∈ p.path ∨ ∃ x ∈ p.path, g.complementEdge x = e)

/-! ## `removeUnsupportedConnections` -/

/-- One read alignment (`GraphAlignment`): the edges it visits, in order. The overlap
coordinates are not read by this pass. -/
abbrev GraphAlignment := List EdgeRef

/-- The two maps `rightConnections` and `leftConnections`; an absent key reads as `0`. -/
structure Connections where
  rightConnections : EdgeRef → Int
  leftConnections : EdgeRef → Int

/-- The increment `++m[key]`. -/
def increment (m : EdgeRef → Int) (key : EdgeRef) : EdgeRef → Int :=
  Function.update m key (m key + 1)

/-- Body of the loop over adjacent pairs of a read path (lines 155-165). -/
def countPair (g : Graph) (c : Connections) (cur next : EdgeRef) : Connections :=
  if cur = next ∧ (g.edges cur).isLooped = true then c
  else if (g.edges cur).edgeId = (g.edges next).edgeId.rc then c
  else
    { rightConnections :=
        increment (increment c.rightConnections cur) (g.complementEdge next),
      leftConnections :=
        increment (increment c.leftConnections next) (g.complementEdge cur) }

/-- The loop `for i < readPath.size() - 1` over one read path (lines 153-166). -/
def countPath (g : Graph) : Connections → GraphAlignment → Connections
  | c, cur :: next :: rest => countPath g (countPair g c cur next) (next :: rest)
  | c, _ => c

/-- Lines 142-167: both maps after all read paths (paths shorter than 2 add nothing). -/
def countConnections (g : Graph) (alignments : List GraphAlignment) : Connections :=
  alignments.foldl (countPath g)
    { rightConnections := fun _ => 0, leftConnections := fun _ => 0 }

/-- The lambda `disconnectRight` (lines 169-175): `addNode`, `vecRemove` on the old right
node, the new right end, `push_back` on the new node. -/
def disconnectRight (g : Graph) (edge : EdgeRef) : Graph :=
  let newNode := g.numNodes
  let g1 := g.addNode
  let oldNode := (g1.edges edge).nodeRight
  let g2 : Graph :=
    { g1 with
      nodes := Function.update g1.nodes oldNode
        ⟨vecRemove (g1.nodes oldNode).inEdges edge, (g1.nodes oldNode).outEdges⟩ }
  let g3 : Graph :=
    { g2 with
      edges := Function.update g2.edges edge
        ⟨(g2.edges edge).edgeId, (g2.edges edge).nodeLeft, newNode,
          (g2.edges edge).meanCoverage, (g2.edges edge).selfComplement,
          (g2.edges edge).length⟩ }
  { g3 with
    nodes := Function.update g3.nodes newNode
      ⟨(g3.nodes newNode).inEdges ++ [edge], (g3.nodes newNode).outEdges⟩ }

/-- The lambda `disconnectLeft` (lines 176-182). -/
def disconnectLeft (g : Graph) (edge : EdgeRef) : Graph :=
  let newNode := g.numNodes
  let g1 := g.addNode
  let oldNode := (g1.edges edge).nodeLeft
  let g2 : Graph :=
    { g1 with
      nodes := Function.update g1.nodes oldNode
        ⟨(g1.nodes oldNode).inEdges, vecRemove (g1.nodes oldNode).outEdges edge⟩ }
  let g3 : Graph :=
    { g2 with
      edges := Function.update g2.edges edge
        ⟨(g2.edges edge).edgeId, newNode, (g2.edges edge).nodeRight,
          (g2.edges edge).meanCoverage, (g2.edges edge).selfComplement,
          (g2.edges edge).length⟩ }
  { g3 with
    nodes := Function.update g3.nodes newNode
      ⟨(g3.nodes newNode).inEdges, (g3.nodes newNode).outEdges ++ [edge]⟩ }

/-- What the pass takes from outside the translation unit: the two node predicates
`GraphNode::isEnd()` and `GraphNode::isBifurcation()`, and the configured
`graph_cov_drop_rate`. -/
structure PassEnv where
  isEnd : GraphNode → Bool
  isBifurcation : GraphNode → Bool
  dropRate : ℚ

/-- Lines 189-191: `min(1, edge->meanCoverage / graph_cov_drop_rate)`. -/
def connectionThreshold (env : PassEnv) (e : GraphEdge) : Int :=
  min 1 (truncate ((e.meanCoverage : ℚ) / env.dropRate))

/-- The test of lines 196-198 on the current graph. -/
def chimericRight (env : PassEnv) (c : Connections) (coverageThreshold : Int) (g : Graph)
    (edge : EdgeRef) : Bool :=
  !env.isEnd (g.nodes (g.edges edge).nodeRight) &&
    env.isBifurcation (g.nodes (g.edges edge).nodeRight) &&
    decide (c.rightConnections edge / 2 < coverageThreshold)

/-- The test of lines 208-210 on the current graph. -/
def chimericLeft (env : PassEnv) (c : Connections) (coverageThreshold : Int) (g : Graph)
    (edge : EdgeRef) : Bool :=
  !env.isEnd (g.nodes (g.edges edge).nodeLeft) &&
    env.isBifurcation (g.nodes (g.edges edge).nodeLeft) &&
    decide (c.leftConnections edge / 2 < coverageThreshold)

/-- The second `if` of the loop body (lines 208-217). -/
def disconnectLeftSide (env : PassEnv) (c : Connections) (coverageThreshold : Int)
    (complEdge : EdgeRef) (g : Graph) (edge : EdgeRef) : Graph :=
  if chimericLeft env c coverageThreshold g edge then
    disconnectRight (disconnectLeft g edge) complEdge
  else g

/-- Body of the loop over `iterEdges()` (lines 186-217); `complEdge` and `coverageThreshold`
are computed once, before the two tests. -/
def connectionsStep (env : PassEnv) (c : Connections) (g : Graph) (edge : EdgeRef) : Graph :=
  if !(g.edges edge).edgeId.strand || (g.edges edge).isLooped then g
  else
    let complEdge := g.complementEdge edge
    let coverageThreshold := connectionThreshold env (g.edges edge)
    if chimericRight env c coverageThreshold g edge then
      if ((disconnectLeft (disconnectRight g edge) complEdge).edges edge).selfComplement then
        disconnectLeft (disconnectRight g edge) complEdge
      else
        disconnectLeftSide env c coverageThreshold complEdge
          (disconnectLeft (disconnectRight g edge) complEdge) edge
    else disconnectLeftSide env c coverageThreshold complEdge g edge

/-- The pass `MultiplicityInferer::removeUnsupportedConnections` on the graph; `alignments` is
`_aligner.getAlignments()`. -/
def removeUnsupportedConnections (env : PassEnv) (g : Graph)
    (alignments : List GraphAlignment) : Graph :=
  g.edgeList.foldl (connectionsStep env (countConnections g alignments)) g

/-- The state `g` of the graph during the pass mirrors its detachments, relative to the graph
`g0` the pass started on: the complement pairing is unchanged, no node was freed, every end of
an edge is where it was or at a node allocated since, and an edge has a fresh right node iff
its complement has a fresh left node. -/
def Mirrored (g0 g : Graph) : Prop :=
  g.complementEdge = g0.complementEdge ∧ g0.numNodes ≤ g.numNodes ∧
  (∀ e, (g.edges e).nodeRight = (g0.edges e).nodeRight ∨ g0.numNodes ≤ (g.edges e).nodeRight) ∧
  (∀ e, (g.edges e).nodeLeft = (g0.edges e).nodeLeft ∨ g0.numNodes ≤ (g.edges e).nodeLeft) ∧
  ∀ e, g0.numNodes ≤ (g.edges e).nodeRight ↔
    g0.numNodes ≤ (g.edges (g0.complementEdge e)).nodeLeft

/-- A graph of one edge pair: edge `0` (positive strand) runs from node `0` to node `1`, its
complement, edge `1`, from node `2` to node `3`; both have mean coverage `10`. Even
references stand for the first kind of edge and odd ones for the second. -/
def pairGraph : Graph :=
  { numNodes := 4,
    nodes := fun n =>
      if n = 0 then ⟨[], [0]⟩ else if n = 1 then ⟨[0], []⟩
      else if n = 2 then ⟨[], [1]⟩ else if n = 3 then ⟨[1], []⟩ else ⟨[], []⟩,
    edges := fun e =>
      if e % 2 = 0 then ⟨⟨e / 2, true⟩, 0, 1, 10, false, 100⟩
      else ⟨⟨e / 2, false⟩, 2, 3, 10, false, 100⟩,
    edgeList := [0, 1],
    complementEdge := fun e => if e % 2 = 0 then e + 1 else e - 1 }

/-- Node predicates that let every side pass the tests, with drop rate `5`. -/
def openEnv : PassEnv :=
  { isEnd := fun _ => false, isBifurcation := fun _ => true, dropRate := 5 }

end RepeatGraph

namespace RepeatGraph

/-! ## `estimateCoverage` -/

/-- The members of `OverlapRange` (declared outside the translation unit). -/
structure OverlapRange where
  curBegin : Int
  curEnd : Int
  curLen : Int
  extBegin : Int
  extEnd : Int
  extLen : Int
deriving DecidableEq

/-- One element of a read path: the edge and the overlap of the read with it. -/
structure EdgeAlignment where
  edge : EdgeRef
  overlap : OverlapRange
deriving DecidableEq

/-- A read path with its overlaps (`GraphAlignment` as `estimateCoverage` reads it). -/
abbrev ReadPath := List EdgeAlignment

/-- The edges a read path visits, in order. -/
def readEdges (path : ReadPath) : GraphAlignment :=
  path.map (fun a => a.edge)

/-- Lines 21-25: `wndCoverage[edge].assign(numWindows, 0)` for every edge of the graph, with
`numWindows = edge->length() / WINDOW`. The map is a function; an absent key is the empty
vector that `operator[]` would create. -/
def assignWindows (g : Graph) (window : Int) : EdgeRef → List Int :=
  g.edgeList.foldl
    (fun wnd edge =>
      Function.update wnd edge (List.replicate ((g.edges edge).length.tdiv window).toNat 0))
    (fun _ => [])

/-- Lines 36-40: `if (pos >= 0 && pos < (int)coverage.size()) ++coverage[pos];`. -/
def incrementWindow (coverage : List Int) (pos : Int) : List Int :=
  if 0 ≤ pos ∧ pos < (coverage.length : Int) then
    coverage.set pos.toNat (coverage.getD pos.toNat 0 + 1)
  else coverage

/-- Lines 33-41: the loop `for (pos = extBegin / WINDOW + 1; pos < extEnd / WINDOW; ++pos)` on
the window vector of the edge. -/
def coverSegment (window : Int) (coverage : List Int) (ovlp : OverlapRange) : List Int :=
  (List.range (ovlp.extEnd.tdiv window - (ovlp.extBegin.tdiv window + 1)).toNat).foldl
    (fun (cov : List Int) (k : Nat) =>
      incrementWindow cov (ovlp.extBegin.tdiv window + 1 + (k : Int))) coverage

/-- Lines 31-41: one element `path[i]` of a read path. -/
def coverElement (window : Int) (wnd : EdgeRef → List Int) (a : EdgeAlignment) :
    EdgeRef → List Int :=
  Function.update wnd a.edge (coverSegment window (wnd a.edge) a.overlap)

/-- Lines 19-43: the map `wndCoverage` after the two loops. -/
def windowCoverage (g : Graph) (window : Int) (alignments : List ReadPath) :
    EdgeRef → List Int :=
  alignments.foldl (fun wnd path => path.foldl (coverElement window) wnd)
    (assignWindows g window)

/-- Lines 45-56: `_meanCoverage`, the sum of all window counts over the number of windows, or
the default `1` when there is no window. Keys outside the graph hold empty vectors and add
nothing. -/
def meanOfWindows (g : Graph) (wnd : EdgeRef → List Int) : Int :=
  if (g.edgeList.dedup.map (fun e => ((wnd e).length : Int))).sum ≠ 0 then
    ((g.edgeList.dedup.map (fun e => (wnd e).sum)).sum).tdiv
      ((g.edgeList.dedup.map (fun e => ((wnd e).length : Int))).sum)
  else 1

/-- Lines 63-67 and 83 for one edge: an edge without windows is skipped, otherwise its
`meanCoverage` becomes the half sum of the two medians. `median` is the helper of `utils.h`,
taken as a function of the vector. -/
def assignCoverage (median : List Int → Int) (wnd : EdgeRef → List Int) (g : Graph)
    (edge : EdgeRef) : Graph :=
  if (wnd edge).isEmpty then g
  else
    { g with
      edges := Function.update g.edges edge
        ⟨(g.edges edge).edgeId, (g.edges edge).nodeLeft, (g.edges edge).nodeRight,
          (median (wnd edge) + median (wnd (g.complementEdge edge))).tdiv 2,
          (g.edges edge).selfComplement, (g.edges edge).length⟩ }

/-- What `estimateCoverage` leaves behind: the graph with the new edge coverages and the
member `_meanCoverage`. -/
structure CoverageEstimate where
  graph : Graph
  meanCoverage : Int

/-- The method `MultiplicityInferer::estimateCoverage` (lines 13-84): window counts, mean
coverage and the coverage assigned to every edge. The unique-coverage threshold of lines
86-92 is not part of this result. -/
def estimateCoverage (median : List Int → Int) (window : Int) (g : Graph)
    (alignments : List ReadPath) : CoverageEstimate :=
  { graph := g.edgeList.foldl (assignCoverage median (windowCoverage g window alignments)) g,
    meanCoverage := meanOfWindows g (windowCoverage g window alignments) }

/-- The segments of all read paths that lie on `edge` and strictly span window `w`:
`extBegin / W < w < extEnd / W`. -/
def spanningSegments (window : Int) (alignments : List ReadPath) (edge : EdgeRef) (w : Nat) :
    Nat :=
  (alignments.flatten.filter (fun a =>
    decide (a.edge = edge ∧ a.overlap.extBegin / window < (w : Int) ∧
      (w : Int) < a.overlap.extEnd / window))).length

/-- Number of the segments of `segs` on `edge` with `extBegin / W < w < extEnd / W`, the
divisions being those of C. -/
def spanCount (window : Int) (segs : List EdgeAlignment) (edge : EdgeRef) (w : Nat) : Nat :=
  (segs.filter (fun a =>
    decide (a.edge = edge ∧ a.overlap.extBegin.tdiv window < (w : Int) ∧
      (w : Int) < a.overlap.extEnd.tdiv window))).length

/-- A graph of one edge pair of length `30`: edge `0` (positive strand) and its complement,
edge `1`; even references stand for the first kind of edge and odd ones for the second. -/
def windowGraph : Graph :=
  { numNodes := 4,
    nodes := fun _ => ⟨[], []⟩,
    edges := fun e =>
      if e % 2 = 0 then ⟨⟨e / 2, true⟩, 0, 1, 0, false, 30⟩
      else ⟨⟨e / 2, false⟩, 2, 3, 0, false, 30⟩,
    edgeList := [0, 1],
    complementEdge := fun e => if e % 2 = 0 then e + 1 else e - 1 }

/-- Two reads on edge `0` (overlaps `[0, 30]` and `[5, 25]`) and one on edge `1`
(`[0, 30]`). -/
def windowReads : List ReadPath :=
  [[⟨0, ⟨0, 30, 30, 0, 30, 30⟩⟩], [⟨0, ⟨0, 20, 20, 5, 25, 30⟩⟩], [⟨1, ⟨0, 30, 30, 0, 30, 30⟩⟩]]

end RepeatGraph

namespace RepeatGraph

/-! ## `trimTips` -/

/-- The accessor `UnbranchingPath::nodeLeft()`: the left node of the first edge of the path
(a path holds at least one edge). -/
def UnbranchingPath.nodeLeft (g : Graph) (p : UnbranchingPath) : NodeRef :=
  (g.edges (p.path.headD 0)).nodeLeft

/-- The accessor `UnbranchingPath::nodeRight()`: the right node of the last edge of the path. -/
def UnbranchingPath.nodeRight (g : Graph) (p : UnbranchingPath) : NodeRef :=
  (g.edges (p.path.getLastD 0)).nodeRight

/-- The call `toRemove.insert(id)` on a set of ids, kept in insertion order. -/
def idInsert (s : List SignedId) (id : SignedId) : List SignedId :=
  if id ∈ s then s else s ++ [id]

/-- Lines 340-348 for one read path: the path is filed under each of its edges except the
last position; paths with fewer than two edges are skipped. -/
def indexRead (readIndex : EdgeRef → List GraphAlignment) (readPath : GraphAlignment) :
    EdgeRef → List GraphAlignment :=
  if readPath.length < 2 then readIndex
  else
    (readPath.take (readPath.length - 1)).foldl
      (fun idx edge => Function.update idx edge (idx edge ++ [readPath])) readIndex

/-- Lines 338-348: the map `readIndex`; an absent key reads as the empty vector. -/
def buildReadIndex (alignments : List GraphAlignment) : EdgeRef → List GraphAlignment :=
  alignments.foldl indexRead (fun _ => [])

/-- The variables of the loop over one read (lines 361-373). -/
structure TipSums where
  passedTip : Bool
  sumCov : Int
  sumLen : Int
deriving DecidableEq

/-- Body of the loop over the positions of a read (lines 364-372). The product
`meanCoverage * length()` of line 371 is formed in `int32_t` before it is added to the
`int64_t` sum. -/
def sumStep (g : Graph) (tipEdge : EdgeRef) (s : TipSums) (edge : EdgeRef) : TipSums :=
  if edge = tipEdge then { s with passedTip := true }
  else if !s.passedTip then s
  else
    { s with
      sumCov := s.sumCov + wrapInt32 ((g.edges edge).meanCoverage * (g.edges edge).length),
      sumLen := s.sumLen + (g.edges edge).length }

/-- Lines 358-374 for one read: `passedTip` starts as `false`, the sums carry over. -/
def sumRead (g : Graph) (tipEdge : EdgeRef) (sums : Int × Int) (read : GraphAlignment) :
    Int × Int :=
  if read.isEmpty then sums
  else
    ((read.foldl (sumStep g tipEdge) ⟨false, sums.1, sums.2⟩).sumCov,
      (read.foldl (sumStep g tipEdge) ⟨false, sums.1, sums.2⟩).sumLen)

/-- Lines 356-374: `(sumCov, sumLen)` over the reads filed under the last edge of the tip. -/
def tipSums (g : Graph) (readIndex : EdgeRef → List GraphAlignment)
    (tipPath : UnbranchingPath) : Int × Int :=
  (readIndex (tipPath.path.getLastD 0)).foldl (sumRead g (tipPath.path.getLastD 0)) (0, 0)

/-- Lines 352-378 for one path: whether `tipPath.id.rc()` goes into `toRemove`.
`sumCov / sumLen` divides two `int64_t` and the quotient becomes the `float`
`readCoverage`; `readCoverage / MAX_COV_DIFF` is a single-precision division by `5`, compared
with `tipPath.meanCoverage` converted to `float`. -/
def tipMarked (g : Graph) (readIndex : EdgeRef → List GraphAlignment) (maxTip : Int)
    (tipPath : UnbranchingPath) : Bool :=
  if (g.nodes (tipPath.nodeLeft g)).inEdges.length > 0 then false
  else if tipPath.length > maxTip then false
  else if (tipSums g readIndex tipPath).2 = 0 then false
  else
    decide (float32 (float32
        (((tipSums g readIndex tipPath).1.tdiv (tipSums g readIndex tipPath).2 : Int) : ℚ) / 5)
      > float32 (tipPath.meanCoverage : ℚ))

/-- Lines 350-386: the set `toRemove`. -/
def collectTips (g : Graph) (readIndex : EdgeRef → List GraphAlignment) (maxTip : Int)
    (unbranchingPaths : List UnbranchingPath) : List SignedId :=
  unbranchingPaths.foldl (fun toRemove tipPath =>
    if tipMarked g readIndex maxTip tipPath then idInsert toRemove tipPath.id.rc
    else toRemove) []

/-- Lines 395-397: the first edge of the path gets a fresh left node. -/
def detachLeft (g : Graph) (targetEdge : EdgeRef) : Graph :=
  let oldNode := (g.edges targetEdge).nodeLeft
  let g1 : Graph :=
    { g with
      nodes := Function.update g.nodes oldNode
        ⟨(g.nodes oldNode).inEdges, vecRemove (g.nodes oldNode).outEdges targetEdge⟩ }
  let newNode := g1.numNodes
  let g2 := g1.addNode
  let g3 : Graph :=
    { g2 with
      edges := Function.update g2.edges targetEdge
        ⟨(g2.edges targetEdge).edgeId, newNode, (g2.edges targetEdge).nodeRight,
          (g2.edges targetEdge).meanCoverage, (g2.edges targetEdge).selfComplement,
          (g2.edges targetEdge).length⟩ }
  { g3 with
    nodes := Function.update g3.nodes newNode
      ⟨(g3.nodes newNode).inEdges, (g3.nodes newNode).outEdges ++ [targetEdge]⟩ }

/-- Lines 399-401: the complement edge gets a fresh right node. -/
def detachRight (g : Graph) (complEdge : EdgeRef) : Graph :=
  let oldNode := (g.edges complEdge).nodeRight
  let g1 : Graph :=
    { g with
      nodes := Function.update g.nodes oldNode
        ⟨vecRemove (g.nodes oldNode).inEdges complEdge, (g.nodes oldNode).outEdges⟩ }
  let newNode := g1.numNodes
  let g2 := g1.addNode
  let g3 : Graph :=
    { g2 with
      edges := Function.update g2.edges complEdge
        ⟨(g2.edges complEdge).edgeId, (g2.edges complEdge).nodeLeft, newNode,
          (g2.edges complEdge).meanCoverage, (g2.edges complEdge).selfComplement,
          (g2.edges complEdge).length⟩ }
  { g3 with
    nodes := Function.update g3.nodes newNode
      ⟨(g3.nodes newNode).inEdges ++ [complEdge], (g3.nodes newNode).outEdges⟩ }

/-- Lines 392-401: the surgery on one marked path. -/
def clipTip (g : Graph) (path : UnbranchingPath) : Graph :=
  detachRight (detachLeft g (path.path.headD 0)) (g.complementEdge (path.path.headD 0))

/-- The pass `MultiplicityInferer::trimTips` on the graph; `unbranchingPaths` is the result of
`proc.getUnbranchingPaths()`, `alignments` is `_aligner.getAlignments()`, `maxTip` is
`Config::get("tip_length_threshold")`. -/
def trimTips (g : Graph) (unbranchingPaths : List UnbranchingPath)
    (alignments : List GraphAlignment) (maxTip : Int) : Graph :=
  unbranchingPaths.foldl (fun cur path =>
    if path.id ∈ collectTips g (buildReadIndex alignments) maxTip unbranchingPaths then
      clipTip cur path
    else cur) g

/-- A graph given by its edges: edge `2 k` and edge `2 k + 1` are complements of each other,
and the lists of a node hold the edges that end and start there, in the order of their
references. -/
def graphOf (numNodes : Nat) (es : List GraphEdge) : Graph :=
  { numNodes := numNodes,
    nodes := fun n =>
      ⟨(List.range es.length).filter (fun e => (es.getD e ⟨⟨0, true⟩, 0, 0, 0, false, 0⟩).nodeRight == n),
        (List.range es.length).filter (fun e => (es.getD e ⟨⟨0, true⟩, 0, 0, 0, false, 0⟩).nodeLeft == n)⟩,
    edges := fun e => es.getD e ⟨⟨0, true⟩, 0, 0, 0, false, 0⟩,
    edgeList := List.range es.length,
    complementEdge := fun e => if e % 2 = 0 then e + 1 else e - 1 }

end RepeatGraph

namespace RepeatGraph

/-! ## Invariants of `removeUnsupportedConnections` -/

/-- The two maps agree across complementation and hold no negative count. -/
def CountsBalanced (g : Graph) (c : Connections) : Prop :=
  ∀ e, c.leftConnections (g.complementEdge e) = c.rightConnections e ∧
    c.rightConnections (g.complementEdge e) = c.leftConnections e ∧
    0 ≤ c.rightConnections e ∧ 0 ≤ c.leftConnections e

/-- The state `cur` of the graph during the pass started on `g0` with the counts `c`: the
complement pairing and the coverages are those of `g0`, and an edge whose right (left) node
is no longer the one it had in `g0` passed the count test of lines 196-198 (208-210) on that
side, or its complement passed the count test on the opposite side. -/
def Tested (env : PassEnv) (c : Connections) (g0 cur : Graph) : Prop :=
  cur.complementEdge = g0.complementEdge ∧
  (∀ e, (cur.edges e).meanCoverage = (g0.edges e).meanCoverage) ∧
  (∀ e, (cur.edges e).nodeRight ≠ (g0.edges e).nodeRight →
    c.rightConnections e / 2 < connectionThreshold env (g0.edges e) ∨
    c.leftConnections (g0.complementEdge e) / 2 <
      connectionThreshold env (g0.edges (g0.complementEdge e))) ∧
  (∀ e, (cur.edges e).nodeLeft ≠ (g0.edges e).nodeLeft →
    c.leftConnections e / 2 < connectionThreshold env (g0.edges e) ∨
    c.rightConnections (g0.complementEdge e) / 2 <
      connectionThreshold env (g0.edges (g0.complementEdge e)))

/-- Modelled from the spec: the node predicates of the data model, "endpoint iff
`|in| + |out| ≤ 1`" and "bifurcation iff `|out| > 1` or `|in| > 1`", with a given
`graph_cov_drop_rate`. -/
def specEnv (dropRate : ℚ) : PassEnv :=
  { isEnd := fun n => decide (n.inEdges.length + n.outEdges.length ≤ 1),
    isBifurcation := fun n => decide (n.outEdges.length > 1 ∨ n.inEdges.length > 1),
    dropRate := dropRate }

/-- The nodes of the state `cur` of the graph during the pass started on `g0`: no node was
freed, an end of an edge is where it was in `g0` or at a node allocated since, a node of `g0`
holds at most as many edges as it held in `g0`, and a node allocated since holds at most
one edge. -/
def Shrunk (g0 cur : Graph) : Prop :=
  g0.numNodes ≤ cur.numNodes ∧
  (∀ e, (cur.edges e).nodeRight = (g0.edges e).nodeRight ∨
    (g0.numNodes ≤ (cur.edges e).nodeRight ∧ (cur.edges e).nodeRight < cur.numNodes)) ∧
  (∀ e, (cur.edges e).nodeLeft = (g0.edges e).nodeLeft ∨
    (g0.numNodes ≤ (cur.edges e).nodeLeft ∧ (cur.edges e).nodeLeft < cur.numNodes)) ∧
  (∀ n : Nat, n < g0.numNodes →
    (cur.nodes n).inEdges.length ≤ (g0.nodes n).inEdges.length ∧
    (cur.nodes n).outEdges.length ≤ (g0.nodes n).outEdges.length) ∧
  (∀ n : Nat, g0.numNodes ≤ n → n < cur.numNodes →
    (cur.nodes n).inEdges.length + (cur.nodes n).outEdges.length ≤ 1)

/-- The state `cur` of the graph during the pass started on `g0` with the counts `c` and the
node predicates `specEnv`: the complement pairing and the coverages are those of `g0`, the
nodes are `Shrunk`, and an edge whose right (left) node is no longer the one it had in `g0`
passes the test of lines 196-198 (208-210) on `g0`, or its complement passes the test of the
opposite side on `g0`. -/
def WithinSnapshot (dropRate : ℚ) (c : Connections) (g0 cur : Graph) : Prop :=
  cur.complementEdge = g0.complementEdge ∧
  (∀ e, (cur.edges e).meanCoverage = (g0.edges e).meanCoverage) ∧
  Shrunk g0 cur ∧
  (∀ e, (cur.edges e).nodeRight ≠ (g0.edges e).nodeRight →
    chimericRight (specEnv dropRate) c (connectionThreshold (specEnv dropRate) (g0.edges e))
      g0 e = true ∨
    chimericLeft (specEnv dropRate) c
      (connectionThreshold (specEnv dropRate) (g0.edges (g0.complementEdge e)))
      g0 (g0.complementEdge e) = true) ∧
  (∀ e, (cur.edges e).nodeLeft ≠ (g0.edges e).nodeLeft →
    chimericLeft (specEnv dropRate) c (connectionThreshold (specEnv dropRate) (g0.edges e))
      g0 e = true ∨
    chimericRight (specEnv dropRate) c
      (connectionThreshold (specEnv dropRate) (g0.edges (g0.complementEdge e)))
      g0 (g0.complementEdge e) = true)

/-- Two edges `a` (edge `0`) and `b` (edge `2`) end at node `2`, from which `c` (edge `4`)
leaves; edges `1`, `3`, `5` are the complements; every edge has coverage `10`. -/
def forkGraph : Graph :=
  graphOf 8
    [⟨⟨0, true⟩, 0, 2, 10, false, 100⟩, ⟨⟨0, false⟩, 6, 4, 10, false, 100⟩,
     ⟨⟨1, true⟩, 1, 2, 10, false, 100⟩, ⟨⟨1, false⟩, 6, 5, 10, false, 100⟩,
     ⟨⟨2, true⟩, 2, 3, 10, false, 100⟩, ⟨⟨2, false⟩, 7, 6, 10, false, 100⟩]

/-- The graph `forkGraph` with `b` and its complement enumerated before `a`. -/
def forkGraphSwapped : Graph :=
  { forkGraph with edgeList := [2, 3, 0, 1, 4, 5] }

end RepeatGraph

namespace RepeatGraph

/-! ## `collapseHeterozygousLoops` -/

/-- The method `UnbranchingPath::isLooped()`: the path ends at the node it starts from. -/
def UnbranchingPath.isLooped (g : Graph) (p : UnbranchingPath) : Bool :=
  p.nodeLeft g == p.nodeRight g

/-- Lines 245-253, first `if`: the last candidate that ends at the node of the loop and has
another id; `none` is the null pointer. -/
def findEntrance (g : Graph) (unbranchingPaths : List UnbranchingPath) (loop : UnbranchingPath) :
    Option UnbranchingPath :=
  unbranchingPaths.foldl (fun entrancePath cand =>
    if cand.nodeRight g = loop.nodeLeft g ∧ loop.id ≠ cand.id then some cand
    else entrancePath) none

/-- Lines 245-253, second `if`: the last candidate that starts at the node of the loop and has
another id. -/
def findExit (g : Graph) (unbranchingPaths : List UnbranchingPath) (loop : UnbranchingPath) :
    Option UnbranchingPath :=
  unbranchingPaths.foldl (fun exitPath cand =>
    if cand.nodeLeft g = loop.nodeLeft g ∧ loop.id ≠ cand.id then some cand
    else exitPath) none

/-- What one iteration of the marking loop does with its path. -/
inductive LoopMark where
  | skip
  | remove
  | unroll
deriving DecidableEq

/-- Lines 238-278 for one path; `none` stands for the dereference of a null `entrancePath`
or `exitPath`. `COV_MULT = 1.5` is a `float`: the minimum is converted to `float`, the
product is a single-precision product, and `loop.meanCoverage` is converted to `float` for the
comparison. -/
def loopMark (g : Graph) (unbranchingPaths : List UnbranchingPath) (loop : UnbranchingPath) :
    Option LoopMark :=
  if !loop.isLooped g then some LoopMark.skip
  else if (g.edges (loop.path.headD 0)).selfComplement then some LoopMark.skip
  else if (g.nodes (loop.nodeLeft g)).inEdges.length ≠ 2 ∨
      (g.nodes (loop.nodeLeft g)).outEdges.length ≠ 2 then some LoopMark.skip
  else
    match findEntrance g unbranchingPaths loop with
    | none => none
    | some entrancePath =>
      if entrancePath.isLooped g then some LoopMark.skip
      else
        match findExit g unbranchingPaths loop with
        | none => none
        | some exitPath =>
          if entrancePath.id = exitPath.id.rc then some LoopMark.skip
          else if float32 (loop.meanCoverage : ℚ) >
              float32 (3 / 2 * float32
                ((min entrancePath.meanCoverage entrancePath.meanCoverage : Int) : ℚ)) then
            some LoopMark.skip
          else if loop.length > min entrancePath.length exitPath.length then some LoopMark.skip
          else if loop.meanCoverage <
              (entrancePath.meanCoverage + exitPath.meanCoverage).tdiv 4 then
            some LoopMark.remove
          else some LoopMark.unroll

/-- The two sets `toUnroll` and `toRemove`. -/
structure LoopSets where
  toUnroll : List SignedId
  toRemove : List SignedId
deriving DecidableEq

/-- Body of the marking loop (lines 236-279). -/
def markLoop (g : Graph) (unbranchingPaths : List UnbranchingPath) (sets : Option LoopSets)
    (loop : UnbranchingPath) : Option LoopSets :=
  match sets with
  | none => none
  | some s =>
    match loopMark g unbranchingPaths loop with
    | none => none
    | some LoopMark.skip => some s
    | some LoopMark.remove =>
      some ⟨s.toUnroll, idInsert (idInsert s.toRemove loop.id) loop.id.rc⟩
    | some LoopMark.unroll =>
      some ⟨idInsert (idInsert s.toUnroll loop.id) loop.id.rc, s.toRemove⟩

/-- Lines 234-279: both sets after all paths. -/
def markLoops (g : Graph) (unbranchingPaths : List UnbranchingPath) : Option LoopSets :=
  unbranchingPaths.foldl (markLoop g unbranchingPaths) (some ⟨[], []⟩)

/-- Lines 289-294 of the unroll surgery, once `prevEdge` is chosen; `g` is the graph after
`addNode`, `newNode` the node it allocated. -/
def spliceLoop (g : Graph) (newNode : NodeRef) (front prevEdge : EdgeRef) : Graph :=
  let node := (g.edges front).nodeLeft
  let g1 : Graph :=
    { g with
      nodes := Function.update g.nodes node
        ⟨(g.nodes node).inEdges, vecRemove (g.nodes node).outEdges front⟩ }
  let g2 : Graph :=
    { g1 with
      nodes := Function.update g1.nodes node
        ⟨vecRemove (g1.nodes node).inEdges prevEdge, (g1.nodes node).outEdges⟩ }
  let g3 : Graph :=
    { g2 with
      edges := Function.update g2.edges front
        ⟨(g2.edges front).edgeId, newNode, (g2.edges front).nodeRight,
          (g2.edges front).meanCoverage, (g2.edges front).selfComplement,
          (g2.edges front).length⟩ }
  let g4 : Graph :=
    { g3 with
      nodes := Function.update g3.nodes newNode
        ⟨(g3.nodes newNode).inEdges, (g3.nodes newNode).outEdges ++ [front]⟩ }
  let g5 : Graph :=
    { g4 with
      edges := Function.update g4.edges prevEdge
        ⟨(g4.edges prevEdge).edgeId, (g4.edges prevEdge).nodeLeft, newNode,
          (g4.edges prevEdge).meanCoverage, (g4.edges prevEdge).selfComplement,
          (g4.edges prevEdge).length⟩ }
  { g5 with
    nodes := Function.update g5.nodes newNode
      ⟨(g5.nodes newNode).inEdges ++ [prevEdge], (g5.nodes newNode).outEdges⟩ }

/-- Lines 285-294: the unroll surgery on one path. `id` is `1` when the first in-edge of the
node is the first edge of the path and `0` otherwise; `none` stands for an index outside
`inEdges`. -/
def unrollLoop (g : Graph) (path : UnbranchingPath) : Option Graph :=
  match (g.addNode.nodes (path.nodeLeft g.addNode)).inEdges[0]? with
  | none => none
  | some first =>
    match (g.addNode.nodes (path.nodeLeft g.addNode)).inEdges[
        if first = path.path.headD 0 then 1 else 0]? with
    | none => none
    | some prevEdge => some (spliceLoop g.addNode g.numNodes (path.path.headD 0) prevEdge)

/-- Lines 298-306: the remove surgery on one path. -/
def removeLoop (g : Graph) (path : UnbranchingPath) : Graph :=
  let newLeft := g.numNodes
  let newRight := g.numNodes + 1
  let g0 := g.addNode.addNode
  let front := path.path.headD 0
  let back := path.path.getLastD 0
  let node := (g0.edges front).nodeLeft
  let g1 : Graph :=
    { g0 with
      nodes := Function.update g0.nodes node
        ⟨(g0.nodes node).inEdges, vecRemove (g0.nodes node).outEdges front⟩ }
  let g2 : Graph :=
    { g1 with
      nodes := Function.update g1.nodes node
        ⟨vecRemove (g1.nodes node).inEdges back, (g1.nodes node).outEdges⟩ }
  let g3 : Graph :=
    { g2 with
      edges := Function.update g2.edges front
        ⟨(g2.edges front).edgeId, newLeft, (g2.edges front).nodeRight,
          (g2.edges front).meanCoverage, (g2.edges front).selfComplement,
          (g2.edges front).length⟩ }
  let g4 : Graph :=
    { g3 with
      nodes := Function.update g3.nodes newRight
        ⟨(g3.nodes newRight).inEdges ++ [back], (g3.nodes newRight).outEdges⟩ }
  let g5 : Graph :=
    { g4 with
      edges := Function.update g4.edges back
        ⟨(g4.edges back).edgeId, (g4.edges back).nodeLeft, newRight,
          (g4.edges back).meanCoverage, (g4.edges back).selfComplement,
          (g4.edges back).length⟩ }
  { g5 with
    nodes := Function.update g5.nodes newLeft
      ⟨(g5.nodes newLeft).inEdges, (g5.nodes newLeft).outEdges ++ [front]⟩ }

/-- Body of the surgery loop (lines 281-308): the two `if`s, one after the other. -/
def loopSurgery (sets : LoopSets) (cur : Option Graph) (path : UnbranchingPath) :
    Option Graph :=
  match cur with
  | none => none
  | some g =>
    match (if path.id ∈ sets.toUnroll then unrollLoop g path else some g) with
    | none => none
    | some g1 => if path.id ∈ sets.toRemove then some (removeLoop g1 path) else some g1

/-- The pass `MultiplicityInferer::collapseHeterozygousLoops` on the graph; `unbranchingPaths`
is the result of `proc.getUnbranchingPaths()`; `none` stands for undefined behaviour. -/
def collapseHeterozygousLoops (g : Graph) (unbranchingPaths : List UnbranchingPath) :
    Option Graph :=
  match markLoops g unbranchingPaths with
  | none => none
  | some sets => unbranchingPaths.foldl (loopSurgery sets) (some g)

/-- The words of the specification for a simple loop `L` with entrance `en` and exit `ex`
that is to be collapsed: `L` is looped, its first edge is not self-complement, its node has
two in-edges and two out-edges, `en` ends at the node and `ex` starts there, both with an id
other than that of `L`, the entrance is not looped, `en.id ≠ ex.id.rc()`,
`L.meanCoverage ≤ 1.5 · min(en.meanCoverage, en.meanCoverage)` in single precision, and
`L.length ≤ min(en.length, ex.length)`. -/
def CollapseConditions (g : Graph) (L en ex : UnbranchingPath) : Prop :=
  L.isLooped g = true ∧ (g.edges (L.path.headD 0)).selfComplement = false ∧
  (g.nodes (L.nodeLeft g)).inEdges.length = 2 ∧ (g.nodes (L.nodeLeft g)).outEdges.length = 2 ∧
  (en.nodeRight g = L.nodeLeft g ∧ L.id ≠ en.id) ∧
  (ex.nodeLeft g = L.nodeLeft g ∧ L.id ≠ ex.id) ∧
  en.isLooped g = false ∧ en.id ≠ ex.id.rc ∧
  float32 (L.meanCoverage : ℚ) ≤
    float32 (3 / 2 * float32 ((min en.meanCoverage en.meanCoverage : Int) : ℚ)) ∧
  L.length ≤ min en.length ex.length

/-- What the specification says of the output of the path extraction, as far as the loops
read it: ids are distinct; every path has its complement path in the list, with the
complement id and the same coverage; a path ends where another starts iff the complement of
the second ends where the complement of the first starts; and at the node of a loop with two
in-edges and two out-edges exactly one other path ends and exactly one other path starts. -/
def LoopPathsPaired (g : Graph) (paths : List UnbranchingPath) : Prop :=
  (paths.map (fun p => p.id)).Nodup ∧
  (∀ a ∈ paths, ∃ a' ∈ paths, a'.id = a.id.rc ∧ a'.meanCoverage = a.meanCoverage) ∧
  (∀ a ∈ paths, ∀ b ∈ paths, ∀ a' ∈ paths, ∀ b' ∈ paths, a'.id = a.id.rc → b'.id = b.id.rc →
    (a.nodeRight g = b.nodeLeft g ↔ b'.nodeRight g = a'.nodeLeft g)) ∧
  (∀ L ∈ paths, L.isLooped g = true → (g.nodes (L.nodeLeft g)).inEdges.length = 2 →
    (g.nodes (L.nodeLeft g)).outEdges.length = 2 →
    (∃ a ∈ paths, (a.nodeRight g = L.nodeLeft g ∧ L.id ≠ a.id) ∧
      ∀ b ∈ paths, b.nodeRight g = L.nodeLeft g ∧ L.id ≠ b.id → b = a) ∧
    (∃ a ∈ paths, (a.nodeLeft g = L.nodeLeft g ∧ L.id ≠ a.id) ∧
      ∀ b ∈ paths, b.nodeLeft g = L.nodeLeft g ∧ L.id ≠ b.id → b = a))

/-- Scenario S6: a loop `l` (edge `2`, coverage `3`, length `50`) at node `1`, between an
entrance (edge `0`) and an exit (edge `4`) of coverage `20` and length `200`; edges `1`, `3`,
`5` are the complements, the complement loop is at node `4`. -/
def loopGraph : Graph :=
  graphOf 6
    [⟨⟨0, true⟩, 0, 1, 20, false, 200⟩, ⟨⟨0, false⟩, 4, 5, 20, false, 200⟩,
     ⟨⟨1, true⟩, 1, 1, 3, false, 50⟩, ⟨⟨1, false⟩, 4, 4, 3, false, 50⟩,
     ⟨⟨2, true⟩, 1, 2, 20, false, 200⟩, ⟨⟨2, false⟩, 3, 4, 20, false, 200⟩]

/-- The unbranching paths of `loopGraph`, one per edge. -/
def loopPaths : List UnbranchingPath :=
  [⟨[0], ⟨0, true⟩, 20, 200⟩, ⟨[1], ⟨0, false⟩, 20, 200⟩,
   ⟨[2], ⟨1, true⟩, 3, 50⟩, ⟨[3], ⟨1, false⟩, 3, 50⟩,
   ⟨[4], ⟨2, true⟩, 20, 200⟩, ⟨[5], ⟨2, false⟩, 20, 200⟩]

/-- A loop of two edges `l1` (edge `0`, node `1` to node `2`) and `l2` (edge `2`, node `2`
back to node `1`) with coverage `15`, an entrance (edge `4`) into node `1` and an exit (edge
`6`) out of it, both of coverage `20`; odd edges are the complements, around node `5`. The
in-edges of node `1` are `l2`, then the entrance. -/
def longLoopGraph : Graph :=
  graphOf 8
    [⟨⟨0, true⟩, 1, 2, 15, false, 50⟩, ⟨⟨0, false⟩, 6, 5, 15, false, 50⟩,
     ⟨⟨1, true⟩, 2, 1, 15, false, 50⟩, ⟨⟨1, false⟩, 5, 6, 15, false, 50⟩,
     ⟨⟨2, true⟩, 0, 1, 20, false, 200⟩, ⟨⟨2, false⟩, 5, 7, 20, false, 200⟩,
     ⟨⟨3, true⟩, 1, 3, 20, false, 200⟩, ⟨⟨3, false⟩, 4, 5, 20, false, 200⟩]

/-- The unbranching paths of `longLoopGraph`: the loop `[l1, l2]`, its complement, and the
entrance and exit of each. -/
def longLoopPaths : List UnbranchingPath :=
  [⟨[0, 2], ⟨0, true⟩, 15, 100⟩, ⟨[3, 1], ⟨0, false⟩, 15, 100⟩,
   ⟨[4], ⟨2, true⟩, 20, 200⟩, ⟨[5], ⟨2, false⟩, 20, 200⟩,
   ⟨[6], ⟨3, true⟩, 20, 200⟩, ⟨[7], ⟨3, false⟩, 20, 200⟩]

end RepeatGraph

namespace RepeatGraph

/-! ## `collapseHeterozygousBulges` -/

/-- Lines 422-430: the candidates with the same end nodes as `path`, in list order. -/
def twoPathsOf (g : Graph) (unbranchingPaths : List UnbranchingPath) (path : UnbranchingPath) :
    List UnbranchingPath :=
  unbranchingPaths.filter (fun candEdge =>
    decide (candEdge.nodeLeft g = path.nodeLeft g ∧ candEdge.nodeRight g = path.nodeRight g))

/-- Lines 442-447, first `if`: the last candidate that ends where the bulge starts; `none` is
the null pointer. -/
def bulgeEntrance (g : Graph) (unbranchingPaths : List UnbranchingPath)
    (first : UnbranchingPath) : Option UnbranchingPath :=
  unbranchingPaths.foldl (fun entrancePath cand =>
    if cand.nodeRight g = first.nodeLeft g then some cand else entrancePath) none

/-- Lines 442-447, second `if`: the last candidate that starts where the bulge ends. -/
def bulgeExit (g : Graph) (unbranchingPaths : List UnbranchingPath)
    (first : UnbranchingPath) : Option UnbranchingPath :=
  unbranchingPaths.foldl (fun exitPath cand =>
    if cand.nodeLeft g = first.nodeRight g then some cand else exitPath) none

/-- The test `fabsf(covSum - cov) / covSum > MAX_COV_VAR` (lines 452-454) in single
precision, `covSum` being a `float` and `MAX_COV_VAR` the `float` nearest to `0.20`. For
`covSum = 0` the quotient is infinite when `cov ≠ 0` (the test holds) and not a number when
`cov = 0` (the test fails). -/
def covDiffExceeds (covSum : ℚ) (cov : Int) : Bool :=
  if covSum = 0 then decide (cov ≠ 0)
  else decide (float32 (|float32 (covSum - float32 (cov : ℚ))| / covSum) > float32 (1 / 5))

/-- Line 451: the `float` `covSum`, from the `int32_t` sum of the two coverages. -/
def bulgeCovSum (first second : UnbranchingPath) : ℚ :=
  float32 ((wrapInt32 (first.meanCoverage + second.meanCoverage) : Int) : ℚ)

/-- The test of lines 458-460: `abs(len0 - len1) > MAX_LEN_VAR * min(len0, len1)` with
`MAX_LEN_VAR = 0.50`, the right side a single-precision product. -/
def lengthsDiffer (first second : UnbranchingPath) : Bool :=
  decide (float32 ((|wrapInt32 (first.length - second.length)| : Int) : ℚ) >
    float32 (1 / 2 * float32 ((min first.length second.length : Int) : ℚ)))

/-- Line 461: the `float` `bubbleSize`, from the `int32_t` quotient
`(len0 + len1) / 2`. -/
def bubbleSize (first second : UnbranchingPath) : ℚ :=
  float32 (((wrapInt32 (first.length + second.length)).tdiv 2 : Int) : ℚ)

/-- Lines 437-474 for the pair `twoPaths = [first, second]`: `some none` is `continue`,
`some (some p)` marks `p`, and `none` stands for the dereference of a null `entrancePath` or
`exitPath`. -/
def popDecision (g : Graph) (unbranchingPaths : List UnbranchingPath)
    (first second : UnbranchingPath) : Option (Option UnbranchingPath) :=
  if (g.nodes (first.nodeLeft g)).inEdges.length ≠ 1 ∨
      (g.nodes (first.nodeRight g)).outEdges.length ≠ 1 then some none
  else
    match bulgeEntrance g unbranchingPaths first, bulgeExit g unbranchingPaths first with
    | some entrancePath, some exitPath =>
      if covDiffExceeds (bulgeCovSum first second) entrancePath.meanCoverage ||
          covDiffExceeds (bulgeCovSum first second) exitPath.meanCoverage then
        some none
      else if lengthsDiffer first second then some none
      else if bubbleSize first second > float32 (entrancePath.length : ℚ) ∨
          bubbleSize first second > float32 (exitPath.length : ℚ) then some none
      else if first.meanCoverage < second.meanCoverage then some (some first)
      else some (some second)
    | _, _ => none

/-- Lines 420-474 for one path, given the set `toSeparate` so far. -/
def bulgeMark (g : Graph) (unbranchingPaths : List UnbranchingPath)
    (toSeparate : List SignedId) (path : UnbranchingPath) : Option (Option UnbranchingPath) :=
  if path.isLooped g then some none
  else
    match twoPathsOf g unbranchingPaths path with
    | [first, second] =>
      if first.id = second.id.rc then some none
      else if first.id ∈ toSeparate ∨ second.id ∈ toSeparate then some none
      else popDecision g unbranchingPaths first second
    | _ => some none

/-- Body of the marking loop (lines 418-475). -/
def markBulge (g : Graph) (unbranchingPaths : List UnbranchingPath)
    (toSeparate : Option (List SignedId)) (path : UnbranchingPath) : Option (List SignedId) :=
  match toSeparate with
  | none => none
  | some s =>
    match bulgeMark g unbranchingPaths s path with
    | none => none
    | some none => some s
    | some (some marked) => some (idInsert (idInsert s marked.id) marked.id.rc)

/-- Lines 417-475: the set `toSeparate` after all paths. -/
def markBulges (g : Graph) (unbranchingPaths : List UnbranchingPath) : Option (List SignedId) :=
  unbranchingPaths.foldl (markBulge g unbranchingPaths) (some [])

/-- Lines 481-488: both ends of the path move to fresh nodes. -/
def separatePath (g : Graph) (path : UnbranchingPath) : Graph :=
  let newLeft := g.numNodes
  let newRight := g.numNodes + 1
  let g0 := g.addNode.addNode
  let front := path.path.headD 0
  let back := path.path.getLastD 0
  let nodeL := (g0.edges front).nodeLeft
  let g1 : Graph :=
    { g0 with
      nodes := Function.update g0.nodes nodeL
        ⟨(g0.nodes nodeL).inEdges, vecRemove (g0.nodes nodeL).outEdges front⟩ }
  let nodeR := (g1.edges back).nodeRight
  let g2 : Graph :=
    { g1 with
      nodes := Function.update g1.nodes nodeR
        ⟨vecRemove (g1.nodes nodeR).inEdges back, (g1.nodes nodeR).outEdges⟩ }
  let g3 : Graph :=
    { g2 with
      edges := Function.update g2.edges front
        ⟨(g2.edges front).edgeId, newLeft, (g2.edges front).nodeRight,
          (g2.edges front).meanCoverage, (g2.edges front).selfComplement,
          (g2.edges front).length⟩ }
  let g4 : Graph :=
    { g3 with
      edges := Function.update g3.edges back
        ⟨(g3.edges back).edgeId, (g3.edges back).nodeLeft, newRight,
          (g3.edges back).meanCoverage, (g3.edges back).selfComplement,
          (g3.edges back).length⟩ }
  let g5 : Graph :=
    { g4 with
      nodes := Function.update g4.nodes newLeft
        ⟨(g4.nodes newLeft).inEdges, (g4.nodes newLeft).outEdges ++ [front]⟩ }
  { g5 with
    nodes := Function.update g5.nodes newRight
      ⟨(g5.nodes newRight).inEdges ++ [back], (g5.nodes newRight).outEdges⟩ }

/-- The pass `MultiplicityInferer::collapseHeterozygousBulges` on the graph;
`unbranchingPaths` is the result of `proc.getUnbranchingPaths()`; `none` stands for undefined
behaviour. -/
def collapseHeterozygousBulges (g : Graph) (unbranchingPaths : List UnbranchingPath) :
    Option Graph :=
  match markBulges g unbranchingPaths with
  | none => none
  | some toSeparate =>
    some (unbranchingPaths.foldl (fun cur path =>
      if path.id ∈ toSeparate then separatePath cur path else cur) g)

/-- The words of the specification for a bulge `(p, q)` with entrance `en` and exit `ex`
that is to be popped: the left node of the pair has one in-edge and its right node one
out-edge, `en` ends at the left node and `ex` starts at the right node,
`|covSum - en.meanCoverage| / covSum ≤ 0.20` and the same for `ex`,
`|p.length - q.length| ≤ 0.50 · min(p.length, q.length)`, and the mean of the two lengths is
at most `en.length` and at most `ex.length`; all in the arithmetic of the code. -/
def PopConditions (g : Graph) (p q en ex : UnbranchingPath) : Prop :=
  (g.nodes (p.nodeLeft g)).inEdges.length = 1 ∧ (g.nodes (p.nodeRight g)).outEdges.length = 1 ∧
  en.nodeRight g = p.nodeLeft g ∧ ex.nodeLeft g = p.nodeRight g ∧
  covDiffExceeds (bulgeCovSum p q) en.meanCoverage = false ∧
  covDiffExceeds (bulgeCovSum p q) ex.meanCoverage = false ∧
  lengthsDiffer p q = false ∧
  bubbleSize p q ≤ float32 (en.length : ℚ) ∧ bubbleSize p q ≤ float32 (ex.length : ℚ)

/-- What the specification says of the output of the path extraction, as far as the bulges
read it: ids are distinct; every path has its complement path in the list, with the
complement id and the same coverage; the complements of two paths with the same end nodes
have the same end nodes; and where a path starts at a node with one in-edge exactly one path
ends, and where it ends at a node with one out-edge exactly one path starts. -/
def BulgePathsPaired (g : Graph) (paths : List UnbranchingPath) : Prop :=
  (paths.map (fun p => p.id)).Nodup ∧
  (∀ a ∈ paths, ∃ a' ∈ paths, a'.id = a.id.rc ∧ a'.meanCoverage = a.meanCoverage) ∧
  (∀ a ∈ paths, ∀ b ∈ paths, ∀ a' ∈ paths, ∀ b' ∈ paths, a'.id = a.id.rc → b'.id = b.id.rc →
    a.nodeLeft g = b.nodeLeft g ∧ a.nodeRight g = b.nodeRight g →
    a'.nodeLeft g = b'.nodeLeft g ∧ a'.nodeRight g = b'.nodeRight g) ∧
  (∀ a ∈ paths, (g.nodes (a.nodeLeft g)).inEdges.length = 1 →
    ∃ c ∈ paths, c.nodeRight g = a.nodeLeft g ∧
      ∀ b ∈ paths, b.nodeRight g = a.nodeLeft g → b = c) ∧
  (∀ a ∈ paths, (g.nodes (a.nodeRight g)).outEdges.length = 1 →
    ∃ c ∈ paths, c.nodeLeft g = a.nodeRight g ∧
      ∀ b ∈ paths, b.nodeLeft g = a.nodeRight g → b = c)

/-- Scenario S5: between node `1` and node `2` run `p` (edge `2`, coverage `10`, length
`100`) and `q` (edge `4`, coverage `11`, length `105`); the entrance (edge `0`, coverage `21`)
ends at node `1` and the exit (edge `6`, coverage `20`) starts at node `2`; odd edges are the
complements, with the complement bulge between node `5` and node `6`. -/
def bulgeGraph : Graph :=
  graphOf 8
    [⟨⟨0, true⟩, 0, 1, 21, false, 1000⟩, ⟨⟨0, false⟩, 6, 7, 21, false, 1000⟩,
     ⟨⟨1, true⟩, 1, 2, 10, false, 100⟩, ⟨⟨1, false⟩, 5, 6, 10, false, 100⟩,
     ⟨⟨2, true⟩, 1, 2, 11, false, 105⟩, ⟨⟨2, false⟩, 5, 6, 11, false, 105⟩,
     ⟨⟨3, true⟩, 2, 3, 20, false, 1000⟩, ⟨⟨3, false⟩, 4, 5, 20, false, 1000⟩]

/-- The unbranching paths of `bulgeGraph`, one per edge. -/
def bulgePaths : List UnbranchingPath :=
  [⟨[0], ⟨0, true⟩, 21, 1000⟩, ⟨[1], ⟨0, false⟩, 21, 1000⟩,
   ⟨[2], ⟨1, true⟩, 10, 100⟩, ⟨[3], ⟨1, false⟩, 10, 100⟩,
   ⟨[4], ⟨2, true⟩, 11, 105⟩, ⟨[5], ⟨2, false⟩, 11, 105⟩,
   ⟨[6], ⟨3, true⟩, 20, 1000⟩, ⟨[7], ⟨3, false⟩, 20, 1000⟩]

end RepeatGraph

namespace RepeatGraph

/-! ## Re-extraction of unbranching paths

`GraphProcessor::getUnbranchingPaths` is declared outside `multiplicity_inferer.cpp`; its
result is described by the derived attributes and by a check of a given list of paths. -/

/-- Modelled from the spec: the derived attribute `length = Σ edge.length` of a path. -/
def lengthSum (g : Graph) (path : List EdgeRef) : Int :=
  (path.map (fun e => (g.edges e).length)).sum

/-- Modelled from the spec: the numerator `Σ (edge.meanCoverage · edge.length)` of the
derived attribute `meanCoverage` of a path. -/
def coverageSum (g : Graph) (path : List EdgeRef) : Int :=
  (path.map (fun e => (g.edges e).meanCoverage * (g.edges e).length)).sum

/-- A node with exactly one in-edge and one out-edge. -/
def simpleNode (g : Graph) (n : NodeRef) : Bool :=
  (g.nodes n).inEdges.length == 1 && (g.nodes n).outEdges.length == 1

/-- Consecutive edges of the path meet at a node with exactly one in-edge and one
out-edge. -/
def chained (g : Graph) : List EdgeRef → Bool
  | a :: b :: rest =>
    (g.edges a).nodeRight == (g.edges b).nodeLeft && simpleNode g (g.edges a).nodeRight &&
      chained g (b :: rest)
  | _ => true

/-- Modelled from the spec: the check that `paths` are the maximal unbranching paths of the
graph. Every path is a non-empty chain of distinct edges of the graph through nodes with one
in-edge and one out-edge, ends at a node that is not of that kind unless it closes into a
loop, carries `length = Σ edge.length` and the length-weighted `meanCoverage`, and has its
complement path, with the complement id, in the list; every edge of the graph is on exactly
one path; the ids of the paths are distinct. -/
def isExtraction (g : Graph) (paths : List UnbranchingPath) : Bool :=
  paths.all (fun p =>
    !p.path.isEmpty && p.path.all (fun e => decide (e ∈ g.edgeList)) && chained g p.path &&
    decide p.path.Nodup &&
    (p.isLooped g || !simpleNode g (p.nodeLeft g)) &&
    (p.isLooped g || !simpleNode g (p.nodeRight g)) &&
    decide (p.length = lengthSum g p.path) &&
    decide (p.meanCoverage = (coverageSum g p.path).tdiv (lengthSum g p.path)) &&
    paths.any (fun q =>
      decide (q.id = p.id.rc) && decide (q.path = (p.path.map g.complementEdge).reverse))) &&
  g.edgeList.all (fun e => (paths.filter (fun p => decide (e ∈ p.path))).length == 1) &&
  decide (paths.map (fun p => p.id)).Nodup

/-- Modelled from the spec: the invariants of the repeat graph between passes (spec 3.2, 4.5).
Every edge of the graph is in the out-edges of its left node and in the in-edges of its right
node; `complement(complement(e)) = e`; an edge and its complement carry the same coverage
and the same length; lengths are positive. -/
def Consistent (g : Graph) : Prop :=
  (∀ e ∈ g.edgeList, e ∈ (g.nodes (g.edges e).nodeLeft).outEdges ∧
    e ∈ (g.nodes (g.edges e).nodeRight).inEdges) ∧
  (∀ e ∈ g.edgeList, g.complementEdge (g.complementEdge e) = e ∧
    (g.edges (g.complementEdge e)).meanCoverage = (g.edges e).meanCoverage ∧
    (g.edges (g.complementEdge e)).length = (g.edges e).length ∧ 0 < (g.edges e).length)

/-- Modelled from the spec: the reverse-complement symmetry of the repeat graph and the
bookkeeping of its nodes (spec 3.2). At the end nodes of every edge the in-edges and
out-edges are edges of the graph that end and start there, none listed twice; and two edges
meet, start together or end together exactly when their complements do, on the other
side. -/
def ComplementSymmetric (g : Graph) : Prop :=
  (∀ e ∈ g.edgeList, ∀ n ∈ [(g.edges e).nodeLeft, (g.edges e).nodeRight],
    (g.nodes n).inEdges.Nodup ∧ (g.nodes n).outEdges.Nodup ∧
    (∀ x ∈ (g.nodes n).inEdges, x ∈ g.edgeList ∧ (g.edges x).nodeRight = n) ∧
    (∀ x ∈ (g.nodes n).outEdges, x ∈ g.edgeList ∧ (g.edges x).nodeLeft = n)) ∧
  (∀ e ∈ g.edgeList, ∀ f ∈ g.edgeList,
    ((g.edges e).nodeRight = (g.edges f).nodeLeft ↔
      (g.edges (g.complementEdge f)).nodeRight = (g.edges (g.complementEdge e)).nodeLeft) ∧
    ((g.edges e).nodeLeft = (g.edges f).nodeLeft ↔
      (g.edges (g.complementEdge e)).nodeRight = (g.edges (g.complementEdge f)).nodeRight) ∧
    ((g.edges e).nodeRight = (g.edges f).nodeRight ↔
      (g.edges (g.complementEdge e)).nodeLeft = (g.edges (g.complementEdge f)).nodeLeft))

/-- Edge `a` (edge `0`, node `0` to node `1`, coverage `6`, length `2`) is followed by `n`
(edge `2`, node `1` to node `2`, coverage `9`, length `1`), and `x` (edge `4`, coverage `2`,
length `1`) also ends at node `1`; edges `1`, `3`, `5` are the complements, with the coverage
and length of their partners. -/
def mergeGraph : Graph :=
  graphOf 8
    [⟨⟨0, true⟩, 0, 1, 6, false, 2⟩, ⟨⟨0, false⟩, 5, 4, 6, false, 2⟩,
     ⟨⟨1, true⟩, 1, 2, 9, false, 1⟩, ⟨⟨1, false⟩, 6, 5, 9, false, 1⟩,
     ⟨⟨2, true⟩, 3, 1, 2, false, 1⟩, ⟨⟨2, false⟩, 5, 7, 2, false, 1⟩]

/-- The maximal unbranching paths of `mergeGraph`, one per edge. -/
def mergePaths : List UnbranchingPath :=
  [⟨[0], ⟨0, true⟩, 6, 2⟩, ⟨[1], ⟨0, false⟩, 6, 2⟩,
   ⟨[2], ⟨1, true⟩, 9, 1⟩, ⟨[3], ⟨1, false⟩, 9, 1⟩,
   ⟨[4], ⟨2, true⟩, 2, 1⟩, ⟨[5], ⟨2, false⟩, 2, 1⟩]

/-- The maximal unbranching paths once `x` and its complement are gone: `a` followed by `n`
(coverage `(6 · 2 + 9 · 1) / 3 = 7`), and the complement path. -/
def mergedPaths : List UnbranchingPath :=
  [⟨[0, 2], ⟨0, true⟩, 7, 3⟩, ⟨[3, 1], ⟨0, false⟩, 7, 3⟩]

end RepeatGraph

namespace RepeatGraph

/-! ## Tips: the words of the specification and two graphs -/

/-- The edges a read visits after the edge `tipEdge`: those behind its first occurrence,
the edge itself left out. -/
def edgesBeyond (tipEdge : EdgeRef) (read : GraphAlignment) : List EdgeRef :=
  (read.dropWhile (fun e => e != tipEdge)).filter (fun e => e != tipEdge)

/-- The edges all reads filed under the last edge of the tip visit after that edge. -/
def beyondTip (readIndex : EdgeRef → List GraphAlignment) (tipPath : UnbranchingPath) :
    List EdgeRef :=
  (readIndex (tipPath.path.getLastD 0)).flatMap (edgesBeyond (tipPath.path.getLastD 0))

/-- The length-weighted mean coverage of the edges beyond the tip: the sum of
`meanCoverage * length` over the sum of `length`, an integer as every coverage is. -/
def readCoverageBeyond (g : Graph) (readIndex : EdgeRef → List GraphAlignment)
    (tipPath : UnbranchingPath) : Int :=
  (coverageSum g (beyondTip readIndex tipPath)).tdiv (lengthSum g (beyondTip readIndex tipPath))

/-- Scenario S4: the tip `t` (edge `0`, coverage `2`, length `100`) and the edge `u` (edge `2`)
end at node `1`, from which `d` (edge `4`) continues; `u` and `d` have coverage `20` and
length `1000`; edges `1`, `3`, `5` are the complements. -/
def tipGraph : Graph :=
  graphOf 8
    [⟨⟨0, true⟩, 0, 1, 2, false, 100⟩, ⟨⟨0, false⟩, 5, 4, 2, false, 100⟩,
     ⟨⟨1, true⟩, 3, 1, 20, false, 1000⟩, ⟨⟨1, false⟩, 5, 7, 20, false, 1000⟩,
     ⟨⟨2, true⟩, 1, 2, 20, false, 1000⟩, ⟨⟨2, false⟩, 6, 5, 20, false, 1000⟩]

/-- The maximal unbranching paths of `tipGraph`, one per edge. -/
def tipPaths : List UnbranchingPath :=
  [⟨[0], ⟨0, true⟩, 2, 100⟩, ⟨[1], ⟨0, false⟩, 2, 100⟩,
   ⟨[2], ⟨1, true⟩, 20, 1000⟩, ⟨[3], ⟨1, false⟩, 20, 1000⟩,
   ⟨[4], ⟨2, true⟩, 20, 1000⟩, ⟨[5], ⟨2, false⟩, 20, 1000⟩]

/-- The graph of scenario S4 with `u` and `d` of coverage `100` and length `30000000`: the
product `100 * 30000000` does not fit an `int32_t`. -/
def longTipGraph : Graph :=
  graphOf 8
    [⟨⟨0, true⟩, 0, 1, 2, false, 100⟩, ⟨⟨0, false⟩, 5, 4, 2, false, 100⟩,
     ⟨⟨1, true⟩, 3, 1, 100, false, 30000000⟩, ⟨⟨1, false⟩, 5, 7, 100, false, 30000000⟩,
     ⟨⟨2, true⟩, 1, 2, 100, false, 30000000⟩, ⟨⟨2, false⟩, 6, 5, 100, false, 30000000⟩]

/-- The maximal unbranching paths of `longTipGraph`, one per edge. -/
def longTipPaths : List UnbranchingPath :=
  [⟨[0], ⟨0, true⟩, 2, 100⟩, ⟨[1], ⟨0, false⟩, 2, 100⟩,
   ⟨[2], ⟨1, true⟩, 100, 30000000⟩, ⟨[3], ⟨1, false⟩, 100, 30000000⟩,
   ⟨[4], ⟨2, true⟩, 100, 30000000⟩, ⟨[5], ⟨2, false⟩, 100, 30000000⟩]

end RepeatGraph

namespace RepeatGraph

/-- Line 69 of `estimateCoverage`: `round((float)medianCov / _meanCoverage)` assigned to an
`int`. For `_meanCoverage = 0` the float quotient is infinite or not a number and its
conversion to `int` is undefined (`none`); otherwise the quotient is taken as exact. -/
def estimatedMultiplicity (medianCov meanCoverage : Int) : Option Int :=
  if meanCoverage = 0 then none
  else some (roundHalfAway ((medianCov : ℚ) / (meanCoverage : ℚ)))

end RepeatGraph

/-! # Theorems -/

namespace Polisher

section FirstBest

variable {σ S : Type} [Zero S] [Add S] [LinearOrder S]

theorem strErase_eq_eraseIdx (str : List Char) (i : Nat) : strErase str i = str.eraseIdx i := by
  rw [List.eraseIdx_eq_take_drop_succ]; rfl

theorem strInsert_eq_insertIdx (str : List Char) (i : Nat) (c : Char) (h : i ≤ str.length) :
    strInsert str i c = str.insertIdx i c := by
  induction str generalizing i with
  | nil =>
    have : i = 0 := by simpa using h
    subst this; rfl
  | cons a t ih =>
    cases i with
    | zero => rfl
    | succ n =>
      have hn : n ≤ t.length := by simpa using h
      have := ih n hn
      simp only [strInsert] at this ⊢
      simp [List.insertIdx, this]

theorem strInsert_strErase_eq_set (str : List Char) (i : Nat) (c : Char) (h : i < str.length) :
    strInsert (strErase str i) i c = str.set i c := by
  induction str generalizing i with
  | nil => simp at h
  | cons a t ih =>
    cases i with
    | zero => simp [strInsert, strErase]
    | succ n =>
      have hn : n < t.length := by simpa using h
      have := ih n hn
      simp only [strInsert, strErase] at this ⊢
      simpa using this

theorem describes_editStep (align : Alignment σ S) (candidate : List Char)
    (branches : List (List Char)) (rec : Record S) (e : Edit) (he : e.InRange candidate)
    (hlt : rec.score < editScore align candidate branches e) :
    Describes align candidate branches (editStep align candidate branches rec e) e := by
  unfold editStep
  rw [if_pos hlt]
  cases e with
  | global => exact ⟨rfl, rfl, rfl, trivial⟩
  | deletion i => exact ⟨rfl, rfl, strErase_eq_eraseIdx _ _, rfl⟩
  | substitution i c => exact ⟨rfl, rfl, strInsert_strErase_eq_set _ _ _ he.1, rfl, rfl⟩
  | insertion i c => exact ⟨rfl, rfl, strInsert_eq_insertIdx _ _ _ he, rfl, rfl⟩

theorem editStep_of_not_lt (align : Alignment σ S) (candidate : List Char)
    (branches : List (List Char)) (rec : Record S) (e : Edit)
    (h : ¬ rec.score < editScore align candidate branches e) :
    editStep align candidate branches rec e = rec := by
  unfold editStep; rw [if_neg h]

theorem foldl_editStep_first_max (align : Alignment σ S) (candidate : List Char)
    (branches : List (List Char)) (l : List Edit) (e0 : Edit) (rec : Record S)
    (hrec : Describes align candidate branches rec e0)
    (hl : ∀ e ∈ l, e.InRange candidate) :
    ∃ k e, (e0 :: l)[k]? = some e ∧
      Describes align candidate branches (l.foldl (editStep align candidate branches) rec) e ∧
      (∀ (j : Nat) (e' : Edit), j < k → (e0 :: l)[j]? = some e' →
        editScore align candidate branches e' < editScore align candidate branches e) ∧
      (∀ e' ∈ e0 :: l,
        editScore align candidate branches e' ≤ editScore align candidate branches e) := by
  induction l using List.reverseRecOn with
  | nil =>
    refine ⟨0, e0, rfl, hrec, ?_, ?_⟩
    · intro j e' hj; omega
    · intro e' he'
      simp at he'
      subst he'; exact le_rfl
  | append_singleton l a ih =>
    obtain ⟨k, e, hk, hd, hfirst, hmax⟩ := ih (fun e he => hl e (List.mem_append_left _ he))
    have ha : a.InRange candidate := hl a (by simp)
    have hklt : k < (e0 :: l).length := by
      by_contra hcon
      have : (e0 :: l)[k]? = none := List.getElem?_eq_none (by omega)
      rw [this] at hk; cases hk
    rw [List.foldl_append, List.foldl_cons, List.foldl_nil]
    by_cases hlt : (l.foldl (editStep align candidate branches) rec).score <
        editScore align candidate branches a
    · have hsc : editScore align candidate branches e < editScore align candidate branches a := by
        rw [← hd.2.1]; exact hlt
      refine ⟨(e0 :: l).length, a, ?_, describes_editStep align candidate branches _ a ha hlt,
        ?_, ?_⟩
      · rw [← List.cons_append, List.getElem?_append_right (le_refl _)]; simp
      · intro j e' hj hje
        rw [← List.cons_append, List.getElem?_append_left hj] at hje
        exact lt_of_le_of_lt (hmax e' (List.getElem?_mem hje)) hsc
      · intro e' he'
        rw [← List.cons_append, List.mem_append] at he'
        rcases he' with he' | he'
        · exact le_of_lt (lt_of_le_of_lt (hmax e' he') hsc)
        · simp at he'; subst he'; exact le_rfl
    · have hstep : editStep align candidate branches
          (l.foldl (editStep align candidate branches) rec) a =
          l.foldl (editStep align candidate branches) rec :=
        editStep_of_not_lt align candidate branches _ a hlt
      rw [hstep]
      refine ⟨k, e, ?_, hd, ?_, ?_⟩
      · rw [← List.cons_append, List.getElem?_append_left hklt]; exact hk
      · intro j e' hj hje
        rw [← List.cons_append, List.getElem?_append_left (lt_trans hj hklt)] at hje
        exact hfirst j e' hj hje
      · intro e' he'
        rw [← List.cons_append, List.mem_append] at he'
        rcases he' with he' | he'
        · exact hmax e' he'
        · simp at he'; subst he'
          rw [← hd.2.1]; exact not_lt.mp hlt

theorem foldl_skip_eq_foldl_filter_map {α β γ : Type} (f : β → γ → β) (g : α → γ)
    (p : α → Prop) [DecidablePred p] (l : List α) (b : β) :
    l.foldl (fun r a => if p a then r else f r (g a)) b =
      ((l.filter (fun a => decide (¬ p a))).map g).foldl f b := by
  induction l generalizing b with
  | nil => rfl
  | cons a t ih =>
    by_cases h : p a
    · simp [List.filter_cons, h, ih]
    · simp [List.filter_cons, h, ih]

theorem foldl_foldl_eq_foldl_flatMap {α β γ : Type} (f : β → γ → β) (h : α → List γ)
    (l : List α) (b : β) :
    l.foldl (fun r a => (h a).foldl f r) b = (l.flatMap h).foldl f b := by
  induction l generalizing b with
  | nil => rfl
  | cons a t ih => simp [List.flatMap_cons, List.foldl_append, ih]

theorem runOneToAll_eq_foldl (align : Alignment σ S) (candidate : List Char)
    (branches : List (List Char)) (rec : Record S) :
    runOneToAll align candidate branches rec =
      (scanOrder candidate).tail.foldl (editStep align candidate branches)
        { rec with methodUsed := "global",
                   score := editScore align candidate branches Edit.global,
                   read := candidate } := by
  have hdel : deletionStep align
      (globalLoop align candidate branches 0 0 (align.create branches.length)).2
      candidate branches =
      fun r i => editStep align candidate branches r (Edit.deletion i) := rfl
  have hsub : ∀ i, substitutionStep align
      (globalLoop align candidate branches 0 0 (align.create branches.length)).2
      candidate branches i =
      fun r c => if candidate[i]? = some c then r
        else editStep align candidate branches r (Edit.substitution i c) := fun _ => rfl
  have hins : ∀ i, insertionStep align
      (globalLoop align candidate branches 0 0 (align.create branches.length)).2
      candidate branches i =
      fun r c => editStep align candidate branches r (Edit.insertion i c) := fun _ => rfl
  unfold runOneToAll scanOrder
  simp only [hdel, hsub, hins, List.tail_cons, List.foldl_append]
  have e1 : ∀ (r : Record S) (l : List Nat),
      l.foldl (fun r i => editStep align candidate branches r (Edit.deletion i)) r =
      (l.map Edit.deletion).foldl (editStep align candidate branches) r := by
    intro r l; rw [List.foldl_map]
  have e2 : ∀ (r : Record S) (i : Nat),
      alphabet.foldl (fun r c => if candidate[i]? = some c then r
        else editStep align candidate branches r (Edit.substitution i c)) r =
      ((alphabet.filter (fun c => decide (candidate[i]? ≠ some c))).map
        (Edit.substitution i)).foldl (editStep align candidate branches) r := by
    intro r i
    exact foldl_skip_eq_foldl_filter_map (editStep align candidate branches)
      (Edit.substitution i) (fun c => candidate[i]? = some c) alphabet r
  have e3 : ∀ (r : Record S) (i : Nat),
      alphabet.foldl (fun r c => editStep align candidate branches r (Edit.insertion i c)) r =
      (alphabet.map (Edit.insertion i)).foldl (editStep align candidate branches) r := by
    intro r i; rw [List.foldl_map]
  simp only [e1, e2, e3, foldl_foldl_eq_foldl_flatMap]
  rfl

theorem inRange_of_mem_scanOrder (candidate : List Char) (e : Edit)
    (he : e ∈ scanOrder candidate) : e.InRange candidate := by
  unfold scanOrder at he
  simp only [List.mem_cons, List.mem_append, List.mem_map, List.mem_flatMap, List.mem_range,
    List.mem_filter, decide_eq_true_eq] at he
  rcases he with rfl | ⟨i, hi, rfl⟩ | ⟨i, hi, c, ⟨_, hc⟩, rfl⟩ | ⟨i, hi, c, _, rfl⟩
  · trivial
  · exact hi
  · exact ⟨hi, hc⟩
  · exact Nat.lt_succ_iff.mp hi

/-- The record left by `runOneToAll` describes the first edit of the scanning order whose
total score is maximal. -/
theorem runOneToAll_describes_first_max (align : Alignment σ S) (candidate : List Char)
    (branches : List (List Char)) (rec : Record S) :
    ∃ k e, (scanOrder candidate)[k]? = some e ∧
      Describes align candidate branches (runOneToAll align candidate branches rec) e ∧
      (∀ (j : Nat) (e' : Edit), j < k → (scanOrder candidate)[j]? = some e' →
        editScore align candidate branches e' < editScore align candidate branches e) ∧
      (∀ e' ∈ scanOrder candidate,
        editScore align candidate branches e' ≤ editScore align candidate branches e) := by
  rw [runOneToAll_eq_foldl]
  have hcons : scanOrder candidate = Edit.global :: (scanOrder candidate).tail := rfl
  have hl : ∀ e ∈ (scanOrder candidate).tail, e.InRange candidate := fun e he =>
    inRange_of_mem_scanOrder candidate e (List.mem_of_mem_tail he)
  have := foldl_editStep_first_max align candidate branches (scanOrder candidate).tail
    Edit.global { rec with methodUsed := "global",
                           score := editScore align candidate branches Edit.global,
                           read := candidate } ⟨rfl, rfl, rfl, trivial⟩ hl
  rw [← hcons] at this
  exact this

end FirstBest

end Polisher

namespace Polisher

section SpecScore

variable {σ S : Type}

theorem alignedState_succ (align : Alignment σ S) (candidate : List Char)
    (pre rest : List (List Char)) (b : List Char) :
    alignedState align candidate (pre ++ b :: rest) (pre.length + 1) =
      (align.globalAlignment (alignedState align candidate (pre ++ b :: rest) pre.length)
        candidate b pre.length).2 := by
  have : (pre ++ b :: rest)[pre.length]? = some b := by
    rw [List.getElem?_append_right (le_refl _)]
    simp
  rw [alignedState, this]

variable [Add S]

theorem probeLoop_eq (probe : Nat → List Char → S) (bs : List (List Char)) (i : Nat) (s : S) :
    probeLoop probe bs i s =
      ((bs.enumFrom i).map (fun kb => probe kb.1 kb.2)).foldl (fun acc x => acc + x) s := by
  induction bs generalizing i s with
  | nil => rfl
  | cons b t ih =>
    simp only [probeLoop, List.enumFrom_cons, List.map_cons, List.foldl_cons]
    exact ih (i + 1) _

theorem globalLoop_eq (align : Alignment σ S) (candidate : List Char)
    (branches : List (List Char)) :
    ∀ (suf pre : List (List Char)) (score : S), branches = pre ++ suf →
      globalLoop align candidate suf pre.length score
          (alignedState align candidate branches pre.length) =
        (((suf.enumFrom pre.length).map (fun kb =>
            (align.globalAlignment (alignedState align candidate branches kb.1)
              candidate kb.2 kb.1).1)).foldl (fun acc x => acc + x) score,
          alignedState align candidate branches branches.length) := by
  intro suf
  induction suf with
  | nil =>
    intro pre score h
    have : branches = pre := by simpa using h
    subst this
    rfl
  | cons b t ih =>
    intro pre score h
    have h2 : branches = (pre ++ [b]) ++ t := by simp [h]
    have := ih (pre ++ [b]) (score + (align.globalAlignment
      (alignedState align candidate branches pre.length) candidate b pre.length).1) h2
    simp only [List.length_append, List.length_singleton] at this
    simp only [globalLoop, List.enumFrom_cons, List.map_cons, List.foldl_cons]
    rw [← this]
    congr 1
    subst h
    exact (alignedState_succ align candidate pre t b).symm

variable [Zero S]

/-- The score `runOneToAll` computes for an edit with its loops is the sum of the
specification. -/
theorem editScore_eq_specScore (align : Alignment σ S) (candidate : List Char)
    (branches : List (List Char)) (e : Edit) :
    editScore align candidate branches e = specScore align candidate branches e := by
  have hg := globalLoop_eq align candidate branches branches [] 0 (by simp)
  simp only [List.length_nil] at hg
  have hst : alignedState align candidate branches 0 = align.create branches.length := rfl
  rw [hst] at hg
  unfold specScore sumInOrder List.enum
  cases e with
  | global =>
    simp only [editScore, branchScore]
    rw [hg]
  | deletion d =>
    simp only [editScore, branchScore]
    rw [hg, probeLoop_eq]
  | substitution i c =>
    simp only [editScore, branchScore]
    rw [hg, probeLoop_eq]
  | insertion i c =>
    simp only [editScore, branchScore]
    rw [hg, probeLoop_eq]

end SpecScore

end Polisher

namespace Polisher

section Contracts

variable {σ S : Type} [Zero S] [Add S] [LinearOrder S]

/-- C1. For every aligner, candidate, branch list and incoming record, the record produced by
`runOneToAll` describes the first element of the scanning order (identity, deletions,
substitutions, insertions) whose score summed over all branches (`specScore`: the scores
against branch `0`, branch `1`, … added in that order) is the maximum over the whole
scanning order: every earlier element has a strictly smaller sum, no element has a larger
one, and the record holds that edit's method name, that sum as its score, and the candidate
with exactly that edit applied. In particular, when no edit has a larger sum than the
identity, the record is the global one with the candidate unchanged. -/
theorem runOneToAll_first_best (align : Alignment σ S) (candidate : List Char)
    (branches : List (List Char)) (rec : Record S) :
    (∃ k e, (scanOrder candidate)[k]? = some e ∧
      (∀ (j : Nat) (e' : Edit), j < k → (scanOrder candidate)[j]? = some e' →
        specScore align candidate branches e' < specScore align candidate branches e) ∧
      (∀ e' ∈ scanOrder candidate,
        specScore align candidate branches e' ≤ specScore align candidate branches e) ∧
      (runOneToAll align candidate branches rec).methodUsed = e.methodName ∧
      (runOneToAll align candidate branches rec).score = specScore align candidate branches e ∧
      (runOneToAll align candidate branches rec).read = e.applyTo candidate) ∧
    ((∀ e' ∈ scanOrder candidate, specScore align candidate branches e' ≤
        specScore align candidate branches Edit.global) →
      (runOneToAll align candidate branches rec).methodUsed = "global" ∧
      (runOneToAll align candidate branches rec).score =
        specScore align candidate branches Edit.global ∧
      (runOneToAll align candidate branches rec).read = candidate) := by
  simp only [← editScore_eq_specScore]
  obtain ⟨k, e, hk, hd, hfirst, hmax⟩ :=
    runOneToAll_describes_first_max align candidate branches rec
  refine ⟨⟨k, e, hk, hfirst, hmax, hd.1, hd.2.1, hd.2.2.1⟩, ?_⟩
  intro hglobal
  have hk0 : k = 0 := by
    by_contra hne
    have h0 : (scanOrder candidate)[0]? = some Edit.global := by
      unfold scanOrder; simp
    have hlt := hfirst 0 Edit.global (Nat.pos_of_ne_zero hne) h0
    exact absurd (hglobal e (List.getElem?_mem hk)) (not_le.mpr hlt)
  subst hk0
  have he : e = Edit.global := by
    have h0 : (scanOrder candidate)[0]? = some Edit.global := by
      unfold scanOrder; simp
    rw [h0] at hk
    exact (Option.some.inj hk).symm
  subst he
  exact ⟨hd.1, hd.2.1, hd.2.2.1⟩

/-- C4. For every aligner, candidate, branch list and incoming record, the record returned by
`runOneToAll` has one of the four method names and: a deletion record's read is the candidate
with the character at `del_index` removed (one shorter); an insertion record's read is the
candidate with `ins_letter` inserted at `ins_index` (one longer); a substitution record's read
has the candidate's length, holds `sub_letter` at `sub_index`, a letter different from the
candidate's, and agrees with the candidate everywhere else; a global record's read is the
candidate. -/
theorem runOneToAll_record_shape (align : Alignment σ S) (candidate : List Char)
    (branches : List (List Char)) (rec : Record S) :
    ((runOneToAll align candidate branches rec).methodUsed = "global" ∨
      (runOneToAll align candidate branches rec).methodUsed = "deletion" ∨
      (runOneToAll align candidate branches rec).methodUsed = "substitution" ∨
      (runOneToAll align candidate branches rec).methodUsed = "insertion") ∧
    ((runOneToAll align candidate branches rec).methodUsed = "deletion" →
      (runOneToAll align candidate branches rec).del_index < candidate.length ∧
      (runOneToAll align candidate branches rec).read =
        candidate.eraseIdx (runOneToAll align candidate branches rec).del_index ∧
      (runOneToAll align candidate branches rec).read.length + 1 = candidate.length) ∧
    ((runOneToAll align candidate branches rec).methodUsed = "insertion" →
      (runOneToAll align candidate branches rec).ins_index ≤ candidate.length ∧
      (runOneToAll align candidate branches rec).read =
        candidate.take (runOneToAll align candidate branches rec).ins_index ++
          (runOneToAll align candidate branches rec).ins_letter ::
            candidate.drop (runOneToAll align candidate branches rec).ins_index ∧
      (runOneToAll align candidate branches rec).read.length = candidate.length + 1) ∧
    ((runOneToAll align candidate branches rec).methodUsed = "substitution" →
      (runOneToAll align candidate branches rec).sub_index < candidate.length ∧
      (runOneToAll align candidate branches rec).read.length = candidate.length ∧
      (runOneToAll align candidate branches rec).read[
        (runOneToAll align candidate branches rec).sub_index]? =
          some (runOneToAll align candidate branches rec).sub_letter ∧
      candidate[(runOneToAll align candidate branches rec).sub_index]? ≠
          some (runOneToAll align candidate branches rec).sub_letter ∧
      (∀ j : Nat, j ≠ (runOneToAll align candidate branches rec).sub_index →
        (runOneToAll align candidate branches rec).read[j]? = candidate[j]?)) ∧
    ((runOneToAll align candidate branches rec).methodUsed = "global" →
      (runOneToAll align candidate branches rec).read = candidate) := by
  obtain ⟨k, e, hk, hd, -, -⟩ := runOneToAll_describes_first_max align candidate branches rec
  have hin := inRange_of_mem_scanOrder candidate e (List.getElem?_mem hk)
  obtain ⟨hm, -, hread, hidx⟩ := hd
  generalize runOneToAll align candidate branches rec = r at hm hread hidx ⊢
  cases e with
  | global =>
    have hm' : r.methodUsed = "global" := hm
    refine ⟨Or.inl hm', ?_, ?_, ?_, fun _ => hread⟩ <;>
      (intro h; rw [hm'] at h; exact absurd h (by decide))
  | deletion i =>
    have hm' : r.methodUsed = "deletion" := hm
    have hi : i < candidate.length := hin
    have hidx' : r.del_index = i := hidx
    have hread' : r.read = candidate.eraseIdx i := hread
    refine ⟨Or.inr (Or.inl hm'), ?_, ?_, ?_, ?_⟩
    · intro _
      rw [hidx', hread', List.length_eraseIdx_of_lt hi]
      exact ⟨hi, rfl, by omega⟩
    all_goals (intro h; rw [hm'] at h; exact absurd h (by decide))
  | substitution i c =>
    have hm' : r.methodUsed = "substitution" := hm
    have hi : i < candidate.length := hin.1
    have hc : candidate[i]? ≠ some c := hin.2
    have hidx' : r.sub_index = i ∧ r.sub_letter = c := hidx
    have hread' : r.read = candidate.set i c := hread
    refine ⟨Or.inr (Or.inr (Or.inl hm')), ?_, ?_, ?_, ?_⟩
    · intro h; rw [hm'] at h; exact absurd h (by decide)
    · intro h; rw [hm'] at h; exact absurd h (by decide)
    · intro _
      rw [hidx'.1, hidx'.2, hread']
      refine ⟨hi, by simp, by simp [hi], hc, ?_⟩
      intro j hj
      rw [List.getElem?_set_ne (Ne.symm hj)]
    · intro h; rw [hm'] at h; exact absurd h (by decide)
  | insertion i c =>
    have hm' : r.methodUsed = "insertion" := hm
    have hi : i ≤ candidate.length := hin
    have hidx' : r.ins_index = i ∧ r.ins_letter = c := hidx
    have hread' : r.read = candidate.insertIdx i c := hread
    refine ⟨Or.inr (Or.inr (Or.inr hm')), ?_, ?_, ?_, ?_⟩
    · intro h; rw [hm'] at h; exact absurd h (by decide)
    · intro _
      rw [hidx'.1, hidx'.2, hread', ← strInsert_eq_insertIdx candidate i c hi]
      refine ⟨hi, rfl, ?_⟩
      simp only [strInsert, List.length_append, List.length_take, List.length_cons,
        List.length_drop]
      omega
    · intro h; rw [hm'] at h; exact absurd h (by decide)
    · intro h; rw [hm'] at h; exact absurd h (by decide)

end Contracts

end Polisher

namespace Polisher

section ReadUnchanged

variable {σ S : Type} [Zero S] [Add S]

theorem edit_eq_global_of_read_eq (align : Alignment σ S) (candidate : List Char)
    (branches : List (List Char)) (r : Record S) (e : Edit)
    (hd : Describes align candidate branches r e) (hin : e.InRange candidate)
    (hread : r.read = candidate) : e = Edit.global := by
  have happ : e.applyTo candidate = candidate := by rw [← hd.2.2.1]; exact hread
  cases e with
  | global => rfl
  | deletion i =>
    have hi : i < candidate.length := hin
    have hlen := congrArg List.length happ
    simp only [Edit.applyTo] at hlen
    rw [List.length_eraseIdx_of_lt hi] at hlen
    omega
  | substitution i c =>
    have hc : candidate[i]? ≠ some c := hin.2
    have hi : i < candidate.length := hin.1
    have hget := congrArg (fun l : List Char => l[i]?) happ
    simp only [Edit.applyTo] at hget
    rw [List.getElem?_set_self hi] at hget
    exact absurd hget.symm hc
  | insertion i c =>
    have hi : i ≤ candidate.length := hin
    have hlen := congrArg List.length happ
    simp only [Edit.applyTo] at hlen
    rw [← strInsert_eq_insertIdx candidate i c hi] at hlen
    simp only [strInsert, List.length_append, List.length_take, List.length_cons,
      List.length_drop] at hlen
    omega

end ReadUnchanged

section Loop

variable {σ S : Type} [Zero S] [Add S] [LinearOrder S]

/-- When `runOneToAll` leaves the candidate unchanged, its record is the global one and no
edit of the scanning order scores more than it. -/
theorem runOneToAll_fixed (align : Alignment σ S) (candidate : List Char)
    (branches : List (List Char)) (rec : Record S)
    (hread : (runOneToAll align candidate branches rec).read = candidate) :
    (runOneToAll align candidate branches rec).methodUsed = "global" ∧
    (runOneToAll align candidate branches rec).score =
      editScore align candidate branches Edit.global ∧
    ∀ e' ∈ scanOrder candidate, editScore align candidate branches e' ≤
      (runOneToAll align candidate branches rec).score := by
  obtain ⟨k, e, hk, hd, -, hmax⟩ := runOneToAll_describes_first_max align candidate branches rec
  have hin := inRange_of_mem_scanOrder candidate e (List.getElem?_mem hk)
  have he := edit_eq_global_of_read_eq align candidate branches _ e hd hin hread
  subst he
  refine ⟨hd.1, hd.2.1, ?_⟩
  intro e' he'
  rw [hd.2.1]
  exact hmax e' he'

/-- The record a terminated run of the loop is left with either is the incoming one (no
iteration ran) or is the global record of its own read. -/
theorem refineLoop_ends_global (align : Alignment σ S) (branches : List (List Char))
    (fuel : Nat) (prevCandidate curCandidate : List Char) (rec r : Record S)
    (hstart : curCandidate ≠ prevCandidate ∨
      (rec.read = curCandidate ∧ rec.methodUsed = "global" ∧
        rec.score = editScore align rec.read branches Edit.global ∧
        ∀ e' ∈ scanOrder rec.read, editScore align rec.read branches e' ≤ rec.score))
    (h : refineLoop align branches fuel prevCandidate curCandidate rec = some r) :
    r.methodUsed = "global" ∧
      r.score = editScore align r.read branches Edit.global ∧
      ∀ e' ∈ scanOrder r.read, editScore align r.read branches e' ≤ r.score := by
  induction fuel generalizing prevCandidate curCandidate rec with
  | zero =>
    unfold refineLoop at h
    by_cases hne : curCandidate ≠ prevCandidate
    · rw [if_pos hne] at h; cases h
    · rw [if_neg hne] at h
      cases h
      rcases hstart with h1 | h1
      · exact absurd h1 hne
      · exact h1.2
  | succ n ih =>
    unfold refineLoop at h
    by_cases hne : curCandidate ≠ prevCandidate
    · rw [if_pos hne] at h
      refine ih curCandidate _ _ ?_ h
      by_cases hfix : (runOneToAll align curCandidate branches rec).read = curCandidate
      · right
        have := runOneToAll_fixed align curCandidate branches rec hfix
        rw [hfix]
        exact ⟨rfl, this⟩
      · left; exact hfix
    · rw [if_neg hne] at h
      cases h
      rcases hstart with h1 | h1
      · exact absurd h1 hne
      · exact h1.2

/-- C2 (amended). For every aligner and every bubble with a non-empty candidate, whenever the
refinement loop of `Worker::run` terminates, the record it ends with (the one emitted in short
mode) is the global record of the final candidate: its method is `global`, its score is the
total global alignment score of its read, and no edit of that read scores more. The record of
the last accepted edit is the one of the iteration before. -/
theorem refine_ends_with_global (align : Alignment σ S) (bubble : Bubble) (rec r : Record S)
    (fuel : Nat) (hne : bubble.candidate ≠ [])
    (h : refine align bubble rec fuel = some r) :
    r.methodUsed = "global" ∧
      r.score = editScore align r.read bubble.branches Edit.global ∧
      ∀ e' ∈ scanOrder r.read, editScore align r.read bubble.branches e' ≤ r.score :=
  refineLoop_ends_global align bubble.branches fuel [] bubble.candidate rec r (Or.inl hne) h

theorem runOneToAll_no_branches (align : Alignment σ S) (candidate : List Char)
    (rec : Record S) :
    runOneToAll align candidate [] rec =
      { rec with methodUsed := "global", score := 0, read := candidate } := by
  rw [runOneToAll_eq_foldl]
  have hstep : ∀ (l : List Edit) (r : Record S), r.score = 0 →
      l.foldl (editStep align candidate []) r = r := by
    intro l
    induction l with
    | nil => intro r _; rfl
    | cons e t ih =>
      intro r hr
      have he : editScore align candidate [] e = 0 := by cases e <;> rfl
      have : editStep align candidate [] r e = r :=
        editStep_of_not_lt align candidate [] r e (by rw [hr, he]; exact lt_irrefl _)
      rw [List.foldl_cons, this]
      exact ih r hr
  exact hstep _ _ rfl

/-- With zero branches and a non-empty candidate the loop of `Worker::run` ends after one
iteration with the global record of score `0`. -/
theorem refine_no_branches (align : Alignment σ S) (header : List Char) (position : Int)
    (candidate : List Char) (rec : Record S) (fuel : Nat) (hne : candidate ≠ []) :
    refine align ⟨header, position, candidate, []⟩ rec (fuel + 1) =
      some { rec with methodUsed := "global", score := 0, read := candidate } := by
  show refineLoop align [] (fuel + 1) [] candidate rec = _
  unfold refineLoop
  rw [if_pos hne, runOneToAll_no_branches]
  cases fuel with
  | zero => unfold refineLoop; simp
  | succ n => unfold refineLoop; simp

/-- C3 (the failing case). The file `>h 0 0` followed by an empty candidate line is read as
one bubble with the empty candidate and zero branches, and for such a bubble the loop of
`Worker::run` runs no iteration, whatever the fuel: the record it ends with is the
default-constructed `rec`, untouched (the method `global` and the score `0` are never
assigned). -/
theorem refine_empty_candidate_untouched (align : Alignment σ S) (header : List Char)
    (position : Int) (rec : Record S) (fuel : Nat) :
    readBubbles ['>', 'h', ' ', '0', ' ', '0', '\n', '\n'] =
        some (.ok [{ header := ['h'], position := 0, candidate := [], branches := [] }]) ∧
      refine align ⟨header, position, [], []⟩ rec fuel = some rec := by
  refine ⟨rfl, ?_⟩
  show refineLoop align [] fuel [] [] rec = _
  cases fuel with
  | zero => unfold refineLoop; simp
  | succ n => unfold refineLoop; simp

end Loop

end Polisher

namespace Polisher

/-! ## The Needleman-Wunsch aligner inside the loop -/

theorem probeLoop_eq_add_sum (g : List Char → ℚ) (bs : List (List Char)) (i : Nat)
    (acc : ℚ) : probeLoop (fun _ b => g b) bs i acc = acc + (bs.map g).sum := by
  induction bs generalizing i acc with
  | nil => simp [probeLoop]
  | cons b t ih => simp only [probeLoop, ih, List.map_cons, List.sum_cons]; ring

theorem totalScore_eq_sum (m : ScoreMatrix) (candidate : List Char)
    (branches : List (List Char)) :
    totalScore m candidate branches = (branches.map (nwScore m candidate)).sum := by
  unfold totalScore
  rw [probeLoop_eq_add_sum]; simp

theorem nw_globalLoop (m : ScoreMatrix) (candidate : List Char) (bs : List (List Char)) :
    ∀ (done rest : List (List Char × List Char)) (score : ℚ), rest.length = bs.length →
      globalLoop (nwAlignment m) candidate bs done.length score (done ++ rest) =
        (probeLoop (fun _ b => nwScore m candidate b) bs done.length score,
          done ++ bs.map (fun b => (candidate, b))) := by
  induction bs with
  | nil =>
    intro done rest score h
    have : rest = [] := List.length_eq_zero.mp h
    subst this; rfl
  | cons b t ih =>
    intro done rest score h
    cases rest with
    | nil => simp at h
    | cons r0 rest' =>
      have hlen : rest'.length = t.length := by simpa using h
      have hset : (done ++ r0 :: rest').set done.length (candidate, b) =
          (done ++ [(candidate, b)]) ++ rest' := by
        rw [List.set_append_right _ _ (le_refl _)]; simp
      have h1 := ih (done ++ [(candidate, b)]) rest'
        (score + nwScore m candidate b) hlen
      simp only [List.length_append, List.length_singleton] at h1
      unfold globalLoop
      simp only [nwAlignment, probeLoop, List.map_cons]
      simp only [nwAlignment] at h1
      rw [hset, h1]
      simp

theorem nw_globalLoop_start (m : ScoreMatrix) (candidate : List Char)
    (branches : List (List Char)) :
    globalLoop (nwAlignment m) candidate branches 0 0
        ((nwAlignment m).create branches.length) =
      (totalScore m candidate branches, branches.map (fun b => (candidate, b))) := by
  have := nw_globalLoop m candidate branches [] (List.replicate branches.length ([], [])) 0
    (by simp)
  simpa [nwAlignment, totalScore] using this

theorem probeLoop_slots (G : List Char × List Char → List Char → ℚ) (candidate : List Char)
    (bs : List (List Char)) :
    ∀ (done : List (List Char × List Char)) (acc : ℚ),
      probeLoop (fun i b =>
          G ((done ++ bs.map (fun b => (candidate, b))).getD i ([], [])) b) bs done.length acc =
        probeLoop (fun _ b => G (candidate, b) b) bs done.length acc := by
  induction bs with
  | nil => intro done acc; rfl
  | cons b t ih =>
    intro done acc
    have hst : done ++ (b :: t).map (fun b => (candidate, b)) =
        (done ++ [(candidate, b)]) ++ t.map (fun b => (candidate, b)) := by simp
    have h1 := ih (done ++ [(candidate, b)]) (acc + G (candidate, b) b)
    simp only [List.length_append, List.length_singleton] at h1
    have hget : (done ++ [(candidate, b)] ++ t.map (fun b => (candidate, b))).getD
        done.length ([], []) = (candidate, b) := by
      rw [List.getD_eq_getElem?_getD, List.append_assoc,
        List.getElem?_append_right (le_refl _)]
      simp
    rw [hst]
    unfold probeLoop
    rw [hget, h1]

/-- With the Needleman-Wunsch aligner every probe total is the total alignment score of the
edited candidate. -/
theorem nw_editScore (m : ScoreMatrix) (candidate : List Char) (branches : List (List Char))
    (e : Edit) (he : e.InRange candidate) :
    editScore (nwAlignment m) candidate branches e =
      totalScore m (e.applyTo candidate) branches := by
  cases e with
  | global =>
    show (globalLoop (nwAlignment m) candidate branches 0 0 _).1 = _
    rw [nw_globalLoop_start]; rfl
  | deletion i =>
    show probeLoop _ branches 0 0 = _
    rw [nw_globalLoop_start]
    have := probeLoop_slots (fun p _ => nwScore m (strErase p.1 i) p.2) candidate branches [] 0
    simp only [List.nil_append, List.length_nil] at this
    simp only [nwAlignment, Nat.add_sub_cancel]
    rw [this, Edit.applyTo, ← strErase_eq_eraseIdx]; rfl
  | substitution i c =>
    show probeLoop _ branches 0 0 = _
    rw [nw_globalLoop_start]
    have := probeLoop_slots (fun p b => nwScore m (strInsert (strErase p.1 i) i c) b)
      candidate branches [] 0
    simp only [List.nil_append, List.length_nil] at this
    simp only [nwAlignment, Nat.add_sub_cancel]
    rw [this, Edit.applyTo, ← strInsert_strErase_eq_set _ _ _ he.1]; rfl
  | insertion i c =>
    show probeLoop _ branches 0 0 = _
    rw [nw_globalLoop_start]
    have := probeLoop_slots (fun p b => nwScore m (strInsert p.1 i c) b) candidate branches [] 0
    simp only [List.nil_append, List.length_nil] at this
    simp only [nwAlignment, Nat.add_sub_cancel]
    rw [this, Edit.applyTo, ← strInsert_eq_insertIdx _ _ _ he]; rfl

/-- One iteration with the Needleman-Wunsch aligner: the record's score is the total score
of its read, it is at least the total score of the candidate, and strictly more when the
read differs from the candidate. -/
theorem nw_runOneToAll_score (m : ScoreMatrix) (candidate : List Char)
    (branches : List (List Char)) (rec : Record ℚ) :
    (runOneToAll (nwAlignment m) candidate branches rec).score =
        totalScore m (runOneToAll (nwAlignment m) candidate branches rec).read branches ∧
      (∀ e ∈ scanOrder candidate, totalScore m (e.applyTo candidate) branches ≤
        (runOneToAll (nwAlignment m) candidate branches rec).score) ∧
      ((runOneToAll (nwAlignment m) candidate branches rec).read ≠ candidate →
        totalScore m candidate branches <
          (runOneToAll (nwAlignment m) candidate branches rec).score) := by
  obtain ⟨k, e, hk, hd, hfirst, hmax⟩ :=
    runOneToAll_describes_first_max (nwAlignment m) candidate branches rec
  have hin := inRange_of_mem_scanOrder candidate e (List.getElem?_mem hk)
  have h0 : (scanOrder candidate)[0]? = some Edit.global := by unfold scanOrder; simp
  refine ⟨?_, ?_, ?_⟩
  · rw [hd.2.1, hd.2.2.1]; exact nw_editScore m candidate branches e hin
  · intro e' he'
    rw [hd.2.1, ← nw_editScore m candidate branches e' (inRange_of_mem_scanOrder _ _ he')]
    exact hmax e' he'
  · intro hne
    have hk0 : k ≠ 0 := by
      intro hk0
      subst hk0
      rw [h0] at hk
      have he : e = Edit.global := (Option.some.inj hk).symm
      subst he
      exact hne hd.2.2.1
    have := hfirst 0 Edit.global (Nat.pos_of_ne_zero hk0) h0
    rw [nw_editScore m candidate branches Edit.global trivial] at this
    rw [hd.2.1]
    exact this

end Polisher

namespace Polisher

/-! ## Termination of the refinement loop -/

theorem le_foldl_max (l : List ℚ) (a : ℚ) : a ≤ l.foldl max a ∧ ∀ x ∈ l, x ≤ l.foldl max a := by
  induction l generalizing a with
  | nil => simp
  | cons y t ih =>
    obtain ⟨h1, h2⟩ := ih (max a y)
    refine ⟨le_trans (le_max_left a y) h1, ?_⟩
    intro x hx
    rcases List.mem_cons.mp hx with rfl | hx
    · exact le_trans (le_max_right a x) h1
    · exact h2 x hx

theorem table_le_maxScore (m : ScoreMatrix) (i j : Fin 5) : m.table i j ≤ m.maxScore := by
  unfold ScoreMatrix.maxScore
  apply (le_foldl_max _ _).2
  simp only [List.mem_flatMap, List.mem_map, List.mem_finRange, true_and]
  exact ⟨i, j, rfl⟩

theorem symbolIndex_gap : symbolIndex '-' = 4 := by decide

theorem nwGapRow_le (m : ScoreMatrix) (b : List Char) :
    nwGapRow m b ≤ (b.length : ℚ) * m.maxScore := by
  induction b with
  | nil => simp [nwGapRow]
  | cons y t ih =>
    have := table_le_maxScore m (symbolIndex '-') (symbolIndex y)
    simp only [nwGapRow, ScoreMatrix.getScore, List.length_cons, Nat.cast_add, Nat.cast_one]
    linarith

theorem nwStep_le (m : ScoreMatrix) (hgap : ∀ i, m.table i 4 ≤ 0) (x : Char)
    (prev : List Char → ℚ) (hprev : ∀ b, prev b ≤ (b.length : ℚ) * m.maxScore)
    (b : List Char) : nwStep m x prev b ≤ (b.length : ℚ) * m.maxScore := by
  induction b with
  | nil =>
    have h1 := hprev []
    have h2 := hgap (symbolIndex x)
    simp only [nwStep, ScoreMatrix.getScore, symbolIndex_gap, List.length_nil] at h1 ⊢
    simp only [Nat.cast_zero, zero_mul] at h1 ⊢
    linarith
  | cons y t ih =>
    have h1 := hprev t
    have h2 := hprev (y :: t)
    have h3 := hgap (symbolIndex x)
    have h4 := table_le_maxScore m (symbolIndex x) (symbolIndex y)
    have h5 := table_le_maxScore m (symbolIndex '-') (symbolIndex y)
    simp only [List.length_cons, Nat.cast_add, Nat.cast_one] at h2 ⊢
    simp only [nwStep, ScoreMatrix.getScore, symbolIndex_gap] at h5 ⊢
    refine max_le ?_ (max_le ?_ ?_) <;> linarith

theorem nwScore_le (m : ScoreMatrix) (hgap : ∀ i, m.table i 4 ≤ 0) (c b : List Char) :
    nwScore m c b ≤ (b.length : ℚ) * m.maxScore := by
  induction c generalizing b with
  | nil => exact nwGapRow_le m b
  | cons x t ih => exact nwStep_le m hgap x (nwScore m t) ih b

theorem totalScore_le_scoreBound (m : ScoreMatrix) (hgap : ∀ i, m.table i 4 ≤ 0)
    (candidate : List Char) (branches : List (List Char)) :
    totalScore m candidate branches ≤ scoreBound m branches := by
  rw [totalScore_eq_sum]
  unfold scoreBound
  induction branches with
  | nil => simp
  | cons b t ih =>
    have := nwScore_le m hgap candidate b
    simp only [List.map_cons, List.sum_cons]
    linarith

/-! ### Scores are multiples of `1 / denominator` -/

theorem denominator_pos (m : ScoreMatrix) : 0 < m.denominator := by
  unfold ScoreMatrix.denominator
  apply List.prod_pos
  intro a ha
  simp only [List.mem_flatMap, List.mem_map, List.mem_finRange, true_and] at ha
  obtain ⟨i, j, h⟩ := ha
  rw [← h]
  exact (m.table i j).den_pos

theorem table_multiple (m : ScoreMatrix) (i j : Fin 5) :
    ∃ z : Int, m.table i j * (m.denominator : ℚ) = z := by
  have hdvd : (m.table i j).den ∣ m.denominator := by
    unfold ScoreMatrix.denominator
    apply List.dvd_prod
    simp only [List.mem_flatMap, List.mem_map, List.mem_finRange, true_and]
    exact ⟨i, j, rfl⟩
  obtain ⟨k, hk⟩ := hdvd
  refine ⟨(m.table i j).num * k, ?_⟩
  have hden : ((m.table i j).den : ℚ) ≠ 0 := by
    exact_mod_cast (m.table i j).den_pos.ne.symm
  rw [hk]
  push_cast
  rw [← mul_assoc, Rat.mul_den_eq_num]

theorem multiple_add (D a b : ℚ) (ha : ∃ z : Int, a * D = z) (hb : ∃ z : Int, b * D = z) :
    ∃ z : Int, (a + b) * D = z := by
  obtain ⟨x, hx⟩ := ha
  obtain ⟨y, hy⟩ := hb
  exact ⟨x + y, by push_cast; rw [add_mul, hx, hy]⟩

theorem multiple_max (D a b : ℚ) (ha : ∃ z : Int, a * D = z) (hb : ∃ z : Int, b * D = z) :
    ∃ z : Int, (max a b) * D = z := by
  rcases max_choice a b with h | h <;> rw [h]
  · exact ha
  · exact hb

theorem nwGapRow_multiple (m : ScoreMatrix) (b : List Char) :
    ∃ z : Int, nwGapRow m b * (m.denominator : ℚ) = z := by
  induction b with
  | nil => exact ⟨0, by simp [nwGapRow]⟩
  | cons y t ih => exact multiple_add _ _ _ ih (table_multiple m _ _)

theorem nwStep_multiple (m : ScoreMatrix) (x : Char) (prev : List Char → ℚ)
    (hprev : ∀ b, ∃ z : Int, prev b * (m.denominator : ℚ) = z) (b : List Char) :
    ∃ z : Int, nwStep m x prev b * (m.denominator : ℚ) = z := by
  induction b with
  | nil => exact multiple_add _ _ _ (hprev []) (table_multiple m _ _)
  | cons y t ih =>
    exact multiple_max _ _ _ (multiple_add _ _ _ (hprev t) (table_multiple m _ _))
      (multiple_max _ _ _ (multiple_add _ _ _ (hprev (y :: t)) (table_multiple m _ _))
        (multiple_add _ _ _ ih (table_multiple m _ _)))

theorem nwScore_multiple (m : ScoreMatrix) (c b : List Char) :
    ∃ z : Int, nwScore m c b * (m.denominator : ℚ) = z := by
  induction c generalizing b with
  | nil => exact nwGapRow_multiple m b
  | cons x t ih => exact nwStep_multiple m x (nwScore m t) ih b

theorem totalScore_multiple (m : ScoreMatrix) (candidate : List Char)
    (branches : List (List Char)) :
    ∃ z : Int, totalScore m candidate branches * (m.denominator : ℚ) = z := by
  rw [totalScore_eq_sum]
  induction branches with
  | nil => exact ⟨0, by simp⟩
  | cons b t ih =>
    simp only [List.map_cons, List.sum_cons]
    exact multiple_add _ _ _ (nwScore_multiple m candidate b) ih

/-- A strict increase of the total score is an increase by at least `1 / denominator`. -/
theorem totalScore_step (m : ScoreMatrix) (c1 c2 : List Char) (branches : List (List Char))
    (h : totalScore m c1 branches < totalScore m c2 branches) :
    totalScore m c1 branches * (m.denominator : ℚ) + 1 ≤
      totalScore m c2 branches * (m.denominator : ℚ) := by
  obtain ⟨x, hx⟩ := totalScore_multiple m c1 branches
  obtain ⟨y, hy⟩ := totalScore_multiple m c2 branches
  have hD : (0 : ℚ) < (m.denominator : ℚ) := by exact_mod_cast denominator_pos m
  have hlt : totalScore m c1 branches * (m.denominator : ℚ) <
      totalScore m c2 branches * (m.denominator : ℚ) := mul_lt_mul_of_pos_right h hD
  rw [hx, hy] at hlt ⊢
  have : x < y := by exact_mod_cast hlt
  have h2 : x + 1 ≤ y := this
  exact_mod_cast h2

theorem nw_refineLoop_terminates (m : ScoreMatrix) (hgap : ∀ i, m.table i 4 ≤ 0)
    (branches : List (List Char)) (d : Nat) :
    ∀ (prevCandidate curCandidate : List Char) (rec : Record ℚ),
      (scoreBound m branches - totalScore m curCandidate branches) * (m.denominator : ℚ) ≤ d →
      ∃ r, refineLoop (nwAlignment m) branches (d + 1) prevCandidate curCandidate rec =
        some r := by
  induction d with
  | zero =>
    intro prev cur rec hd
    unfold refineLoop
    by_cases hne : cur ≠ prev
    · rw [if_pos hne]
      have hs := nw_runOneToAll_score m cur branches rec
      have hfix : (runOneToAll (nwAlignment m) cur branches rec).read = cur := by
        by_contra hcon
        have h1 := hs.2.2 hcon
        rw [hs.1] at h1
        have h2 := totalScore_le_scoreBound m hgap
          (runOneToAll (nwAlignment m) cur branches rec).read branches
        have h3 := totalScore_step m _ _ branches h1
        have hD : (0 : ℚ) < (m.denominator : ℚ) := by exact_mod_cast denominator_pos m
        have h4 := mul_le_mul_of_nonneg_right h2 (le_of_lt hD)
        simp only [Nat.cast_zero] at hd
        rw [sub_mul] at hd
        linarith
      unfold refineLoop
      rw [hfix]
      simp
    · rw [if_neg hne]; exact ⟨rec, rfl⟩
  | succ n ih =>
    intro prev cur rec hd
    rw [refineLoop]
    by_cases hne : cur ≠ prev
    · rw [if_pos hne]
      have hs := nw_runOneToAll_score m cur branches rec
      by_cases hfix : (runOneToAll (nwAlignment m) cur branches rec).read = cur
      · rw [hfix]
        rw [refineLoop]
        simp
      · apply ih
        have h1 := hs.2.2 hfix
        rw [hs.1] at h1
        have h3 := totalScore_step m _ _ branches h1
        push_cast at hd
        rw [sub_mul] at hd ⊢
        linarith
    · rw [if_neg hne]; exact ⟨rec, rfl⟩

theorem le_ceiling_toNat (q : ℚ) : q ≤ ((ceiling q).toNat : ℚ) := by
  have h1 : ((Rat.floor (-q) : Int) : ℚ) ≤ -q := Int.floor_le _
  have h2 : (ceiling q : ℚ) ≤ (((ceiling q).toNat : Int) : ℚ) := by
    exact_mod_cast Int.self_le_toNat _
  unfold ceiling at h2 ⊢
  push_cast at h2 ⊢
  linarith

/-- C5 (amended). For every bubble and every 5x5 score matrix of rational scores (every
`double` is one) in which no symbol scores more than `0` against a gap in the branch (column
`-`), with the probes returning the Needleman-Wunsch score of the edited candidate against
each branch: the total score of any candidate is at most `Σ_k |branch_k| · max_score`, every
iteration of the loop of `Worker::run` that changes the candidate strictly increases the
total score, and the loop terminates, within
`⌈(Σ_k |branch_k| · max_score - total(candidate)) · D⌉ + 1` iterations, where `D` is a common
denominator of the matrix entries. -/
theorem refine_terminates (m : ScoreMatrix) (hgap : ∀ i, m.table i 4 ≤ 0) (bubble : Bubble)
    (rec : Record ℚ) :
    (∀ candidate, totalScore m candidate bubble.branches ≤ scoreBound m bubble.branches) ∧
    (∀ candidate rec1,
      (runOneToAll (nwAlignment m) candidate bubble.branches rec1).read ≠ candidate →
      totalScore m candidate bubble.branches <
        totalScore m (runOneToAll (nwAlignment m) candidate bubble.branches rec1).read
          bubble.branches) ∧
    ∃ r, refine (nwAlignment m) bubble rec
      ((ceiling ((scoreBound m bubble.branches -
          totalScore m bubble.candidate bubble.branches) * (m.denominator : ℚ))).toNat + 1)
        = some r := by
  refine ⟨fun c => totalScore_le_scoreBound m hgap c bubble.branches, ?_, ?_⟩
  · intro c rec1 hne
    have hs := nw_runOneToAll_score m c bubble.branches rec1
    rw [← hs.1]
    exact hs.2.2 hne
  · exact nw_refineLoop_terminates m hgap bubble.branches _ [] bubble.candidate rec
      (le_ceiling_toNat _)

end Polisher

namespace Polisher

/-! ## Scenario S1 and a matrix with positive gap scores -/

set_option maxRecDepth 100000

/-- C2 (counterexample). Scenario S1 (candidate `ACGTA`, three branches `ACTA`, match `+1`,
mismatch `-1`, gap `-2`): the first iteration accepts the deletion at index 2 (read `ACTA`,
score 12), yet the record the loop ends with has method `global`, not `deletion`. -/
theorem refine_S1_ends_global :
    ((runOneToAll (nwAlignment scenarioMatrix) scenarioS1.candidate scenarioS1.branches
        Record.initial).methodUsed = "deletion" ∧
      (runOneToAll (nwAlignment scenarioMatrix) scenarioS1.candidate scenarioS1.branches
        Record.initial).del_index = 2) ∧
    (refine (nwAlignment scenarioMatrix) scenarioS1 Record.initial 2).map
        (fun r => (r.methodUsed, r.score, r.read)) =
      some ("global", 12, ['A', 'C', 'T', 'A']) ∧
    ¬ ∃ r, refine (nwAlignment scenarioMatrix) scenarioS1 Record.initial 2 = some r ∧
        (r.methodUsed = "deletion" ∨ r.methodUsed = "substitution" ∨
          r.methodUsed = "insertion") := by
  have h : refine (nwAlignment scenarioMatrix) scenarioS1 Record.initial 2 =
      some { methodUsed := "global", score := 12, read := ['A', 'C', 'T', 'A'],
             del_index := 2, sub_index := 0, sub_letter := 'A', ins_index := 0,
             ins_letter := 'A' } := by decide!
  refine ⟨by decide!, by rw [h]; rfl, ?_⟩
  rintro ⟨r, hr, hm⟩
  rw [h] at hr
  cases hr
  revert hm
  decide

/-- Witness for C2 (amended): scenario S1. -/
theorem refine_ends_with_global_witness :
    scenarioS1.candidate ≠ [] ∧
    refine (nwAlignment scenarioMatrix) scenarioS1 Record.initial 2 =
      some { methodUsed := "global", score := 12, read := ['A', 'C', 'T', 'A'],
             del_index := 2, sub_index := 0, sub_letter := 'A', ins_index := 0,
             ins_letter := 'A' } ∧
    ((12 : ℚ) = editScore (nwAlignment scenarioMatrix) ['A', 'C', 'T', 'A']
        scenarioS1.branches Edit.global ∧
      ∀ e' ∈ scanOrder ['A', 'C', 'T', 'A'],
        editScore (nwAlignment scenarioMatrix) ['A', 'C', 'T', 'A'] scenarioS1.branches e' ≤
          (12 : ℚ)) :=
  ⟨by decide!, by decide!,
    (refine_ends_with_global (nwAlignment scenarioMatrix) scenarioS1 Record.initial
      { methodUsed := "global", score := 12, read := ['A', 'C', 'T', 'A'],
        del_index := 2, sub_index := 0, sub_letter := 'A', ins_index := 0,
        ins_letter := 'A' } 2 (by decide!) (by decide!)).2⟩

/-- Witness for C5 (amended): scenario S1 with the scenario matrix, and with a matrix of
fractional scores. -/
theorem refine_terminates_witness :
    (∀ i, scenarioMatrix.table i 4 ≤ 0) ∧
    (∃ r, refine (nwAlignment scenarioMatrix) scenarioS1 Record.initial
      ((ceiling ((scoreBound scenarioMatrix scenarioS1.branches -
          totalScore scenarioMatrix scenarioS1.candidate scenarioS1.branches) *
            (scenarioMatrix.denominator : ℚ))).toNat + 1) =
        some r) ∧
    (∀ i, fractionMatrix.table i 4 ≤ 0) ∧
    (∀ candidate, totalScore fractionMatrix candidate scenarioS1.branches ≤
      scoreBound fractionMatrix scenarioS1.branches) ∧
    scoreBound fractionMatrix scenarioS1.branches = 18 ∧
    totalScore fractionMatrix scenarioS1.candidate scenarioS1.branches = 57 / 4 ∧
    (runOneToAll (nwAlignment fractionMatrix) scenarioS1.candidate scenarioS1.branches
      Record.initial).score = 18 :=
  ⟨by decide!, (refine_terminates scenarioMatrix (by decide!) scenarioS1 Record.initial).2.2,
    by decide!, (refine_terminates fractionMatrix (by decide!) scenarioS1 Record.initial).1,
    by decide!, by decide!, by decide!⟩

theorem getScore_ones (a b : Char) : onesMatrix.getScore a b = 1 := rfl

theorem nwScore_ones (c b : List Char) :
    nwScore onesMatrix c b = (c.length : ℚ) + (b.length : ℚ) := by
  induction c generalizing b with
  | nil =>
    show nwGapRow onesMatrix b = _
    induction b with
    | nil => simp [nwGapRow]
    | cons y t ih =>
      simp only [nwGapRow, ih, getScore_ones, List.length_cons, List.length_nil]
      push_cast; ring
  | cons x t ih =>
    show nwStep onesMatrix x (nwScore onesMatrix t) b = _
    induction b with
    | nil =>
      simp only [nwStep, ih, getScore_ones, List.length_cons, List.length_nil]
      push_cast; ring
    | cons y s ihb =>
      simp only [nwStep, ih, ihb, getScore_ones, List.length_cons]
      push_cast
      have e1 : max ((t.length : ℚ) + ((s.length : ℚ) + 1) + 1)
          ((t.length : ℚ) + 1 + (s.length : ℚ) + 1) =
          (t.length : ℚ) + 1 + (s.length : ℚ) + 1 := max_eq_right (by linarith)
      rw [e1, max_eq_right (by linarith)]
      ring

theorem totalScore_ones_S1 (c : List Char) :
    totalScore onesMatrix c scenarioS1.branches = 3 * (c.length : ℚ) + 12 := by
  rw [totalScore_eq_sum]
  simp only [scenarioS1, List.map_cons, List.map_nil, List.sum_cons, List.sum_nil,
    nwScore_ones, List.length_cons, List.length_nil]
  push_cast; ring

theorem ones_runOneToAll_changes (cur : List Char) (rec : Record ℚ) :
    (runOneToAll (nwAlignment onesMatrix) cur scenarioS1.branches rec).read ≠ cur := by
  intro hfix
  have hs := nw_runOneToAll_score onesMatrix cur scenarioS1.branches rec
  have hmem : Edit.insertion 0 'A' ∈ scanOrder cur := by
    unfold scanOrder
    simp only [List.mem_cons, List.mem_append, List.mem_map, List.mem_flatMap, List.mem_range]
    right; right; right
    exact ⟨0, Nat.succ_pos _, by simp [alphabet]⟩
  have h1 := hs.2.1 _ hmem
  rw [hs.1, hfix] at h1
  have h2 : (Edit.insertion 0 'A').applyTo cur = 'A' :: cur := by
    cases cur <;> rfl
  rw [h2, totalScore_ones_S1, totalScore_ones_S1] at h1
  simp only [List.length_cons] at h1
  push_cast at h1
  linarith

theorem ones_refineLoop_none (fuel : Nat) :
    ∀ (prevCandidate curCandidate : List Char) (rec : Record ℚ),
      curCandidate ≠ prevCandidate →
      refineLoop (nwAlignment onesMatrix) scenarioS1.branches fuel prevCandidate
        curCandidate rec = none := by
  induction fuel with
  | zero => intro prev cur rec hne; unfold refineLoop; rw [if_pos hne]
  | succ n ih =>
    intro prev cur rec hne
    unfold refineLoop
    rw [if_pos hne]
    exact ih _ _ _ (ones_runOneToAll_changes cur rec)

/-- C5 (counterexample). With the score matrix whose entries are all `+1` and the bubble of
scenario S1, the total score of the candidate already exceeds `Σ_k |branch_k| · max_score`,
and the refinement loop of `Worker::run` never terminates: no number of iterations is
enough. -/
theorem refine_ones_never_terminates :
    scoreBound onesMatrix scenarioS1.branches <
        totalScore onesMatrix scenarioS1.candidate scenarioS1.branches ∧
    ¬ ∃ fuel r, refine (nwAlignment onesMatrix) scenarioS1 Record.initial fuel = some r := by
  refine ⟨by decide!, ?_⟩
  rintro ⟨fuel, r, h⟩
  have := ones_refineLoop_none fuel [] scenarioS1.candidate Record.initial (by decide)
  unfold refine at h
  rw [this] at h
  cases h

end Polisher

namespace Polisher

/-! ## Streams and `splitString` -/

theorem extractLine_of_mem (delim : Char) (a rest acc : List Char) (ha : delim ∉ a) :
    extractLine delim (a ++ delim :: rest) acc =
      ({ rest := rest, eofbit := false, failbit := false }, acc ++ a) := by
  induction a generalizing acc with
  | nil => simp [extractLine]
  | cons c t ih =>
    have hc : c ≠ delim := fun h => ha (by simp [h])
    have ht : delim ∉ t := fun h => ha (List.mem_cons_of_mem _ h)
    rw [List.cons_append, extractLine, if_neg hc, ih _ ht]
    simp

theorem extractLine_of_not_mem (delim : Char) (a acc : List Char) (ha : delim ∉ a) :
    extractLine delim a acc =
      ({ rest := [], eofbit := true, failbit := (acc ++ a).isEmpty }, acc ++ a) := by
  induction a generalizing acc with
  | nil => simp [extractLine]
  | cons c t ih =>
    have hc : c ≠ delim := fun h => ha (by simp [h])
    have ht : delim ∉ t := fun h => ha (List.mem_cons_of_mem _ h)
    simp only [extractLine, if_neg hc]
    rw [ih _ ht]
    simp

/-- The call `getline` on a good stream whose text starts with a complete line. -/
theorem getline_line (line rest str : List Char) (h : '\n' ∉ line) :
    getline (IStream.ofText (line ++ '\n' :: rest)) str = (IStream.ofText rest, line) := by
  unfold getline getlineDelim IStream.ofText
  simp [extractLine_of_mem '\n' line rest [] h]

/-- The call `getline` on a good stream with nothing left: both bits are set, the string is empty. -/
theorem getline_end (str : List Char) :
    getline (IStream.ofText []) str =
      ({ rest := [], eofbit := true, failbit := true }, []) := by
  unfold getline getlineDelim IStream.ofText
  simp [extractLine]

theorem exists_split_of_mem (delim : Char) (s : List Char) (h : delim ∈ s) :
    ∃ a rest, s = a ++ delim :: rest ∧ delim ∉ a := by
  induction s with
  | nil => simp at h
  | cons c t ih =>
    by_cases hc : c = delim
    · exact ⟨[], t, by simp [hc], by simp⟩
    · have ht : delim ∈ t := by
        rcases List.mem_cons.mp h with h1 | h1
        · exact absurd h1.symm hc
        · exact h1
      obtain ⟨a, rest, hs, ha⟩ := ih ht
      refine ⟨c :: a, rest, by simp [hs], ?_⟩
      intro hmem
      rcases List.mem_cons.mp hmem with h1 | h1
      · exact hc h1.symm
      · exact ha h1

theorem splitPieces_of_mem (delim : Char) (a rest acc : List Char) (ha : delim ∉ a) :
    splitPieces delim (a ++ delim :: rest) acc = (acc ++ a) :: splitPieces delim rest [] := by
  induction a generalizing acc with
  | nil => simp [splitPieces]
  | cons c t ih =>
    have hc : c ≠ delim := fun h => ha (by simp [h])
    have ht : delim ∉ t := fun h => ha (List.mem_cons_of_mem _ h)
    rw [List.cons_append, splitPieces, if_neg hc, ih _ ht]
    simp

theorem splitPieces_of_not_mem (delim : Char) (a acc : List Char) (ha : delim ∉ a) :
    splitPieces delim a acc = if (acc ++ a).isEmpty then [] else [acc ++ a] := by
  induction a generalizing acc with
  | nil => simp [splitPieces]
  | cons c t ih =>
    have hc : c ≠ delim := fun h => ha (by simp [h])
    have ht : delim ∉ t := fun h => ha (List.mem_cons_of_mem _ h)
    simp only [splitPieces, if_neg hc]
    rw [ih _ ht]
    simp

/-- The pieces `splitString` returns: the text between delimiters, without a last empty
piece. -/
theorem splitLoop_eq (delim : Char) (fuel : Nat) :
    ∀ (s item : List Char) (elems : List (List Char)), s.length + 2 ≤ fuel →
      splitLoop delim fuel (IStream.ofText s) item elems = elems ++ splitPieces delim s [] := by
  induction fuel with
  | zero => intro s item elems h; omega
  | succ n ih =>
    intro s item elems h
    by_cases hmem : delim ∈ s
    · obtain ⟨a, rest, hs, ha⟩ := exists_split_of_mem delim s hmem
      subst hs
      have hg : getlineDelim (IStream.ofText (a ++ delim :: rest)) item delim =
          (IStream.ofText rest, a) := by
        unfold getlineDelim IStream.ofText
        simp [extractLine_of_mem delim a rest [] ha]
      have hlen : rest.length + 2 ≤ n := by
        simp only [List.length_append, List.length_cons] at h; omega
      unfold splitLoop
      rw [hg]
      simp only [IStream.ofText, Bool.false_eq_true, if_false]
      have := ih rest a (elems ++ [a]) hlen
      simp only [IStream.ofText] at this
      rw [this, splitPieces_of_mem delim a rest [] ha]
      simp
    · have hg : getlineDelim (IStream.ofText s) item delim =
          ({ rest := [], eofbit := true, failbit := s.isEmpty }, s) := by
        unfold getlineDelim IStream.ofText
        simp [extractLine_of_not_mem delim s [] hmem]
      unfold splitLoop
      rw [hg]
      cases s with
      | nil => simp [splitPieces]
      | cons c t =>
        simp only [List.isEmpty_cons, Bool.false_eq_true, if_false]
        rw [splitPieces_of_not_mem delim (c :: t) [] hmem]
        cases n with
        | zero => simp at h
        | succ k =>
          unfold splitLoop
          simp [getlineDelim]

theorem splitString_eq (s : List Char) (delim : Char) :
    splitString s delim = splitPieces delim s [] := by
  unfold splitString
  rw [splitLoop_eq delim _ s [] [] (le_refl _)]
  simp

end Polisher

namespace Polisher

/-! ## Header lines of `readBubbles` -/

theorem isspace_of_isDigit (c : Char) (h : c.isDigit = true) : isspace c = false := by
  have h1 : 48 ≤ c.toNat ∧ c.toNat ≤ 57 := by
    simp only [Char.isDigit, Bool.and_eq_true, decide_eq_true_eq] at h
    exact ⟨h.1, h.2⟩
  have h2 : c ≠ ' ' := by
    intro hc; subst hc
    revert h; decide
  simp only [isspace, Bool.or_eq_false_iff, decide_eq_false_iff_not, Bool.and_eq_false_imp,
    decide_eq_true_eq]
  refine ⟨h2, ?_⟩
  intro h3
  omega

end Polisher

namespace Polisher

/-- C7 (the failing case). The header of the file `>h 0 2 / ACGT / >r1 / AC` declares two
reads and the input ends after the first one: `readBubbles` throws nothing and returns the
bubble, the missing read replaced by an empty branch when the file ends with a newline and
by a repeat of the last read when it does not. -/
theorem readBubbles_missing_read_accepted :
    readBubbles ['>', 'h', ' ', '0', ' ', '2', '\n', 'A', 'C', 'G', 'T', '\n',
        '>', 'r', '1', '\n', 'A', 'C', '\n'] =
      some (.ok [{ header := ['h'], position := 0, candidate := ['A', 'C', 'G', 'T'],
                   branches := [['A', 'C'], []] }]) ∧
    readBubbles ['>', 'h', ' ', '0', ' ', '2', '\n', 'A', 'C', 'G', 'T', '\n',
        '>', 'r', '1', '\n', 'A', 'C'] =
      some (.ok [{ header := ['h'], position := 0, candidate := ['A', 'C', 'G', 'T'],
                   branches := [['A', 'C'], ['A', 'C']] }]) := by
  constructor <;> rfl

end Polisher

namespace Polisher

/-! ## Files that follow the grammar -/

theorem not_mem_of_isDecimal (tok : List Char) (h : IsDecimal tok) (c : Char)
    (hc : c.isDigit = false) : c ∉ tok := by
  intro hmem
  rw [h.2 c hmem] at hc
  cases hc

theorem stoi_decimal (tok : List Char) (h : IsDecimal tok)
    (hfit : (digitsValue tok : Int) ≤ 2147483647) :
    stoi tok = .ok (digitsValue tok : Int) := by
  obtain ⟨c, t, rfl⟩ := List.exists_cons_of_ne_nil h.1
  have hc : c.isDigit = true := h.2 c (by simp)
  have hsp : isspace c = false := isspace_of_isDigit c hc
  have hdrop : (c :: t).dropWhile isspace = c :: t := by simp [List.dropWhile, hsp]
  have hminus : c ≠ '-' := by intro hh; subst hh; revert hc; decide
  have hplus : c ≠ '+' := by intro hh; subst hh; revert hc; decide
  have hbody : stoiBody (c :: t) = c :: t := by
    unfold stoiBody
    rw [hdrop]
    simp [hminus, hplus]
  have htake : (c :: t).takeWhile Char.isDigit = c :: t :=
    List.takeWhile_eq_self_iff.mpr h.2
  have hval : stoiValue (c :: t) = (digitsValue (c :: t) : Int) := by
    unfold stoiValue
    rw [hdrop, hbody, htake]
    simp [hminus]
  unfold stoi
  rw [hbody, htake, hval]
  have hnn : (0 : Int) ≤ (digitsValue (c :: t) : Int) := Int.natCast_nonneg _
  rw [if_neg (by simp), if_neg (by omega)]

theorem stoi_minus_decimal (tok : List Char) (hhead : tok.head? = some '-')
    (h : IsDecimal tok.tail) (hfit : -2147483648 ≤ -(digitsValue tok.tail : Int)) :
    stoi tok = .ok (-(digitsValue tok.tail : Int)) := by
  cases tok with
  | nil => simp at hhead
  | cons c t =>
    simp only [List.head?_cons, Option.some.injEq] at hhead
    subst hhead
    simp only [List.tail_cons] at h hfit ⊢
    have hdrop : ('-' :: t).dropWhile isspace = '-' :: t := by
      have : isspace '-' = false := by decide
      simp [List.dropWhile, this]
    have hbody : stoiBody ('-' :: t) = t := by
      unfold stoiBody
      rw [hdrop]
      simp
    have htake : t.takeWhile Char.isDigit = t := List.takeWhile_eq_self_iff.mpr h.2
    have hval : stoiValue ('-' :: t) = -(digitsValue t : Int) := by
      unfold stoiValue
      rw [hdrop, hbody, htake]
      simp
    unfold stoi
    rw [hbody, htake, hval]
    have hne : t.isEmpty = false := by
      cases t with
      | nil => exact absurd rfl h.1
      | cons _ _ => rfl
    have hnn : (0 : Int) ≤ (digitsValue t : Int) := Int.natCast_nonneg _
    rw [if_neg (by simp [hne]), if_neg (by omega)]

theorem stoi_position (b : BubbleBlock) (hwf : b.WellFormed) (hfit : b.FitsInt) :
    stoi b.position = .ok (decimalValue b.position) := by
  rcases hwf.2.1 with hdec | ⟨hhead, hdec⟩
  · have hne : b.position.head? ≠ some '-' := by
      obtain ⟨c, t, hct⟩ := List.exists_cons_of_ne_nil hdec.1
      rw [hct]
      have hc : c.isDigit = true := hdec.2 c (by rw [hct]; simp)
      simp only [List.head?_cons, ne_eq, Option.some.injEq]
      intro hh; subst hh; revert hc; decide
    have hv : decimalValue b.position = (digitsValue b.position : Int) := by
      unfold decimalValue; rw [if_neg hne]
    rw [hv]
    apply stoi_decimal _ hdec
    rw [← hv]; exact hfit.2.1
  · have hv : decimalValue b.position = -(digitsValue b.position.tail : Int) := by
      unfold decimalValue; rw [if_pos hhead]
    rw [hv]
    apply stoi_minus_decimal _ hhead hdec
    rw [← hv]; exact hfit.1

theorem splitString_headerLine (b : BubbleBlock) (hwf : b.WellFormed) :
    splitString b.headerLine ' ' = ['>' :: b.header, b.position, b.numReads] := by
  have h0 : ' ' ∉ '>' :: b.header := by
    intro hmem
    rcases List.mem_cons.mp hmem with h | h
    · revert h; decide
    · have := hwf.1 ' ' h
      revert this; decide
  have h1 : ' ' ∉ b.position := by
    rcases hwf.2.1 with hdec | ⟨hhead, hdec⟩
    · exact not_mem_of_isDecimal _ hdec ' ' (by decide)
    · intro hmem
      cases hp : b.position with
      | nil => rw [hp] at hmem; simp at hmem
      | cons c t =>
        rw [hp] at hmem hhead hdec
        simp only [List.head?_cons, Option.some.injEq] at hhead
        simp only [List.tail_cons] at hdec
        rcases List.mem_cons.mp hmem with h | h
        · rw [← h] at hhead; revert hhead; decide
        · exact not_mem_of_isDecimal _ hdec ' ' (by decide) h
  have h2 : ' ' ∉ b.numReads := not_mem_of_isDecimal _ hwf.2.2.1 ' ' (by decide)
  have h3 : b.numReads.isEmpty = false := by
    cases hn : b.numReads with
    | nil => exact absurd hn hwf.2.2.1.1
    | cons _ _ => rfl
  rw [splitString_eq]
  unfold BubbleBlock.headerLine
  have e1 : '>' :: b.header ++ ' ' :: b.position ++ ' ' :: b.numReads =
      ('>' :: b.header) ++ ' ' :: (b.position ++ ' ' :: b.numReads) := by simp
  rw [e1, splitPieces_of_mem ' ' _ _ [] h0, splitPieces_of_mem ' ' _ _ [] h1,
    splitPieces_of_not_mem ' ' _ [] h2]
  simp [h3]

theorem headerLine_no_newline (b : BubbleBlock) (hwf : b.WellFormed) :
    '\n' ∉ b.headerLine := by
  have h0 : '\n' ∉ b.header := by
    intro h
    have := hwf.1 '\n' h
    revert this; decide
  have h1 : '\n' ∉ b.position := by
    rcases hwf.2.1 with hdec | ⟨hhead, hdec⟩
    · exact not_mem_of_isDecimal _ hdec '\n' (by decide)
    · intro hmem
      cases hp : b.position with
      | nil => rw [hp] at hmem; simp at hmem
      | cons c t =>
        rw [hp] at hmem hhead hdec
        simp only [List.head?_cons, Option.some.injEq] at hhead
        simp only [List.tail_cons] at hdec
        rcases List.mem_cons.mp hmem with h | h
        · rw [← h] at hhead; revert hhead; decide
        · exact not_mem_of_isDecimal _ hdec '\n' (by decide) h
  have h2 : '\n' ∉ b.numReads := not_mem_of_isDecimal _ hwf.2.2.1 '\n' (by decide)
  unfold BubbleBlock.headerLine
  intro hmem
  simp only [List.cons_append, List.mem_cons, List.mem_append] at hmem
  rcases hmem with h | (h | h | h) | h | h
  · revert h; decide
  · exact h0 h
  · revert h; decide
  · exact h1 h
  · revert h; decide
  · exact h2 h

end Polisher

namespace Polisher

theorem toupperAll_ne_nil (s : List Char) (h : s ≠ []) : toupperAll s ≠ [] := by
  cases s with
  | nil => exact absurd rfl h
  | cons c t => simp [toupperAll]

theorem readBranchesLoop_reads (numOfReads : Int) (reads : List (List Char × List Char)) :
    ∀ (rest buffer : List Char) (branches : List (List Char)) (count : Int),
      buffer ≠ [] → (∀ r ∈ reads, '\n' ∉ r.1 ∧ r.2 ≠ [] ∧ '\n' ∉ r.2) →
      count + reads.length = numOfReads →
      ∃ buf, readBranchesLoop numOfReads reads.length
          { file := IStream.ofText (readsText reads ++ rest), buffer := buffer,
            branches := branches, count := count } =
        { file := IStream.ofText rest, buffer := buf,
          branches := branches ++ reads.map (fun r => toupperAll r.2),
          count := numOfReads } := by
  induction reads with
  | nil =>
    intro rest buffer branches count _ _ hcount
    refine ⟨buffer, ?_⟩
    simp only [List.length_nil, Nat.cast_zero, add_zero] at hcount
    simp [readBranchesLoop, readsText, hcount]
  | cons r rs ih =>
    intro rest buffer branches count hbuf hwf hcount
    have hr := hwf r (by simp)
    have hrs : ∀ x ∈ rs, '\n' ∉ x.1 ∧ x.2 ≠ [] ∧ '\n' ∉ x.2 :=
      fun x hx => hwf x (List.mem_cons_of_mem _ hx)
    have htext : readsText (r :: rs) ++ rest =
        r.1 ++ '\n' :: (r.2 ++ '\n' :: (readsText rs ++ rest)) := by
      simp [readsText, List.flatMap_cons]
    have hlt : count < numOfReads := by
      simp only [List.length_cons, Nat.cast_add, Nat.cast_one] at hcount
      omega
    have hemp : buffer.isEmpty = false := by
      cases buffer with
      | nil => exact absurd rfl hbuf
      | cons _ _ => rfl
    have hg1 : getline (IStream.ofText (readsText (r :: rs) ++ rest)) buffer =
        (IStream.ofText (r.2 ++ '\n' :: (readsText rs ++ rest)), r.1) := by
      rw [htext]; exact getline_line _ _ _ hr.1
    have hg2 : getline (IStream.ofText (r.2 ++ '\n' :: (readsText rs ++ rest))) r.1 =
        (IStream.ofText (readsText rs ++ rest), r.2) := getline_line _ _ _ hr.2.2
    obtain ⟨buf, hbuf2⟩ := ih rest (toupperAll r.2) (branches ++ [toupperAll r.2]) (count + 1)
      (toupperAll_ne_nil _ hr.2.1) hrs
      (by simp only [List.length_cons, Nat.cast_add, Nat.cast_one] at hcount; omega)
    refine ⟨buf, ?_⟩
    rw [List.length_cons, readBranchesLoop]
    simp only [if_pos hlt, hemp, Bool.false_eq_true, if_false, hg1, hg2]
    rw [hbuf2]
    simp

theorem length_le_length_flatMap_text (blocks : List BubbleBlock) :
    blocks.length ≤ (blocks.flatMap BubbleBlock.text).length := by
  induction blocks with
  | nil => simp
  | cons b bs ih =>
    simp only [List.flatMap_cons, List.length_append, List.length_cons]
    have : 1 ≤ b.text.length := by
      simp [BubbleBlock.text, BubbleBlock.headerLine]
    omega

/-- One iteration of the outer loop on a block that follows the grammar, given what the
candidate `getline` and the inner loop do on the text after the header line. -/
theorem readBubblesLoop_step (b : BubbleBlock) (hwf : b.WellFormed) (hfit : b.FitsInt)
    (n : Nat) (tail buffer candidate buf : List Char) (bubbles : List Bubble)
    (f1 f2 : IStream) (hcand : getline (IStream.ofText tail) candidate = (f1, b.candidate))
    (hreads : readBranchesLoop (b.reads.length : Int) b.reads.length
        { file := f1, buffer := b.headerLine, branches := [], count := 0 } =
      { file := f2, buffer := buf, branches := b.reads.map (fun r => toupperAll r.2),
        count := (b.reads.length : Int) }) :
    readBubblesLoop (n + 1) (IStream.ofText (b.headerLine ++ '\n' :: tail)) buffer candidate
        bubbles =
      readBubblesLoop n f2 buf (toupperAll b.candidate) (bubbles ++ [b.toBubble]) := by
  have hg1 : getline (IStream.ofText (b.headerLine ++ '\n' :: tail)) buffer =
      (IStream.ofText tail, b.headerLine) :=
    getline_line _ _ _ (headerLine_no_newline b hwf)
  have hsplit := splitString_headerLine b hwf
  have hpos := stoi_position b hwf hfit
  have hnum : stoi b.numReads = .ok (b.reads.length : Int) := by
    have := stoi_decimal b.numReads hwf.2.2.1 hfit.2.2
    rw [hwf.2.2.2.1] at this
    exact this
  have hne : b.headerLine.isEmpty = false := by simp [BubbleBlock.headerLine]
  rw [readBubblesLoop]
  simp only [hg1, hcand, hsplit]
  simp only [List.length_cons, List.length_nil, List.headD_cons, List.getD_cons_succ,
    List.getD_cons_zero, List.drop_succ_cons, List.drop_zero]
  simp only [hpos, hnum, Int.toNat_ofNat, hreads]
  simp only [IStream.ofText, Bool.false_eq_true, if_false, hne]
  simp [BubbleBlock.toBubble]

theorem readBubblesLoop_blocks (blocks : List BubbleBlock) :
    ∀ (fuel : Nat) (buffer candidate : List Char) (bubbles : List Bubble),
      blocks.length + 1 ≤ fuel → (∀ b ∈ blocks, b.WellFormed ∧ b.FitsInt) →
      readBubblesLoop fuel (IStream.ofText (blocks.flatMap BubbleBlock.text)) buffer candidate
          bubbles = some (.ok (bubbles ++ blocks.map BubbleBlock.toBubble)) := by
  induction blocks with
  | nil =>
    intro fuel buffer candidate bubbles hfuel _
    obtain ⟨n, rfl⟩ : ∃ n, fuel = n + 1 := ⟨fuel - 1, by simp at hfuel; omega⟩
    rw [readBubblesLoop]
    simp [IStream.ofText, getline, getlineDelim, extractLine]
  | cons b bs ih =>
    intro fuel buffer candidate bubbles hfuel hall
    obtain ⟨n, rfl⟩ : ∃ n, fuel = n + 1 := ⟨fuel - 1, by simp at hfuel; omega⟩
    obtain ⟨hwf, hfit⟩ := hall b (by simp)
    have hbs : ∀ x ∈ bs, x.WellFormed ∧ x.FitsInt :=
      fun x hx => hall x (List.mem_cons_of_mem _ hx)
    have htext : (b :: bs).flatMap BubbleBlock.text =
        b.headerLine ++ '\n' :: (b.candidate ++ '\n' ::
          (readsText b.reads ++ bs.flatMap BubbleBlock.text)) := by
      simp [BubbleBlock.text, List.flatMap_cons]
    have hhdr : b.headerLine ≠ [] := by simp [BubbleBlock.headerLine]
    obtain ⟨buf, hbr⟩ := readBranchesLoop_reads (b.reads.length : Int) b.reads
      (bs.flatMap BubbleBlock.text) b.headerLine [] 0 hhdr hwf.2.2.2.2.2.2 (by simp)
    rw [htext, readBubblesLoop_step b hwf hfit n _ buffer candidate buf bubbles _ _
      (getline_line _ _ _ hwf.2.2.2.2.2.1) (by simpa using hbr)]
    have hih := ih n buf (toupperAll b.candidate)
      (bubbles ++ [b.toBubble]) (by simp at hfuel ⊢; omega) hbs
    simpa using hih

/-- The call `getline` on a good stream whose text is a last line without its newline. -/
theorem getline_last (line str : List Char) (hne : line ≠ []) (h : '\n' ∉ line) :
    getline (IStream.ofText line) str =
      ({ rest := [], eofbit := true, failbit := false }, line) := by
  unfold getline getlineDelim IStream.ofText
  cases line with
  | nil => exact absurd rfl hne
  | cons c t => simp [extractLine_of_not_mem '\n' (c :: t) [] h]

theorem readsText_ne_nil (r : List Char × List Char) (rs : List (List Char × List Char)) :
    readsText (r :: rs) ≠ [] := by
  simp [readsText, List.flatMap_cons]

theorem readBranchesLoop_reads_last (numOfReads : Int) (reads : List (List Char × List Char)) :
    ∀ (buffer : List Char) (branches : List (List Char)) (count : Int),
      reads ≠ [] → buffer ≠ [] → (∀ r ∈ reads, '\n' ∉ r.1 ∧ r.2 ≠ [] ∧ '\n' ∉ r.2) →
      count + reads.length = numOfReads →
      ∃ buf, readBranchesLoop numOfReads reads.length
          { file := IStream.ofText (readsText reads).dropLast, buffer := buffer,
            branches := branches, count := count } =
        { file := { rest := [], eofbit := true, failbit := false }, buffer := buf,
          branches := branches ++ reads.map (fun r => toupperAll r.2),
          count := numOfReads } := by
  induction reads with
  | nil => intro _ _ _ h; exact absurd rfl h
  | cons r rs ih =>
    intro buffer branches count _ hbuf hwf hcount
    have hr := hwf r (by simp)
    have hrs : ∀ x ∈ rs, '\n' ∉ x.1 ∧ x.2 ≠ [] ∧ '\n' ∉ x.2 :=
      fun x hx => hwf x (List.mem_cons_of_mem _ hx)
    have hlt : count < numOfReads := by
      simp only [List.length_cons, Nat.cast_add, Nat.cast_one] at hcount
      omega
    have hemp : buffer.isEmpty = false := by
      cases buffer with
      | nil => exact absurd rfl hbuf
      | cons _ _ => rfl
    cases rs with
    | nil =>
      have htext : (readsText [r]).dropLast = r.1 ++ '\n' :: r.2 := by
        have : readsText [r] = (r.1 ++ '\n' :: r.2) ++ ['\n'] := by
          simp [readsText, List.flatMap_cons]
        rw [this, List.dropLast_concat]
      have hg1 : getline (IStream.ofText (readsText [r]).dropLast) buffer =
          (IStream.ofText r.2, r.1) := by
        rw [htext]; exact getline_line _ _ _ hr.1
      have hg2 := getline_last r.2 r.1 hr.2.1 hr.2.2
      refine ⟨toupperAll r.2, ?_⟩
      simp only [List.length_cons, List.length_nil, Nat.cast_add, Nat.cast_one,
        Nat.cast_zero, zero_add] at hcount ⊢
      rw [readBranchesLoop]
      simp only [if_pos hlt, hemp, Bool.false_eq_true, if_false, hg1, hg2, readBranchesLoop]
      simp [hcount]
    | cons r2 rs2 =>
      have htext : (readsText (r :: r2 :: rs2)).dropLast =
          r.1 ++ '\n' :: (r.2 ++ '\n' :: (readsText (r2 :: rs2)).dropLast) := by
        have : readsText (r :: r2 :: rs2) =
            (r.1 ++ '\n' :: r.2 ++ ['\n']) ++ readsText (r2 :: rs2) := by
          simp [readsText, List.flatMap_cons]
        rw [this, List.dropLast_append_of_ne_nil _ (readsText_ne_nil r2 rs2)]
        simp
      have hg1 : getline (IStream.ofText (readsText (r :: r2 :: rs2)).dropLast) buffer =
          (IStream.ofText (r.2 ++ '\n' :: (readsText (r2 :: rs2)).dropLast), r.1) := by
        rw [htext]; exact getline_line _ _ _ hr.1
      have hg2 : getline (IStream.ofText (r.2 ++ '\n' :: (readsText (r2 :: rs2)).dropLast))
          r.1 = (IStream.ofText (readsText (r2 :: rs2)).dropLast, r.2) :=
        getline_line _ _ _ hr.2.2
      obtain ⟨buf, hbuf2⟩ := ih (toupperAll r.2) (branches ++ [toupperAll r.2]) (count + 1)
        (by simp) (toupperAll_ne_nil _ hr.2.1) hrs
        (by simp only [List.length_cons, Nat.cast_add, Nat.cast_one] at hcount ⊢; omega)
      refine ⟨buf, ?_⟩
      rw [List.length_cons, readBranchesLoop]
      simp only [if_pos hlt, hemp, Bool.false_eq_true, if_false, hg1, hg2]
      rw [hbuf2]
      simp

theorem readBubblesLoop_at_eof (fuel : Nat) (buffer candidate : List Char)
    (bubbles : List Bubble) :
    readBubblesLoop fuel { rest := [], eofbit := true, failbit := false } buffer candidate
      bubbles = some (.ok bubbles) := by
  cases fuel with
  | zero => simp [readBubblesLoop]
  | succ n => simp [readBubblesLoop]

theorem text_ne_nil (b : BubbleBlock) : b.text ≠ [] := by
  simp [BubbleBlock.text, BubbleBlock.headerLine]

theorem readBubblesLoop_blocks_last (blocks : List BubbleBlock) :
    ∀ (fuel : Nat) (buffer candidate : List Char) (bubbles : List Bubble),
      blocks ≠ [] → blocks.length + 1 ≤ fuel → (∀ b ∈ blocks, b.WellFormed ∧ b.FitsInt) →
      readBubblesLoop fuel (IStream.ofText (blocks.flatMap BubbleBlock.text).dropLast) buffer
          candidate bubbles = some (.ok (bubbles ++ blocks.map BubbleBlock.toBubble)) := by
  induction blocks with
  | nil => intro _ _ _ _ h; exact absurd rfl h
  | cons b bs ih =>
    intro fuel buffer candidate bubbles _ hfuel hall
    obtain ⟨n, rfl⟩ : ∃ n, fuel = n + 1 := ⟨fuel - 1, by simp at hfuel; omega⟩
    obtain ⟨hwf, hfit⟩ := hall b (by simp)
    have hbs : ∀ x ∈ bs, x.WellFormed ∧ x.FitsInt :=
      fun x hx => hall x (List.mem_cons_of_mem _ hx)
    have hhdr : b.headerLine ≠ [] := by simp [BubbleBlock.headerLine]
    cases bs with
    | nil =>
      cases hreads : b.reads with
      | nil =>
        have htext : ([b].flatMap BubbleBlock.text).dropLast =
            b.headerLine ++ '\n' :: b.candidate := by
          have : [b].flatMap BubbleBlock.text =
              (b.headerLine ++ '\n' :: b.candidate) ++ ['\n'] := by
            simp [BubbleBlock.text, List.flatMap_cons, hreads, readsText]
          rw [this, List.dropLast_concat]
        rw [htext, readBubblesLoop_step b hwf hfit n _ buffer candidate b.headerLine bubbles
          _ { rest := [], eofbit := true, failbit := false }
          (getline_last _ _ hwf.2.2.2.2.1 hwf.2.2.2.2.2.1)
          (by rw [hreads]; simp [readBranchesLoop]), readBubblesLoop_at_eof]
        simp
      | cons r rs =>
        have htext : ([b].flatMap BubbleBlock.text).dropLast =
            b.headerLine ++ '\n' :: (b.candidate ++ '\n' :: (readsText b.reads).dropLast) := by
          have : [b].flatMap BubbleBlock.text =
              (b.headerLine ++ '\n' :: b.candidate ++ ['\n']) ++ readsText b.reads := by
            simp [BubbleBlock.text, List.flatMap_cons]
          rw [this, List.dropLast_append_of_ne_nil _ (by rw [hreads]; exact readsText_ne_nil r rs)]
          simp
        obtain ⟨buf, hbr⟩ := readBranchesLoop_reads_last (b.reads.length : Int) b.reads
          b.headerLine [] 0 (by rw [hreads]; simp) hhdr hwf.2.2.2.2.2.2 (by simp)
        rw [htext, readBubblesLoop_step b hwf hfit n _ buffer candidate buf bubbles
          _ { rest := [], eofbit := true, failbit := false }
          (getline_line _ _ _ hwf.2.2.2.2.2.1) (by simpa using hbr), readBubblesLoop_at_eof]
        simp
    | cons b2 bs2 =>
      have htext : ((b :: b2 :: bs2).flatMap BubbleBlock.text).dropLast =
          b.headerLine ++ '\n' :: (b.candidate ++ '\n' ::
            (readsText b.reads ++ ((b2 :: bs2).flatMap BubbleBlock.text).dropLast)) := by
        have hne : (b2 :: bs2).flatMap BubbleBlock.text ≠ [] := by
          rw [List.flatMap_cons]
          intro h
          exact text_ne_nil b2 (List.append_eq_nil.mp h).1
        rw [List.flatMap_cons, List.dropLast_append_of_ne_nil _ hne]
        simp [BubbleBlock.text]
      obtain ⟨buf, hbr⟩ := readBranchesLoop_reads (b.reads.length : Int) b.reads
        ((b2 :: bs2).flatMap BubbleBlock.text).dropLast b.headerLine [] 0 hhdr
        hwf.2.2.2.2.2.2 (by simp)
      rw [htext, readBubblesLoop_step b hwf hfit n _ buffer candidate buf bubbles _ _
        (getline_line _ _ _ hwf.2.2.2.2.2.1) (by simpa using hbr)]
      have hih := ih n buf (toupperAll b.candidate)
        (bubbles ++ [b.toBubble]) (by simp) (by simp at hfuel ⊢; omega) hbs
      simpa using hih

/-- C6 (amended). For every bubble file that follows the grammar and whose positions and
read counts are values of a 32-bit `int`, with or without the newline that closes its last
line, `readBubbles` succeeds and returns one bubble per block in file order: the header is
the first token without its `>`, the position is the decimal value of the second token, the
candidate is the candidate line upcased and the branches are exactly the read lines, upcased,
in file order. -/
theorem readBubbles_grammar (blocks : List BubbleBlock)
    (h : ∀ b ∈ blocks, b.WellFormed ∧ b.FitsInt) :
    readBubbles (blocks.flatMap BubbleBlock.text) =
        some (.ok (blocks.map BubbleBlock.toBubble)) ∧
      readBubbles (blocks.flatMap BubbleBlock.text).dropLast =
        some (.ok (blocks.map BubbleBlock.toBubble)) := by
  have hlen := length_le_length_flatMap_text blocks
  constructor
  · unfold readBubbles
    have := readBubblesLoop_blocks blocks ((blocks.flatMap BubbleBlock.text).length + 1) [] [] []
      (by omega) h
    simpa using this
  · cases hb : blocks with
    | nil => rfl
    | cons b bs =>
      rw [← hb]
      unfold readBubbles
      have hne : blocks ≠ [] := by rw [hb]; simp
      have hpos : 2 ≤ (b.text).length := by
        simp only [BubbleBlock.text, BubbleBlock.headerLine, List.length_append,
          List.length_cons]
        omega
      have htl : blocks.length + 1 ≤ (blocks.flatMap BubbleBlock.text).dropLast.length + 1 := by
        rw [hb]
        have h2 := length_le_length_flatMap_text bs
        simp only [List.flatMap_cons, List.length_dropLast, List.length_append,
          List.length_cons] at h2 ⊢
        omega
      have := readBubblesLoop_blocks_last blocks
        ((blocks.flatMap BubbleBlock.text).dropLast.length + 1) [] [] [] hne htl h
      simpa using this

end Polisher

namespace Polisher

theorem sampleBlock_wellFormed : sampleBlock.WellFormed ∧ sampleBlock.FitsInt :=
  ⟨⟨by decide, Or.inl ⟨by decide, by decide⟩, ⟨by decide, by decide⟩, by decide, by decide,
    by decide, by decide⟩, by decide, by decide, by decide⟩

/-- Witness for C6 (amended): a file of one block with one read. -/
theorem readBubbles_grammar_witness :
    (∀ b ∈ [sampleBlock], b.WellFormed ∧ b.FitsInt) ∧
    readBubbles ([sampleBlock].flatMap BubbleBlock.text) =
      some (.ok [{ header := ['h'], position := 7, candidate := ['A', 'C'],
                   branches := [['A', 'G']] }]) :=
  ⟨fun b hb => by
      rw [List.mem_singleton] at hb
      subst hb
      exact sampleBlock_wellFormed,
    (readBubbles_grammar [sampleBlock] (fun b hb => by
      rw [List.mem_singleton] at hb
      subst hb
      exact sampleBlock_wellFormed)).1⟩

/-- C6 (counterexample). The file `>h 99999999999 0 / A` follows the grammar, and
`readBubbles` does not succeed on it: `std::stoi` throws `std::out_of_range` on the
position. -/
theorem readBubbles_position_out_of_range :
    farBlock.WellFormed ∧
    readBubbles ([farBlock].flatMap BubbleBlock.text) = some (.error .outOfRange) :=
  ⟨⟨by decide, Or.inl ⟨by decide, by decide⟩, ⟨by decide, by decide⟩, by decide, by decide,
    by decide, by decide⟩, rfl⟩

end Polisher

namespace RepeatGraph

/-! ## `removeUnsupportedEdges` -/

theorem mem_setInsert (s : List EdgeRef) (a e : EdgeRef) :
    e ∈ setInsert s a ↔ e ∈ s ∨ e = a := by
  unfold setInsert
  by_cases h : a ∈ s
  · rw [if_pos h]
    constructor
    · exact Or.inl
    · rintro (h1 | h1)
      · exact h1
      · subst h1; exact h
  · rw [if_neg h]; simp

theorem mem_foldl_insertPath (g : Graph) (path : List EdgeRef) (s : List EdgeRef)
    (e : EdgeRef) :
    e ∈ path.foldl (fun s edge => setInsert (setInsert s edge) (g.complementEdge edge)) s ↔
      e ∈ s ∨ e ∈ path ∨ ∃ x ∈ path, g.complementEdge x = e := by
  induction path generalizing s with
  | nil => simp
  | cons a t ih =>
    rw [List.foldl_cons, ih, mem_setInsert, mem_setInsert]
    simp only [List.mem_cons, exists_eq_or_imp]
    constructor
    · rintro (((h | h) | h) | h | h)
      · exact Or.inl h
      · exact Or.inr (Or.inl (Or.inl h))
      · exact Or.inr (Or.inr (Or.inl h.symm))
      · exact Or.inr (Or.inl (Or.inr h))
      · exact Or.inr (Or.inr (Or.inr h))
    · rintro (h | (h | h) | h | h)
      · exact Or.inl (Or.inl (Or.inl h))
      · exact Or.inl (Or.inl (Or.inr h))
      · exact Or.inr (Or.inl h)
      · exact Or.inl (Or.inr h.symm)
      · exact Or.inr (Or.inr h)

theorem mem_collect_foldl (g : Graph) (paths : List UnbranchingPath) (thr : Int)
    (s : List EdgeRef) (e : EdgeRef) :
    e ∈ paths.foldl (fun edgesRemove path =>
        if !path.id.strand then edgesRemove
        else if path.meanCoverage < thr then
          path.path.foldl (fun s edge => setInsert (setInsert s edge) (g.complementEdge edge))
            edgesRemove
        else edgesRemove) s ↔
      e ∈ s ∨ ∃ p ∈ paths, p.id.strand = true ∧ p.meanCoverage < thr ∧
        (e ∈ p.path ∨ ∃ x ∈ p.path, g.complementEdge x = e) := by
  induction paths generalizing s with
  | nil => simp
  | cons p t ih =>
    rw [List.foldl_cons, ih]
    by_cases hs : p.id.strand = true
    · by_cases hc : p.meanCoverage < thr
      · simp only [hs, Bool.not_true, Bool.false_eq_true, if_false, if_pos hc,
          mem_foldl_insertPath]
        constructor
        · rintro ((h | h) | ⟨q, hq, hq2⟩)
          · exact Or.inl h
          · exact Or.inr ⟨p, by simp, hs, hc, h⟩
          · exact Or.inr ⟨q, List.mem_cons_of_mem _ hq, hq2⟩
        · rintro (h | ⟨q, hq, hq2⟩)
          · exact Or.inl (Or.inl h)
          · rcases List.mem_cons.mp hq with h1 | h1
            · subst h1; exact Or.inl (Or.inr hq2.2.2)
            · exact Or.inr ⟨q, h1, hq2⟩
      · simp only [hs, Bool.not_true, Bool.false_eq_true, if_false, if_neg hc]
        constructor
        · rintro (h | ⟨q, hq, hq2⟩)
          · exact Or.inl h
          · exact Or.inr ⟨q, List.mem_cons_of_mem _ hq, hq2⟩
        · rintro (h | ⟨q, hq, hq2⟩)
          · exact Or.inl h
          · rcases List.mem_cons.mp hq with h1 | h1
            · subst h1; exact absurd hq2.2.1 hc
            · exact Or.inr ⟨q, h1, hq2⟩
    · have hs2 : p.id.strand = false := by simpa using hs
      simp only [hs2, Bool.not_false, if_true]
      constructor
      · rintro (h | ⟨q, hq, hq2⟩)
        · exact Or.inl h
        · exact Or.inr ⟨q, List.mem_cons_of_mem _ hq, hq2⟩
      · rintro (h | ⟨q, hq, hq2⟩)
        · exact Or.inl h
        · rcases List.mem_cons.mp hq with h1 | h1
          · subst h1; rw [hs2] at hq2; exact absurd hq2.1 (by simp)
          · exact Or.inr ⟨q, h1, hq2⟩

theorem edgeList_foldl_removeEdge (l : List EdgeRef) (g : Graph) :
    (l.foldl Graph.removeEdge g).edgeList = g.edgeList.filter (fun e => decide (e ∉ l)) := by
  induction l generalizing g with
  | nil => simp
  | cons a t ih =>
    rw [List.foldl_cons, ih]
    simp only [Graph.removeEdge, List.filter_filter]
    apply List.filter_congr
    intro x _
    by_cases h1 : x = a
    · simp [h1]
    · by_cases h2 : x ∈ t
      · simp [h1, h2]
      · simp [h1, h2]

end RepeatGraph

namespace RepeatGraph

/-! ## Properties of the machine arithmetic -/

theorem log2Loop_spec (fuel : Nat) : ∀ n : Nat, n ≤ fuel → 0 < n →
    2 ^ log2Loop fuel n ≤ n ∧ n < 2 ^ (log2Loop fuel n + 1) := by
  induction fuel with
  | zero => intro n h1 h2; omega
  | succ f ih =>
    intro n h1 h2
    unfold log2Loop
    by_cases h : 2 ≤ n
    · rw [if_pos h]
      have hdiv : n / 2 ≤ f := by omega
      have hpos : 0 < n / 2 := by omega
      obtain ⟨a, b⟩ := ih (n / 2) hdiv hpos
      constructor
      · rw [pow_succ]; omega
      · rw [pow_succ]; omega
    · rw [if_neg h]
      have : n = 1 := by omega
      subst this
      simp

theorem natLog2_spec (n : Nat) (h : 0 < n) :
    2 ^ natLog2 n ≤ n ∧ n < 2 ^ (natLog2 n + 1) :=
  log2Loop_spec n n (le_refl _) h

theorem pow2_eq (e : Int) : pow2 e = (2 : ℚ) ^ e := by
  unfold pow2
  split
  · rename_i h
    obtain ⟨n, rfl⟩ := Int.eq_ofNat_of_zero_le h
    simp
  · rename_i h
    have h' : 0 ≤ -e := by omega
    obtain ⟨n, hn⟩ := Int.eq_ofNat_of_zero_le h'
    have he : e = -(n : Int) := by omega
    subst he
    simp

theorem pow2_pos (e : Int) : 0 < pow2 e := by
  rw [pow2_eq]; positivity

theorem binaryExponent_spec (q : ℚ) (hq : q ≠ 0) :
    pow2 (binaryExponent q) ≤ |q| ∧ |q| < pow2 (binaryExponent q + 1) := by
  have hnum : 0 < q.num.natAbs := Int.natAbs_pos.mpr (Rat.num_ne_zero.mpr hq)
  have hden : 0 < q.den := q.den_pos
  obtain ⟨a1, a2⟩ := natLog2_spec _ hnum
  obtain ⟨b1, b2⟩ := natLog2_spec _ hden
  have habs : |q| = (q.num.natAbs : ℚ) / (q.den : ℚ) := by
    conv_lhs => rw [← Rat.num_div_den q]
    rw [abs_div, Nat.abs_cast]
    congr 1
    rw [Nat.cast_natAbs, Int.cast_abs]
  have hdq : (0 : ℚ) < (q.den : ℚ) := by exact_mod_cast hden
  have A1 : ((2 : ℚ) ^ (natLog2 q.num.natAbs)) ≤ (q.num.natAbs : ℚ) := by exact_mod_cast a1
  have A2 : (q.num.natAbs : ℚ) < (2 : ℚ) ^ (natLog2 q.num.natAbs + 1) := by exact_mod_cast a2
  have B1 : ((2 : ℚ) ^ (natLog2 q.den)) ≤ (q.den : ℚ) := by exact_mod_cast b1
  have B2 : (q.den : ℚ) < (2 : ℚ) ^ (natLog2 q.den + 1) := by exact_mod_cast b2
  have two : (0 : ℚ) < 2 := by norm_num
  have hz : ∀ (a b : Nat), (2 : ℚ) ^ ((a : Int) - (b : Int)) = (2 : ℚ) ^ a / (2 : ℚ) ^ b := by
    intro a b
    rw [zpow_sub₀ (by norm_num : (2 : ℚ) ≠ 0)]
    simp
  unfold binaryExponent
  split
  · rename_i h
    refine ⟨h, ?_⟩
    rw [pow2_eq, habs]
    have : ((natLog2 q.num.natAbs : Int) - (natLog2 q.den : Int) + 1) =
        ((natLog2 q.num.natAbs + 1 : Nat) : Int) - (natLog2 q.den : Int) := by push_cast; ring
    rw [this, hz]
    rw [div_lt_div_iff₀ hdq (by positivity)]
    calc (q.num.natAbs : ℚ) * 2 ^ natLog2 q.den
        < 2 ^ (natLog2 q.num.natAbs + 1) * 2 ^ natLog2 q.den := by
          apply mul_lt_mul_of_pos_right A2 (by positivity)
      _ ≤ 2 ^ (natLog2 q.num.natAbs + 1) * (q.den : ℚ) := by
          apply mul_le_mul_of_nonneg_left B1 (by positivity)
  · rename_i h
    constructor
    · rw [pow2_eq, habs]
      have : ((natLog2 q.num.natAbs : Int) - (natLog2 q.den : Int) - 1) =
          ((natLog2 q.num.natAbs : Nat) : Int) - ((natLog2 q.den + 1 : Nat) : Int) := by
        push_cast; ring
      rw [this, hz]
      rw [div_le_div_iff₀ (by positivity) hdq]
      calc (2 : ℚ) ^ natLog2 q.num.natAbs * (q.den : ℚ)
          ≤ (q.num.natAbs : ℚ) * (q.den : ℚ) := by
            apply mul_le_mul_of_nonneg_right A1 (le_of_lt hdq)
        _ ≤ (q.num.natAbs : ℚ) * 2 ^ (natLog2 q.den + 1) := by
            apply mul_le_mul_of_nonneg_left (le_of_lt B2) (by positivity)
    · have h2 := not_le.mp h
      have : ((natLog2 q.num.natAbs : Int) - (natLog2 q.den : Int) - 1 + 1) =
          (natLog2 q.num.natAbs : Int) - (natLog2 q.den : Int) := by ring
      rw [this]
      exact h2

theorem roundHalfEven_spec (q : ℚ) : |(roundHalfEven q : ℚ) - q| ≤ 1 / 2 := by
  have h1 : ((Rat.floor q : Int) : ℚ) ≤ q := Int.floor_le q
  have h2 : q < ((Rat.floor q : Int) : ℚ) + 1 := Int.lt_floor_add_one q
  unfold roundHalfEven
  split
  · rw [abs_le]; constructor <;> linarith
  · split
    · push_cast; rw [abs_le]; constructor <;> linarith
    · split
      · rw [abs_le]; constructor <;> linarith
      · push_cast; rw [abs_le]; constructor <;> linarith

theorem float32_error (q : ℚ) : |float32 q - q| ≤ float32Ulp q / 2 := by
  have hu : 0 < float32Ulp q := pow2_pos _
  unfold float32
  split
  · rename_i h
    rw [h, sub_zero, abs_zero]
    rw [h] at hu
    exact le_of_lt (half_pos hu)
  · have h := roundHalfEven_spec (q / float32Ulp q)
    have e : (roundHalfEven (q / float32Ulp q) : ℚ) * float32Ulp q - q =
        ((roundHalfEven (q / float32Ulp q) : ℚ) - q / float32Ulp q) * float32Ulp q := by
      field_simp
    rw [e, abs_mul, abs_of_pos hu]
    calc |(roundHalfEven (q / float32Ulp q) : ℚ) - q / float32Ulp q| * float32Ulp q
        ≤ 1 / 2 * float32Ulp q := mul_le_mul_of_nonneg_right h (le_of_lt hu)
      _ = float32Ulp q / 2 := by ring

theorem float32_relative_error (q : ℚ) (hq : pow2 (-126) ≤ |q|) :
    |float32 q - q| ≤ |q| / 16777216 := by
  have hq0 : q ≠ 0 := by
    intro h
    rw [h, abs_zero] at hq
    exact absurd hq (not_le.mpr (pow2_pos _))
  obtain ⟨s1, s2⟩ := binaryExponent_spec q hq0
  have hexp : -126 ≤ binaryExponent q := by
    by_contra hlt
    have hlt' : binaryExponent q + 1 ≤ -126 := by omega
    have : pow2 (binaryExponent q + 1) ≤ pow2 (-126) := by
      rw [pow2_eq, pow2_eq]
      exact zpow_le_zpow_right₀ (by norm_num) hlt'
    linarith
  have hulp : float32Ulp q = pow2 (binaryExponent q) / 8388608 := by
    unfold float32Ulp
    rw [max_eq_left hexp, pow2_eq, pow2_eq, zpow_sub₀ (by norm_num : (2 : ℚ) ≠ 0)]
    norm_num
  have := float32_error q
  rw [hulp] at this
  calc |float32 q - q| ≤ pow2 (binaryExponent q) / 8388608 / 2 := this
    _ ≤ |q| / 8388608 / 2 := by
        apply div_le_div_of_nonneg_right _ (by norm_num)
        exact div_le_div_of_nonneg_right s1 (by norm_num)
    _ = |q| / 16777216 := by ring

theorem roundHalfAway_spec (x : ℚ) :
    (0 ≤ x → (roundHalfAway x : ℚ) - 1 / 2 ≤ x ∧ x < (roundHalfAway x : ℚ) + 1 / 2) ∧
    (x < 0 → (roundHalfAway x : ℚ) - 1 / 2 < x ∧ x ≤ (roundHalfAway x : ℚ) + 1 / 2) := by
  unfold roundHalfAway
  constructor
  · intro h
    rw [if_pos h]
    have h1 : ((Rat.floor (x + 1 / 2) : Int) : ℚ) ≤ x + 1 / 2 := Int.floor_le _
    have h2 : x + 1 / 2 < ((Rat.floor (x + 1 / 2) : Int) : ℚ) + 1 := Int.lt_floor_add_one _
    constructor <;> linarith
  · intro h
    rw [if_neg (not_le.mpr h)]
    have h1 : ((Rat.floor (-x + 1 / 2) : Int) : ℚ) ≤ -x + 1 / 2 := Int.floor_le _
    have h2 : -x + 1 / 2 < ((Rat.floor (-x + 1 / 2) : Int) : ℚ) + 1 := Int.lt_floor_add_one _
    push_cast
    constructor <;> linarith

end RepeatGraph

namespace RepeatGraph

theorem foldl_removeEdge_frame (l : List EdgeRef) (g : Graph) :
    (l.foldl Graph.removeEdge g).edges = g.edges ∧
      (l.foldl Graph.removeEdge g).complementEdge = g.complementEdge ∧
      (l.foldl Graph.removeEdge g).numNodes = g.numNodes := by
  induction l generalizing g with
  | nil => exact ⟨rfl, rfl, rfl⟩
  | cons a t ih =>
    rw [List.foldl_cons]
    obtain ⟨h1, h2, h3⟩ := ih (g.removeEdge a)
    exact ⟨h1, h2, h3⟩

/-- C9. For every graph, list of unbranching paths, mean coverage, drop rate and
uneven-coverage flag: the cutoff is `max(1, r)`, clamped to at most 3 when the flag is set,
where `r` is the integer nearest to the single-precision quotient of the mean coverage by
`graph_cov_drop_rate`, halves away from zero; that quotient is within half a unit in the
last place of the exact quotient of the two `float` operands (a relative error of at most
`2 ^ (-24)`); so the cutoff is at least 1 always and at most 3 in metagenome mode. The edges
handed to `removeEdge` are exactly those on a positive-strand unbranching path with mean
coverage below the cutoff together with the complement of each such edge; the edges the
graph keeps are exactly its other edges, in their order, with untouched members; and when
`complementEdge` is an involution an edge is removed iff its complement is. -/
theorem removeUnsupportedEdges_exact (g : Graph) (unbranchingPaths : List UnbranchingPath)
    (meanCoverage : Int) (dropRate : ℚ) (unevenCoverage : Bool) :
    (∃ r : Int,
      removeCoverageThreshold meanCoverage dropRate false = max 1 r ∧
      removeCoverageThreshold meanCoverage dropRate true = min (max 1 r) 3 ∧
      (0 ≤ float32 (float32 (meanCoverage : ℚ) / float32 dropRate) →
        (r : ℚ) - 1 / 2 ≤ float32 (float32 (meanCoverage : ℚ) / float32 dropRate) ∧
        float32 (float32 (meanCoverage : ℚ) / float32 dropRate) < (r : ℚ) + 1 / 2) ∧
      (float32 (float32 (meanCoverage : ℚ) / float32 dropRate) < 0 →
        (r : ℚ) - 1 / 2 < float32 (float32 (meanCoverage : ℚ) / float32 dropRate) ∧
        float32 (float32 (meanCoverage : ℚ) / float32 dropRate) ≤ (r : ℚ) + 1 / 2)) ∧
    (pow2 (-126) ≤ |float32 (meanCoverage : ℚ) / float32 dropRate| →
      |float32 (float32 (meanCoverage : ℚ) / float32 dropRate) -
          float32 (meanCoverage : ℚ) / float32 dropRate| ≤
        |float32 (meanCoverage : ℚ) / float32 dropRate| / 16777216) ∧
    (meanCoverage ≠ 0 →
      |float32 (meanCoverage : ℚ) - (meanCoverage : ℚ)| ≤ |(meanCoverage : ℚ)| / 16777216) ∧
    (removeCoverageThreshold 12 5 false = 2 ∧ removeCoverageThreshold 13 5 false = 3 ∧
      removeCoverageThreshold 25 10 false = 3 ∧ removeCoverageThreshold 0 5 false = 1 ∧
      removeCoverageThreshold 100 5 true = 3 ∧ removeCoverageThreshold 3 (6 / 5) false = 3 ∧
      removeCoverageThreshold 16777217 1 false = 16777216) ∧
    1 ≤ removeCoverageThreshold meanCoverage dropRate unevenCoverage ∧
    (unevenCoverage = true → removeCoverageThreshold meanCoverage dropRate unevenCoverage ≤ 3) ∧
    (∀ e, e ∈ collectEdgesRemove g unbranchingPaths
          (removeCoverageThreshold meanCoverage dropRate unevenCoverage) ↔
        LowCoverage g unbranchingPaths
          (removeCoverageThreshold meanCoverage dropRate unevenCoverage) e) ∧
    (removeUnsupportedEdges g unbranchingPaths meanCoverage dropRate unevenCoverage).edgeList =
      g.edgeList.filter (fun e => decide (e ∉ collectEdgesRemove g unbranchingPaths
        (removeCoverageThreshold meanCoverage dropRate unevenCoverage))) ∧
    (∀ e, e ∈ (removeUnsupportedEdges g unbranchingPaths meanCoverage dropRate
          unevenCoverage).edgeList ↔
        e ∈ g.edgeList ∧ ¬ LowCoverage g unbranchingPaths
          (removeCoverageThreshold meanCoverage dropRate unevenCoverage) e) ∧
    (removeUnsupportedEdges g unbranchingPaths meanCoverage dropRate unevenCoverage).edges =
      g.edges ∧
    ((∀ e, g.complementEdge (g.complementEdge e) = e) →
      ∀ e, LowCoverage g unbranchingPaths
          (removeCoverageThreshold meanCoverage dropRate unevenCoverage) e ↔
        LowCoverage g unbranchingPaths
          (removeCoverageThreshold meanCoverage dropRate unevenCoverage)
          (g.complementEdge e)) := by
  have hmem : ∀ e, e ∈ collectEdgesRemove g unbranchingPaths
        (removeCoverageThreshold meanCoverage dropRate unevenCoverage) ↔
      LowCoverage g unbranchingPaths
        (removeCoverageThreshold meanCoverage dropRate unevenCoverage) e := by
    intro e
    unfold collectEdgesRemove LowCoverage
    rw [mem_collect_foldl]
    simp
  have hlist := edgeList_foldl_removeEdge (collectEdgesRemove g unbranchingPaths
    (removeCoverageThreshold meanCoverage dropRate unevenCoverage)) g
  refine ⟨⟨roundHalfAway (float32 (float32 (meanCoverage : ℚ) / float32 dropRate)),
      by simp [removeCoverageThreshold], by simp [removeCoverageThreshold],
      (roundHalfAway_spec _).1, (roundHalfAway_spec _).2⟩,
    float32_relative_error _, ?_, by decide!, ?_, ?_, hmem,
    hlist, ?_, (foldl_removeEdge_frame _ g).1, ?_⟩
  · intro hm
    apply float32_relative_error
    have h1 : (1 : ℚ) ≤ |(meanCoverage : ℚ)| := by
      rw [← Int.cast_abs]
      exact_mod_cast Int.one_le_abs hm
    have h2 : pow2 (-126) ≤ 1 := by
      rw [pow2_eq]
      exact zpow_le_one_of_nonpos₀ (by norm_num) (by norm_num)
    linarith
  · unfold removeCoverageThreshold
    cases unevenCoverage
    · simp
    · simp
  · intro hu
    subst hu
    simp [removeCoverageThreshold]
  · intro e
    unfold removeUnsupportedEdges
    rw [hlist, List.mem_filter, decide_eq_true_eq, hmem]
  · intro hinv e
    unfold LowCoverage
    constructor
    · rintro ⟨p, hp, hs, hc, h | ⟨x, hx, hxe⟩⟩
      · exact ⟨p, hp, hs, hc, Or.inr ⟨e, h, rfl⟩⟩
      · refine ⟨p, hp, hs, hc, Or.inl ?_⟩
        rw [← hxe, hinv]; exact hx
    · rintro ⟨p, hp, hs, hc, h | ⟨x, hx, hxe⟩⟩
      · refine ⟨p, hp, hs, hc, Or.inr ⟨g.complementEdge e, h, hinv e⟩⟩
      · refine ⟨p, hp, hs, hc, Or.inl ?_⟩
        have : x = e := by
          have := congrArg g.complementEdge hxe
          rw [hinv, hinv] at this
          exact this
        rw [← this]; exact hx

end RepeatGraph

namespace RepeatGraph

/-! ## `removeUnsupportedConnections` -/

theorem disconnectRight_fields (g : Graph) (x : EdgeRef) :
    (disconnectRight g x).numNodes = g.numNodes + 1 ∧
    (disconnectRight g x).complementEdge = g.complementEdge ∧
    (disconnectRight g x).edgeList = g.edgeList ∧
    (∀ e, ((disconnectRight g x).edges e).nodeRight =
      if e = x then g.numNodes else (g.edges e).nodeRight) ∧
    (∀ e, ((disconnectRight g x).edges e).nodeLeft = (g.edges e).nodeLeft) := by
  refine ⟨rfl, rfl, rfl, ?_, ?_⟩
  · intro e
    by_cases h : e = x
    · subst h; simp [disconnectRight, Graph.addNode]
    · simp [disconnectRight, Graph.addNode, Function.update_noteq h, h]
  · intro e
    by_cases h : e = x
    · subst h; simp [disconnectRight, Graph.addNode]
    · simp [disconnectRight, Graph.addNode, Function.update_noteq h]

theorem disconnectLeft_fields (g : Graph) (x : EdgeRef) :
    (disconnectLeft g x).numNodes = g.numNodes + 1 ∧
    (disconnectLeft g x).complementEdge = g.complementEdge ∧
    (disconnectLeft g x).edgeList = g.edgeList ∧
    (∀ e, ((disconnectLeft g x).edges e).nodeLeft =
      if e = x then g.numNodes else (g.edges e).nodeLeft) ∧
    (∀ e, ((disconnectLeft g x).edges e).nodeRight = (g.edges e).nodeRight) := by
  refine ⟨rfl, rfl, rfl, ?_, ?_⟩
  · intro e
    by_cases h : e = x
    · subst h; simp [disconnectLeft, Graph.addNode]
    · simp [disconnectLeft, Graph.addNode, Function.update_noteq h, h]
  · intro e
    by_cases h : e = x
    · subst h; simp [disconnectLeft, Graph.addNode]
    · simp [disconnectLeft, Graph.addNode, Function.update_noteq h]

theorem mirrored_disconnectRight_left (g0 g : Graph) (x : EdgeRef)
    (hinv : ∀ e, g0.complementEdge (g0.complementEdge e) = e) (h : Mirrored g0 g) :
    Mirrored g0 (disconnectLeft (disconnectRight g x) (g0.complementEdge x)) := by
  obtain ⟨hc, hn, hr, hl, hm⟩ := h
  obtain ⟨r1, r2, -, r4, r5⟩ := disconnectRight_fields g x
  obtain ⟨l1, l2, -, l4, l5⟩ :=
    disconnectLeft_fields (disconnectRight g x) (g0.complementEdge x)
  have hinj : ∀ e, g0.complementEdge e = g0.complementEdge x ↔ e = x := by
    intro e
    constructor
    · intro he
      have := congrArg g0.complementEdge he
      rw [hinv, hinv] at this; exact this
    · intro he; rw [he]
  refine ⟨by rw [l2, r2, hc], by rw [l1, r1]; omega, ?_, ?_, ?_⟩
  · intro e
    rw [l5, r4]
    by_cases he : e = x
    · rw [if_pos he]; right; exact hn
    · rw [if_neg he]; exact hr e
  · intro e
    rw [l4, r5, r1]
    by_cases he : e = g0.complementEdge x
    · rw [if_pos he]; right; omega
    · rw [if_neg he]; exact hl e
  · intro e
    rw [l5, r4, l4, r5, r1]
    by_cases he : e = x
    · rw [if_pos he, if_pos ((hinj e).mpr he)]
      constructor <;> intro <;> omega
    · rw [if_neg he, if_neg (fun h => he ((hinj e).mp h))]; exact hm e

theorem mirrored_disconnectLeft_right (g0 g : Graph) (x : EdgeRef)
    (hinv : ∀ e, g0.complementEdge (g0.complementEdge e) = e) (h : Mirrored g0 g) :
    Mirrored g0 (disconnectRight (disconnectLeft g x) (g0.complementEdge x)) := by
  obtain ⟨hc, hn, hr, hl, hm⟩ := h
  obtain ⟨l1, l2, -, l4, l5⟩ := disconnectLeft_fields g x
  obtain ⟨r1, r2, -, r4, r5⟩ :=
    disconnectRight_fields (disconnectLeft g x) (g0.complementEdge x)
  have hswap : ∀ e, e = g0.complementEdge x ↔ g0.complementEdge e = x := by
    intro e
    constructor
    · intro he; rw [he, hinv]
    · intro he; rw [← he, hinv]
  refine ⟨by rw [r2, l2, hc], by rw [r1, l1]; omega, ?_, ?_, ?_⟩
  · intro e
    rw [r4, l5, l1]
    by_cases he : e = g0.complementEdge x
    · rw [if_pos he]; right; omega
    · rw [if_neg he]; exact hr e
  · intro e
    rw [r5, l4]
    by_cases he : e = x
    · rw [if_pos he]; right; exact hn
    · rw [if_neg he]; exact hl e
  · intro e
    rw [r4, l5, r5, l4, l1]
    by_cases he : e = g0.complementEdge x
    · rw [if_pos he, if_pos ((hswap e).mp he)]
      constructor <;> intro <;> omega
    · rw [if_neg he, if_neg (fun h => he ((hswap e).mpr h))]; exact hm e

theorem mirrored_connectionsStep (env : PassEnv) (c : Connections) (g0 g : Graph)
    (x : EdgeRef) (hinv : ∀ e, g0.complementEdge (g0.complementEdge e) = e)
    (h : Mirrored g0 g) : Mirrored g0 (connectionsStep env c g x) := by
  have hc : g.complementEdge = g0.complementEdge := h.1
  have hRL := mirrored_disconnectRight_left g0 g x hinv h
  unfold connectionsStep
  simp only [hc]
  split
  · exact h
  · split
    · split
      · exact hRL
      · unfold disconnectLeftSide
        split
        · exact mirrored_disconnectLeft_right g0 _ x hinv hRL
        · exact hRL
    · unfold disconnectLeftSide
      split
      · exact mirrored_disconnectLeft_right g0 g x hinv h
      · exact h

theorem mirrored_foldl (env : PassEnv) (c : Connections) (g0 : Graph) (l : List EdgeRef)
    (hinv : ∀ e, g0.complementEdge (g0.complementEdge e) = e) :
    ∀ g, Mirrored g0 g → Mirrored g0 (l.foldl (connectionsStep env c) g) := by
  induction l with
  | nil => intro g h; exact h
  | cons a t ih =>
    intro g h
    rw [List.foldl_cons]
    exact ih _ (mirrored_connectionsStep env c g0 g a hinv h)

/-- C10. For every graph whose `complementEdge` is an involution and whose edges end at
allocated nodes, every node predicate pair, drop rate and alignment set: after
`removeUnsupportedConnections` every end of every edge is either where it was or at a node
allocated during the pass (the edge was detached on that side), and the detachments are
mirrored: an edge (self-complement or not) has a fresh right node iff its complement has a
fresh left node, and a fresh left node iff its complement has a fresh right node. -/
theorem removeUnsupportedConnections_mirrored (env : PassEnv) (g : Graph)
    (alignments : List GraphAlignment)
    (hinv : ∀ e, g.complementEdge (g.complementEdge e) = e)
    (hwf : ∀ e, (g.edges e).nodeLeft < g.numNodes ∧ (g.edges e).nodeRight < g.numNodes) :
    ∀ e,
      (((removeUnsupportedConnections env g alignments).edges e).nodeRight =
          (g.edges e).nodeRight ∨
        g.numNodes ≤ ((removeUnsupportedConnections env g alignments).edges e).nodeRight) ∧
      (((removeUnsupportedConnections env g alignments).edges e).nodeLeft =
          (g.edges e).nodeLeft ∨
        g.numNodes ≤ ((removeUnsupportedConnections env g alignments).edges e).nodeLeft) ∧
      (g.numNodes ≤ ((removeUnsupportedConnections env g alignments).edges e).nodeRight ↔
        g.numNodes ≤ ((removeUnsupportedConnections env g alignments).edges
          (g.complementEdge e)).nodeLeft) ∧
      (g.numNodes ≤ ((removeUnsupportedConnections env g alignments).edges e).nodeLeft ↔
        g.numNodes ≤ ((removeUnsupportedConnections env g alignments).edges
          (g.complementEdge e)).nodeRight) := by
  have h0 : Mirrored g g := by
    refine ⟨rfl, le_refl _, fun e => Or.inl rfl, fun e => Or.inl rfl, ?_⟩
    intro e
    have h1 : ¬ g.numNodes ≤ (g.edges e).nodeRight := Nat.not_le.mpr (hwf e).2
    have h2 : ¬ g.numNodes ≤ (g.edges (g.complementEdge e)).nodeLeft :=
      Nat.not_le.mpr (hwf (g.complementEdge e)).1
    exact ⟨fun h3 => absurd h3 h1, fun h3 => absurd h3 h2⟩
  have h := mirrored_foldl env (countConnections g alignments) g g.edgeList hinv g h0
  intro e
  obtain ⟨-, -, hr, hl, hm⟩ := h
  refine ⟨hr e, hl e, hm e, ?_⟩
  have := hm (g.complementEdge e)
  rw [hinv] at this
  exact this.symm

end RepeatGraph

namespace RepeatGraph

theorem pairGraph_involution (e : Nat) :
    pairGraph.complementEdge (pairGraph.complementEdge e) = e := by
  show (if (if e % 2 = 0 then e + 1 else e - 1) % 2 = 0
      then (if e % 2 = 0 then e + 1 else e - 1) + 1
      else (if e % 2 = 0 then e + 1 else e - 1) - 1) = e
  by_cases h : e % 2 = 0
  · rw [if_pos h, if_neg (by omega)]; omega
  · rw [if_neg h, if_pos (by omega)]; omega

theorem pairGraph_allocated (e : Nat) :
    (pairGraph.edges e).nodeLeft < pairGraph.numNodes ∧
      (pairGraph.edges e).nodeRight < pairGraph.numNodes := by
  show ((if e % 2 = 0 then (⟨⟨e / 2, true⟩, 0, 1, 10, false, 100⟩ : GraphEdge)
        else ⟨⟨e / 2, false⟩, 2, 3, 10, false, 100⟩).nodeLeft < 4) ∧
      ((if e % 2 = 0 then (⟨⟨e / 2, true⟩, 0, 1, 10, false, 100⟩ : GraphEdge)
        else ⟨⟨e / 2, false⟩, 2, 3, 10, false, 100⟩).nodeRight < 4)
  by_cases h : e % 2 = 0
  · rw [if_pos h]; exact ⟨Nat.lt_of_sub_eq_succ rfl, Nat.lt_of_sub_eq_succ rfl⟩
  · rw [if_neg h]; exact ⟨Nat.lt_of_sub_eq_succ rfl, Nat.lt_of_sub_eq_succ rfl⟩

/-- Witness for C10: on the one-pair graph without alignments, edge `0` is detached on both
sides (fresh nodes `4` and `6`) and so is its complement, edge `1` (fresh nodes `5`, `7`). -/
theorem removeUnsupportedConnections_mirrored_witness :
    (∀ e, pairGraph.complementEdge (pairGraph.complementEdge e) = e) ∧
    (∀ e, (pairGraph.edges e).nodeLeft < pairGraph.numNodes ∧
      (pairGraph.edges e).nodeRight < pairGraph.numNodes) ∧
    ((removeUnsupportedConnections openEnv pairGraph []).edges 0).nodeRight = 4 ∧
    ((removeUnsupportedConnections openEnv pairGraph []).edges 1).nodeLeft = 5 ∧
    (pairGraph.numNodes ≤ ((removeUnsupportedConnections openEnv pairGraph []).edges 0).nodeRight ↔
      pairGraph.numNodes ≤ ((removeUnsupportedConnections openEnv pairGraph []).edges
        (pairGraph.complementEdge 0)).nodeLeft) :=
  ⟨pairGraph_involution, pairGraph_allocated, by decide!, by decide!,
    (removeUnsupportedConnections_mirrored openEnv pairGraph [] pairGraph_involution
      pairGraph_allocated 0).2.2.1⟩

end RepeatGraph

namespace RepeatGraph

/-! ## Window counts of `estimateCoverage` -/

theorem assignWindows_foldl (g : Graph) (window : Int) (l : List EdgeRef)
    (init : EdgeRef → List Int) (e : EdgeRef) :
    l.foldl (fun wnd edge =>
        Function.update wnd edge
          (List.replicate ((g.edges edge).length.tdiv window).toNat 0)) init e =
      if e ∈ l then List.replicate ((g.edges e).length.tdiv window).toNat 0 else init e := by
  induction l generalizing init with
  | nil => simp
  | cons a t ih =>
    rw [List.foldl_cons, ih]
    by_cases h1 : e ∈ t
    · simp [h1]
    · by_cases h2 : e = a
      · subst h2; simp [h1]
      · simp [h1, h2, Function.update_noteq h2]

theorem assignWindows_apply (g : Graph) (window : Int) (e : EdgeRef) :
    assignWindows g window e =
      if e ∈ g.edgeList then List.replicate ((g.edges e).length.tdiv window).toNat 0
      else [] :=
  assignWindows_foldl g window g.edgeList (fun _ => []) e

theorem length_incrementWindow (coverage : List Int) (pos : Int) :
    (incrementWindow coverage pos).length = coverage.length := by
  unfold incrementWindow
  split <;> simp

theorem getElem?_incrementWindow (coverage : List Int) (pos : Int) (w : Nat) :
    (incrementWindow coverage pos)[w]? =
      coverage[w]?.map (fun x => x + if pos = (w : Int) then 1 else 0) := by
  unfold incrementWindow
  by_cases h : 0 ≤ pos ∧ pos < (coverage.length : Int)
  · rw [if_pos h]
    have hlt : pos.toNat < coverage.length := by omega
    by_cases hw : pos = (w : Int)
    · subst hw
      have hlt2 : w < coverage.length := by simpa using hlt
      rw [if_pos rfl, Int.toNat_ofNat, List.getElem?_set_self hlt2,
        List.getD_eq_getElem?_getD, List.getElem?_eq_getElem hlt2]
      simp
    · have hwn : pos.toNat ≠ w := by omega
      rw [if_neg hw, List.getElem?_set_ne hwn]
      simp
  · rw [if_neg h]
    by_cases hw : pos = (w : Int)
    · have hge : coverage.length ≤ w := by omega
      rw [List.getElem?_eq_none hge]; rfl
    · rw [if_neg hw]; simp

theorem getElem?_foldl_incrementWindow (lo : Int) (n : Nat) (coverage : List Int) (w : Nat) :
    ((List.range n).foldl (fun (cov : List Int) (k : Nat) =>
        incrementWindow cov (lo + (k : Int))) coverage)[w]? =
      coverage[w]?.map (fun x => x + if lo ≤ (w : Int) ∧ (w : Int) < lo + n then 1 else 0) := by
  induction n with
  | zero =>
    have : ¬ (lo ≤ (w : Int) ∧ (w : Int) < lo + ((0 : Nat) : Int)) := by omega
    rw [if_neg this]
    simp
  | succ m ih =>
    rw [List.range_succ, List.foldl_append, List.foldl_cons, List.foldl_nil,
      getElem?_incrementWindow, ih, Option.map_map]
    congr 1
    funext x
    simp only [Function.comp]
    by_cases h1 : lo + (m : Int) = (w : Int)
    · have h2 : ¬ (lo ≤ (w : Int) ∧ (w : Int) < lo + (m : Int)) := by omega
      have h3 : lo ≤ (w : Int) ∧ (w : Int) < lo + ((m + 1 : Nat) : Int) := by
        push_cast; omega
      rw [if_pos h1, if_neg h2, if_pos h3]; ring
    · by_cases h2 : lo ≤ (w : Int) ∧ (w : Int) < lo + (m : Int)
      · have h3 : lo ≤ (w : Int) ∧ (w : Int) < lo + ((m + 1 : Nat) : Int) := by
          push_cast; omega
        rw [if_neg h1, if_pos h2, if_pos h3]; ring
      · have h3 : ¬ (lo ≤ (w : Int) ∧ (w : Int) < lo + ((m + 1 : Nat) : Int)) := by
          push_cast; omega
        rw [if_neg h1, if_neg h2, if_neg h3]; ring

/-- One segment adds one to exactly the windows strictly between its two boundary windows. -/
theorem getElem?_coverSegment (window : Int) (coverage : List Int) (ovlp : OverlapRange)
    (w : Nat) :
    (coverSegment window coverage ovlp)[w]? =
      coverage[w]?.map (fun x => x +
        if ovlp.extBegin.tdiv window < (w : Int) ∧ (w : Int) < ovlp.extEnd.tdiv window
        then 1 else 0) := by
  unfold coverSegment
  have h := getElem?_foldl_incrementWindow (ovlp.extBegin.tdiv window + 1)
    (ovlp.extEnd.tdiv window - (ovlp.extBegin.tdiv window + 1)).toNat coverage w
  rw [h]
  congr 1
  funext x
  by_cases h1 : ovlp.extBegin.tdiv window < (w : Int) ∧ (w : Int) < ovlp.extEnd.tdiv window
  · rw [if_pos h1, if_pos (by omega)]
  · rw [if_neg h1, if_neg (by omega)]

theorem getElem?_coverElement (window : Int) (wnd : EdgeRef → List Int) (a : EdgeAlignment)
    (e : EdgeRef) (w : Nat) :
    (coverElement window wnd a e)[w]? =
      (wnd e)[w]?.map (fun x => x + (spanCount window [a] e w : Int)) := by
  unfold coverElement spanCount
  by_cases he : e = a.edge
  · subst he
    rw [Function.update_same, getElem?_coverSegment]
    congr 1
    funext x
    by_cases h1 : a.overlap.extBegin.tdiv window < (w : Int) ∧
        (w : Int) < a.overlap.extEnd.tdiv window
    · simp [h1]
    · simp [h1]
  · rw [Function.update_noteq he]
    have : ¬ a.edge = e := fun h => he h.symm
    simp [this]

theorem spanCount_cons (window : Int) (a : EdgeAlignment) (segs : List EdgeAlignment)
    (e : EdgeRef) (w : Nat) :
    spanCount window (a :: segs) e w = spanCount window [a] e w + spanCount window segs e w := by
  unfold spanCount
  by_cases h : a.edge = e ∧ a.overlap.extBegin.tdiv window < (w : Int) ∧
      (w : Int) < a.overlap.extEnd.tdiv window
  · simp only [List.filter_cons, decide_eq_true h, if_true, List.filter_nil, List.length_cons,
      List.length_nil]
    omega
  · simp only [List.filter_cons, decide_eq_false h, Bool.false_eq_true, if_false,
      List.filter_nil, List.length_nil]
    omega

theorem spanCount_append (window : Int) (s1 s2 : List EdgeAlignment) (e : EdgeRef) (w : Nat) :
    spanCount window (s1 ++ s2) e w = spanCount window s1 e w + spanCount window s2 e w := by
  unfold spanCount
  rw [List.filter_append, List.length_append]

theorem getElem?_foldl_coverElement (window : Int) (path : List EdgeAlignment) :
    ∀ (wnd : EdgeRef → List Int) (e : EdgeRef) (w : Nat),
      (path.foldl (coverElement window) wnd e)[w]? =
        (wnd e)[w]?.map (fun x => x + (spanCount window path e w : Int)) := by
  induction path with
  | nil => intro wnd e w; simp [spanCount]
  | cons a t ih =>
    intro wnd e w
    rw [spanCount_cons window a t e w, List.foldl_cons, ih, getElem?_coverElement,
      Option.map_map]
    congr 1
    funext x
    simp only [Function.comp]
    push_cast; ring

theorem getElem?_foldl_paths (window : Int) (alignments : List ReadPath) :
    ∀ (wnd : EdgeRef → List Int) (e : EdgeRef) (w : Nat),
      (alignments.foldl (fun wnd path => path.foldl (coverElement window) wnd) wnd e)[w]? =
        (wnd e)[w]?.map (fun x => x + (spanCount window alignments.flatten e w : Int)) := by
  induction alignments with
  | nil => intro wnd e w; simp [spanCount]
  | cons p t ih =>
    intro wnd e w
    rw [List.foldl_cons, ih, getElem?_foldl_coverElement, Option.map_map, List.flatten_cons,
      spanCount_append]
    congr 1
    funext x
    simp only [Function.comp]
    push_cast; ring

/-- The window vector of an edge after the counting loops: as many windows as assigned, window
`w` holding the number of segments that strictly span it (C divisions). -/
theorem getElem?_windowCoverage (g : Graph) (window : Int) (alignments : List ReadPath)
    (e : EdgeRef) (w : Nat) :
    (windowCoverage g window alignments e)[w]? =
      if e ∈ g.edgeList ∧ w < ((g.edges e).length.tdiv window).toNat then
        some (spanCount window alignments.flatten e w : Int)
      else none := by
  unfold windowCoverage
  rw [getElem?_foldl_paths, assignWindows_apply]
  by_cases h1 : e ∈ g.edgeList
  · by_cases h2 : w < ((g.edges e).length.tdiv window).toNat
    · rw [if_pos h1, if_pos ⟨h1, h2⟩, List.getElem?_replicate, if_pos h2]
      simp
    · rw [if_pos h1, if_neg (fun h => h2 h.2), List.getElem?_replicate, if_neg h2]
      rfl
  · rw [if_neg h1, if_neg (fun h => h1 h.1)]
    rfl

theorem length_windowCoverage (g : Graph) (window : Int) (alignments : List ReadPath)
    (e : EdgeRef) :
    (windowCoverage g window alignments e).length =
      if e ∈ g.edgeList then ((g.edges e).length.tdiv window).toNat else 0 := by
  have h := getElem?_windowCoverage g window alignments e
  by_cases h1 : e ∈ g.edgeList
  · rw [if_pos h1]
    apply le_antisymm
    · by_contra hlt
      have hlt2 : ((g.edges e).length.tdiv window).toNat <
          (windowCoverage g window alignments e).length := by omega
      have := h ((g.edges e).length.tdiv window).toNat
      rw [if_neg (by omega), List.getElem?_eq_getElem hlt2] at this
      cases this
    · by_contra hlt
      have hlt2 : (windowCoverage g window alignments e).length <
          ((g.edges e).length.tdiv window).toNat := by omega
      have := h (windowCoverage g window alignments e).length
      rw [if_pos ⟨h1, hlt2⟩, List.getElem?_eq_none (le_refl _)] at this
      cases this
  · rw [if_neg h1]
    cases hw : windowCoverage g window alignments e with
    | nil => rfl
    | cons x t =>
      have := h 0
      rw [if_neg (fun hh => h1 hh.1), hw] at this
      simp at this

end RepeatGraph

namespace RepeatGraph

theorem spanningSegments_eq_spanCount (window : Int) (alignments : List ReadPath)
    (hW : 0 < window)
    (hpos : ∀ a ∈ alignments.flatten, 0 ≤ a.overlap.extBegin ∧ 0 ≤ a.overlap.extEnd)
    (e : EdgeRef) (w : Nat) :
    spanningSegments window alignments e w = spanCount window alignments.flatten e w := by
  unfold spanningSegments spanCount
  congr 1
  apply List.filter_congr
  intro a ha
  obtain ⟨h1, h2⟩ := hpos a ha
  rw [Int.tdiv_eq_ediv h1 (le_of_lt hW), Int.tdiv_eq_ediv h2 (le_of_lt hW)]

/-- C20. In `estimateCoverage`, with window size `W > 0` and non-negative coordinates: one
alignment segment with overlap `[extBegin, extEnd]` adds exactly one to each window `w` of the
edge's vector with `extBegin / W < w < extEnd / W` and leaves every other window as it was;
after the counting loops the vector of an edge of the graph has `length / W` windows, and
window `w` holds the number of alignment segments on that edge that strictly span `w`. -/
theorem windowCoverage_counts (g : Graph) (window : Int) (alignments : List ReadPath)
    (hW : 0 < window)
    (hpos : ∀ a ∈ alignments.flatten, 0 ≤ a.overlap.extBegin ∧ 0 ≤ a.overlap.extEnd)
    (e : EdgeRef) (he : e ∈ g.edgeList) (hlen : 0 ≤ (g.edges e).length) :
    (∀ (coverage : List Int) (a : EdgeAlignment), a ∈ alignments.flatten → ∀ w : Nat,
      (coverSegment window coverage a.overlap)[w]? =
        coverage[w]?.map (fun x => x +
          if a.overlap.extBegin / window < (w : Int) ∧ (w : Int) < a.overlap.extEnd / window
          then 1 else 0)) ∧
    (windowCoverage g window alignments e).length = ((g.edges e).length / window).toNat ∧
    ∀ w : Nat, w < ((g.edges e).length / window).toNat →
      (windowCoverage g window alignments e)[w]? =
        some (spanningSegments window alignments e w : Int) := by
  have hdiv : (g.edges e).length.tdiv window = (g.edges e).length / window :=
    Int.tdiv_eq_ediv hlen (le_of_lt hW)
  refine ⟨?_, ?_, ?_⟩
  · intro coverage a ha w
    obtain ⟨h1, h2⟩ := hpos a ha
    rw [getElem?_coverSegment, Int.tdiv_eq_ediv h1 (le_of_lt hW),
      Int.tdiv_eq_ediv h2 (le_of_lt hW)]
  · rw [length_windowCoverage, if_pos he, hdiv]
  · intro w hw
    rw [getElem?_windowCoverage, if_pos ⟨he, by rw [hdiv]; exact hw⟩,
      spanningSegments_eq_spanCount window alignments hW hpos]

end RepeatGraph

namespace RepeatGraph

/-- Witness for C20: window size `10`, edge `0` of length `30` with reads `[0, 30]` and
`[5, 25]`: window `1` is spanned by both reads, window `2` by the first only, window `0` by none. -/
theorem windowCoverage_counts_witness :
    (0 : Int) < 10 ∧
    (∀ a ∈ windowReads.flatten, 0 ≤ a.overlap.extBegin ∧ 0 ≤ a.overlap.extEnd) ∧
    windowCoverage windowGraph 10 windowReads 0 = [0, 2, 1] ∧
    (windowCoverage windowGraph 10 windowReads 0).length =
      ((windowGraph.edges 0).length / 10).toNat :=
  ⟨by decide, by decide, by decide,
    (windowCoverage_counts windowGraph 10 windowReads (by decide) (by decide) 0 (by decide)
      (by decide)).2.1⟩

end RepeatGraph

namespace RepeatGraph

theorem assignCoverage_frame (median : List Int → Int) (wnd : EdgeRef → List Int)
    (g : Graph) (a : EdgeRef) :
    (assignCoverage median wnd g a).complementEdge = g.complementEdge ∧
    (assignCoverage median wnd g a).edgeList = g.edgeList ∧
    (assignCoverage median wnd g a).nodes = g.nodes ∧
    (assignCoverage median wnd g a).numNodes = g.numNodes ∧
    ∀ e, ((assignCoverage median wnd g a).edges e).edgeId = (g.edges e).edgeId ∧
      ((assignCoverage median wnd g a).edges e).nodeLeft = (g.edges e).nodeLeft ∧
      ((assignCoverage median wnd g a).edges e).nodeRight = (g.edges e).nodeRight ∧
      ((assignCoverage median wnd g a).edges e).selfComplement = (g.edges e).selfComplement ∧
      ((assignCoverage median wnd g a).edges e).length = (g.edges e).length := by
  unfold assignCoverage
  split
  · simp
  · refine ⟨rfl, rfl, rfl, rfl, ?_⟩
    intro e
    by_cases h : e = a
    · subst h; simp
    · simp [Function.update_noteq h]

theorem assignCoverage_meanCoverage (median : List Int → Int) (wnd : EdgeRef → List Int)
    (g : Graph) (a e : EdgeRef) :
    ((assignCoverage median wnd g a).edges e).meanCoverage =
      if e = a ∧ wnd e ≠ [] then
        (median (wnd e) + median (wnd (g.complementEdge e))).tdiv 2
      else (g.edges e).meanCoverage := by
  unfold assignCoverage
  by_cases hw : (wnd a).isEmpty
  · rw [if_pos hw]
    have : wnd a = [] := by simpa using hw
    by_cases h : e = a
    · subst h; simp [this]
    · simp [h]
  · rw [if_neg hw]
    have : wnd a ≠ [] := by simpa using hw
    by_cases h : e = a
    · subst h; simp [this]
    · simp [h, Function.update_noteq h]

theorem foldl_assignCoverage (median : List Int → Int) (wnd : EdgeRef → List Int)
    (l : List EdgeRef) (g : Graph) (e : EdgeRef) :
    (l.foldl (assignCoverage median wnd) g).complementEdge = g.complementEdge ∧
    ((l.foldl (assignCoverage median wnd) g).edges e).length = (g.edges e).length ∧
    ((l.foldl (assignCoverage median wnd) g).edges e).nodeLeft = (g.edges e).nodeLeft ∧
    ((l.foldl (assignCoverage median wnd) g).edges e).nodeRight = (g.edges e).nodeRight ∧
    ((l.foldl (assignCoverage median wnd) g).edges e).meanCoverage =
      if e ∈ l ∧ wnd e ≠ [] then
        (median (wnd e) + median (wnd (g.complementEdge e))).tdiv 2
      else (g.edges e).meanCoverage := by
  induction l generalizing g with
  | nil => simp
  | cons a t ih =>
    rw [List.foldl_cons]
    obtain ⟨h1, h2, h3, h4, h5⟩ := ih (assignCoverage median wnd g a)
    obtain ⟨f1, -, -, -, f5⟩ := assignCoverage_frame median wnd g a
    obtain ⟨-, fl, fr, -, flen⟩ := f5 e
    refine ⟨h1.trans f1, h2.trans flen, h3.trans fl, h4.trans fr, ?_⟩
    rw [h5, f1, assignCoverage_meanCoverage]
    by_cases hw : wnd e = []
    · simp [hw]
    · by_cases ht : e ∈ t
      · simp [ht, hw]
      · by_cases ha : e = a
        · subst ha; simp [ht, hw]
        · simp [ht, ha, hw]

/-- C12. After `estimateCoverage`, an edge of the graph whose window vector is not empty has
`meanCoverage = (median(windows e) + median(windows (complement e))) / 2` in integer
arithmetic; every other edge keeps its previous `meanCoverage`; and when complementation is
an involution on the edges of the graph and an edge and its complement have the same length,
an edge with a non-empty window vector has the same `meanCoverage` as its complement. -/
theorem estimateCoverage_meanCoverage (median : List Int → Int) (window : Int) (g : Graph)
    (alignments : List ReadPath) :
    (∀ e, e ∈ g.edgeList → windowCoverage g window alignments e ≠ [] →
      ((estimateCoverage median window g alignments).graph.edges e).meanCoverage =
        (median (windowCoverage g window alignments e) +
          median (windowCoverage g window alignments (g.complementEdge e))).tdiv 2) ∧
    (∀ e, windowCoverage g window alignments e = [] →
      ((estimateCoverage median window g alignments).graph.edges e).meanCoverage =
        (g.edges e).meanCoverage) ∧
    ((∀ e, g.complementEdge (g.complementEdge e) = e) →
      (∀ e, e ∈ g.edgeList → g.complementEdge e ∈ g.edgeList) →
      (∀ e, (g.edges (g.complementEdge e)).length = (g.edges e).length) →
      ∀ e, e ∈ g.edgeList → windowCoverage g window alignments e ≠ [] →
        ((estimateCoverage median window g alignments).graph.edges e).meanCoverage =
          ((estimateCoverage median window g alignments).graph.edges
            (g.complementEdge e)).meanCoverage) := by
  have key := fun e => (foldl_assignCoverage median (windowCoverage g window alignments)
    g.edgeList g e).2.2.2.2
  refine ⟨?_, ?_, ?_⟩
  · intro e he hw
    show ((g.edgeList.foldl _ g).edges e).meanCoverage = _
    rw [key e, if_pos ⟨he, hw⟩]
  · intro e hw
    show ((g.edgeList.foldl _ g).edges e).meanCoverage = _
    rw [key e, if_neg (fun h => h.2 hw)]
  · intro hinv hmem hlen e he hw
    show ((g.edgeList.foldl _ g).edges e).meanCoverage =
      ((g.edgeList.foldl _ g).edges (g.complementEdge e)).meanCoverage
    have hw2 : windowCoverage g window alignments (g.complementEdge e) ≠ [] := by
      intro h0
      apply hw
      have h1 := congrArg List.length h0
      rw [length_windowCoverage, if_pos (hmem e he), hlen] at h1
      apply List.eq_nil_of_length_eq_zero
      rw [length_windowCoverage, if_pos he]
      simpa using h1
    rw [key e, key (g.complementEdge e), if_pos ⟨he, hw⟩, if_pos ⟨hmem e he, hw2⟩, hinv,
      add_comm]

end RepeatGraph

namespace RepeatGraph

theorem foldl_keep {α β : Type} (f : β → α → β) (l : List α) (b : β)
    (h : ∀ x ∈ l, ∀ acc, f acc x = acc) : l.foldl f b = b := by
  induction l generalizing b with
  | nil => rfl
  | cons a t ih =>
    rw [List.foldl_cons, h a (List.mem_cons_self a t) b]
    exact ih b (fun x hx => h x (List.mem_cons_of_mem a hx))

theorem collectTips_no_reads (g : Graph) (maxTip : Int) (paths : List UnbranchingPath) :
    collectTips g (buildReadIndex []) maxTip paths = [] := by
  unfold collectTips
  apply foldl_keep
  intro p _ acc
  have : tipMarked g (buildReadIndex []) maxTip p = false := by
    unfold tipMarked
    simp [tipSums, buildReadIndex]
  simp [this]

theorem connectionsStep_no_reads (env : PassEnv) (g0 g : Graph) (edge : EdgeRef)
    (hlow : truncate (((g.edges edge).meanCoverage : ℚ) / env.dropRate) ≤ 0) :
    connectionsStep env (countConnections g0 []) g edge = g := by
  have ht : connectionThreshold env (g.edges edge) ≤ 0 := by
    unfold connectionThreshold
    exact le_trans (min_le_right _ _) hlow
  have hr : ∀ t : Int, t ≤ 0 → ∀ g1 : Graph, ∀ e : EdgeRef,
      chimericRight env (countConnections g0 []) t g1 e = false := by
    intro t ht g1 e
    unfold chimericRight
    simp [countConnections]
    intro _ _
    exact ht
  have hl : ∀ t : Int, t ≤ 0 → ∀ g1 : Graph, ∀ e : EdgeRef,
      chimericLeft env (countConnections g0 []) t g1 e = false := by
    intro t ht g1 e
    unfold chimericLeft
    simp [countConnections]
    intro _ _
    exact ht
  unfold connectionsStep
  split
  · rfl
  · simp only [hr _ ht, disconnectLeftSide, hl _ ht]
    simp

/-- C11 (amended). With an empty set of read alignments `trimTips` changes nothing, for every
graph, list of unbranching paths and tip length threshold; and `removeUnsupportedConnections`
changes nothing when, in addition, every edge has `trunc(meanCoverage / graph_cov_drop_rate)`
at most `0` (as for the coverage `0` that no reads give). -/
theorem trimTips_no_reads (g : Graph) (unbranchingPaths : List UnbranchingPath) (maxTip : Int)
    (env : PassEnv) :
    trimTips g unbranchingPaths [] maxTip = g ∧
    ((∀ e, truncate (((g.edges e).meanCoverage : ℚ) / env.dropRate) ≤ 0) →
      removeUnsupportedConnections env g [] = g) := by
  constructor
  · unfold trimTips
    apply foldl_keep
    intro p _ acc
    rw [collectTips_no_reads]
    simp
  · intro hlow
    unfold removeUnsupportedConnections
    generalize g.edgeList = l
    suffices h : ∀ (l : List EdgeRef) (cur : Graph), cur = g →
        l.foldl (connectionsStep env (countConnections g [])) cur = g from h l g rfl
    intro l
    induction l with
    | nil => intro cur h; exact h
    | cons a t ih =>
      intro cur h
      subst h
      rw [List.foldl_cons, connectionsStep_no_reads env cur cur a (hlow a)]
      exact ih cur rfl

/-- C11 (counterexample). With no read alignments, `removeUnsupportedConnections` gives edge
`0` of the one-pair graph (coverage `10`, drop rate `5`) a new right node, and
`removeUnsupportedEdges` (mean coverage `100`, drop rate `5`, so cutoff `20`) removes both
edges of that graph. -/
theorem passes_change_graph_without_reads :
    ((removeUnsupportedConnections openEnv pairGraph []).edges 0).nodeRight ≠
      (pairGraph.edges 0).nodeRight ∧
    (removeUnsupportedEdges pairGraph [⟨[0], ⟨0, true⟩, 10, 100⟩] 100 5 false).edgeList = [] := by
  decide!

end RepeatGraph

namespace RepeatGraph

/-! ## Connection counts and the threshold of `removeUnsupportedConnections` -/

theorem increment_apply (m : EdgeRef → Int) (k e : EdgeRef) :
    increment m k e = m e + if e = k then 1 else 0 := by
  unfold increment
  by_cases h : e = k
  · subst h; simp
  · simp [Function.update_noteq h, h]

theorem countsBalanced_countPair (g : Graph)
    (hinv : ∀ e, g.complementEdge (g.complementEdge e) = e) (c : Connections)
    (cur next : EdgeRef) (h : CountsBalanced g c) : CountsBalanced g (countPair g c cur next) := by
  have hswap : ∀ a b, g.complementEdge a = b ↔ a = g.complementEdge b := by
    intro a b
    constructor
    · intro h1; rw [← h1, hinv]
    · intro h1; rw [h1, hinv]
  have hcc : ∀ a b, g.complementEdge a = g.complementEdge b ↔ a = b := by
    intro a b
    constructor
    · intro h1; rw [← hinv a, h1, hinv]
    · intro h1; rw [h1]
  unfold countPair
  split
  · exact h
  · split
    · exact h
    · intro e
      obtain ⟨h1, h2, h3, h4⟩ := h e
      simp only [increment_apply, hswap, hinv]
      refine ⟨?_, ?_, ?_, ?_⟩
      · rw [h1]; ring
      · rw [h2]; ring
      · have a1 : (0 : Int) ≤ if e = cur then 1 else 0 := by split <;> decide
        have a2 : (0 : Int) ≤ if e = g.complementEdge next then 1 else 0 := by
          split <;> decide
        linarith
      · have a1 : (0 : Int) ≤ if e = next then 1 else 0 := by split <;> decide
        have a2 : (0 : Int) ≤ if e = g.complementEdge cur then 1 else 0 := by
          split <;> decide
        linarith

theorem countsBalanced_countPath (g : Graph)
    (hinv : ∀ e, g.complementEdge (g.complementEdge e) = e) (path : GraphAlignment) :
    ∀ c, CountsBalanced g c → CountsBalanced g (countPath g c path) := by
  induction path with
  | nil => intro c h; exact h
  | cons cur rest ih =>
    intro c h
    cases rest with
    | nil => exact h
    | cons next rest2 =>
      show CountsBalanced g (countPath g (countPair g c cur next) (next :: rest2))
      exact ih _ (countsBalanced_countPair g hinv c cur next h)

theorem countsBalanced_countConnections (g : Graph)
    (hinv : ∀ e, g.complementEdge (g.complementEdge e) = e)
    (alignments : List GraphAlignment) : CountsBalanced g (countConnections g alignments) := by
  unfold countConnections
  suffices h : ∀ (l : List GraphAlignment) (c : Connections), CountsBalanced g c →
      CountsBalanced g (l.foldl (countPath g) c) by
    apply h
    intro e
    exact ⟨rfl, rfl, le_refl _, le_refl _⟩
  intro l
  induction l with
  | nil => intro c h; exact h
  | cons a t ih =>
    intro c h
    rw [List.foldl_cons]
    exact ih _ (countsBalanced_countPath g hinv a c h)

theorem one_le_of_truncate (q : ℚ) (h : 1 ≤ truncate q) : 1 ≤ q := by
  unfold truncate at h
  split at h
  · have h1 : ((Rat.floor q : Int) : ℚ) ≤ q := Int.floor_le q
    have h2 : ((1 : Int) : ℚ) ≤ ((Rat.floor q : Int) : ℚ) := by exact_mod_cast h
    have h3 : ((1 : Int) : ℚ) = 1 := by norm_cast
    linarith
  · rename_i hq
    have hneg : 0 ≤ -q := by linarith [not_le.mp hq]
    have : 0 ≤ Rat.floor (-q) := Int.floor_nonneg.mpr hneg
    omega

end RepeatGraph

namespace RepeatGraph

theorem disconnect_meanCoverage (g : Graph) (x e : EdgeRef) :
    ((disconnectRight g x).edges e).meanCoverage = (g.edges e).meanCoverage ∧
    ((disconnectLeft g x).edges e).meanCoverage = (g.edges e).meanCoverage := by
  by_cases h : e = x
  · subst h; simp [disconnectRight, disconnectLeft, Graph.addNode]
  · simp [disconnectRight, disconnectLeft, Graph.addNode, Function.update_noteq h]

theorem tested_right_left (env : PassEnv) (c : Connections) (g0 cur : Graph) (x : EdgeRef)
    (hinv : ∀ e, g0.complementEdge (g0.complementEdge e) = e) (h : Tested env c g0 cur)
    (hx : c.rightConnections x / 2 < connectionThreshold env (g0.edges x)) :
    Tested env c g0 (disconnectLeft (disconnectRight cur x) (g0.complementEdge x)) := by
  obtain ⟨hc, hm, hr, hl⟩ := h
  obtain ⟨-, r2, -, r4, r5⟩ := disconnectRight_fields cur x
  obtain ⟨-, l2, -, l4, l5⟩ := disconnectLeft_fields (disconnectRight cur x) (g0.complementEdge x)
  refine ⟨by rw [l2, r2, hc], ?_, ?_, ?_⟩
  · intro e
    rw [(disconnect_meanCoverage _ _ e).2, (disconnect_meanCoverage _ _ e).1, hm]
  · intro e he
    rw [l5, r4] at he
    by_cases hex : e = x
    · subst hex; exact Or.inl hx
    · rw [if_neg hex] at he; exact hr e he
  · intro e he
    rw [l4, r5] at he
    by_cases hex : e = g0.complementEdge x
    · subst hex; right; rw [hinv]; exact hx
    · rw [if_neg hex] at he; exact hl e he

theorem tested_left_right (env : PassEnv) (c : Connections) (g0 cur : Graph) (x : EdgeRef)
    (hinv : ∀ e, g0.complementEdge (g0.complementEdge e) = e) (h : Tested env c g0 cur)
    (hx : c.leftConnections x / 2 < connectionThreshold env (g0.edges x)) :
    Tested env c g0 (disconnectRight (disconnectLeft cur x) (g0.complementEdge x)) := by
  obtain ⟨hc, hm, hr, hl⟩ := h
  obtain ⟨-, l2, -, l4, l5⟩ := disconnectLeft_fields cur x
  obtain ⟨-, r2, -, r4, r5⟩ := disconnectRight_fields (disconnectLeft cur x) (g0.complementEdge x)
  refine ⟨by rw [r2, l2, hc], ?_, ?_, ?_⟩
  · intro e
    rw [(disconnect_meanCoverage _ _ e).1, (disconnect_meanCoverage _ _ e).2, hm]
  · intro e he
    rw [r4, l5] at he
    by_cases hex : e = g0.complementEdge x
    · subst hex; right; rw [hinv]; exact hx
    · rw [if_neg hex] at he; exact hr e he
  · intro e he
    rw [r5, l4] at he
    by_cases hex : e = x
    · subst hex; exact Or.inl hx
    · rw [if_neg hex] at he; exact hl e he

theorem connectionThreshold_congr (env : PassEnv) (a b : GraphEdge)
    (h : a.meanCoverage = b.meanCoverage) :
    connectionThreshold env a = connectionThreshold env b := by
  unfold connectionThreshold
  rw [h]

theorem tested_connectionsStep (env : PassEnv) (c : Connections) (g0 cur : Graph)
    (x : EdgeRef) (hinv : ∀ e, g0.complementEdge (g0.complementEdge e) = e)
    (h : Tested env c g0 cur) : Tested env c g0 (connectionsStep env c cur x) := by
  have hc : cur.complementEdge = g0.complementEdge := h.1
  have ht : connectionThreshold env (cur.edges x) = connectionThreshold env (g0.edges x) :=
    connectionThreshold_congr env _ _ (h.2.1 x)
  have hR : ∀ g1 : Graph, chimericRight env c (connectionThreshold env (g0.edges x)) g1 x = true →
      c.rightConnections x / 2 < connectionThreshold env (g0.edges x) := by
    intro g1 h1
    unfold chimericRight at h1
    simp only [Bool.and_eq_true, decide_eq_true_eq] at h1
    exact h1.2
  have hL : ∀ g1 : Graph, chimericLeft env c (connectionThreshold env (g0.edges x)) g1 x = true →
      c.leftConnections x / 2 < connectionThreshold env (g0.edges x) := by
    intro g1 h1
    unfold chimericLeft at h1
    simp only [Bool.and_eq_true, decide_eq_true_eq] at h1
    exact h1.2
  unfold connectionsStep
  simp only [hc, ht]
  split
  · exact h
  · split
    · rename_i hr
      have hRL := tested_right_left env c g0 cur x hinv h (hR _ hr)
      split
      · exact hRL
      · unfold disconnectLeftSide
        split
        · rename_i hl
          exact tested_left_right env c g0 _ x hinv hRL (hL _ hl)
        · exact hRL
    · unfold disconnectLeftSide
      split
      · rename_i hl
        exact tested_left_right env c g0 cur x hinv h (hL _ hl)
      · exact h

theorem tested_foldl (env : PassEnv) (c : Connections) (g0 : Graph) (l : List EdgeRef)
    (hinv : ∀ e, g0.complementEdge (g0.complementEdge e) = e) :
    ∀ g, Tested env c g0 g → Tested env c g0 (l.foldl (connectionsStep env c) g) := by
  induction l with
  | nil => intro g h; exact h
  | cons a t ih =>
    intro g h
    rw [List.foldl_cons]
    exact ih _ (tested_connectionsStep env c g0 g a hinv h)

theorem tested_removeUnsupportedConnections (env : PassEnv) (g : Graph)
    (alignments : List GraphAlignment)
    (hinv : ∀ e, g.complementEdge (g.complementEdge e) = e) :
    Tested env (countConnections g alignments) g
      (removeUnsupportedConnections env g alignments) := by
  unfold removeUnsupportedConnections
  apply tested_foldl env _ g _ hinv
  exact ⟨rfl, fun _ => rfl, fun e he => absurd rfl he, fun e he => absurd rfl he⟩

/-- C19. In `removeUnsupportedConnections`, on a graph whose `complementEdge` is an
involution: the threshold `min(1, trunc(meanCoverage / graph_cov_drop_rate))` of every edge
is at most `1`; an edge of either strand with at least `2` connections on a side keeps its
node on that side; and an edge whose node on a side was changed has `connections / 2 = 0`
on that side, and it or its complement has `meanCoverage / graph_cov_drop_rate >= 1`. -/
theorem removeUnsupportedConnections_threshold (env : PassEnv) (g : Graph)
    (alignments : List GraphAlignment)
    (hinv : ∀ e, g.complementEdge (g.complementEdge e) = e) :
    (∀ e, connectionThreshold env (g.edges e) ≤ 1) ∧
    (∀ e, 2 ≤ (countConnections g alignments).rightConnections e →
      ((removeUnsupportedConnections env g alignments).edges e).nodeRight =
        (g.edges e).nodeRight) ∧
    (∀ e, 2 ≤ (countConnections g alignments).leftConnections e →
      ((removeUnsupportedConnections env g alignments).edges e).nodeLeft =
        (g.edges e).nodeLeft) ∧
    (∀ e, ((removeUnsupportedConnections env g alignments).edges e).nodeRight ≠
        (g.edges e).nodeRight →
      (countConnections g alignments).rightConnections e / 2 = 0 ∧
      (1 ≤ ((g.edges e).meanCoverage : ℚ) / env.dropRate ∨
        1 ≤ ((g.edges (g.complementEdge e)).meanCoverage : ℚ) / env.dropRate)) ∧
    (∀ e, ((removeUnsupportedConnections env g alignments).edges e).nodeLeft ≠
        (g.edges e).nodeLeft →
      (countConnections g alignments).leftConnections e / 2 = 0 ∧
      (1 ≤ ((g.edges e).meanCoverage : ℚ) / env.dropRate ∨
        1 ≤ ((g.edges (g.complementEdge e)).meanCoverage : ℚ) / env.dropRate)) := by
  obtain ⟨-, -, hr, hl⟩ := tested_removeUnsupportedConnections env g alignments hinv
  have hbal := countsBalanced_countConnections g hinv alignments
  have hle : ∀ e, connectionThreshold env (g.edges e) ≤ 1 := fun e => min_le_left _ _
  have key : ∀ (n : Int) (e : EdgeRef), 0 ≤ n → n / 2 < connectionThreshold env (g.edges e) →
      n / 2 = 0 ∧ 1 ≤ ((g.edges e).meanCoverage : ℚ) / env.dropRate := by
    intro n e hn hlt
    have h1 := hle e
    have h0 : 0 ≤ n / 2 := Int.ediv_nonneg hn (by decide)
    refine ⟨by omega, ?_⟩
    apply one_le_of_truncate
    have h2 : 1 ≤ connectionThreshold env (g.edges e) := by omega
    exact le_trans h2 (min_le_right _ _)
  have keyR : ∀ e, ((removeUnsupportedConnections env g alignments).edges e).nodeRight ≠
        (g.edges e).nodeRight →
      (countConnections g alignments).rightConnections e / 2 = 0 ∧
      (1 ≤ ((g.edges e).meanCoverage : ℚ) / env.dropRate ∨
        1 ≤ ((g.edges (g.complementEdge e)).meanCoverage : ℚ) / env.dropRate) := by
    intro e he
    obtain ⟨b1, -, b3, -⟩ := hbal e
    rcases hr e he with h1 | h1
    · exact ⟨(key _ e b3 h1).1, Or.inl (key _ e b3 h1).2⟩
    · rw [b1] at h1
      exact ⟨(key _ _ b3 h1).1, Or.inr (key _ _ b3 h1).2⟩
  have keyL : ∀ e, ((removeUnsupportedConnections env g alignments).edges e).nodeLeft ≠
        (g.edges e).nodeLeft →
      (countConnections g alignments).leftConnections e / 2 = 0 ∧
      (1 ≤ ((g.edges e).meanCoverage : ℚ) / env.dropRate ∨
        1 ≤ ((g.edges (g.complementEdge e)).meanCoverage : ℚ) / env.dropRate) := by
    intro e he
    obtain ⟨-, b2, -, b4⟩ := hbal e
    rcases hl e he with h1 | h1
    · exact ⟨(key _ e b4 h1).1, Or.inl (key _ e b4 h1).2⟩
    · rw [b2] at h1
      exact ⟨(key _ _ b4 h1).1, Or.inr (key _ _ b4 h1).2⟩
  refine ⟨hle, ?_, ?_, keyR, keyL⟩
  · intro e h2
    by_contra hne
    have := (keyR e hne).1
    omega
  · intro e h2
    by_contra hne
    have := (keyL e hne).1
    omega

/-- Witness for C19: on the one-pair graph with two reads that run from edge `0` into edge
`0` again, edge `0` has `2` connections on its right and keeps its right node. -/
theorem removeUnsupportedConnections_threshold_witness :
    (∀ e, pairGraph.complementEdge (pairGraph.complementEdge e) = e) ∧
    (countConnections pairGraph [[0, 0], [0, 0]]).rightConnections 0 = 2 ∧
    ((removeUnsupportedConnections openEnv pairGraph [[0, 0], [0, 0]]).edges 0).nodeRight =
      (pairGraph.edges 0).nodeRight :=
  ⟨pairGraph_involution, by decide,
    (removeUnsupportedConnections_threshold openEnv pairGraph [[0, 0], [0, 0]]
      pairGraph_involution).2.1 0 (by decide)⟩

end RepeatGraph

namespace RepeatGraph

/-- C17 (counterexample). On `forkGraph` without reads (drop rate `5`) the test of the right
side passes on the graph before the pass for both `a` and `b`, and the test of the left side
for `c`; the pass detaches only the first of `a`, `b` it visits and never `c`: enumerating
`a` first moves `a` to the fresh node `8` and leaves `b` at node `2`, enumerating `b` first
moves `b` and leaves `a`. -/
theorem removeUnsupportedConnections_order_dependent :
    chimericRight (specEnv 5) (countConnections forkGraph [])
      (connectionThreshold (specEnv 5) (forkGraph.edges 0)) forkGraph 0 = true ∧
    chimericRight (specEnv 5) (countConnections forkGraph [])
      (connectionThreshold (specEnv 5) (forkGraph.edges 2)) forkGraph 2 = true ∧
    chimericLeft (specEnv 5) (countConnections forkGraph [])
      (connectionThreshold (specEnv 5) (forkGraph.edges 4)) forkGraph 4 = true ∧
    ((removeUnsupportedConnections (specEnv 5) forkGraph []).edges 0).nodeRight = 8 ∧
    ((removeUnsupportedConnections (specEnv 5) forkGraph []).edges 2).nodeRight = 2 ∧
    ((removeUnsupportedConnections (specEnv 5) forkGraph []).edges 4).nodeLeft = 2 ∧
    ((removeUnsupportedConnections (specEnv 5) forkGraphSwapped []).edges 0).nodeRight = 2 ∧
    ((removeUnsupportedConnections (specEnv 5) forkGraphSwapped []).edges 2).nodeRight = 8 := by
  decide!

end RepeatGraph

namespace RepeatGraph

theorem disconnectRight_nodes (g : Graph) (x : EdgeRef) (n : Nat) :
    (disconnectRight g x).nodes n =
      if n = g.numNodes then ⟨[x], []⟩
      else if n = (g.edges x).nodeRight then
        ⟨vecRemove (g.nodes n).inEdges x, (g.nodes n).outEdges⟩
      else g.nodes n := by
  by_cases h1 : n = g.numNodes
  · subst h1
    by_cases h2 : (g.edges x).nodeRight = g.numNodes
    · simp [disconnectRight, Graph.addNode, vecRemove]
      rw [h2]; simp
    · simp [disconnectRight, Graph.addNode, h2, Function.update_noteq (Ne.symm h2)]
  · by_cases h2 : n = (g.edges x).nodeRight
    · subst h2
      simp [disconnectRight, Graph.addNode, h1, Function.update_noteq h1]
    · simp [disconnectRight, Graph.addNode, h1, h2, Function.update_noteq h1,
        Function.update_noteq h2]

theorem disconnectLeft_nodes (g : Graph) (x : EdgeRef) (n : Nat) :
    (disconnectLeft g x).nodes n =
      if n = g.numNodes then ⟨[], [x]⟩
      else if n = (g.edges x).nodeLeft then
        ⟨(g.nodes n).inEdges, vecRemove (g.nodes n).outEdges x⟩
      else g.nodes n := by
  by_cases h1 : n = g.numNodes
  · subst h1
    by_cases h2 : (g.edges x).nodeLeft = g.numNodes
    · simp [disconnectLeft, Graph.addNode, vecRemove]
      rw [h2]; simp
    · simp [disconnectLeft, Graph.addNode, h2, Function.update_noteq (Ne.symm h2)]
  · by_cases h2 : n = (g.edges x).nodeLeft
    · subst h2
      simp [disconnectLeft, Graph.addNode, h1, Function.update_noteq h1]
    · simp [disconnectLeft, Graph.addNode, h1, h2, Function.update_noteq h1,
        Function.update_noteq h2]

theorem length_vecRemove_le (v : List EdgeRef) (x : EdgeRef) :
    (vecRemove v x).length ≤ v.length :=
  List.length_filter_le _ _

theorem shrunk_disconnectRight (g0 cur : Graph) (x : EdgeRef) (h : Shrunk g0 cur) :
    Shrunk g0 (disconnectRight cur x) := by
  obtain ⟨h1, h2, h3, h4, h5⟩ := h
  obtain ⟨r1, -, -, r4, r5⟩ := disconnectRight_fields cur x
  refine ⟨by rw [r1]; exact Nat.le_succ_of_le h1, ?_, ?_, ?_, ?_⟩
  · intro e
    rw [r4, r1]
    by_cases hex : e = x
    · rw [if_pos hex]; exact Or.inr ⟨h1, Nat.lt_succ_self _⟩
    · rw [if_neg hex]
      rcases h2 e with h | h
      · exact Or.inl h
      · exact Or.inr ⟨h.1, Nat.lt_succ_of_lt h.2⟩
  · intro e
    rw [r5, r1]
    rcases h3 e with h | h
    · exact Or.inl h
    · exact Or.inr ⟨h.1, Nat.lt_succ_of_lt h.2⟩
  · intro n hn
    have hne : n ≠ cur.numNodes := Nat.ne_of_lt (Nat.lt_of_lt_of_le hn h1)
    rw [disconnectRight_nodes, if_neg hne]
    split
    · exact ⟨le_trans (length_vecRemove_le _ _) (h4 n hn).1, (h4 n hn).2⟩
    · exact h4 n hn
  · intro n hn hlt
    rw [r1] at hlt
    rw [disconnectRight_nodes]
    split
    · simp
    · rename_i hne
      have hlt2 : n < cur.numNodes := Nat.lt_of_le_of_ne (Nat.le_of_lt_succ hlt) hne
      split
      · have := length_vecRemove_le (cur.nodes n).inEdges x
        have := h5 n hn hlt2
        show (vecRemove (cur.nodes n).inEdges x).length + (cur.nodes n).outEdges.length ≤ 1
        omega
      · exact h5 n hn hlt2

theorem shrunk_disconnectLeft (g0 cur : Graph) (x : EdgeRef) (h : Shrunk g0 cur) :
    Shrunk g0 (disconnectLeft cur x) := by
  obtain ⟨h1, h2, h3, h4, h5⟩ := h
  obtain ⟨r1, -, -, r4, r5⟩ := disconnectLeft_fields cur x
  refine ⟨by rw [r1]; exact Nat.le_succ_of_le h1, ?_, ?_, ?_, ?_⟩
  · intro e
    rw [r5, r1]
    rcases h2 e with h | h
    · exact Or.inl h
    · exact Or.inr ⟨h.1, Nat.lt_succ_of_lt h.2⟩
  · intro e
    rw [r4, r1]
    by_cases hex : e = x
    · rw [if_pos hex]; exact Or.inr ⟨h1, Nat.lt_succ_self _⟩
    · rw [if_neg hex]
      rcases h3 e with h | h
      · exact Or.inl h
      · exact Or.inr ⟨h.1, Nat.lt_succ_of_lt h.2⟩
  · intro n hn
    have hne : n ≠ cur.numNodes := Nat.ne_of_lt (Nat.lt_of_lt_of_le hn h1)
    rw [disconnectLeft_nodes, if_neg hne]
    split
    · exact ⟨(h4 n hn).1, le_trans (length_vecRemove_le _ _) (h4 n hn).2⟩
    · exact h4 n hn
  · intro n hn hlt
    rw [r1] at hlt
    rw [disconnectLeft_nodes]
    split
    · simp
    · rename_i hne
      have hlt2 : n < cur.numNodes := Nat.lt_of_le_of_ne (Nat.le_of_lt_succ hlt) hne
      split
      · have := length_vecRemove_le (cur.nodes n).outEdges x
        have := h5 n hn hlt2
        show (cur.nodes n).inEdges.length + (vecRemove (cur.nodes n).outEdges x).length ≤ 1
        omega
      · exact h5 n hn hlt2

end RepeatGraph

namespace RepeatGraph

theorem chimericRight_specEnv (dropRate : ℚ) (c : Connections) (t : Int) (g : Graph)
    (x : EdgeRef) :
    chimericRight (specEnv dropRate) c t g x = true ↔
      (1 < (g.nodes (g.edges x).nodeRight).inEdges.length +
          (g.nodes (g.edges x).nodeRight).outEdges.length ∧
        (1 < (g.nodes (g.edges x).nodeRight).outEdges.length ∨
          1 < (g.nodes (g.edges x).nodeRight).inEdges.length)) ∧
      c.rightConnections x / 2 < t := by
  unfold chimericRight specEnv
  simp

theorem chimericLeft_specEnv (dropRate : ℚ) (c : Connections) (t : Int) (g : Graph)
    (x : EdgeRef) :
    chimericLeft (specEnv dropRate) c t g x = true ↔
      (1 < (g.nodes (g.edges x).nodeLeft).inEdges.length +
          (g.nodes (g.edges x).nodeLeft).outEdges.length ∧
        (1 < (g.nodes (g.edges x).nodeLeft).outEdges.length ∨
          1 < (g.nodes (g.edges x).nodeLeft).inEdges.length)) ∧
      c.leftConnections x / 2 < t := by
  unfold chimericLeft specEnv
  simp

theorem shrunk_node (g0 cur : Graph) (h : Shrunk g0 cur) (n0 n : Nat) (hn0 : n0 < g0.numNodes)
    (hn : n = n0 ∨ (g0.numNodes ≤ n ∧ n < cur.numNodes))
    (hbig : 1 < (cur.nodes n).inEdges.length + (cur.nodes n).outEdges.length)
    (hbif : 1 < (cur.nodes n).outEdges.length ∨ 1 < (cur.nodes n).inEdges.length) :
    1 < (g0.nodes n0).inEdges.length + (g0.nodes n0).outEdges.length ∧
      (1 < (g0.nodes n0).outEdges.length ∨ 1 < (g0.nodes n0).inEdges.length) := by
  obtain ⟨-, -, -, h4, h5⟩ := h
  rcases hn with hn | hn
  · subst hn
    have := h4 n hn0
    constructor
    · omega
    · rcases hbif with hb | hb
      · left; omega
      · right; omega
  · have := h5 n hn.1 hn.2
    omega

theorem chimericRight_snapshot (dropRate : ℚ) (c : Connections) (t : Int) (g0 cur : Graph)
    (x : EdgeRef) (h : Shrunk g0 cur)
    (hwf : ∀ e, (g0.edges e).nodeLeft < g0.numNodes ∧ (g0.edges e).nodeRight < g0.numNodes)
    (hx : chimericRight (specEnv dropRate) c t cur x = true) :
    chimericRight (specEnv dropRate) c t g0 x = true := by
  rw [chimericRight_specEnv] at hx ⊢
  exact ⟨shrunk_node g0 cur h _ _ (hwf x).2 (h.2.1 x) hx.1.1 hx.1.2, hx.2⟩

theorem chimericLeft_snapshot (dropRate : ℚ) (c : Connections) (t : Int) (g0 cur : Graph)
    (x : EdgeRef) (h : Shrunk g0 cur)
    (hwf : ∀ e, (g0.edges e).nodeLeft < g0.numNodes ∧ (g0.edges e).nodeRight < g0.numNodes)
    (hx : chimericLeft (specEnv dropRate) c t cur x = true) :
    chimericLeft (specEnv dropRate) c t g0 x = true := by
  rw [chimericLeft_specEnv] at hx ⊢
  exact ⟨shrunk_node g0 cur h _ _ (hwf x).1 (h.2.2.1 x) hx.1.1 hx.1.2, hx.2⟩

theorem within_right_left (dropRate : ℚ) (c : Connections) (g0 cur : Graph) (x : EdgeRef)
    (hinv : ∀ e, g0.complementEdge (g0.complementEdge e) = e)
    (h : WithinSnapshot dropRate c g0 cur)
    (hx : chimericRight (specEnv dropRate) c
      (connectionThreshold (specEnv dropRate) (g0.edges x)) g0 x = true) :
    WithinSnapshot dropRate c g0
      (disconnectLeft (disconnectRight cur x) (g0.complementEdge x)) := by
  obtain ⟨hc, hm, hs, hr, hl⟩ := h
  obtain ⟨-, r2, -, r4, r5⟩ := disconnectRight_fields cur x
  obtain ⟨-, l2, -, l4, l5⟩ := disconnectLeft_fields (disconnectRight cur x) (g0.complementEdge x)
  refine ⟨by rw [l2, r2, hc], ?_,
    shrunk_disconnectLeft g0 _ _ (shrunk_disconnectRight g0 cur x hs), ?_, ?_⟩
  · intro e
    rw [(disconnect_meanCoverage _ _ e).2, (disconnect_meanCoverage _ _ e).1, hm]
  · intro e he
    rw [l5, r4] at he
    by_cases hex : e = x
    · subst hex; exact Or.inl hx
    · rw [if_neg hex] at he; exact hr e he
  · intro e he
    rw [l4, r5] at he
    by_cases hex : e = g0.complementEdge x
    · subst hex; right; rw [hinv]; exact hx
    · rw [if_neg hex] at he; exact hl e he

theorem within_left_right (dropRate : ℚ) (c : Connections) (g0 cur : Graph) (x : EdgeRef)
    (hinv : ∀ e, g0.complementEdge (g0.complementEdge e) = e)
    (h : WithinSnapshot dropRate c g0 cur)
    (hx : chimericLeft (specEnv dropRate) c
      (connectionThreshold (specEnv dropRate) (g0.edges x)) g0 x = true) :
    WithinSnapshot dropRate c g0
      (disconnectRight (disconnectLeft cur x) (g0.complementEdge x)) := by
  obtain ⟨hc, hm, hs, hr, hl⟩ := h
  obtain ⟨-, l2, -, l4, l5⟩ := disconnectLeft_fields cur x
  obtain ⟨-, r2, -, r4, r5⟩ := disconnectRight_fields (disconnectLeft cur x) (g0.complementEdge x)
  refine ⟨by rw [r2, l2, hc], ?_,
    shrunk_disconnectRight g0 _ _ (shrunk_disconnectLeft g0 cur x hs), ?_, ?_⟩
  · intro e
    rw [(disconnect_meanCoverage _ _ e).1, (disconnect_meanCoverage _ _ e).2, hm]
  · intro e he
    rw [r4, l5] at he
    by_cases hex : e = g0.complementEdge x
    · subst hex; right; rw [hinv]; exact hx
    · rw [if_neg hex] at he; exact hr e he
  · intro e he
    rw [r5, l4] at he
    by_cases hex : e = x
    · subst hex; exact Or.inl hx
    · rw [if_neg hex] at he; exact hl e he

theorem within_connectionsStep (dropRate : ℚ) (c : Connections) (g0 cur : Graph)
    (x : EdgeRef) (hinv : ∀ e, g0.complementEdge (g0.complementEdge e) = e)
    (hwf : ∀ e, (g0.edges e).nodeLeft < g0.numNodes ∧ (g0.edges e).nodeRight < g0.numNodes)
    (h : WithinSnapshot dropRate c g0 cur) :
    WithinSnapshot dropRate c g0 (connectionsStep (specEnv dropRate) c cur x) := by
  have hc : cur.complementEdge = g0.complementEdge := h.1
  have ht : connectionThreshold (specEnv dropRate) (cur.edges x) =
      connectionThreshold (specEnv dropRate) (g0.edges x) :=
    connectionThreshold_congr _ _ _ (h.2.1 x)
  unfold connectionsStep
  simp only [hc, ht]
  split
  · exact h
  · split
    · rename_i hr
      have hRL := within_right_left dropRate c g0 cur x hinv h
        (chimericRight_snapshot dropRate c _ g0 cur x h.2.2.1 hwf hr)
      split
      · exact hRL
      · unfold disconnectLeftSide
        split
        · rename_i hl
          exact within_left_right dropRate c g0 _ x hinv hRL
            (chimericLeft_snapshot dropRate c _ g0 _ x hRL.2.2.1 hwf hl)
        · exact hRL
    · unfold disconnectLeftSide
      split
      · rename_i hl
        exact within_left_right dropRate c g0 cur x hinv h
          (chimericLeft_snapshot dropRate c _ g0 cur x h.2.2.1 hwf hl)
      · exact h

theorem within_foldl (dropRate : ℚ) (c : Connections) (g0 : Graph) (l : List EdgeRef)
    (hinv : ∀ e, g0.complementEdge (g0.complementEdge e) = e)
    (hwf : ∀ e, (g0.edges e).nodeLeft < g0.numNodes ∧ (g0.edges e).nodeRight < g0.numNodes) :
    ∀ g, WithinSnapshot dropRate c g0 g →
      WithinSnapshot dropRate c g0 (l.foldl (connectionsStep (specEnv dropRate) c) g) := by
  induction l with
  | nil => intro g h; exact h
  | cons a t ih =>
    intro g h
    rw [List.foldl_cons]
    exact ih _ (within_connectionsStep dropRate c g0 g a hinv hwf h)

/-- C17 (amended). With the node predicates of the data model, on a graph whose
`complementEdge` is an involution and whose edges end at allocated nodes, every detachment
`removeUnsupportedConnections` performs is one of those the disconnect conditions select on
the graph as it was before the pass: an edge whose right node was changed passes the test of
the right side (not an endpoint, a bifurcation, `connections / 2 < t`) on the graph before
the pass, or its complement passes the test of the left side there; and likewise for a
changed left node. -/
theorem removeUnsupportedConnections_within_snapshot (dropRate : ℚ) (g : Graph)
    (alignments : List GraphAlignment)
    (hinv : ∀ e, g.complementEdge (g.complementEdge e) = e)
    (hwf : ∀ e, (g.edges e).nodeLeft < g.numNodes ∧ (g.edges e).nodeRight < g.numNodes) :
    (∀ e, ((removeUnsupportedConnections (specEnv dropRate) g alignments).edges e).nodeRight ≠
        (g.edges e).nodeRight →
      chimericRight (specEnv dropRate) (countConnections g alignments)
        (connectionThreshold (specEnv dropRate) (g.edges e)) g e = true ∨
      chimericLeft (specEnv dropRate) (countConnections g alignments)
        (connectionThreshold (specEnv dropRate) (g.edges (g.complementEdge e)))
        g (g.complementEdge e) = true) ∧
    (∀ e, ((removeUnsupportedConnections (specEnv dropRate) g alignments).edges e).nodeLeft ≠
        (g.edges e).nodeLeft →
      chimericLeft (specEnv dropRate) (countConnections g alignments)
        (connectionThreshold (specEnv dropRate) (g.edges e)) g e = true ∨
      chimericRight (specEnv dropRate) (countConnections g alignments)
        (connectionThreshold (specEnv dropRate) (g.edges (g.complementEdge e)))
        g (g.complementEdge e) = true) := by
  have h0 : WithinSnapshot dropRate (countConnections g alignments) g g := by
    refine ⟨rfl, fun _ => rfl, ?_, fun e he => absurd rfl he, fun e he => absurd rfl he⟩
    refine ⟨le_refl _, fun _ => Or.inl rfl, fun _ => Or.inl rfl,
      fun n _ => ⟨le_refl _, le_refl _⟩, ?_⟩
    intro n h1 h2
    exact absurd h2 (Nat.not_lt.mpr h1)
  have h := within_foldl dropRate (countConnections g alignments) g g.edgeList hinv hwf g h0
  exact ⟨h.2.2.2.1, h.2.2.2.2⟩

end RepeatGraph

namespace RepeatGraph

theorem graphOf_involution (numNodes : Nat) (es : List GraphEdge) (e : Nat) :
    (graphOf numNodes es).complementEdge ((graphOf numNodes es).complementEdge e) = e := by
  show (if (if e % 2 = 0 then e + 1 else e - 1) % 2 = 0
      then (if e % 2 = 0 then e + 1 else e - 1) + 1
      else (if e % 2 = 0 then e + 1 else e - 1) - 1) = e
  by_cases h : e % 2 = 0
  · rw [if_pos h, if_neg (by omega)]; omega
  · rw [if_neg h, if_pos (by omega)]; omega

theorem forkGraph_allocated (e : Nat) :
    (forkGraph.edges e).nodeLeft < forkGraph.numNodes ∧
      (forkGraph.edges e).nodeRight < forkGraph.numNodes := by
  rcases e with _ | _ | _ | _ | _ | _ | e <;> simp [forkGraph, graphOf]

/-- Witness for C17 (amended): on `forkGraph` without reads the pass moves the right end of
`a`, and `a` passes the test of the right side on the graph before the pass. -/
theorem removeUnsupportedConnections_within_snapshot_witness :
    (∀ e, forkGraph.complementEdge (forkGraph.complementEdge e) = e) ∧
    (∀ e, (forkGraph.edges e).nodeLeft < forkGraph.numNodes ∧
      (forkGraph.edges e).nodeRight < forkGraph.numNodes) ∧
    ((removeUnsupportedConnections (specEnv 5) forkGraph []).edges 0).nodeRight ≠
      (forkGraph.edges 0).nodeRight ∧
    (chimericRight (specEnv 5) (countConnections forkGraph [])
        (connectionThreshold (specEnv 5) (forkGraph.edges 0)) forkGraph 0 = true ∨
      chimericLeft (specEnv 5) (countConnections forkGraph [])
        (connectionThreshold (specEnv 5) (forkGraph.edges (forkGraph.complementEdge 0)))
        forkGraph (forkGraph.complementEdge 0) = true) :=
  ⟨graphOf_involution 8 _, forkGraph_allocated, by decide!,
    (removeUnsupportedConnections_within_snapshot 5 forkGraph [] (graphOf_involution 8 _)
      forkGraph_allocated).1 0 (by decide!)⟩

end RepeatGraph

namespace RepeatGraph

/-! ## `collapseHeterozygousLoops` -/

theorem mem_idInsert (s : List SignedId) (a id : SignedId) :
    id ∈ idInsert s a ↔ id ∈ s ∨ id = a := by
  unfold idInsert
  split
  · constructor
    · intro h; exact Or.inl h
    · rintro (h | h)
      · exact h
      · subst h; assumption
  · simp

theorem rc_rc (id : SignedId) : id.rc.rc = id := by
  cases id
  simp [SignedId.rc]

theorem foldl_markLoop_none (g : Graph) (paths l : List UnbranchingPath) :
    l.foldl (markLoop g paths) none = none := by
  induction l with
  | nil => rfl
  | cons a t ih => rw [List.foldl_cons]; exact ih

theorem foldl_markLoop (g : Graph) (paths l : List UnbranchingPath) :
    ∀ s0 s : LoopSets, l.foldl (markLoop g paths) (some s0) = some s →
      (∀ id, id ∈ s.toRemove ↔ id ∈ s0.toRemove ∨
        ∃ L ∈ l, loopMark g paths L = some LoopMark.remove ∧ (id = L.id ∨ id = L.id.rc)) ∧
      (∀ id, id ∈ s.toUnroll ↔ id ∈ s0.toUnroll ∨
        ∃ L ∈ l, loopMark g paths L = some LoopMark.unroll ∧ (id = L.id ∨ id = L.id.rc)) := by
  induction l with
  | nil =>
    intro s0 s h
    have : s0 = s := by simpa using h
    subst this
    simp
  | cons a t ih =>
    intro s0 s h
    rw [List.foldl_cons] at h
    cases hm : loopMark g paths a with
    | none =>
      have : markLoop g paths (some s0) a = none := by simp [markLoop, hm]
      rw [this, foldl_markLoop_none] at h
      cases h
    | some m =>
      cases m with
      | skip =>
        have : markLoop g paths (some s0) a = some s0 := by simp [markLoop, hm]
        rw [this] at h
        obtain ⟨h1, h2⟩ := ih s0 s h
        constructor
        · intro id
          rw [h1 id]
          constructor
          · rintro (h3 | ⟨L, hL, h3⟩)
            · exact Or.inl h3
            · exact Or.inr ⟨L, List.mem_cons_of_mem _ hL, h3⟩
          · rintro (h3 | ⟨L, hL, h3⟩)
            · exact Or.inl h3
            · rcases List.mem_cons.mp hL with hL | hL
              · subst hL; rw [hm] at h3; exact absurd h3.1 (by decide)
              · exact Or.inr ⟨L, hL, h3⟩
        · intro id
          rw [h2 id]
          constructor
          · rintro (h3 | ⟨L, hL, h3⟩)
            · exact Or.inl h3
            · exact Or.inr ⟨L, List.mem_cons_of_mem _ hL, h3⟩
          · rintro (h3 | ⟨L, hL, h3⟩)
            · exact Or.inl h3
            · rcases List.mem_cons.mp hL with hL | hL
              · subst hL; rw [hm] at h3; exact absurd h3.1 (by decide)
              · exact Or.inr ⟨L, hL, h3⟩
      | remove =>
        have : markLoop g paths (some s0) a =
            some ⟨s0.toUnroll, idInsert (idInsert s0.toRemove a.id) a.id.rc⟩ := by
          simp [markLoop, hm]
        rw [this] at h
        obtain ⟨h1, h2⟩ := ih _ s h
        constructor
        · intro id
          rw [h1 id]
          simp only [mem_idInsert]
          constructor
          · rintro ((((h3 | h3) | h3)) | ⟨L, hL, h3⟩)
            · exact Or.inl h3
            · exact Or.inr ⟨a, List.mem_cons_self _ _, hm, Or.inl h3⟩
            · exact Or.inr ⟨a, List.mem_cons_self _ _, hm, Or.inr h3⟩
            · exact Or.inr ⟨L, List.mem_cons_of_mem _ hL, h3⟩
          · rintro (h3 | ⟨L, hL, h3⟩)
            · exact Or.inl (Or.inl (Or.inl h3))
            · rcases List.mem_cons.mp hL with hL | hL
              · subst hL
                rcases h3.2 with h4 | h4
                · exact Or.inl (Or.inl (Or.inr h4))
                · exact Or.inl (Or.inr h4)
              · exact Or.inr ⟨L, hL, h3⟩
        · intro id
          rw [h2 id]
          constructor
          · rintro (h3 | ⟨L, hL, h3⟩)
            · exact Or.inl h3
            · exact Or.inr ⟨L, List.mem_cons_of_mem _ hL, h3⟩
          · rintro (h3 | ⟨L, hL, h3⟩)
            · exact Or.inl h3
            · rcases List.mem_cons.mp hL with hL | hL
              · subst hL; rw [hm] at h3; exact absurd h3.1 (by decide)
              · exact Or.inr ⟨L, hL, h3⟩
      | unroll =>
        have : markLoop g paths (some s0) a =
            some ⟨idInsert (idInsert s0.toUnroll a.id) a.id.rc, s0.toRemove⟩ := by
          simp [markLoop, hm]
        rw [this] at h
        obtain ⟨h1, h2⟩ := ih _ s h
        constructor
        · intro id
          rw [h1 id]
          constructor
          · rintro (h3 | ⟨L, hL, h3⟩)
            · exact Or.inl h3
            · exact Or.inr ⟨L, List.mem_cons_of_mem _ hL, h3⟩
          · rintro (h3 | ⟨L, hL, h3⟩)
            · exact Or.inl h3
            · rcases List.mem_cons.mp hL with hL | hL
              · subst hL; rw [hm] at h3; exact absurd h3.1 (by decide)
              · exact Or.inr ⟨L, hL, h3⟩
        · intro id
          rw [h2 id]
          simp only [mem_idInsert]
          constructor
          · rintro ((((h3 | h3) | h3)) | ⟨L, hL, h3⟩)
            · exact Or.inl h3
            · exact Or.inr ⟨a, List.mem_cons_self _ _, hm, Or.inl h3⟩
            · exact Or.inr ⟨a, List.mem_cons_self _ _, hm, Or.inr h3⟩
            · exact Or.inr ⟨L, List.mem_cons_of_mem _ hL, h3⟩
          · rintro (h3 | ⟨L, hL, h3⟩)
            · exact Or.inl (Or.inl (Or.inl h3))
            · rcases List.mem_cons.mp hL with hL | hL
              · subst hL
                rcases h3.2 with h4 | h4
                · exact Or.inl (Or.inl (Or.inr h4))
                · exact Or.inl (Or.inr h4)
              · exact Or.inr ⟨L, hL, h3⟩

end RepeatGraph

namespace RepeatGraph

/-! ## The last match of a scan -/

theorem foldl_lastMatch_none {α : Type} (P : α → Prop) [DecidablePred P] (l : List α)
    (h : ∀ c ∈ l, ¬ P c) (init : Option α) :
    l.foldl (fun acc c => if P c then some c else acc) init = init := by
  induction l generalizing init with
  | nil => rfl
  | cons a t ih =>
    rw [List.foldl_cons, if_neg (h a (List.mem_cons_self _ _))]
    exact ih (fun c hc => h c (List.mem_cons_of_mem _ hc)) init

theorem foldl_lastMatch_some {α : Type} (P : α → Prop) [DecidablePred P] (l : List α) :
    ∀ (init : Option α) (x : α),
      l.foldl (fun acc c => if P c then some c else acc) init = some x →
      init = some x ∨ (x ∈ l ∧ P x) := by
  induction l with
  | nil => intro init x h; exact Or.inl h
  | cons a t ih =>
    intro init x h
    rw [List.foldl_cons] at h
    rcases ih _ x h with h1 | h1
    · by_cases ha : P a
      · rw [if_pos ha] at h1
        have : a = x := Option.some.inj h1
        subst this
        exact Or.inr ⟨List.mem_cons_self _ _, ha⟩
      · rw [if_neg ha] at h1
        exact Or.inl h1
    · exact Or.inr ⟨List.mem_cons_of_mem _ h1.1, h1.2⟩

theorem foldl_lastMatch_unique {α : Type} (P : α → Prop) [DecidablePred P] (l : List α)
    (x : α) (hx : x ∈ l) (hP : P x) (huniq : ∀ c ∈ l, P c → c = x) (init : Option α) :
    l.foldl (fun acc c => if P c then some c else acc) init = some x := by
  induction l generalizing init with
  | nil => cases hx
  | cons a t ih =>
    rw [List.foldl_cons]
    by_cases hxt : x ∈ t
    · exact ih hxt (fun c hc => huniq c (List.mem_cons_of_mem _ hc)) _
    · have hax : a = x := by
        rcases List.mem_cons.mp hx with h | h
        · exact h.symm
        · exact absurd h hxt
      subst hax
      rw [if_pos hP]
      apply foldl_lastMatch_none
      intro c hc hPc
      have := huniq c (List.mem_cons_of_mem _ hc) hPc
      subst this
      exact hxt hc

/-! ## `collapseHeterozygousLoops`: the marking loop on paired paths -/

theorem findEntrance_eq (g : Graph) (paths : List UnbranchingPath) (L en : UnbranchingPath)
    (hen : en ∈ paths) (hP : en.nodeRight g = L.nodeLeft g ∧ L.id ≠ en.id)
    (huniq : ∀ b ∈ paths, b.nodeRight g = L.nodeLeft g ∧ L.id ≠ b.id → b = en) :
    findEntrance g paths L = some en := by
  unfold findEntrance
  exact foldl_lastMatch_unique
    (fun c : UnbranchingPath => c.nodeRight g = L.nodeLeft g ∧ L.id ≠ c.id) paths en hen hP
    huniq none

theorem findExit_eq (g : Graph) (paths : List UnbranchingPath) (L ex : UnbranchingPath)
    (hex : ex ∈ paths) (hP : ex.nodeLeft g = L.nodeLeft g ∧ L.id ≠ ex.id)
    (huniq : ∀ b ∈ paths, b.nodeLeft g = L.nodeLeft g ∧ L.id ≠ b.id → b = ex) :
    findExit g paths L = some ex := by
  unfold findExit
  exact foldl_lastMatch_unique
    (fun c : UnbranchingPath => c.nodeLeft g = L.nodeLeft g ∧ L.id ≠ c.id) paths ex hex hP
    huniq none

theorem findEntrance_some (g : Graph) (paths : List UnbranchingPath) (L en : UnbranchingPath)
    (h : findEntrance g paths L = some en) :
    en ∈ paths ∧ en.nodeRight g = L.nodeLeft g ∧ L.id ≠ en.id := by
  unfold findEntrance at h
  rcases foldl_lastMatch_some
    (fun c : UnbranchingPath => c.nodeRight g = L.nodeLeft g ∧ L.id ≠ c.id) paths none en h
    with h1 | h1
  · cases h1
  · exact h1

theorem findExit_some (g : Graph) (paths : List UnbranchingPath) (L ex : UnbranchingPath)
    (h : findExit g paths L = some ex) :
    ex ∈ paths ∧ ex.nodeLeft g = L.nodeLeft g ∧ L.id ≠ ex.id := by
  unfold findExit at h
  rcases foldl_lastMatch_some
    (fun c : UnbranchingPath => c.nodeLeft g = L.nodeLeft g ∧ L.id ≠ c.id) paths none ex h
    with h1 | h1
  · cases h1
  · exact h1

/-- The mark of a loop that satisfies the collapse conditions, given its entrance and exit
as the scans find them. -/
theorem loopMark_of_conditions (g : Graph) (paths : List UnbranchingPath)
    (L en ex : UnbranchingPath) (hc : CollapseConditions g L en ex)
    (hen : findEntrance g paths L = some en) (hex : findExit g paths L = some ex) :
    loopMark g paths L =
      some (if L.meanCoverage < (en.meanCoverage + ex.meanCoverage).tdiv 4 then LoopMark.remove
        else LoopMark.unroll) := by
  obtain ⟨c1, c2, c3, c4, -, -, c7, c8, c9, c10⟩ := hc
  unfold loopMark
  simp only [c1, c2, c3, c4, hen, hex, c7, c8, not_lt.mpr c9, not_lt.mpr c10]
  simp
  split <;> rfl

/-- A loop that is marked satisfies the collapse conditions with the entrance and exit the
scans find. -/
theorem conditions_of_loopMark (g : Graph) (paths : List UnbranchingPath) (L : UnbranchingPath)
    (m : LoopMark) (h : loopMark g paths L = some m) (hm : m ≠ LoopMark.skip) :
    ∃ en ex, findEntrance g paths L = some en ∧ findExit g paths L = some ex ∧
      CollapseConditions g L en ex ∧
      (m = LoopMark.remove ↔ L.meanCoverage < (en.meanCoverage + ex.meanCoverage).tdiv 4) := by
  unfold loopMark at h
  split at h
  · cases h; exact absurd rfl hm
  rename_i c1
  split at h
  · cases h; exact absurd rfl hm
  rename_i c2
  split at h
  · cases h; exact absurd rfl hm
  rename_i c3
  split at h
  · cases h
  rename_i en hen
  split at h
  · cases h; exact absurd rfl hm
  rename_i c7
  split at h
  · cases h
  rename_i ex hex
  split at h
  · cases h; exact absurd rfl hm
  rename_i c8
  split at h
  · cases h; exact absurd rfl hm
  rename_i c9
  split at h
  · cases h; exact absurd rfl hm
  rename_i c10
  have hE := findEntrance_some g paths L en hen
  have hX := findExit_some g paths L ex hex
  have hcond : CollapseConditions g L en ex := by
    refine ⟨by simpa using c1, by simpa using c2, ?_, ?_, hE.2, hX.2, by simpa using c7, c8,
      not_lt.mp c9, not_lt.mp c10⟩
    · by_contra hne; exact c3 (Or.inl hne)
    · by_contra hne; exact c3 (Or.inr hne)
  refine ⟨en, ex, hen, hex, hcond, ?_⟩
  split at h
  · rename_i hlt
    cases h
    exact ⟨fun _ => hlt, fun _ => rfl⟩
  · rename_i hlt
    cases h
    exact ⟨fun h1 => (by cases h1), fun h1 => absurd h1 hlt⟩

theorem loopMark_ne_none (g : Graph) (paths : List UnbranchingPath)
    (hp : LoopPathsPaired g paths) (L : UnbranchingPath) (hL : L ∈ paths) :
    loopMark g paths L ≠ none := by
  obtain ⟨-, -, -, hone⟩ := hp
  unfold loopMark
  split
  · simp
  rename_i c1
  split
  · simp
  split
  · simp
  rename_i c3
  have hin : (g.nodes (L.nodeLeft g)).inEdges.length = 2 := by
    by_contra hne; exact c3 (Or.inl hne)
  have hout : (g.nodes (L.nodeLeft g)).outEdges.length = 2 := by
    by_contra hne; exact c3 (Or.inr hne)
  obtain ⟨⟨en, hen, hPen, huen⟩, ⟨ex, hex, hPex, huex⟩⟩ :=
    hone L hL (by simpa using c1) hin hout
  rw [findEntrance_eq g paths L en hen hPen huen, findExit_eq g paths L ex hex hPex huex]
  simp only
  split
  · simp
  split
  · simp
  split
  · simp
  split
  · simp
  split <;> simp

theorem markLoops_total (g : Graph) (paths : List UnbranchingPath)
    (hp : LoopPathsPaired g paths) : ∃ sets, markLoops g paths = some sets := by
  unfold markLoops
  suffices h : ∀ (l : List UnbranchingPath), (∀ L ∈ l, L ∈ paths) → ∀ s0 : LoopSets,
      ∃ sets, l.foldl (markLoop g paths) (some s0) = some sets from
    h paths (fun _ hL => hL) _
  intro l
  induction l with
  | nil => intro _ s0; exact ⟨s0, rfl⟩
  | cons a t ih =>
    intro hl s0
    rw [List.foldl_cons]
    have hne := loopMark_ne_none g paths hp a (hl a (List.mem_cons_self _ _))
    have ht : ∀ L ∈ t, L ∈ paths := fun L hL => hl L (List.mem_cons_of_mem _ hL)
    cases hm : loopMark g paths a with
    | none => exact absurd hm hne
    | some m =>
      cases m with
      | skip =>
        have : markLoop g paths (some s0) a = some s0 := by simp [markLoop, hm]
        rw [this]; exact ih ht s0
      | remove =>
        have : markLoop g paths (some s0) a =
            some ⟨s0.toUnroll, idInsert (idInsert s0.toRemove a.id) a.id.rc⟩ := by
          simp [markLoop, hm]
        rw [this]; exact ih ht _
      | unroll =>
        have : markLoop g paths (some s0) a =
            some ⟨idInsert (idInsert s0.toUnroll a.id) a.id.rc, s0.toRemove⟩ := by
          simp [markLoop, hm]
        rw [this]; exact ih ht _

theorem eq_of_id_eq (paths : List UnbranchingPath)
    (hids : (paths.map (fun p => p.id)).Nodup) (a b : UnbranchingPath) (ha : a ∈ paths)
    (hb : b ∈ paths) (h : a.id = b.id) : a = b :=
  List.inj_on_of_nodup_map hids ha hb h

/-- On paired paths a loop and its complement loop never receive opposite decisions. -/
theorem loopMark_complement (g : Graph) (paths : List UnbranchingPath)
    (hp : LoopPathsPaired g paths) (L M : UnbranchingPath) (hL : L ∈ paths) (hM : M ∈ paths)
    (hid : M.id = L.id.rc) (mL mM : LoopMark) (hmL : loopMark g paths L = some mL)
    (hmM : loopMark g paths M = some mM) (hsL : mL ≠ LoopMark.skip)
    (hsM : mM ≠ LoopMark.skip) :
    (mL = LoopMark.remove ↔ mM = LoopMark.remove) := by
  obtain ⟨hids, hcompl, hmirror, hone⟩ := hp
  obtain ⟨en, ex, hen, hex, hcL, hdL⟩ := conditions_of_loopMark g paths L mL hmL hsL
  obtain ⟨en', ex', hen', hex', hcM, hdM⟩ := conditions_of_loopMark g paths M mM hmM hsM
  have hE := findEntrance_some g paths L en hen
  have hX := findExit_some g paths L ex hex
  have hE' := findEntrance_some g paths M en' hen'
  have hX' := findExit_some g paths M ex' hex'
  have hLid : L.id = M.id.rc := by rw [hid, rc_rc]
  -- the coverage of the loop
  have hcovL : M.meanCoverage = L.meanCoverage := by
    obtain ⟨L', hL', hL'id, hL'cov⟩ := hcompl L hL
    have : L' = M := eq_of_id_eq paths hids L' M hL' hM (by rw [hL'id, hid])
    rw [← this]; exact hL'cov
  have hLloop : L.nodeRight g = L.nodeLeft g := by
    have := hcL.1
    unfold UnbranchingPath.isLooped at this
    exact (beq_iff_eq.mp this).symm
  have hMloop : M.nodeRight g = M.nodeLeft g := by
    have := hcM.1
    unfold UnbranchingPath.isLooped at this
    exact (beq_iff_eq.mp this).symm
  obtain ⟨⟨a1, ha1, -, hu1⟩, ⟨a2, ha2, -, hu2⟩⟩ := hone L hL hcL.1 hcL.2.2.1 hcL.2.2.2.1
  -- the complement of the entrance of `M` is the exit of `L`
  have hex_cov : ex.meanCoverage = en'.meanCoverage := by
    obtain ⟨c, hc, hcid, hccov⟩ := hcompl en' hE'.1
    have h1 : L.nodeRight g = c.nodeLeft g :=
      (hmirror en' hE'.1 M hM c hc L hL hcid hLid).mp hE'.2.1
    have hcP : c.nodeLeft g = L.nodeLeft g ∧ L.id ≠ c.id := by
      refine ⟨by rw [← h1, hLloop], ?_⟩
      intro h2
      apply hE'.2.2
      have : L.id.rc = c.id.rc := by rw [h2]
      rw [hcid, rc_rc, ← hid] at this
      exact this
    have e1 : c = a2 := hu2 c hc hcP
    have e2 : ex = a2 := hu2 ex hX.1 hX.2
    rw [e2, ← e1]; exact hccov
  -- the complement of the exit of `M` is the entrance of `L`
  have hen_cov : en.meanCoverage = ex'.meanCoverage := by
    obtain ⟨c, hc, hcid, hccov⟩ := hcompl ex' hX'.1
    have h0 : M.nodeRight g = ex'.nodeLeft g := by rw [hMloop, hX'.2.1]
    have h1 : c.nodeRight g = L.nodeLeft g :=
      (hmirror M hM ex' hX'.1 L hL c hc hLid hcid).mp h0
    have hcP : c.nodeRight g = L.nodeLeft g ∧ L.id ≠ c.id := by
      refine ⟨h1, ?_⟩
      intro h2
      apply hX'.2.2
      have : L.id.rc = c.id.rc := by rw [h2]
      rw [hcid, rc_rc, ← hid] at this
      exact this
    have e1 : c = a1 := hu1 c hc hcP
    have e2 : en = a1 := hu1 en hE.1 hE.2
    rw [e2, ← e1]; exact hccov
  rw [hdL, hdM, hcovL, hex_cov, hen_cov, add_comm]

end RepeatGraph

namespace RepeatGraph

theorem unrollLoop_single (g : Graph) (path : UnbranchingPath) (l ent : EdgeRef)
    (hpath : path.path = [l]) (hne : ent ≠ l)
    (hn : (g.edges l).nodeLeft ≠ g.numNodes)
    (hloop : (g.edges l).nodeRight = (g.edges l).nodeLeft)
    (hin : (g.nodes (g.edges l).nodeLeft).inEdges = [l, ent] ∨
      (g.nodes (g.edges l).nodeLeft).inEdges = [ent, l]) :
    ∃ r, unrollLoop g path = some r ∧
      (r.edges ent).nodeRight = g.numNodes ∧
      r.nodes g.numNodes = ⟨[ent], [l]⟩ ∧
      (r.edges l).nodeLeft = g.numNodes ∧
      (r.edges l).nodeRight = (g.edges l).nodeLeft ∧
      r.nodes (g.edges l).nodeLeft =
        ⟨[l], vecRemove (g.nodes (g.edges l).nodeLeft).outEdges l⟩ := by
  have hnl : path.nodeLeft g.addNode = (g.edges l).nodeLeft := by
    simp [UnbranchingPath.nodeLeft, hpath, Graph.addNode]
  have hnodes : g.addNode.nodes (g.edges l).nodeLeft = g.nodes (g.edges l).nodeLeft := by
    simp [Graph.addNode, Function.update_noteq hn]
  have hprev : unrollLoop g path = some (spliceLoop g.addNode g.numNodes l ent) := by
    unfold unrollLoop
    rw [hnl, hnodes]
    rcases hin with h | h
    · rw [h]; simp [hpath]
    · rw [h]; simp [hpath, hne]
  refine ⟨_, hprev, ?_, ?_, ?_, ?_, ?_⟩
  · simp [spliceLoop]
  · simp [spliceLoop, Graph.addNode, Function.update_noteq hn, Function.update_noteq (Ne.symm hn)]
  · simp [spliceLoop, Graph.addNode, Function.update_noteq (Ne.symm hne)]
  · simp [spliceLoop, Graph.addNode, Function.update_noteq (Ne.symm hne), hloop]
  · have hv : vecRemove (g.nodes (g.edges l).nodeLeft).inEdges ent = [l] := by
      rcases hin with h | h
      · rw [h]; simp [vecRemove, hne, Ne.symm hne]
      · rw [h]; simp [vecRemove, hne, Ne.symm hne]
    simp [spliceLoop, Graph.addNode, Function.update_noteq hn, hv]

end RepeatGraph

namespace RepeatGraph

/-- C18 (the failing case). The unroll surgery of `collapseHeterozygousLoops` splices a loop
of one edge `l` between entrance and exit: the entrance edge `ent` ends at the fresh node,
whose only in-edge is `ent` and only out-edge is `l`, and `l` still ends at `n`, which keeps its other
out-edges. For the loop `[l1, l2]` of `longLoopGraph`, whose node lists `l2` before the
entrance, it does not: the surgery takes `l2` (edge `2`) for the edge before the loop, so
the entrance (edge `4`) still ends at node `1`, `l2` ends at the fresh node `8`, and the
loop is a cycle through node `8` apart from entrance and exit. -/
theorem unrollLoop_splice :
    (∀ (g : Graph) (path : UnbranchingPath) (l ent : EdgeRef),
      path.path = [l] → ent ≠ l → (g.edges l).nodeLeft ≠ g.numNodes →
      (g.edges l).nodeRight = (g.edges l).nodeLeft →
      ((g.nodes (g.edges l).nodeLeft).inEdges = [l, ent] ∨
        (g.nodes (g.edges l).nodeLeft).inEdges = [ent, l]) →
      ∃ r, unrollLoop g path = some r ∧
        (r.edges ent).nodeRight = g.numNodes ∧
        r.nodes g.numNodes = ⟨[ent], [l]⟩ ∧
        (r.edges l).nodeLeft = g.numNodes ∧
        (r.edges l).nodeRight = (g.edges l).nodeLeft ∧
        r.nodes (g.edges l).nodeLeft =
          ⟨[l], vecRemove (g.nodes (g.edges l).nodeLeft).outEdges l⟩) ∧
    markLoops longLoopGraph longLoopPaths = some ⟨[⟨0, true⟩, ⟨0, false⟩], []⟩ ∧
    (longLoopGraph.nodes 1).inEdges = [2, 4] ∧
    (collapseHeterozygousLoops longLoopGraph longLoopPaths).map
      (fun r => (r.edges 4).nodeRight) = some 1 ∧
    (collapseHeterozygousLoops longLoopGraph longLoopPaths).map
      (fun r => (r.edges 2).nodeRight) = some 8 ∧
    (collapseHeterozygousLoops longLoopGraph longLoopPaths).map
      (fun r => (r.edges 0).nodeLeft) = some 8 ∧
    (collapseHeterozygousLoops longLoopGraph longLoopPaths).map
      (fun r => r.nodes 8) = some ⟨[2], [0]⟩ ∧
    (collapseHeterozygousLoops longLoopGraph longLoopPaths).map
      (fun r => r.nodes 1) = some ⟨[4], [6]⟩ :=
  ⟨unrollLoop_single, by decide!, by decide!, by decide!, by decide!, by decide!, by decide!,
    by decide!⟩

end RepeatGraph

namespace RepeatGraph

/-! ## `collapseHeterozygousBulges` -/

theorem bulgeMark_eq (g : Graph) (paths : List UnbranchingPath) (s : List SignedId)
    (path first second : UnbranchingPath) (hl : path.isLooped g = false)
    (htw : twoPathsOf g paths path = [first, second]) (hid : first.id ≠ second.id.rc) :
    bulgeMark g paths s path =
      if first.id ∈ s ∨ second.id ∈ s then some none else popDecision g paths first second := by
  unfold bulgeMark
  simp [hl, htw, hid]

theorem bulgeMark_some (g : Graph) (paths : List UnbranchingPath) (s : List SignedId)
    (path M : UnbranchingPath) (h : bulgeMark g paths s path = some (some M)) :
    path.isLooped g = false ∧ ∃ first second, twoPathsOf g paths path = [first, second] ∧
      first.id ≠ second.id.rc ∧ popDecision g paths first second = some (some M) := by
  unfold bulgeMark at h
  split at h
  · cases h
  rename_i hl
  refine ⟨by simpa using hl, ?_⟩
  split at h
  · rename_i first second htw
    split at h
    · cases h
    rename_i hid
    split at h
    · cases h
    exact ⟨first, second, htw, hid, h⟩
  · cases h

theorem bulgeEntrance_some (g : Graph) (paths : List UnbranchingPath)
    (first en : UnbranchingPath) (h : bulgeEntrance g paths first = some en) :
    en ∈ paths ∧ en.nodeRight g = first.nodeLeft g := by
  unfold bulgeEntrance at h
  rcases foldl_lastMatch_some (fun c : UnbranchingPath => c.nodeRight g = first.nodeLeft g)
    paths none en h with h1 | h1
  · cases h1
  · exact h1

theorem bulgeExit_some (g : Graph) (paths : List UnbranchingPath)
    (first ex : UnbranchingPath) (h : bulgeExit g paths first = some ex) :
    ex ∈ paths ∧ ex.nodeLeft g = first.nodeRight g := by
  unfold bulgeExit at h
  rcases foldl_lastMatch_some (fun c : UnbranchingPath => c.nodeLeft g = first.nodeRight g)
    paths none ex h with h1 | h1
  · cases h1
  · exact h1

theorem bulgeEntrance_eq (g : Graph) (paths : List UnbranchingPath)
    (first en : UnbranchingPath) (hen : en ∈ paths) (hP : en.nodeRight g = first.nodeLeft g)
    (huniq : ∀ b ∈ paths, b.nodeRight g = first.nodeLeft g → b = en) :
    bulgeEntrance g paths first = some en := by
  unfold bulgeEntrance
  exact foldl_lastMatch_unique (fun c : UnbranchingPath => c.nodeRight g = first.nodeLeft g)
    paths en hen hP huniq none

theorem bulgeExit_eq (g : Graph) (paths : List UnbranchingPath)
    (first ex : UnbranchingPath) (hex : ex ∈ paths) (hP : ex.nodeLeft g = first.nodeRight g)
    (huniq : ∀ b ∈ paths, b.nodeLeft g = first.nodeRight g → b = ex) :
    bulgeExit g paths first = some ex := by
  unfold bulgeExit
  exact foldl_lastMatch_unique (fun c : UnbranchingPath => c.nodeLeft g = first.nodeRight g)
    paths ex hex hP huniq none

/-- The decision on a pair that satisfies the pop conditions, given its entrance and exit as
the scans find them. -/
theorem popDecision_of_conditions (g : Graph) (paths : List UnbranchingPath)
    (first second en ex : UnbranchingPath) (hc : PopConditions g first second en ex)
    (hen : bulgeEntrance g paths first = some en) (hex : bulgeExit g paths first = some ex) :
    popDecision g paths first second =
      some (some (if first.meanCoverage < second.meanCoverage then first else second)) := by
  obtain ⟨c1, c2, -, -, c5, c6, c7, c8, c9⟩ := hc
  unfold popDecision
  simp only [c1, c2, hen, hex, c5, c6, c7, not_lt.mpr c8, not_lt.mpr c9]
  simp
  split <;> rfl

/-- A pair the decision marks satisfies the pop conditions with the entrance and exit the
scans find, and the marked path is the first when its coverage is strictly lower and the
second otherwise. -/
theorem conditions_of_popDecision (g : Graph) (paths : List UnbranchingPath)
    (first second L : UnbranchingPath)
    (h : popDecision g paths first second = some (some L)) :
    ∃ en ex, bulgeEntrance g paths first = some en ∧ bulgeExit g paths first = some ex ∧
      PopConditions g first second en ex ∧
      L = if first.meanCoverage < second.meanCoverage then first else second := by
  unfold popDecision at h
  split at h
  · cases h
  rename_i c1
  split at h
  · rename_i en ex hen hex
    split at h
    · cases h
    rename_i c5
    split at h
    · cases h
    rename_i c7
    split at h
    · cases h
    rename_i c8
    have hE := bulgeEntrance_some g paths first en hen
    have hX := bulgeExit_some g paths first ex hex
    have hcond : PopConditions g first second en ex := by
      refine ⟨?_, ?_, hE.2, hX.2, ?_, ?_, by simpa using c7, ?_, ?_⟩
      · by_contra hne; exact c1 (Or.inl hne)
      · by_contra hne; exact c1 (Or.inr hne)
      · cases hx : covDiffExceeds (bulgeCovSum first second) en.meanCoverage
        · rfl
        · exact absurd (by simp [hx]) c5
      · cases hx : covDiffExceeds (bulgeCovSum first second) ex.meanCoverage
        · rfl
        · exact absurd (by simp [hx]) c5
      · by_contra hne; exact c8 (Or.inl (not_le.mp hne))
      · by_contra hne; exact c8 (Or.inr (not_le.mp hne))
    refine ⟨en, ex, hen, hex, hcond, ?_⟩
    split at h
    · rename_i hlt
      simp only [Option.some.injEq] at h
      rw [if_pos hlt]; exact h.symm
    · rename_i hlt
      simp only [Option.some.injEq] at h
      rw [if_neg hlt]; exact h.symm
  · cases h

theorem popDecision_loser (g : Graph) (paths : List UnbranchingPath)
    (first second L : UnbranchingPath)
    (h : popDecision g paths first second = some (some L)) :
    (L = first ∧ first.meanCoverage < second.meanCoverage) ∨
      (L = second ∧ second.meanCoverage ≤ first.meanCoverage) := by
  obtain ⟨en, ex, -, -, -, hL⟩ := conditions_of_popDecision g paths first second L h
  by_cases hlt : first.meanCoverage < second.meanCoverage
  · rw [if_pos hlt] at hL; exact Or.inl ⟨hL, hlt⟩
  · rw [if_neg hlt] at hL; exact Or.inr ⟨hL, not_lt.mp hlt⟩

theorem mem_twoPathsOf (g : Graph) (paths : List UnbranchingPath) (path c : UnbranchingPath) :
    c ∈ twoPathsOf g paths path ↔
      c ∈ paths ∧ c.nodeLeft g = path.nodeLeft g ∧ c.nodeRight g = path.nodeRight g := by
  unfold twoPathsOf
  simp [List.mem_filter]

theorem twoPathsOf_congr (g : Graph) (paths : List UnbranchingPath) (a b : UnbranchingPath)
    (hl : a.nodeLeft g = b.nodeLeft g) (hr : a.nodeRight g = b.nodeRight g) :
    twoPathsOf g paths a = twoPathsOf g paths b := by
  unfold twoPathsOf
  rw [hl, hr]

theorem popDecision_ne_none (g : Graph) (paths : List UnbranchingPath)
    (hp : BulgePathsPaired g paths) (first second : UnbranchingPath) (hf : first ∈ paths) :
    popDecision g paths first second ≠ none := by
  obtain ⟨-, -, -, hin, hout⟩ := hp
  unfold popDecision
  split
  · simp
  rename_i c1
  have h1 : (g.nodes (first.nodeLeft g)).inEdges.length = 1 := by
    by_contra hne; exact c1 (Or.inl hne)
  have h2 : (g.nodes (first.nodeRight g)).outEdges.length = 1 := by
    by_contra hne; exact c1 (Or.inr hne)
  obtain ⟨en, hen, hPen, huen⟩ := hin first hf h1
  obtain ⟨ex, hex, hPex, huex⟩ := hout first hf h2
  rw [bulgeEntrance_eq g paths first en hen hPen huen,
    bulgeExit_eq g paths first ex hex hPex huex]
  simp only
  split
  · simp
  split
  · simp
  split
  · simp
  split <;> simp

theorem bulgeMark_ne_none (g : Graph) (paths : List UnbranchingPath)
    (hp : BulgePathsPaired g paths) (s : List SignedId) (path : UnbranchingPath) :
    bulgeMark g paths s path ≠ none := by
  unfold bulgeMark
  split
  · simp
  split
  · rename_i first second htw
    have hf : first ∈ paths := by
      have : first ∈ twoPathsOf g paths path := by rw [htw]; simp
      exact ((mem_twoPathsOf g paths path first).mp this).1
    split
    · simp
    split
    · simp
    exact popDecision_ne_none g paths hp first second hf
  · simp

theorem foldl_markBulge_none (g : Graph) (paths l : List UnbranchingPath) :
    l.foldl (markBulge g paths) none = none := by
  induction l with
  | nil => rfl
  | cons a t ih => rw [List.foldl_cons]; exact ih

theorem markBulges_total (g : Graph) (paths : List UnbranchingPath)
    (hp : BulgePathsPaired g paths) : ∃ s, markBulges g paths = some s := by
  unfold markBulges
  suffices h : ∀ (l : List UnbranchingPath) (s0 : List SignedId),
      ∃ s, l.foldl (markBulge g paths) (some s0) = some s from h paths []
  intro l
  induction l with
  | nil => intro s0; exact ⟨s0, rfl⟩
  | cons a t ih =>
    intro s0
    rw [List.foldl_cons]
    have hne := bulgeMark_ne_none g paths hp s0 a
    cases hm : bulgeMark g paths s0 a with
    | none => exact absurd hm hne
    | some m =>
      cases m with
      | none =>
        have : markBulge g paths (some s0) a = some s0 := by simp [markBulge, hm]
        rw [this]; exact ih s0
      | some M =>
        have : markBulge g paths (some s0) a =
            some (idInsert (idInsert s0 M.id) M.id.rc) := by simp [markBulge, hm]
        rw [this]; exact ih _

theorem foldl_markBulge (g : Graph) (paths l : List UnbranchingPath) :
    ∀ s0 s : List SignedId, l.foldl (markBulge g paths) (some s0) = some s →
      (∀ id, id ∈ s → id ∈ s0 ∨ ∃ path ∈ l, ∃ first second L,
        path.isLooped g = false ∧ twoPathsOf g paths path = [first, second] ∧
        first.id ≠ second.id.rc ∧ popDecision g paths first second = some (some L) ∧
        (id = L.id ∨ id = L.id.rc)) ∧
      (∀ id, id ∈ s0 → id ∈ s) ∧
      (∀ path ∈ l, ∀ first second L, path.isLooped g = false →
        twoPathsOf g paths path = [first, second] → first.id ≠ second.id.rc →
        popDecision g paths first second = some (some L) → first.id ∈ s ∨ second.id ∈ s) ∧
      ((∀ id, id ∈ s0 → id.rc ∈ s0) → ∀ id, id ∈ s → id.rc ∈ s) := by
  induction l with
  | nil =>
    intro s0 s h
    have : s0 = s := by simpa using h
    subst this
    refine ⟨fun id hid => Or.inl hid, fun id hid => hid, ?_, fun h => h⟩
    intro path hp
    cases hp
  | cons a t ih =>
    intro s0 s h
    rw [List.foldl_cons] at h
    cases hm : bulgeMark g paths s0 a with
    | none =>
      have : markBulge g paths (some s0) a = none := by simp [markBulge, hm]
      rw [this, foldl_markBulge_none] at h
      cases h
    | some m =>
      cases m with
      | none =>
        have : markBulge g paths (some s0) a = some s0 := by simp [markBulge, hm]
        rw [this] at h
        obtain ⟨hA, hB, hC, hD⟩ := ih s0 s h
        refine ⟨?_, hB, ?_, hD⟩
        · intro id hid
          rcases hA id hid with h1 | ⟨path, hp, h1⟩
          · exact Or.inl h1
          · exact Or.inr ⟨path, List.mem_cons_of_mem _ hp, h1⟩
        · intro path hp first second L hl htw hne hpop
          rcases List.mem_cons.mp hp with hp | hp
          · subst hp
            rw [bulgeMark_eq g paths s0 path first second hl htw hne] at hm
            by_cases hin : first.id ∈ s0 ∨ second.id ∈ s0
            · rcases hin with h1 | h1
              · exact Or.inl (hB _ h1)
              · exact Or.inr (hB _ h1)
            · rw [if_neg hin, hpop] at hm
              cases hm
          · exact hC path hp first second L hl htw hne hpop
      | some M =>
        have : markBulge g paths (some s0) a =
            some (idInsert (idInsert s0 M.id) M.id.rc) := by simp [markBulge, hm]
        rw [this] at h
        obtain ⟨hA, hB, hC, hD⟩ := ih _ s h
        obtain ⟨hl0, f0, s0', htw0, hne0, hpop0⟩ := bulgeMark_some g paths s0 a M hm
        refine ⟨?_, ?_, ?_, ?_⟩
        · intro id hid
          rcases hA id hid with h1 | ⟨path, hp, h1⟩
          · simp only [mem_idInsert] at h1
            rcases h1 with (h1 | h1) | h1
            · exact Or.inl h1
            · exact Or.inr ⟨a, List.mem_cons_self _ _, f0, s0', M, hl0, htw0, hne0, hpop0,
                Or.inl h1⟩
            · exact Or.inr ⟨a, List.mem_cons_self _ _, f0, s0', M, hl0, htw0, hne0, hpop0,
                Or.inr h1⟩
          · exact Or.inr ⟨path, List.mem_cons_of_mem _ hp, h1⟩
        · intro id hid
          apply hB
          simp only [mem_idInsert]
          exact Or.inl (Or.inl hid)
        · intro path hp first second L hl htw hne hpop
          rcases List.mem_cons.mp hp with hp | hp
          · subst hp
            rw [htw0] at htw
            simp only [List.cons.injEq, and_true] at htw
            obtain ⟨e1, e2⟩ := htw
            subst e1
            subst e2
            rw [hpop0] at hpop
            simp only [Option.some.injEq] at hpop
            subst hpop
            have hM : M.id ∈ s := by
              apply hB
              rw [mem_idInsert, mem_idInsert]
              exact Or.inl (Or.inr rfl)
            rcases popDecision_loser g paths f0 s0' M hpop0 with ⟨e, -⟩ | ⟨e, -⟩
            · left; rw [← e]; exact hM
            · right; rw [← e]; exact hM
          · exact hC path hp first second L hl htw hne hpop
        · intro hrc
          apply hD
          intro id hid
          rw [mem_idInsert, mem_idInsert] at hid ⊢
          rcases hid with (h1 | h1) | h1
          · exact Or.inl (Or.inl (hrc id h1))
          · exact Or.inr (by rw [h1])
          · exact Or.inl (Or.inr (by rw [h1, rc_rc]))

end RepeatGraph

namespace RepeatGraph

theorem nodup_of_nodup_ids (paths : List UnbranchingPath)
    (hids : (paths.map (fun p => p.id)).Nodup) : paths.Nodup :=
  List.Nodup.of_map _ hids

theorem twoPathsOf_nodup (g : Graph) (paths : List UnbranchingPath)
    (hids : (paths.map (fun p => p.id)).Nodup) (path : UnbranchingPath) :
    (twoPathsOf g paths path).Nodup :=
  (nodup_of_nodup_ids paths hids).filter _

/-- A pair member with the id of the newly marked path cannot see its partner marked. -/
theorem pair_marked_direct (g : Graph) (paths : List UnbranchingPath)
    (hids : (paths.map (fun p => p.id)).Nodup) (s0 : List SignedId)
    (a M f0 s0' : UnbranchingPath) (htw0 : twoPathsOf g paths a = [f0, s0'])
    (hM : M ∈ twoPathsOf g paths a) (hskip : ¬ (f0.id ∈ s0 ∨ s0'.id ∈ s0))
    (path x y : UnbranchingPath) (hx : x ∈ twoPathsOf g paths path)
    (hy : y ∈ twoPathsOf g paths path) (hxy : x ≠ y) (hyx : y.id ≠ x.id.rc)
    (hxM : x.id = M.id)
    (hys : y.id ∈ idInsert (idInsert s0 M.id) M.id.rc) : False := by
  obtain ⟨hxp, hxl, hxr⟩ := (mem_twoPathsOf g paths path x).mp hx
  obtain ⟨hyp, hyl, hyr⟩ := (mem_twoPathsOf g paths path y).mp hy
  obtain ⟨hMp, hMl, hMr⟩ := (mem_twoPathsOf g paths a M).mp hM
  have hxeq : x = M := eq_of_id_eq paths hids x M hxp hMp hxM
  have hsame : twoPathsOf g paths path = twoPathsOf g paths a := by
    apply twoPathsOf_congr
    · rw [← hxl, hxeq, hMl]
    · rw [← hxr, hxeq, hMr]
  rw [mem_idInsert, mem_idInsert] at hys
  rcases hys with (h | h) | h
  · rw [hsame, htw0] at hy
    simp only [List.mem_cons, List.mem_singleton, List.not_mem_nil, or_false] at hy
    rcases hy with e | e
    · exact hskip (Or.inl (by rw [← e]; exact h))
    · exact hskip (Or.inr (by rw [← e]; exact h))
  · exact hxy (eq_of_id_eq paths hids x y hxp hyp (by rw [hxM, h]))
  · exact hyx (by rw [h, hxM])

/-- A pair member with the complement id of the newly marked path cannot see its partner
marked. -/
theorem pair_marked_complement (g : Graph) (paths : List UnbranchingPath)
    (hp : BulgePathsPaired g paths) (s0 : List SignedId)
    (hrc : ∀ id, id ∈ s0 → id.rc ∈ s0)
    (a M f0 s0' : UnbranchingPath) (htw0 : twoPathsOf g paths a = [f0, s0'])
    (hM : M ∈ twoPathsOf g paths a) (hskip : ¬ (f0.id ∈ s0 ∨ s0'.id ∈ s0))
    (path x y : UnbranchingPath) (hx : x ∈ twoPathsOf g paths path)
    (hy : y ∈ twoPathsOf g paths path) (hxy : x ≠ y) (hxy2 : x.id ≠ y.id.rc)
    (hxM : x.id = M.id.rc)
    (hys : y.id ∈ idInsert (idInsert s0 M.id) M.id.rc) : False := by
  obtain ⟨hids, hcompl, hmirror, -, -⟩ := hp
  obtain ⟨hxp, hxl, hxr⟩ := (mem_twoPathsOf g paths path x).mp hx
  obtain ⟨hyp, hyl, hyr⟩ := (mem_twoPathsOf g paths path y).mp hy
  obtain ⟨hMp, hMl, hMr⟩ := (mem_twoPathsOf g paths a M).mp hM
  have hys2 := hys
  rw [mem_idInsert, mem_idInsert] at hys
  rcases hys with (h | h) | h
  · obtain ⟨cy, hcyp, hcyid, -⟩ := hcompl y hyp
    have hMx : M.id = x.id.rc := by rw [hxM, rc_rc]
    have hends := hmirror x hxp y hyp M hMp cy hcyp hMx hcyid
      ⟨by rw [hxl, hyl], by rw [hxr, hyr]⟩
    have hcy : cy ∈ twoPathsOf g paths a :=
      (mem_twoPathsOf g paths a cy).mpr ⟨hcyp, by rw [← hends.1, hMl], by rw [← hends.2, hMr]⟩
    have hcys : cy.id ∈ s0 := by rw [hcyid]; exact hrc _ h
    rw [htw0] at hcy
    simp only [List.mem_cons, List.mem_singleton, List.not_mem_nil, or_false] at hcy
    rcases hcy with e | e
    · exact hskip (Or.inl (by rw [← e]; exact hcys))
    · exact hskip (Or.inr (by rw [← e]; exact hcys))
  · refine pair_marked_direct g paths hids s0 a M f0 s0' htw0 hM hskip path y x hy hx
      (Ne.symm hxy) hxy2 h ?_
    rw [mem_idInsert]
    exact Or.inr hxM
  · exact hxy (eq_of_id_eq paths hids x y hxp hyp (by rw [hxM, h]))

/-- The marking loop never marks both paths of a pair: the check of line 432 skips a pair of
which one path is marked, and the complement pair is marked on the same side. -/
theorem foldl_markBulge_pair (g : Graph) (paths : List UnbranchingPath)
    (hp : BulgePathsPaired g paths) (l : List UnbranchingPath) :
    ∀ s0 s : List SignedId, l.foldl (markBulge g paths) (some s0) = some s →
      (∀ id, id ∈ s0 → id.rc ∈ s0) →
      (∀ path first second, twoPathsOf g paths path = [first, second] →
        first.id ≠ second.id.rc → ¬ (first.id ∈ s0 ∧ second.id ∈ s0)) →
      ∀ path first second, twoPathsOf g paths path = [first, second] →
        first.id ≠ second.id.rc → ¬ (first.id ∈ s ∧ second.id ∈ s) := by
  induction l with
  | nil =>
    intro s0 s h _ hE
    have : s0 = s := by simpa using h
    subst this
    exact hE
  | cons a t ih =>
    intro s0 s h hrc hE
    rw [List.foldl_cons] at h
    cases hm : bulgeMark g paths s0 a with
    | none =>
      have : markBulge g paths (some s0) a = none := by simp [markBulge, hm]
      rw [this, foldl_markBulge_none] at h
      cases h
    | some m =>
      cases m with
      | none =>
        have : markBulge g paths (some s0) a = some s0 := by simp [markBulge, hm]
        rw [this] at h
        exact ih s0 s h hrc hE
      | some M =>
        have : markBulge g paths (some s0) a =
            some (idInsert (idInsert s0 M.id) M.id.rc) := by simp [markBulge, hm]
        rw [this] at h
        obtain ⟨hl0, f0, s0', htw0, hne0, hpop0⟩ := bulgeMark_some g paths s0 a M hm
        have hskip : ¬ (f0.id ∈ s0 ∨ s0'.id ∈ s0) := by
          intro hin
          rw [bulgeMark_eq g paths s0 a f0 s0' hl0 htw0 hne0, if_pos hin] at hm
          cases hm
        have hMmem : M ∈ twoPathsOf g paths a := by
          rw [htw0]
          rcases popDecision_loser g paths f0 s0' M hpop0 with ⟨e, -⟩ | ⟨e, -⟩ <;> simp [e]
        apply ih _ s h
        · intro id hid
          rw [mem_idInsert, mem_idInsert] at hid ⊢
          rcases hid with (h1 | h1) | h1
          · exact Or.inl (Or.inl (hrc id h1))
          · exact Or.inr (by rw [h1])
          · exact Or.inl (Or.inr (by rw [h1, rc_rc]))
        · intro path first second htw hne ⟨h1, h2⟩
          have hnd := twoPathsOf_nodup g paths hp.1 path
          rw [htw] at hnd
          have hfs : first ≠ second := by
            intro e
            rw [e] at hnd
            simp at hnd
          have hne2 : second.id ≠ first.id.rc := by
            intro e
            apply hne
            rw [e, rc_rc]
          have hfm : first ∈ twoPathsOf g paths path := by rw [htw]; simp
          have hsm : second ∈ twoPathsOf g paths path := by rw [htw]; simp
          have h1c := h1
          have h2c := h2
          rw [mem_idInsert, mem_idInsert] at h1c h2c
          rcases h1c with (a1 | a1) | a1
          · rcases h2c with (b1 | b1) | b1
            · exact hE path first second htw hne ⟨a1, b1⟩
            · exact pair_marked_direct g paths hp.1 s0 a M f0 s0' htw0 hMmem hskip path
                second first hsm hfm (Ne.symm hfs) hne b1 h1
            · exact pair_marked_complement g paths hp s0 hrc a M f0 s0' htw0 hMmem hskip path
                second first hsm hfm (Ne.symm hfs) hne2 b1 h1
          · exact pair_marked_direct g paths hp.1 s0 a M f0 s0' htw0 hMmem hskip path
              first second hfm hsm hfs hne2 a1 h2
          · exact pair_marked_complement g paths hp s0 hrc a M f0 s0' htw0 hMmem hskip path
              first second hfm hsm hfs hne a1 h2

end RepeatGraph

namespace RepeatGraph

/-! ## A second application of `removeUnsupportedEdges` -/

theorem tdiv_nonpos_of_neg (C L : Int) (hC : C < 0) (hL : 0 < L) : C.tdiv L ≤ 0 := by
  have h1 : 0 ≤ (-C).tdiv L := Int.tdiv_nonneg (by omega) (le_of_lt hL)
  rw [Int.neg_tdiv] at h1
  omega

theorem mul_le_of_le_tdiv (T C L : Int) (hT : 1 ≤ T) (hL : 0 < L) (h : T ≤ C.tdiv L) :
    T * L ≤ C := by
  by_cases hC : 0 ≤ C
  · rw [Int.tdiv_eq_ediv hC (le_of_lt hL)] at h
    exact (Int.le_ediv_iff_mul_le hL).mp h
  · have := tdiv_nonpos_of_neg C L (by omega) hL
    omega

theorem le_tdiv_of_mul_le (T C L : Int) (hT : 1 ≤ T) (hL : 0 < L) (h : T * L ≤ C) :
    T ≤ C.tdiv L := by
  have hC : 0 ≤ C := le_trans (Int.mul_nonneg (by omega) (le_of_lt hL)) h
  rw [Int.tdiv_eq_ediv hC (le_of_lt hL)]
  exact (Int.le_ediv_iff_mul_le hL).mpr h

theorem sums_append (g : Graph) (a b : List EdgeRef) :
    lengthSum g (a ++ b) = lengthSum g a + lengthSum g b ∧
    coverageSum g (a ++ b) = coverageSum g a + coverageSum g b := by
  simp [lengthSum, coverageSum]

theorem one_le_removeCoverageThreshold (meanCoverage : Int) (dropRate : ℚ)
    (unevenCoverage : Bool) : 1 ≤ removeCoverageThreshold meanCoverage dropRate unevenCoverage := by
  unfold removeCoverageThreshold
  split
  · exact le_min (le_max_left _ _) (by decide)
  · exact le_max_left _ _

theorem removeUnsupportedEdges_edges (g : Graph) (paths : List UnbranchingPath)
    (meanCoverage : Int) (dropRate : ℚ) (unevenCoverage : Bool) :
    (removeUnsupportedEdges g paths meanCoverage dropRate unevenCoverage).edges = g.edges :=
  (foldl_removeEdge_frame _ g).1

/-- What the check `isExtraction` says of one path of the list. -/
theorem isExtraction_path (g : Graph) (paths : List UnbranchingPath)
    (h : isExtraction g paths = true) (p : UnbranchingPath) (hp : p ∈ paths) :
    p.path ≠ [] ∧ (∀ e ∈ p.path, e ∈ g.edgeList) ∧ chained g p.path = true ∧ p.path.Nodup ∧
    (p.isLooped g = true ∨ simpleNode g (p.nodeLeft g) = false) ∧
    (p.isLooped g = true ∨ simpleNode g (p.nodeRight g) = false) ∧
    p.length = lengthSum g p.path ∧
    p.meanCoverage = (coverageSum g p.path).tdiv (lengthSum g p.path) ∧
    ∃ q ∈ paths, q.id = p.id.rc ∧ q.path = (p.path.map g.complementEdge).reverse := by
  unfold isExtraction at h
  rw [Bool.and_eq_true, Bool.and_eq_true, List.all_eq_true] at h
  have h1 := h.1.1 p hp
  simp only [Bool.and_eq_true, Bool.not_eq_true', List.isEmpty_eq_false, List.all_eq_true,
    decide_eq_true_eq, Bool.or_eq_true, List.any_eq_true] at h1
  obtain ⟨⟨⟨⟨⟨⟨⟨⟨a1, a2⟩, a3⟩, a4⟩, a5⟩, a6⟩, a7⟩, a8⟩, q, hq, a9⟩ := h1
  exact ⟨a1, a2, a3, a4, a5, a6, a7, a8, q, hq, a9⟩

/-- Every edge of the graph is on exactly one path of an extraction. -/
theorem isExtraction_unique (g : Graph) (paths : List UnbranchingPath)
    (h : isExtraction g paths = true) (e : EdgeRef) (he : e ∈ g.edgeList) :
    ∃ p ∈ paths, e ∈ p.path ∧ ∀ r ∈ paths, e ∈ r.path → r = p := by
  unfold isExtraction at h
  rw [Bool.and_eq_true, Bool.and_eq_true, List.all_eq_true, List.all_eq_true] at h
  have h2 := h.1.2 e he
  simp only [beq_iff_eq] at h2
  obtain ⟨p, hp⟩ := List.length_eq_one.mp h2
  have hmem : ∀ r, r ∈ paths ∧ e ∈ r.path ↔ r = p := by
    intro r
    have : r ∈ paths.filter (fun p => decide (e ∈ p.path)) ↔ r ∈ [p] := by rw [hp]
    simpa [List.mem_filter] using this
  exact ⟨p, ((hmem p).mpr rfl).1, ((hmem p).mpr rfl).2, fun r hr her => (hmem r).mp ⟨hr, her⟩⟩

/-- The ids of the paths of an extraction are distinct. -/
theorem isExtraction_ids (g : Graph) (paths : List UnbranchingPath)
    (h : isExtraction g paths = true) : (paths.map (fun p => p.id)).Nodup := by
  unfold isExtraction at h
  rw [Bool.and_eq_true] at h
  simpa using h.2

end RepeatGraph

namespace RepeatGraph

/-- The lists of a node after a series of `removeEdge`: nothing is added, and an edge that is
not removed stays. -/
theorem nodes_foldl_removeEdge (l : List EdgeRef) (g : Graph) (n : NodeRef) :
    (((l.foldl Graph.removeEdge g).nodes n).inEdges.Sublist (g.nodes n).inEdges ∧
      ((l.foldl Graph.removeEdge g).nodes n).outEdges.Sublist (g.nodes n).outEdges) ∧
    (∀ x, x ∉ l → (x ∈ (g.nodes n).inEdges → x ∈ ((l.foldl Graph.removeEdge g).nodes n).inEdges) ∧
      (x ∈ (g.nodes n).outEdges → x ∈ ((l.foldl Graph.removeEdge g).nodes n).outEdges)) := by
  induction l generalizing g with
  | nil => exact ⟨⟨List.Sublist.refl _, List.Sublist.refl _⟩, fun x _ => ⟨id, id⟩⟩
  | cons a t ih =>
    rw [List.foldl_cons]
    obtain ⟨⟨i1, i2⟩, i3⟩ := ih (g.removeEdge a)
    have s1 : ((g.removeEdge a).nodes n).inEdges.Sublist (g.nodes n).inEdges := by
      simp only [Graph.removeEdge, vecRemove]
      split
      · exact List.filter_sublist _
      · exact List.Sublist.refl _
    have s2 : ((g.removeEdge a).nodes n).outEdges.Sublist (g.nodes n).outEdges := by
      simp only [Graph.removeEdge, vecRemove]
      split
      · exact List.filter_sublist _
      · exact List.Sublist.refl _
    refine ⟨⟨i1.trans s1, i2.trans s2⟩, ?_⟩
    intro x hx
    have hxa : x ≠ a := fun e => hx (by rw [e]; exact List.mem_cons_self _ _)
    have hxt : x ∉ t := fun e => hx (List.mem_cons_of_mem _ e)
    obtain ⟨j1, j2⟩ := i3 x hxt
    constructor
    · intro hin
      apply j1
      simp only [Graph.removeEdge, vecRemove]
      split
      · exact List.mem_filter.mpr ⟨hin, by simpa using hxa⟩
      · exact hin
    · intro hin
      apply j2
      simp only [Graph.removeEdge, vecRemove]
      split
      · exact List.mem_filter.mpr ⟨hin, by simpa using hxa⟩
      · exact hin

theorem eq_singleton_of_sublist (l : List EdgeRef) (a : EdgeRef) (hs : l.Sublist [a])
    (ha : a ∈ l) : l = [a] := by
  have hlen := hs.length_le
  match l, ha, hlen with
  | [y], ha, _ =>
    have : a = y := by simpa using ha
    rw [this]
  | _ :: _ :: _, _, hlen => simp at hlen

theorem eq_singleton_of_length (l : List EdgeRef) (a : EdgeRef) (hlen : l.length = 1)
    (ha : a ∈ l) : l = [a] := by
  obtain ⟨y, hy⟩ := List.length_eq_one.mp hlen
  rw [hy] at ha ⊢
  have : a = y := by simpa using ha
  rw [this]

/-- In a chained list an edge is the last one or is followed by an edge that starts where it
ends. -/
theorem chained_next (g : Graph) (l : List EdgeRef) (hc : chained g l = true) (a : EdgeRef)
    (ha : a ∈ l) :
    a = l.getLastD 0 ∨ ∃ c ∈ l, (g.edges a).nodeRight = (g.edges c).nodeLeft := by
  induction l with
  | nil => cases ha
  | cons x t ih =>
    cases t with
    | nil =>
      left
      simpa using ha
    | cons y rest =>
      simp only [chained, Bool.and_eq_true, beq_iff_eq] at hc
      rcases List.mem_cons.mp ha with h | h
      · right
        exact ⟨y, by simp, by rw [h]; exact hc.1.1⟩
      · rcases ih hc.2 h with h1 | ⟨c, hc1, hc2⟩
        · left
          rw [h1]
          simp [List.getLastD]
        · exact Or.inr ⟨c, List.mem_cons_of_mem _ hc1, hc2⟩

/-- In a chained list an edge is the first one or follows an edge that ends where it
starts. -/
theorem chained_prev (g : Graph) (l : List EdgeRef) (hc : chained g l = true) (b : EdgeRef)
    (hb : b ∈ l) :
    b = l.headD 0 ∨ ∃ c ∈ l, (g.edges c).nodeRight = (g.edges b).nodeLeft := by
  induction l with
  | nil => cases hb
  | cons x t ih =>
    rcases List.mem_cons.mp hb with h | h
    · left
      simpa using h
    · right
      cases t with
      | nil => cases h
      | cons y rest =>
        simp only [chained, Bool.and_eq_true, beq_iff_eq] at hc
        rcases ih hc.2 h with h1 | ⟨c, hc1, hc2⟩
        · exact ⟨x, by simp, by rw [h1]; exact hc.1.1⟩
        · exact ⟨c, List.mem_cons_of_mem _ hc1, hc2⟩

/-- A property that passes along every link of a chained list, in both directions, holds for
all its edges once it holds for one. -/
theorem chained_all (g : Graph) (Q : EdgeRef → Prop) (l : List EdgeRef)
    (hc : chained g l = true)
    (hstep : ∀ a ∈ l, ∀ b ∈ l, (g.edges a).nodeRight = (g.edges b).nodeLeft →
      simpleNode g (g.edges a).nodeRight = true → (Q a ↔ Q b)) :
    ∀ x ∈ l, ∀ y ∈ l, Q x → Q y := by
  induction l with
  | nil => intro x hx; cases hx
  | cons a t ih =>
    cases t with
    | nil =>
      intro x hx y hy hq
      have e1 : x = a := by simpa using hx
      have e2 : y = a := by simpa using hy
      rw [e2, ← e1]; exact hq
    | cons b rest =>
      simp only [chained, Bool.and_eq_true, beq_iff_eq] at hc
      have ih2 := ih hc.2 (fun u hu v hv => hstep u (List.mem_cons_of_mem _ hu) v
        (List.mem_cons_of_mem _ hv))
      have hab : Q a ↔ Q b := hstep a (by simp) b (by simp) hc.1.1 hc.1.2
      have hbm : b ∈ b :: rest := List.mem_cons_self _ _
      intro x hx y hy hq
      have hqb : Q b := by
        rcases List.mem_cons.mp hx with h | h
        · rw [h] at hq; exact hab.mp hq
        · exact ih2 x h b hbm hq
      rcases List.mem_cons.mp hy with h | h
      · rw [h]; exact hab.mpr hqb
      · exact ih2 b hbm y h hqb

/-- The check `chained` reads the graph through its edges and the lengths of its node
lists. -/
theorem chained_congr (g h : Graph) (l : List EdgeRef) (he : h.edges = g.edges)
    (hs : ∀ a ∈ l, simpleNode g (g.edges a).nodeRight = true →
      simpleNode h (g.edges a).nodeRight = true)
    (hc : chained g l = true) : chained h l = true := by
  induction l with
  | nil => rfl
  | cons a t ih =>
    cases t with
    | nil => rfl
    | cons b rest =>
      simp only [chained, Bool.and_eq_true, beq_iff_eq] at hc ⊢
      rw [he]
      exact ⟨⟨hc.1.1, hs a (by simp) hc.1.2⟩,
        ih (fun u hu => hs u (List.mem_cons_of_mem _ hu)) hc.2⟩

theorem lengthSum_pos (g : Graph) (l : List EdgeRef) (hne : l ≠ [])
    (hpos : ∀ e ∈ l, 0 < (g.edges e).length) : 0 < lengthSum g l := by
  induction l with
  | nil => exact absurd rfl hne
  | cons a t ih =>
    have ha := hpos a (by simp)
    by_cases ht : t = []
    · subst ht
      simpa [lengthSum] using ha
    · have := ih ht (fun e he => hpos e (List.mem_cons_of_mem _ he))
      simp only [lengthSum, List.map_cons, List.sum_cons] at this ⊢
      omega

/-- The sums of a path over the complement edges, in reverse order, are the sums of the
path. -/
theorem sums_complement (g : Graph) (l : List EdgeRef)
    (hsym : ∀ e ∈ l, (g.edges (g.complementEdge e)).meanCoverage = (g.edges e).meanCoverage ∧
      (g.edges (g.complementEdge e)).length = (g.edges e).length) :
    lengthSum g (l.map g.complementEdge).reverse = lengthSum g l ∧
    coverageSum g (l.map g.complementEdge).reverse = coverageSum g l := by
  induction l with
  | nil => simp [lengthSum, coverageSum]
  | cons a t ih =>
    obtain ⟨i1, i2⟩ := ih (fun e he => hsym e (List.mem_cons_of_mem _ he))
    obtain ⟨c1, c2⟩ := hsym a (by simp)
    simp only [List.map_cons, List.reverse_cons]
    rw [(sums_append g _ _).1, (sums_append g _ _).2, i1, i2]
    simp only [lengthSum, coverageSum, List.map_cons, List.map_nil, List.sum_cons,
      List.sum_nil, add_zero]
    rw [c1, c2]
    constructor <;> ring

/-- The excess of the coverage sum over `T` times the length sum, edge by edge. -/
theorem excess_eq (g : Graph) (T : Int) (l : List EdgeRef) :
    coverageSum g l - T * lengthSum g l =
      (l.map (fun e => (g.edges e).meanCoverage * (g.edges e).length -
        T * (g.edges e).length)).sum := by
  induction l with
  | nil => simp [lengthSum, coverageSum]
  | cons a t ih =>
    simp only [lengthSum, coverageSum, List.map_cons, List.sum_cons] at ih ⊢
    rw [← ih]
    ring

end RepeatGraph

namespace RepeatGraph

theorem mem_collectEdgesRemove (g : Graph) (paths : List UnbranchingPath) (T : Int)
    (e : EdgeRef) :
    e ∈ collectEdgesRemove g paths T ↔ ∃ p ∈ paths, p.id.strand = true ∧ p.meanCoverage < T ∧
      (e ∈ p.path ∨ ∃ x ∈ p.path, g.complementEdge x = e) := by
  unfold collectEdgesRemove
  rw [mem_collect_foldl]
  simp

/-- A path of the extraction of which one edge is kept is kept whole, and its coverage sum is
at least the cutoff times its length sum, whichever strand it carries. -/
theorem kept_path (g : Graph) (paths : List UnbranchingPath) (T : Int) (hT : 1 ≤ T)
    (hg : Consistent g) (h1 : isExtraction g paths = true) (p : UnbranchingPath)
    (hp : p ∈ paths) (e : EdgeRef) (he : e ∈ p.path)
    (hkept : e ∉ collectEdgesRemove g paths T) :
    (∀ x ∈ p.path, x ∉ collectEdgesRemove g paths T) ∧
      0 < lengthSum g p.path ∧ T * lengthSum g p.path ≤ coverageSum g p.path := by
  obtain ⟨hne, hmem, -, -, -, -, -, hcov, p2, hp2, hp2id, hp2path⟩ :=
    isExtraction_path g paths h1 p hp
  have hpos : 0 < lengthSum g p.path :=
    lengthSum_pos g p.path hne (fun x hx => (hg.2 x (hmem x hx)).2.2.2)
  refine ⟨?_, hpos, ?_⟩
  · intro x hx hxR
    obtain ⟨r, hr, hrs, hrlow, hrx⟩ := (mem_collectEdgesRemove g paths T x).mp hxR
    obtain ⟨p0, -, -, huniq⟩ := isExtraction_unique g paths h1 x (hmem x hx)
    rcases hrx with hrx | ⟨y, hy, hyx⟩
    · have : r = p := by rw [huniq r hr hrx, huniq p hp hx]
      rw [this] at hrs hrlow
      exact hkept ((mem_collectEdgesRemove g paths T e).mpr ⟨p, hp, hrs, hrlow, Or.inl he⟩)
    · obtain ⟨-, -, -, -, -, -, -, -, r2, hr2, -, hr2path⟩ := isExtraction_path g paths h1 r hr
      have hxr2 : x ∈ r2.path := by
        rw [hr2path, List.mem_reverse, List.mem_map]
        exact ⟨y, hy, hyx⟩
      have : r2 = p := by rw [huniq r2 hr2 hxr2, huniq p hp hx]
      rw [← this, hr2path, List.mem_reverse, List.mem_map] at he
      obtain ⟨z, hz, hze⟩ := he
      exact hkept ((mem_collectEdgesRemove g paths T e).mpr
        ⟨r, hr, hrs, hrlow, Or.inr ⟨z, hz, hze⟩⟩)
  · by_cases hs : p.id.strand = true
    · have hlow : ¬ p.meanCoverage < T := fun hl =>
        hkept ((mem_collectEdgesRemove g paths T e).mpr ⟨p, hp, hs, hl, Or.inl he⟩)
      rw [hcov] at hlow
      exact mul_le_of_le_tdiv T _ _ hT hpos (not_lt.mp hlow)
    · have hs2 : p2.id.strand = true := by
        rw [hp2id]
        simpa [SignedId.rc] using hs
      have hlow : ¬ p2.meanCoverage < T := by
        intro hl
        apply hkept
        refine (mem_collectEdgesRemove g paths T e).mpr ⟨p2, hp2, hs2, hl, Or.inr
          ⟨g.complementEdge e, ?_, (hg.2 e (hmem e he)).1⟩⟩
        rw [hp2path, List.mem_reverse, List.mem_map]
        exact ⟨e, he, rfl⟩
      obtain ⟨-, -, -, -, -, -, -, hcov2, -⟩ := isExtraction_path g paths h1 p2 hp2
      have hsums := sums_complement g p.path (fun x hx =>
        ⟨(hg.2 x (hmem x hx)).2.1, (hg.2 x (hmem x hx)).2.2.1⟩)
      rw [hcov2, hp2path, hsums.1, hsums.2] at hlow
      exact mul_le_of_le_tdiv T _ _ hT hpos (not_lt.mp hlow)

/-- Two consecutive edges of a kept path of the first extraction are on the same paths of
the second extraction: the node between them keeps its one in-edge and its one out-edge. -/
theorem kept_link (g : Graph) (R : List EdgeRef) (paths2 : List UnbranchingPath)
    (hg : Consistent g) (h2 : isExtraction (R.foldl Graph.removeEdge g) paths2 = true)
    (q : UnbranchingPath) (hq : q ∈ paths2) (a b : EdgeRef) (ha : a ∈ g.edgeList)
    (hb : b ∈ g.edgeList) (haR : a ∉ R) (hbR : b ∉ R)
    (hab : (g.edges a).nodeRight = (g.edges b).nodeLeft)
    (hsimple : simpleNode g (g.edges a).nodeRight = true) :
    a ∈ q.path ↔ b ∈ q.path := by
  have hedges : (R.foldl Graph.removeEdge g).edges = g.edges := (foldl_removeEdge_frame R g).1
  obtain ⟨hne, hmem, hch, -, hleft, hright, -, -, -⟩ :=
    isExtraction_path (R.foldl Graph.removeEdge g) paths2 h2 q hq
  simp only [simpleNode, Bool.and_eq_true, beq_iff_eq] at hsimple
  have hin : (g.nodes (g.edges a).nodeRight).inEdges = [a] :=
    eq_singleton_of_length _ a hsimple.1 (hg.1 a ha).2
  have hout : (g.nodes (g.edges a).nodeRight).outEdges = [b] :=
    eq_singleton_of_length _ b hsimple.2 (by rw [hab]; exact (hg.1 b hb).1)
  obtain ⟨⟨s1, s2⟩, hkeep⟩ := nodes_foldl_removeEdge R g (g.edges a).nodeRight
  rw [hin] at s1
  rw [hout] at s2
  have hin1 := eq_singleton_of_sublist _ a s1 ((hkeep a haR).1 (by rw [hin]; simp))
  have hout1 := eq_singleton_of_sublist _ b s2 ((hkeep b hbR).2 (by rw [hout]; simp))
  have hsimple1 : simpleNode (R.foldl Graph.removeEdge g) (g.edges a).nodeRight = true := by
    simp [simpleNode, hin1, hout1]
  have hedge : ∀ c ∈ q.path, c ∈ g.edgeList := by
    intro c hc
    have := hmem c hc
    rw [edgeList_foldl_removeEdge] at this
    exact (List.mem_filter.mp this).1
  have hstart : ∀ c ∈ q.path, (g.edges c).nodeLeft = (g.edges a).nodeRight → c = b := by
    intro c hc hcn
    have := (hg.1 c (hedge c hc)).1
    rw [hcn, hout] at this
    simpa using this
  have hend : ∀ c ∈ q.path, (g.edges c).nodeRight = (g.edges a).nodeRight → c = a := by
    intro c hc hcn
    have := (hg.1 c (hedge c hc)).2
    rw [hcn, hin] at this
    simpa using this
  have hhead : q.path.headD 0 ∈ q.path := by
    cases hqp : q.path with
    | nil => exact absurd hqp hne
    | cons x t => simp
  have hlast : q.path.getLastD 0 ∈ q.path := by
    cases hqp : q.path with
    | nil => exact absurd hqp hne
    | cons x t =>
      rw [List.getLastD_cons]
      have := List.getLast_mem (List.cons_ne_nil x t)
      rw [List.getLast_eq_getLastD] at this
      simpa [List.getLastD_cons] using this
  constructor
  · intro haq
    rcases chained_next _ q.path hch a haq with h | ⟨c, hc, hcn⟩
    · have hnr : q.nodeRight (R.foldl Graph.removeEdge g) = (g.edges a).nodeRight := by
        unfold UnbranchingPath.nodeRight
        rw [hedges, ← h]
      rw [hnr, hsimple1] at hright
      have hloop : q.isLooped (R.foldl Graph.removeEdge g) = true := by
        rcases hright with h0 | h0
        · exact h0
        · cases h0
      unfold UnbranchingPath.isLooped at hloop
      rw [beq_iff_eq, hnr] at hloop
      unfold UnbranchingPath.nodeLeft at hloop
      rw [hedges] at hloop
      rw [← hstart _ hhead hloop]
      exact hhead
    · rw [hedges] at hcn
      rw [← hstart c hc hcn.symm]
      exact hc
  · intro hbq
    rcases chained_prev _ q.path hch b hbq with h | ⟨c, hc, hcn⟩
    · have hnl : q.nodeLeft (R.foldl Graph.removeEdge g) = (g.edges a).nodeRight := by
        unfold UnbranchingPath.nodeLeft
        rw [hedges, ← h, hab]
      rw [hnl, hsimple1] at hleft
      have hloop : q.isLooped (R.foldl Graph.removeEdge g) = true := by
        rcases hleft with h0 | h0
        · exact h0
        · cases h0
      unfold UnbranchingPath.isLooped at hloop
      rw [beq_iff_eq, hnl] at hloop
      unfold UnbranchingPath.nodeRight at hloop
      rw [hedges] at hloop
      rw [← hend _ hlast hloop.symm]
      exact hlast
    · rw [hedges, ← hab] at hcn
      rw [← hend c hc hcn]
      exact hc

/-- A path of the second extraction holds a path of the first extraction entirely or not at
all. -/
theorem kept_whole (g : Graph) (paths1 paths2 : List UnbranchingPath) (T : Int) (hT : 1 ≤ T)
    (hg : Consistent g) (h1 : isExtraction g paths1 = true)
    (h2 : isExtraction ((collectEdgesRemove g paths1 T).foldl Graph.removeEdge g) paths2 = true)
    (p : UnbranchingPath) (hp : p ∈ paths1) (q : UnbranchingPath) (hq : q ∈ paths2)
    (e : EdgeRef) (hep : e ∈ p.path) (heq : e ∈ q.path) :
    (∀ x ∈ p.path, x ∈ q.path) ∧
      0 < lengthSum g p.path ∧ T * lengthSum g p.path ≤ coverageSum g p.path := by
  obtain ⟨-, hmemq, -⟩ := isExtraction_path _ paths2 h2 q hq
  obtain ⟨-, hmemp, hch, -⟩ := isExtraction_path g paths1 h1 p hp
  have heR : e ∉ collectEdgesRemove g paths1 T := by
    have := hmemq e heq
    rw [edgeList_foldl_removeEdge] at this
    simpa using (List.mem_filter.mp this).2
  obtain ⟨hkept, hpos, hle⟩ := kept_path g paths1 T hT hg h1 p hp e hep heR
  refine ⟨?_, hpos, hle⟩
  intro x hx
  exact chained_all g (fun y => y ∈ q.path) p.path hch
    (fun a ha b hb hab hs => kept_link g _ paths2 hg h2 q hq a b (hmemp a ha) (hmemp b hb)
      (hkept a ha) (hkept b hb) hab hs) e hep x hx heq

end RepeatGraph

namespace RepeatGraph

/-- After the first application no path of a second extraction is below the cutoff. -/
theorem second_extraction_supported (g : Graph) (paths1 paths2 : List UnbranchingPath)
    (T : Int) (hT : 1 ≤ T) (hg : Consistent g) (h1 : isExtraction g paths1 = true)
    (h2 : isExtraction ((collectEdgesRemove g paths1 T).foldl Graph.removeEdge g) paths2 = true)
    (q : UnbranchingPath) (hq : q ∈ paths2) : T ≤ q.meanCoverage := by
  have hedges : ((collectEdgesRemove g paths1 T).foldl Graph.removeEdge g).edges = g.edges :=
    (foldl_removeEdge_frame _ g).1
  obtain ⟨hne, hmemq, -, hnd, -, -, -, hcov, -⟩ := isExtraction_path _ paths2 h2 q hq
  have hedge : ∀ c ∈ q.path, c ∈ g.edgeList := by
    intro c hc
    have := hmemq c hc
    rw [edgeList_foldl_removeEdge] at this
    exact (List.mem_filter.mp this).1
  have hcov2 : q.meanCoverage = (coverageSum g q.path).tdiv (lengthSum g q.path) := by
    rw [hcov]
    unfold coverageSum lengthSum
    rw [hedges]
  have hpos : 0 < lengthSum g q.path :=
    lengthSum_pos g q.path hne (fun x hx => (hg.2 x (hedge x hx)).2.2.2)
  rw [hcov2]
  apply le_tdiv_of_mul_le T _ _ hT hpos
  have hex := excess_eq g T q.path
  rw [← List.sum_toFinset _ hnd] at hex
  have hunion : q.path.toFinset =
      (paths1.toFinset.filter (fun p => ∃ e ∈ p.path, e ∈ q.path)).biUnion
        (fun p => p.path.toFinset) := by
    ext e
    simp only [List.mem_toFinset, Finset.mem_biUnion, Finset.mem_filter]
    constructor
    · intro he
      obtain ⟨p, hp, hep, -⟩ := isExtraction_unique g paths1 h1 e (hedge e he)
      exact ⟨p, ⟨hp, e, hep, he⟩, hep⟩
    · rintro ⟨p, ⟨hp, x, hxp, hxq⟩, hep⟩
      exact (kept_whole g paths1 paths2 T hT hg h1 h2 p hp q hq x hxp hxq).1 e hep
  have hdisj : ((paths1.toFinset.filter (fun p => ∃ e ∈ p.path, e ∈ q.path) :
      Finset UnbranchingPath) : Set UnbranchingPath).PairwiseDisjoint
        (fun p => p.path.toFinset) := by
    intro p hp r hr hpr
    simp only [Finset.coe_filter, List.mem_toFinset, Set.mem_setOf_eq] at hp hr
    rw [Function.onFun, Finset.disjoint_left]
    intro e hep her
    rw [List.mem_toFinset] at hep her
    obtain ⟨-, hmemp, -⟩ := isExtraction_path g paths1 h1 p hp.1
    obtain ⟨p0, -, -, huniq⟩ := isExtraction_unique g paths1 h1 e (hmemp e hep)
    exact hpr (by rw [huniq p hp.1 hep, huniq r hr.1 her])
  rw [hunion, Finset.sum_biUnion hdisj] at hex
  have hnonneg : 0 ≤ coverageSum g q.path - T * lengthSum g q.path := by
    rw [hex]
    apply Finset.sum_nonneg
    intro p hp
    simp only [Finset.mem_filter, List.mem_toFinset] at hp
    obtain ⟨hp1, x, hxp, hxq⟩ := hp
    obtain ⟨-, -, -, hndp, -⟩ := isExtraction_path g paths1 h1 p hp1
    rw [List.sum_toFinset _ hndp, ← excess_eq]
    have := (kept_whole g paths1 paths2 T hT hg h1 h2 p hp1 q hq x hxp hxq).2.2
    omega
  omega

/-- C16. On a consistent graph (node lists that agree with the edges, an involutive
`complementEdge`, the same coverage and length on an edge and its complement, positive
lengths), with the maximal unbranching paths extracted from the graph before the first
application and again from the graph the first application leaves, a second application of
`removeUnsupportedEdges` with the same mean coverage and configuration hands no edge to
`removeEdge` and returns the graph unchanged. The reason: the first application removes
every path below the cutoff on either strand, a re-extracted path is made of whole paths
the first application kept, and a length-weighted mean of means that are not below the
cutoff is not below it. -/
theorem removeUnsupportedEdges_second_application (g : Graph)
    (paths1 paths2 : List UnbranchingPath) (meanCoverage : Int) (dropRate : ℚ)
    (unevenCoverage : Bool) (hg : Consistent g) (h1 : isExtraction g paths1 = true)
    (h2 : isExtraction (removeUnsupportedEdges g paths1 meanCoverage dropRate unevenCoverage)
      paths2 = true) :
    collectEdgesRemove (removeUnsupportedEdges g paths1 meanCoverage dropRate unevenCoverage)
      paths2 (removeCoverageThreshold meanCoverage dropRate unevenCoverage) = [] ∧
    (removeUnsupportedEdges
      (removeUnsupportedEdges g paths1 meanCoverage dropRate unevenCoverage)
      paths2 meanCoverage dropRate unevenCoverage).edgeList =
      (removeUnsupportedEdges g paths1 meanCoverage dropRate unevenCoverage).edgeList ∧
    removeUnsupportedEdges (removeUnsupportedEdges g paths1 meanCoverage dropRate unevenCoverage)
      paths2 meanCoverage dropRate unevenCoverage =
    removeUnsupportedEdges g paths1 meanCoverage dropRate unevenCoverage := by
  have hT := one_le_removeCoverageThreshold meanCoverage dropRate unevenCoverage
  have hcollect : collectEdgesRemove
      (removeUnsupportedEdges g paths1 meanCoverage dropRate unevenCoverage) paths2
      (removeCoverageThreshold meanCoverage dropRate unevenCoverage) = [] := by
    unfold collectEdgesRemove
    apply foldl_keep
    intro q hq acc
    have := second_extraction_supported g paths1 paths2 _ hT hg h1 h2 q hq
    by_cases hs : q.id.strand = true
    · simp [hs, not_lt.mpr this]
    · simp [hs]
  have hsame : removeUnsupportedEdges
      (removeUnsupportedEdges g paths1 meanCoverage dropRate unevenCoverage)
      paths2 meanCoverage dropRate unevenCoverage =
      removeUnsupportedEdges g paths1 meanCoverage dropRate unevenCoverage := by
    show List.foldl Graph.removeEdge _ (collectEdgesRemove
      (removeUnsupportedEdges g paths1 meanCoverage dropRate unevenCoverage) paths2
      (removeCoverageThreshold meanCoverage dropRate unevenCoverage)) = _
    rw [hcollect]
    rfl
  exact ⟨hcollect, by rw [hsame], hsame⟩

theorem mergeGraph_consistent : Consistent mergeGraph := by
  unfold Consistent
  refine ⟨by decide!, by decide!⟩

/-- Witness for C16: in `mergeGraph` (mean coverage `25`, drop rate `5`, cutoff `5`) the first
application removes `x` and its complement (coverage `2`); in the graph it leaves `a`
followed by `n` is one unbranching path of coverage `7`, and the second application removes
nothing. -/
theorem removeUnsupportedEdges_second_application_witness :
    Consistent mergeGraph ∧ isExtraction mergeGraph mergePaths = true ∧
    removeCoverageThreshold 25 5 false = 5 ∧
    collectEdgesRemove mergeGraph mergePaths 5 = [4, 5] ∧
    (removeUnsupportedEdges mergeGraph mergePaths 25 5 false).edgeList = [0, 1, 2, 3] ∧
    isExtraction (removeUnsupportedEdges mergeGraph mergePaths 25 5 false) mergedPaths = true ∧
    (removeUnsupportedEdges (removeUnsupportedEdges mergeGraph mergePaths 25 5 false)
      mergedPaths 25 5 false).edgeList = [0, 1, 2, 3] ∧
    collectEdgesRemove (removeUnsupportedEdges mergeGraph mergePaths 25 5 false)
      mergedPaths (removeCoverageThreshold 25 5 false) = [] :=
  ⟨mergeGraph_consistent, by decide!, by decide!, by decide!, by decide!, by decide!,
    by decide!,
    (removeUnsupportedEdges_second_application mergeGraph mergePaths mergedPaths 25 5 false
      mergeGraph_consistent (by decide!) (by decide!)).1⟩

end RepeatGraph

namespace RepeatGraph

/-! ## The pairing of extracted paths -/

/-- In a chained list an edge is the last one or is followed, through a node with one in-edge
and one out-edge, by an edge of the list. -/
theorem chained_next_simple (g : Graph) (l : List EdgeRef) (hc : chained g l = true)
    (a : EdgeRef) (ha : a ∈ l) :
    a = l.getLastD 0 ∨ simpleNode g (g.edges a).nodeRight = true := by
  induction l with
  | nil => cases ha
  | cons x t ih =>
    cases t with
    | nil =>
      left
      simpa using ha
    | cons y rest =>
      simp only [chained, Bool.and_eq_true, beq_iff_eq] at hc
      rcases List.mem_cons.mp ha with h | h
      · right
        rw [h]; exact hc.1.2
      · rcases ih hc.2 h with h1 | h1
        · left
          rw [h1]
          simp [List.getLastD]
        · exact Or.inr h1

/-- In a chained list an edge is the first one or follows an edge of the list through a node
with one in-edge and one out-edge. -/
theorem chained_prev_simple (g : Graph) (l : List EdgeRef) (hc : chained g l = true)
    (b : EdgeRef) (hb : b ∈ l) :
    b = l.headD 0 ∨ simpleNode g (g.edges b).nodeLeft = true := by
  induction l with
  | nil => cases hb
  | cons x t ih =>
    rcases List.mem_cons.mp hb with h | h
    · left
      simpa using h
    · right
      cases t with
      | nil => cases h
      | cons y rest =>
        simp only [chained, Bool.and_eq_true, beq_iff_eq] at hc
        rcases ih hc.2 h with h1 | h1
        · rw [h1]
          simp only [List.headD_cons]
          rw [← hc.1.1]; exact hc.1.2
        · exact h1

theorem headD_mem (l : List EdgeRef) (h : l ≠ []) : l.headD 0 ∈ l := by
  cases l with
  | nil => exact absurd rfl h
  | cons x t => simp

theorem getLastD_eq_getLast (l : List EdgeRef) (h : l ≠ []) : l.getLastD 0 = l.getLast h := by
  cases l with
  | nil => exact absurd rfl h
  | cons x t => rfl

theorem headD_eq_head (l : List EdgeRef) (h : l ≠ []) : l.headD 0 = l.head h := by
  cases l with
  | nil => exact absurd rfl h
  | cons x t => rfl

theorem getLastD_mem (l : List EdgeRef) (h : l ≠ []) : l.getLastD 0 ∈ l := by
  rw [getLastD_eq_getLast l h]
  exact List.getLast_mem h

theorem headD_reverse_map (f : EdgeRef → EdgeRef) (l : List EdgeRef) (h : l ≠ []) :
    (l.map f).reverse.headD 0 = f (l.getLastD 0) := by
  have h2 : (l.map f).reverse ≠ [] := by simpa using h
  rw [headD_eq_head _ h2, getLastD_eq_getLast l h, List.head_reverse, List.getLast_map]

theorem getLastD_reverse_map (f : EdgeRef → EdgeRef) (l : List EdgeRef) (h : l ≠ []) :
    (l.map f).reverse.getLastD 0 = f (l.headD 0) := by
  have h2 : (l.map f).reverse ≠ [] := by simpa using h
  rw [getLastD_eq_getLast _ h2, headD_eq_head l h, List.getLast_reverse, List.head_map]

/-- Two paths of an extraction with a common edge are the same path. -/
theorem path_eq_of_common_edge (g : Graph) (paths : List UnbranchingPath)
    (h : isExtraction g paths = true) (a b : UnbranchingPath) (ha : a ∈ paths)
    (hb : b ∈ paths) (e : EdgeRef) (hea : e ∈ a.path) (heb : e ∈ b.path) : a = b := by
  obtain ⟨-, hmem, -⟩ := isExtraction_path g paths h a ha
  obtain ⟨p0, -, -, huniq⟩ := isExtraction_unique g paths h e (hmem e hea)
  rw [huniq a ha hea, huniq b hb heb]

/-- The facts about one path of an extraction that the pairing reads: its first and last
edge are edges of the graph, on the path, listed at its end nodes. -/
theorem path_ends (g : Graph) (paths : List UnbranchingPath) (hg : Consistent g)
    (h : isExtraction g paths = true) (a : UnbranchingPath) (ha : a ∈ paths) :
    (a.path.headD 0 ∈ a.path ∧ a.path.headD 0 ∈ g.edgeList ∧
      a.path.headD 0 ∈ (g.nodes (a.nodeLeft g)).outEdges) ∧
    (a.path.getLastD 0 ∈ a.path ∧ a.path.getLastD 0 ∈ g.edgeList ∧
      a.path.getLastD 0 ∈ (g.nodes (a.nodeRight g)).inEdges) := by
  obtain ⟨hne, hmem, -⟩ := isExtraction_path g paths h a ha
  have h1 := headD_mem a.path hne
  have h2 := getLastD_mem a.path hne
  exact ⟨⟨h1, hmem _ h1, (hg.1 _ (hmem _ h1)).1⟩, ⟨h2, hmem _ h2, (hg.1 _ (hmem _ h2)).2⟩⟩

/-- The complement path of a path of an extraction: the path with the complement id. Its
coverage is that of the path, and its end nodes are those of the complements of the last and
the first edge. -/
theorem complement_path (g : Graph) (paths : List UnbranchingPath) (hg : Consistent g)
    (h : isExtraction g paths = true) (a : UnbranchingPath) (ha : a ∈ paths) :
    ∃ a' ∈ paths, a'.id = a.id.rc ∧ a'.meanCoverage = a.meanCoverage ∧
      a'.nodeLeft g = (g.edges (g.complementEdge (a.path.getLastD 0))).nodeLeft ∧
      a'.nodeRight g = (g.edges (g.complementEdge (a.path.headD 0))).nodeRight := by
  obtain ⟨hne, hmem, -, -, -, -, -, hcov, q, hq, hqid, hqpath⟩ := isExtraction_path g paths h a ha
  obtain ⟨-, -, -, -, -, -, -, hcovq, -⟩ := isExtraction_path g paths h q hq
  have hsums := sums_complement g a.path (fun x hx =>
    ⟨(hg.2 x (hmem x hx)).2.1, (hg.2 x (hmem x hx)).2.2.1⟩)
  refine ⟨q, hq, hqid, ?_, ?_, ?_⟩
  · rw [hcovq, hqpath, hsums.1, hsums.2, hcov]
  · unfold UnbranchingPath.nodeLeft
    rw [hqpath, headD_reverse_map _ _ hne]
  · unfold UnbranchingPath.nodeRight
    rw [hqpath, getLastD_reverse_map _ _ hne]

/-- Where a path of an extraction starts at a node with one in-edge, exactly one path
ends. -/
theorem unique_path_into (g : Graph) (paths : List UnbranchingPath) (hg : Consistent g)
    (hm : ComplementSymmetric g) (h : isExtraction g paths = true) (a : UnbranchingPath)
    (ha : a ∈ paths) (hin : (g.nodes (a.nodeLeft g)).inEdges.length = 1) :
    ∃ c ∈ paths, c.nodeRight g = a.nodeLeft g ∧
      ∀ b ∈ paths, b.nodeRight g = a.nodeLeft g → b = c := by
  obtain ⟨⟨hh1, hh2, hh3⟩, ⟨hl1, hl2, hl3⟩⟩ := path_ends g paths hg h a ha
  obtain ⟨e, he⟩ := List.length_eq_one.mp hin
  obtain ⟨-, -, hinl, -⟩ := hm.1 _ hh2 (a.nodeLeft g) (by
    unfold UnbranchingPath.nodeLeft; simp)
  obtain ⟨heE, heR⟩ := hinl e (by rw [he]; simp)
  obtain ⟨c, hc, hec, -⟩ := isExtraction_unique g paths h e heE
  obtain ⟨-, -, hchc, -⟩ := isExtraction_path g paths h c hc
  obtain ⟨-, -, -, -, hleft, -⟩ := isExtraction_path g paths h a ha
  -- a path that ends at the node
  have hw : ∃ w ∈ paths, w.nodeRight g = a.nodeLeft g := by
    rcases chained_next_simple g c.path hchc e hec with hlast | hsimple
    · refine ⟨c, hc, ?_⟩
      unfold UnbranchingPath.nodeRight
      rw [← hlast, heR]
    · rw [heR] at hsimple
      rw [hsimple] at hleft
      rcases hleft with h0 | h0
      · refine ⟨a, ha, ?_⟩
        unfold UnbranchingPath.isLooped at h0
        rw [beq_iff_eq] at h0
        exact h0.symm
      · cases h0
  obtain ⟨w, hwp, hwn⟩ := hw
  refine ⟨w, hwp, hwn, ?_⟩
  intro b hb hbn
  obtain ⟨-, ⟨hb1, -, hb3⟩⟩ := path_ends g paths hg h b hb
  obtain ⟨-, ⟨hw1, -, hw3⟩⟩ := path_ends g paths hg h w hwp
  rw [hbn, he] at hb3
  rw [hwn, he] at hw3
  have e1 : b.path.getLastD 0 = e := by simpa using hb3
  have e2 : w.path.getLastD 0 = e := by simpa using hw3
  exact path_eq_of_common_edge g paths h b w hb hwp e (by rw [← e1]; exact hb1)
    (by rw [← e2]; exact hw1)

/-- Where a path of an extraction ends at a node with one out-edge, exactly one path
starts. -/
theorem unique_path_out (g : Graph) (paths : List UnbranchingPath) (hg : Consistent g)
    (hm : ComplementSymmetric g) (h : isExtraction g paths = true) (a : UnbranchingPath)
    (ha : a ∈ paths) (hout : (g.nodes (a.nodeRight g)).outEdges.length = 1) :
    ∃ c ∈ paths, c.nodeLeft g = a.nodeRight g ∧
      ∀ b ∈ paths, b.nodeLeft g = a.nodeRight g → b = c := by
  obtain ⟨⟨hh1, hh2, hh3⟩, ⟨hl1, hl2, hl3⟩⟩ := path_ends g paths hg h a ha
  obtain ⟨e, he⟩ := List.length_eq_one.mp hout
  obtain ⟨-, -, -, houtl⟩ := hm.1 _ hl2 (a.nodeRight g) (by
    unfold UnbranchingPath.nodeRight; simp)
  obtain ⟨heE, heL⟩ := houtl e (by rw [he]; simp)
  obtain ⟨c, hc, hec, -⟩ := isExtraction_unique g paths h e heE
  obtain ⟨-, -, hchc, -⟩ := isExtraction_path g paths h c hc
  obtain ⟨-, -, -, -, -, hright, -⟩ := isExtraction_path g paths h a ha
  have hw : ∃ w ∈ paths, w.nodeLeft g = a.nodeRight g := by
    rcases chained_prev_simple g c.path hchc e hec with hhead | hsimple
    · refine ⟨c, hc, ?_⟩
      unfold UnbranchingPath.nodeLeft
      rw [← hhead, heL]
    · rw [heL] at hsimple
      rw [hsimple] at hright
      rcases hright with h0 | h0
      · refine ⟨a, ha, ?_⟩
        unfold UnbranchingPath.isLooped at h0
        rw [beq_iff_eq] at h0
        exact h0
      · cases h0
  obtain ⟨w, hwp, hwn⟩ := hw
  refine ⟨w, hwp, hwn, ?_⟩
  intro b hb hbn
  obtain ⟨⟨hb1, -, hb3⟩, -⟩ := path_ends g paths hg h b hb
  obtain ⟨⟨hw1, -, hw3⟩, -⟩ := path_ends g paths hg h w hwp
  rw [hbn, he] at hb3
  rw [hwn, he] at hw3
  have e1 : b.path.headD 0 = e := by simpa using hb3
  have e2 : w.path.headD 0 = e := by simpa using hw3
  exact path_eq_of_common_edge g paths h b w hb hwp e (by rw [← e1]; exact hb1)
    (by rw [← e2]; exact hw1)

/-- The paths of an extraction of a consistent, complement-symmetric graph are paired the way
the bulges read them. -/
theorem bulgePaths_of_extraction (g : Graph) (paths : List UnbranchingPath)
    (hg : Consistent g) (hm : ComplementSymmetric g) (h : isExtraction g paths = true) :
    BulgePathsPaired g paths := by
  have hids := isExtraction_ids g paths h
  refine ⟨hids, ?_, ?_, ?_, ?_⟩
  · intro a ha
    obtain ⟨a', ha', hid, hcov, -⟩ := complement_path g paths hg h a ha
    exact ⟨a', ha', hid, hcov⟩
  · intro a ha b hb a' ha' b' hb' hida hidb ⟨hl, hr⟩
    obtain ⟨a2, ha2, hid2, -, hl2, hr2⟩ := complement_path g paths hg h a ha
    obtain ⟨b2, hb2, hidb2, -, hlb2, hrb2⟩ := complement_path g paths hg h b hb
    have ea : a' = a2 := List.inj_on_of_nodup_map hids ha' ha2 (by rw [hida, hid2])
    have eb : b' = b2 := List.inj_on_of_nodup_map hids hb' hb2 (by rw [hidb, hidb2])
    obtain ⟨⟨-, hah, -⟩, ⟨-, hal, -⟩⟩ := path_ends g paths hg h a ha
    obtain ⟨⟨-, hbh, -⟩, ⟨-, hbl, -⟩⟩ := path_ends g paths hg h b hb
    rw [ea, eb, hl2, hr2, hlb2, hrb2]
    exact ⟨((hm.2 _ hal _ hbl).2.2).mp hr, ((hm.2 _ hah _ hbh).2.1).mp hl⟩
  · intro a ha hin
    exact unique_path_into g paths hg hm h a ha hin
  · intro a ha hout
    exact unique_path_out g paths hg hm h a ha hout

end RepeatGraph

namespace RepeatGraph

theorem other_of_two (l : List EdgeRef) (hlen : l.length = 2) (hnd : l.Nodup) (z : EdgeRef)
    (hz : z ∈ l) : ∃ e ∈ l, e ≠ z ∧ ∀ w ∈ l, w = z ∨ w = e := by
  match l, hlen, hnd, hz with
  | [x, y], _, hnd, hz =>
    have hxy : x ≠ y := by
      intro e
      rw [e] at hnd
      simp at hnd
    simp only [List.mem_cons, List.mem_singleton, List.not_mem_nil, or_false] at hz
    rcases hz with e | e
    · refine ⟨y, by simp, by rw [e]; exact Ne.symm hxy, ?_⟩
      intro w hw
      simp only [List.mem_cons, List.mem_singleton, List.not_mem_nil, or_false] at hw
      rcases hw with e2 | e2
      · left; rw [e2, e]
      · right; exact e2
    · refine ⟨x, by simp, by rw [e]; exact hxy, ?_⟩
      intro w hw
      simp only [List.mem_cons, List.mem_singleton, List.not_mem_nil, or_false] at hw
      rcases hw with e2 | e2
      · right; exact e2
      · left; rw [e2, e]

/-- The paths of an extraction of a consistent, complement-symmetric graph are paired the way
the loops read them. -/
theorem loopPaths_of_extraction (g : Graph) (paths : List UnbranchingPath)
    (hg : Consistent g) (hm : ComplementSymmetric g) (h : isExtraction g paths = true) :
    LoopPathsPaired g paths := by
  have hids := isExtraction_ids g paths h
  refine ⟨hids, ?_, ?_, ?_⟩
  · intro a ha
    obtain ⟨a', ha', hid, hcov, -⟩ := complement_path g paths hg h a ha
    exact ⟨a', ha', hid, hcov⟩
  · intro a ha b hb a' ha' b' hb' hida hidb
    obtain ⟨a2, ha2, hid2, -, hl2, hr2⟩ := complement_path g paths hg h a ha
    obtain ⟨b2, hb2, hidb2, -, hlb2, hrb2⟩ := complement_path g paths hg h b hb
    have ea : a' = a2 := List.inj_on_of_nodup_map hids ha' ha2 (by rw [hida, hid2])
    have eb : b' = b2 := List.inj_on_of_nodup_map hids hb' hb2 (by rw [hidb, hidb2])
    obtain ⟨-, ⟨-, hal, -⟩⟩ := path_ends g paths hg h a ha
    obtain ⟨⟨-, hbh, -⟩, -⟩ := path_ends g paths hg h b hb
    rw [ea, eb, hl2, hrb2]
    exact (hm.2 _ hal _ hbh).1
  · intro L hL hloop hin hout
    obtain ⟨⟨hh1, hh2, hh3⟩, ⟨hl1, hl2, hl3⟩⟩ := path_ends g paths hg h L hL
    have hloop2 : L.nodeLeft g = L.nodeRight g := by
      unfold UnbranchingPath.isLooped at hloop
      simpa using hloop
    obtain ⟨hndi, hndo, hinl, houtl⟩ := hm.1 _ hh2 (L.nodeLeft g) (by
      unfold UnbranchingPath.nodeLeft; simp)
    have hns : simpleNode g (L.nodeLeft g) = false := by
      simp [simpleNode, hin]
    rw [← hloop2] at hl3
    constructor
    · obtain ⟨e, he, hne, hall⟩ := other_of_two _ hin hndi _ hl3
      obtain ⟨heE, heR⟩ := hinl e he
      obtain ⟨a, ha, hea, -⟩ := isExtraction_unique g paths h e heE
      obtain ⟨-, -, hcha, -⟩ := isExtraction_path g paths h a ha
      have hlast : e = a.path.getLastD 0 := by
        rcases chained_next_simple g a.path hcha e hea with h0 | h0
        · exact h0
        · rw [heR, hns] at h0; cases h0
      have han : a.nodeRight g = L.nodeLeft g := by
        unfold UnbranchingPath.nodeRight
        rw [← hlast, heR]
      refine ⟨a, ha, ⟨han, ?_⟩, ?_⟩
      · intro hid
        have : L = a := List.inj_on_of_nodup_map hids hL ha hid
        apply hne
        rw [hlast, this]
      · rintro b hb ⟨hbn, hbid⟩
        obtain ⟨-, ⟨hb1, -, hb3⟩⟩ := path_ends g paths hg h b hb
        rw [hbn] at hb3
        rcases hall _ hb3 with e1 | e1
        · exfalso
          apply hbid
          have : L = b := path_eq_of_common_edge g paths h L b hL hb _ hl1 (by rw [← e1]; exact hb1)
          rw [this]
        · exact path_eq_of_common_edge g paths h b a hb ha e (by rw [← e1]; exact hb1) hea
    · obtain ⟨e, he, hne, hall⟩ := other_of_two _ hout hndo _ hh3
      obtain ⟨heE, heL⟩ := houtl e he
      obtain ⟨a, ha, hea, -⟩ := isExtraction_unique g paths h e heE
      obtain ⟨-, -, hcha, -⟩ := isExtraction_path g paths h a ha
      have hhead : e = a.path.headD 0 := by
        rcases chained_prev_simple g a.path hcha e hea with h0 | h0
        · exact h0
        · rw [heL, hns] at h0; cases h0
      have han : a.nodeLeft g = L.nodeLeft g := by
        unfold UnbranchingPath.nodeLeft
        rw [← hhead, heL]
        rfl
      refine ⟨a, ha, ⟨han, ?_⟩, ?_⟩
      · intro hid
        have : L = a := List.inj_on_of_nodup_map hids hL ha hid
        apply hne
        rw [hhead, this]
      · rintro b hb ⟨hbn, hbid⟩
        obtain ⟨⟨hb1, -, hb3⟩, -⟩ := path_ends g paths hg h b hb
        rw [hbn] at hb3
        rcases hall _ hb3 with e1 | e1
        · exfalso
          apply hbid
          have : L = b := path_eq_of_common_edge g paths h L b hL hb _ hh1 (by rw [← e1]; exact hb1)
          rw [this]
        · exact path_eq_of_common_edge g paths h b a hb ha e (by rw [← e1]; exact hb1) hea

end RepeatGraph

namespace RepeatGraph

/-- The decision of the marking loop on paired paths: one decision for both ids of a loop
that satisfies the collapse conditions, only such ids marked, none marked twice. -/
theorem markLoops_decision_paired (g : Graph) (unbranchingPaths : List UnbranchingPath)
    (hp : LoopPathsPaired g unbranchingPaths) :
    ∃ sets, markLoops g unbranchingPaths = some sets ∧
      (∀ L ∈ unbranchingPaths, ∀ en ∈ unbranchingPaths, ∀ ex ∈ unbranchingPaths,
        CollapseConditions g L en ex →
        (L.meanCoverage < (en.meanCoverage + ex.meanCoverage).tdiv 4 →
          L.id ∈ sets.toRemove ∧ L.id.rc ∈ sets.toRemove ∧
          L.id ∉ sets.toUnroll ∧ L.id.rc ∉ sets.toUnroll) ∧
        (¬ L.meanCoverage < (en.meanCoverage + ex.meanCoverage).tdiv 4 →
          L.id ∈ sets.toUnroll ∧ L.id.rc ∈ sets.toUnroll ∧
          L.id ∉ sets.toRemove ∧ L.id.rc ∉ sets.toRemove)) ∧
      (∀ id, id ∈ sets.toRemove ∨ id ∈ sets.toUnroll →
        ∃ L ∈ unbranchingPaths, ∃ en ∈ unbranchingPaths, ∃ ex ∈ unbranchingPaths,
          CollapseConditions g L en ex ∧ (id = L.id ∨ id = L.id.rc)) ∧
      (∀ id, ¬ (id ∈ sets.toRemove ∧ id ∈ sets.toUnroll)) := by
  obtain ⟨sets, hsets⟩ := markLoops_total g unbranchingPaths hp
  obtain ⟨h1, h2⟩ := foldl_markLoop g unbranchingPaths unbranchingPaths ⟨[], []⟩ sets hsets
  have k1 : ∀ id, id ∈ sets.toRemove ↔ ∃ L ∈ unbranchingPaths,
      loopMark g unbranchingPaths L = some LoopMark.remove ∧ (id = L.id ∨ id = L.id.rc) := by
    intro id; rw [h1 id]; simp
  have k2 : ∀ id, id ∈ sets.toUnroll ↔ ∃ L ∈ unbranchingPaths,
      loopMark g unbranchingPaths L = some LoopMark.unroll ∧ (id = L.id ∨ id = L.id.rc) := by
    intro id; rw [h2 id]; simp
  have hno : ∀ id, ¬ (id ∈ sets.toRemove ∧ id ∈ sets.toUnroll) := by
    rintro id ⟨hr, hu⟩
    obtain ⟨L, hL, hLm, hLid⟩ := (k1 id).mp hr
    obtain ⟨M, hM, hMm, hMid⟩ := (k2 id).mp hu
    have hsame : M.id = L.id → False := by
      intro h
      have : M = L := eq_of_id_eq unbranchingPaths hp.1 M L hM hL h
      rw [this, hLm] at hMm
      cases hMm
    have hcomp : M.id = L.id.rc → False := by
      intro h
      have := (loopMark_complement g unbranchingPaths hp L M hL hM h _ _ hLm hMm
        (by decide) (by decide)).mp rfl
      cases this
    rcases hLid with a | a <;> rcases hMid with b | b
    · exact hsame (by rw [← a, ← b])
    · apply hcomp
      have : M.id.rc.rc = L.id.rc := by rw [← b, a]
      rwa [rc_rc] at this
    · exact hcomp (by rw [← a, ← b])
    · apply hsame
      have : M.id.rc.rc = L.id.rc.rc := by rw [← a, ← b]
      rwa [rc_rc, rc_rc] at this
  refine ⟨sets, hsets, ?_, ?_, hno⟩
  · intro L hL en hen ex hex hc
    obtain ⟨⟨a1, ha1, -, hu1⟩, ⟨a2, ha2, -, hu2⟩⟩ :=
      hp.2.2.2 L hL hc.1 hc.2.2.1 hc.2.2.2.1
    have e1 : en = a1 := hu1 en hen hc.2.2.2.2.1
    have e2 : ex = a2 := hu2 ex hex hc.2.2.2.2.2.1
    have hfe : findEntrance g unbranchingPaths L = some en := by
      rw [e1]
      exact findEntrance_eq g unbranchingPaths L a1 ha1 (e1 ▸ hc.2.2.2.2.1) hu1
    have hfx : findExit g unbranchingPaths L = some ex := by
      rw [e2]
      exact findExit_eq g unbranchingPaths L a2 ha2 (e2 ▸ hc.2.2.2.2.2.1) hu2
    have hmark := loopMark_of_conditions g unbranchingPaths L en ex hc hfe hfx
    constructor
    · intro hlt
      rw [if_pos hlt] at hmark
      have r1 : L.id ∈ sets.toRemove := (k1 _).mpr ⟨L, hL, hmark, Or.inl rfl⟩
      have r2 : L.id.rc ∈ sets.toRemove := (k1 _).mpr ⟨L, hL, hmark, Or.inr rfl⟩
      exact ⟨r1, r2, fun h => hno _ ⟨r1, h⟩, fun h => hno _ ⟨r2, h⟩⟩
    · intro hlt
      rw [if_neg hlt] at hmark
      have r1 : L.id ∈ sets.toUnroll := (k2 _).mpr ⟨L, hL, hmark, Or.inl rfl⟩
      have r2 : L.id.rc ∈ sets.toUnroll := (k2 _).mpr ⟨L, hL, hmark, Or.inr rfl⟩
      exact ⟨r1, r2, fun h => hno _ ⟨h, r1⟩, fun h => hno _ ⟨h, r2⟩⟩
  · intro id hid
    rcases hid with hid | hid
    · obtain ⟨L, hL, hLm, hLid⟩ := (k1 id).mp hid
      obtain ⟨en, ex, hen, hex, hc, -⟩ :=
        conditions_of_loopMark g unbranchingPaths L _ hLm (by decide)
      exact ⟨L, hL, en, (findEntrance_some g _ L en hen).1, ex,
        (findExit_some g _ L ex hex).1, hc, hLid⟩
    · obtain ⟨L, hL, hLm, hLid⟩ := (k2 id).mp hid
      obtain ⟨en, ex, hen, hex, hc, -⟩ :=
        conditions_of_loopMark g unbranchingPaths L _ hLm (by decide)
      exact ⟨L, hL, en, (findEntrance_some g _ L en hen).1, ex,
        (findExit_some g _ L ex hex).1, hc, hLid⟩

/-- C15. On a consistent, complement-symmetric graph with its maximal unbranching paths, the
marking loop of `collapseHeterozygousLoops` completes, and for every loop `L` that satisfies
the collapse conditions with entrance `en` and exit `ex` the decision is a single one
applied to both `L.id` and `L.id.rc()`: both ids are marked for removal, and neither for
unrolling, if `L.meanCoverage < (en.meanCoverage + ex.meanCoverage) / 4` (integer division),
and both are marked for unrolling, and neither for removal, otherwise; only ids of such
loops are marked; and no id is marked for both removal and unrolling. -/
theorem markLoops_decision (g : Graph) (unbranchingPaths : List UnbranchingPath)
    (hg : Consistent g) (hm : ComplementSymmetric g)
    (h : isExtraction g unbranchingPaths = true) :
    ∃ sets, markLoops g unbranchingPaths = some sets ∧
      (∀ L ∈ unbranchingPaths, ∀ en ∈ unbranchingPaths, ∀ ex ∈ unbranchingPaths,
        CollapseConditions g L en ex →
        (L.meanCoverage < (en.meanCoverage + ex.meanCoverage).tdiv 4 →
          L.id ∈ sets.toRemove ∧ L.id.rc ∈ sets.toRemove ∧
          L.id ∉ sets.toUnroll ∧ L.id.rc ∉ sets.toUnroll) ∧
        (¬ L.meanCoverage < (en.meanCoverage + ex.meanCoverage).tdiv 4 →
          L.id ∈ sets.toUnroll ∧ L.id.rc ∈ sets.toUnroll ∧
          L.id ∉ sets.toRemove ∧ L.id.rc ∉ sets.toRemove)) ∧
      (∀ id, id ∈ sets.toRemove ∨ id ∈ sets.toUnroll →
        ∃ L ∈ unbranchingPaths, ∃ en ∈ unbranchingPaths, ∃ ex ∈ unbranchingPaths,
          CollapseConditions g L en ex ∧ (id = L.id ∨ id = L.id.rc)) ∧
      (∀ id, ¬ (id ∈ sets.toRemove ∧ id ∈ sets.toUnroll)) :=
  markLoops_decision_paired g unbranchingPaths
    (loopPaths_of_extraction g unbranchingPaths hg hm h)

theorem loopGraph_consistent : Consistent loopGraph := by
  unfold Consistent
  refine ⟨by decide!, by decide!⟩

theorem loopGraph_symmetric : ComplementSymmetric loopGraph := by
  unfold ComplementSymmetric
  refine ⟨by decide!, by decide!⟩

/-- Witness for C15, scenario S6: loop coverage `3`, entrance and exit coverage `20`, loop
length `50`, entrance length `200`. The six paths are the maximal unbranching paths of the
graph, the loop satisfies the collapse conditions, `3 < (20 + 20) / 4`, and both ids of the
loop are marked for removal and none for unrolling. -/
theorem markLoops_decision_witness :
    Consistent loopGraph ∧ ComplementSymmetric loopGraph ∧
    isExtraction loopGraph loopPaths = true ∧
    CollapseConditions loopGraph ⟨[2], ⟨1, true⟩, 3, 50⟩ ⟨[0], ⟨0, true⟩, 20, 200⟩
      ⟨[4], ⟨2, true⟩, 20, 200⟩ ∧
    markLoops loopGraph loopPaths = some ⟨[], [⟨1, true⟩, ⟨1, false⟩]⟩ ∧
    ∃ sets, markLoops loopGraph loopPaths = some sets ∧
      ∀ id, ¬ (id ∈ sets.toRemove ∧ id ∈ sets.toUnroll) :=
  ⟨loopGraph_consistent, loopGraph_symmetric, by decide!,
    by unfold CollapseConditions; decide!, by decide!,
    (markLoops_decision loopGraph loopPaths loopGraph_consistent loopGraph_symmetric
      (by decide!)).imp (fun _ h => ⟨h.1, h.2.2.2⟩)⟩

end RepeatGraph

namespace RepeatGraph

/-- On paired paths the path of a bulge with the strictly higher coverage is never marked,
neither by its own bulge nor through the complement bulge. -/
theorem winner_not_marked (g : Graph) (paths : List UnbranchingPath)
    (hp : BulgePathsPaired g paths) (s : List SignedId) (hs : markBulges g paths = some s)
    (path first second L W : UnbranchingPath) (_hpath : path ∈ paths)
    (htw : twoPathsOf g paths path = [first, second])
    (hpop : popDecision g paths first second = some (some L))
    (hW : W = first ∨ W = second) (hlt : L.meanCoverage < W.meanCoverage) :
    W.id ∉ s := by
  obtain ⟨hids, hcompl, hmirror, -, -⟩ := hp
  intro hin
  obtain ⟨hA, -, -, -⟩ := foldl_markBulge g paths paths [] s hs
  have hWmem : W ∈ twoPathsOf g paths path := by
    rw [htw]; rcases hW with h | h <;> simp [h]
  obtain ⟨hWp, hWl, hWr⟩ := (mem_twoPathsOf g paths path W).mp hWmem
  have hLmem : L ∈ twoPathsOf g paths path := by
    rw [htw]
    rcases popDecision_loser g paths first second L hpop with ⟨e, -⟩ | ⟨e, -⟩ <;> simp [e]
  rcases hA W.id hin with h0 | ⟨path', hp', first', second', L', -, htw', -, hpop', hid⟩
  · cases h0
  have hL'mem : L' ∈ twoPathsOf g paths path' := by
    rw [htw']
    rcases popDecision_loser g paths first' second' L' hpop' with ⟨e, -⟩ | ⟨e, -⟩ <;> simp [e]
  obtain ⟨hL'p, hL'l, hL'r⟩ := (mem_twoPathsOf g paths path' L').mp hL'mem
  rcases hid with hid | hid
  · -- marked by its own bulge
    have hWL' : W = L' := eq_of_id_eq paths hids W L' hWp hL'p hid
    have hsame : twoPathsOf g paths path' = twoPathsOf g paths path := by
      apply twoPathsOf_congr
      · rw [← hL'l, ← hWL', hWl]
      · rw [← hL'r, ← hWL', hWr]
    rw [htw', htw] at hsame
    simp only [List.cons.injEq, and_true] at hsame
    obtain ⟨e1, e2⟩ := hsame
    rw [e1, e2, hpop] at hpop'
    simp only [Option.some.injEq] at hpop'
    rw [hpop', ← hWL'] at hlt
    exact lt_irrefl _ hlt
  · -- marked through the complement bulge
    -- the other path `O` of the complement bulge
    obtain ⟨O, hOmem, hOL', hcovle⟩ : ∃ O, O ∈ twoPathsOf g paths path' ∧ O ≠ L' ∧
        L'.meanCoverage ≤ O.meanCoverage := by
      have hnd := twoPathsOf_nodup g paths hids path'
      rw [htw'] at hnd ⊢
      have hne : first' ≠ second' := by
        intro h
        rw [h] at hnd
        simp at hnd
      rcases popDecision_loser g paths first' second' L' hpop' with ⟨e, hc⟩ | ⟨e, hc⟩
      · exact ⟨second', by simp, by rw [e]; exact Ne.symm hne, by rw [e]; exact le_of_lt hc⟩
      · exact ⟨first', by simp, by rw [e]; exact hne, by rw [e]; exact hc⟩
    obtain ⟨hOp, hOl, hOr⟩ := (mem_twoPathsOf g paths path' O).mp hOmem
    obtain ⟨O2, hO2p, hO2id, hO2cov⟩ := hcompl O hOp
    have hends := hmirror L' hL'p O hOp W hWp O2 hO2p hid hO2id
      ⟨by rw [hL'l, hOl], by rw [hL'r, hOr]⟩
    have hO2mem : O2 ∈ twoPathsOf g paths path :=
      (mem_twoPathsOf g paths path O2).mpr
        ⟨hO2p, by rw [← hends.1, hWl], by rw [← hends.2, hWr]⟩
    have hO2W : O2 ≠ W := by
      intro h
      apply hOL'
      apply eq_of_id_eq paths hids O L' hOp hL'p
      have : O.id.rc = L'.id.rc := by rw [← hO2id, ← hid, h]
      have h2 : O.id.rc.rc = L'.id.rc.rc := by rw [this]
      rwa [rc_rc, rc_rc] at h2
    -- `O2` is the other path of the bulge: the marked one
    have hO2L : O2 = L := by
      rw [htw] at hO2mem hLmem hWmem
      simp only [List.mem_cons, List.mem_singleton, List.not_mem_nil, or_false] at hO2mem hLmem hWmem
      have hWL : W ≠ L := by
        intro h; rw [h] at hlt; exact lt_irrefl _ hlt
      rcases hO2mem with a | a <;> rcases hLmem with b | b <;> rcases hWmem with c | c
      · rw [a, b]
      · rw [a, b]
      · exact absurd (by rw [a, c]) hO2W
      · exact absurd (by rw [b, c]) hWL.symm
      · exact absurd (by rw [b, c]) hWL.symm
      · exact absurd (by rw [a, c]) hO2W
      · rw [a, b]
      · rw [a, b]
    -- coverages
    obtain ⟨W2, hW2p, hW2id, hW2cov⟩ := hcompl L' hL'p
    have hW2 : W2 = W := eq_of_id_eq paths hids W2 W hW2p hWp (by rw [hW2id, hid])
    have c1 : W.meanCoverage = L'.meanCoverage := by rw [← hW2]; exact hW2cov
    have c2 : L.meanCoverage = O.meanCoverage := by rw [← hO2L]; exact hO2cov
    rw [c1, c2] at hlt
    exact absurd hcovle (not_le.mpr hlt)

/-- The marking loop of the bulges on paired paths: of every pair that passes the conditions
exactly one path is marked, the lower-coverage one when the coverages differ. -/
theorem markBulges_lower_coverage_paired (g : Graph) (unbranchingPaths : List UnbranchingPath)
    (hp : BulgePathsPaired g unbranchingPaths) :
    ∃ toSeparate, markBulges g unbranchingPaths = some toSeparate ∧
      (∀ path ∈ unbranchingPaths, ∀ first second,
        ∀ en ∈ unbranchingPaths, ∀ ex ∈ unbranchingPaths,
        path.isLooped g = false → twoPathsOf g unbranchingPaths path = [first, second] →
        first.id ≠ second.id.rc → PopConditions g first second en ex →
        (first.id ∈ toSeparate ∨ second.id ∈ toSeparate) ∧
        ¬ (first.id ∈ toSeparate ∧ second.id ∈ toSeparate) ∧
        (first.meanCoverage < second.meanCoverage →
          first.id ∈ toSeparate ∧ first.id.rc ∈ toSeparate ∧
          second.id ∉ toSeparate ∧ second.id.rc ∉ toSeparate) ∧
        (second.meanCoverage < first.meanCoverage →
          second.id ∈ toSeparate ∧ second.id.rc ∈ toSeparate ∧
          first.id ∉ toSeparate ∧ first.id.rc ∉ toSeparate)) ∧
      (∀ id, id ∈ toSeparate ↔ id.rc ∈ toSeparate) ∧
      (∀ id, id ∈ toSeparate → ∃ path ∈ unbranchingPaths, ∃ first second en ex,
        path.isLooped g = false ∧ twoPathsOf g unbranchingPaths path = [first, second] ∧
        first.id ≠ second.id.rc ∧ PopConditions g first second en ex ∧
        (id = (if first.meanCoverage < second.meanCoverage then first else second).id ∨
          id = (if first.meanCoverage < second.meanCoverage then first else second).id.rc)) := by
  obtain ⟨s, hs⟩ := markBulges_total g unbranchingPaths hp
  obtain ⟨hA, -, hC, hD⟩ := foldl_markBulge g unbranchingPaths unbranchingPaths [] s hs
  have hrc : ∀ id, id ∈ s → id.rc ∈ s := hD (fun id h => by cases h)
  have hnrc : ∀ id, id ∉ s → id.rc ∉ s := by
    intro id hn h
    apply hn
    have := hrc _ h
    rwa [rc_rc] at this
  have hE := foldl_markBulge_pair g unbranchingPaths hp unbranchingPaths [] s hs
    (fun id h => by cases h) (fun _ _ _ _ _ h => by cases h.1)
  refine ⟨s, hs, ?_, ?_, ?_⟩
  rotate_left
  · intro id
    constructor
    · exact hrc id
    · intro h
      have := hrc _ h
      rwa [rc_rc] at this
  rotate_left
  · intro path hpath first second en hen ex hex hl htw hne hc
    have hf : first ∈ unbranchingPaths := by
      have : first ∈ twoPathsOf g unbranchingPaths path := by rw [htw]; simp
      exact ((mem_twoPathsOf g unbranchingPaths path first).mp this).1
    obtain ⟨a1, ha1, hP1, hu1⟩ := hp.2.2.2.1 first hf hc.1
    obtain ⟨a2, ha2, hP2, hu2⟩ := hp.2.2.2.2 first hf hc.2.1
    have e1 : en = a1 := hu1 en hen hc.2.2.1
    have e2 : ex = a2 := hu2 ex hex hc.2.2.2.1
    have hfe : bulgeEntrance g unbranchingPaths first = some en := by
      rw [e1]; exact bulgeEntrance_eq g unbranchingPaths first a1 ha1 hP1 hu1
    have hfx : bulgeExit g unbranchingPaths first = some ex := by
      rw [e2]; exact bulgeExit_eq g unbranchingPaths first a2 ha2 hP2 hu2
    have hpop := popDecision_of_conditions g unbranchingPaths first second en ex hc hfe hfx
    refine ⟨hC path hpath first second _ hl htw hne hpop, hE path first second htw hne, ?_, ?_⟩
    · intro hlt
      rw [if_pos hlt] at hpop
      have hw := winner_not_marked g unbranchingPaths hp s hs path first second first second
        hpath htw hpop (Or.inr rfl) hlt
      have hone := hC path hpath first second first hl htw hne hpop
      have hfirst : first.id ∈ s := by
        rcases hone with h | h
        · exact h
        · exact absurd h hw
      exact ⟨hfirst, hrc _ hfirst, hw, hnrc _ hw⟩
    · intro hlt
      rw [if_neg (not_lt.mpr (le_of_lt hlt))] at hpop
      have hw := winner_not_marked g unbranchingPaths hp s hs path first second second first
        hpath htw hpop (Or.inl rfl) hlt
      have hone := hC path hpath first second second hl htw hne hpop
      have hsecond : second.id ∈ s := by
        rcases hone with h | h
        · exact absurd h hw
        · exact h
      exact ⟨hsecond, hrc _ hsecond, hw, hnrc _ hw⟩
  · intro id hid
    rcases hA id hid with h0 | ⟨path, hpath, first, second, L, hl, htw, hne, hpop, hL⟩
    · cases h0
    obtain ⟨en, ex, -, -, hc, hLeq⟩ :=
      conditions_of_popDecision g unbranchingPaths first second L hpop
    exact ⟨path, hpath, first, second, en, ex, hl, htw, hne, hc, by rw [← hLeq]; exact hL⟩

/-- C14. On a consistent, complement-symmetric graph with its maximal unbranching paths, the
marking loop of `collapseHeterozygousBulges` completes, and for every pair `[first, second]`
of paths with the same end nodes that passes the structural and pop conditions exactly one
of the two is marked (at least one, and never both); when the coverages differ the marked
one is the path with the lower `meanCoverage`, together with its complement id, and the
higher-coverage path is not marked, neither by its own id nor by its complement id. The
marked set is closed under complement, and every marked id is the id or the complement id
of the path the decision selects in such a pair. -/
theorem markBulges_lower_coverage (g : Graph) (unbranchingPaths : List UnbranchingPath)
    (hg : Consistent g) (hm : ComplementSymmetric g)
    (h : isExtraction g unbranchingPaths = true) :
    ∃ toSeparate, markBulges g unbranchingPaths = some toSeparate ∧
      (∀ path ∈ unbranchingPaths, ∀ first second,
        ∀ en ∈ unbranchingPaths, ∀ ex ∈ unbranchingPaths,
        path.isLooped g = false → twoPathsOf g unbranchingPaths path = [first, second] →
        first.id ≠ second.id.rc → PopConditions g first second en ex →
        (first.id ∈ toSeparate ∨ second.id ∈ toSeparate) ∧
        ¬ (first.id ∈ toSeparate ∧ second.id ∈ toSeparate) ∧
        (first.meanCoverage < second.meanCoverage →
          first.id ∈ toSeparate ∧ first.id.rc ∈ toSeparate ∧
          second.id ∉ toSeparate ∧ second.id.rc ∉ toSeparate) ∧
        (second.meanCoverage < first.meanCoverage →
          second.id ∈ toSeparate ∧ second.id.rc ∈ toSeparate ∧
          first.id ∉ toSeparate ∧ first.id.rc ∉ toSeparate)) ∧
      (∀ id, id ∈ toSeparate ↔ id.rc ∈ toSeparate) ∧
      (∀ id, id ∈ toSeparate → ∃ path ∈ unbranchingPaths, ∃ first second en ex,
        path.isLooped g = false ∧ twoPathsOf g unbranchingPaths path = [first, second] ∧
        first.id ≠ second.id.rc ∧ PopConditions g first second en ex ∧
        (id = (if first.meanCoverage < second.meanCoverage then first else second).id ∨
          id = (if first.meanCoverage < second.meanCoverage then first else second).id.rc)) :=
  markBulges_lower_coverage_paired g unbranchingPaths
    (bulgePaths_of_extraction g unbranchingPaths hg hm h)

theorem bulgeGraph_consistent : Consistent bulgeGraph := by
  unfold Consistent
  refine ⟨by decide!, by decide!⟩

theorem bulgeGraph_symmetric : ComplementSymmetric bulgeGraph := by
  unfold ComplementSymmetric
  refine ⟨by decide!, by decide!⟩

/-- Witness for C14, scenario S5: `p` (coverage `10`, length `100`), `q` (coverage `11`,
length `105`), entrance coverage `21`, exit coverage `20`. The eight paths are the maximal
unbranching paths of the graph, the pair passes the pop conditions, the ids of `p` are
marked, `p` (edge `2`) moves to the fresh nodes `8` and `9`, and `q` (edge `4`) stays between
nodes `1` and `2`. -/
theorem markBulges_lower_coverage_witness :
    Consistent bulgeGraph ∧ ComplementSymmetric bulgeGraph ∧
    isExtraction bulgeGraph bulgePaths = true ∧
    twoPathsOf bulgeGraph bulgePaths ⟨[2], ⟨1, true⟩, 10, 100⟩ =
      [⟨[2], ⟨1, true⟩, 10, 100⟩, ⟨[4], ⟨2, true⟩, 11, 105⟩] ∧
    PopConditions bulgeGraph ⟨[2], ⟨1, true⟩, 10, 100⟩ ⟨[4], ⟨2, true⟩, 11, 105⟩
      ⟨[0], ⟨0, true⟩, 21, 1000⟩ ⟨[6], ⟨3, true⟩, 20, 1000⟩ ∧
    markBulges bulgeGraph bulgePaths = some [⟨1, true⟩, ⟨1, false⟩] ∧
    (collapseHeterozygousBulges bulgeGraph bulgePaths).map
      (fun r => ((r.edges 2).nodeLeft, (r.edges 2).nodeRight)) = some (8, 9) ∧
    (collapseHeterozygousBulges bulgeGraph bulgePaths).map
      (fun r => ((r.edges 4).nodeLeft, (r.edges 4).nodeRight)) = some (1, 2) ∧
    ∃ toSeparate, markBulges bulgeGraph bulgePaths = some toSeparate :=
  ⟨bulgeGraph_consistent, bulgeGraph_symmetric, by decide!, by decide!,
    by unfold PopConditions; decide!, by decide!, by decide!, by decide!,
    (markBulges_lower_coverage bulgeGraph bulgePaths bulgeGraph_consistent
      bulgeGraph_symmetric (by decide!)).imp (fun _ h => h.1)⟩

end RepeatGraph

namespace RepeatGraph

/-! ## `trimTips`: the marking loop -/

theorem foldl_sumStep (g : Graph) (t : EdgeRef)
    (hfit : ∀ e, wrapInt32 ((g.edges e).meanCoverage * (g.edges e).length) =
      (g.edges e).meanCoverage * (g.edges e).length)
    (read : GraphAlignment) : ∀ (p : Bool) (c l : Int),
    (read.foldl (sumStep g t) ⟨p, c, l⟩).sumCov =
        c + coverageSum g (if p then read.filter (fun e => e != t) else edgesBeyond t read) ∧
      (read.foldl (sumStep g t) ⟨p, c, l⟩).sumLen =
        l + lengthSum g (if p then read.filter (fun e => e != t) else edgesBeyond t read) := by
  induction read with
  | nil => intro p c l; cases p <;> simp [coverageSum, lengthSum, edgesBeyond]
  | cons e r ih =>
    intro p c l
    rw [List.foldl_cons]
    by_cases he : e = t
    · subst he
      have hs : sumStep g e ⟨p, c, l⟩ e = ⟨true, c, l⟩ := by simp [sumStep]
      rw [hs]
      have := ih true c l
      cases p
      · simpa [edgesBeyond] using this
      · simpa using this
    · cases p
      · have hs : sumStep g t ⟨false, c, l⟩ e = ⟨false, c, l⟩ := by simp [sumStep, he]
        rw [hs]
        have := ih false c l
        simpa [edgesBeyond, he] using this
      · have hs : sumStep g t ⟨true, c, l⟩ e =
            ⟨true, c + (g.edges e).meanCoverage * (g.edges e).length,
              l + (g.edges e).length⟩ := by
          simp [sumStep, he, hfit]
        rw [hs]
        obtain ⟨h1, h2⟩ := ih true (c + (g.edges e).meanCoverage * (g.edges e).length)
          (l + (g.edges e).length)
        simp only [if_true] at h1 h2 ⊢
        rw [h1, h2]
        simp [List.filter_cons, he, coverageSum, lengthSum]
        constructor <;> ring

theorem sumRead_eq (g : Graph) (t : EdgeRef)
    (hfit : ∀ e, wrapInt32 ((g.edges e).meanCoverage * (g.edges e).length) =
      (g.edges e).meanCoverage * (g.edges e).length)
    (sums : Int × Int) (read : GraphAlignment) :
    sumRead g t sums read =
      (sums.1 + coverageSum g (edgesBeyond t read), sums.2 + lengthSum g (edgesBeyond t read)) := by
  unfold sumRead
  split
  · rename_i h
    have : read = [] := by simpa using h
    subst this
    simp [edgesBeyond, coverageSum, lengthSum]
  · obtain ⟨h1, h2⟩ := foldl_sumStep g t hfit read false sums.1 sums.2
    simp only [Bool.false_eq_true, if_false] at h1 h2
    rw [h1, h2]

theorem tipSums_eq (g : Graph) (readIndex : EdgeRef → List GraphAlignment)
    (hfit : ∀ e, wrapInt32 ((g.edges e).meanCoverage * (g.edges e).length) =
      (g.edges e).meanCoverage * (g.edges e).length)
    (tipPath : UnbranchingPath) :
    tipSums g readIndex tipPath =
      (coverageSum g (beyondTip readIndex tipPath), lengthSum g (beyondTip readIndex tipPath)) := by
  unfold tipSums beyondTip
  generalize readIndex (tipPath.path.getLastD 0) = reads
  suffices h : ∀ (reads : List GraphAlignment) (sums : Int × Int),
      reads.foldl (sumRead g (tipPath.path.getLastD 0)) sums =
        (sums.1 + coverageSum g (reads.flatMap (edgesBeyond (tipPath.path.getLastD 0))),
          sums.2 + lengthSum g (reads.flatMap (edgesBeyond (tipPath.path.getLastD 0)))) by
    rw [h reads (0, 0)]
    simp
  intro reads
  induction reads with
  | nil => intro sums; simp [coverageSum, lengthSum]
  | cons r rs ih =>
    intro sums
    rw [List.foldl_cons, sumRead_eq g _ hfit, ih, List.flatMap_cons,
      (sums_append g _ _).1, (sums_append g _ _).2]
    simp only [Prod.mk.injEq]
    constructor <;> ring

theorem mem_collectTips (g : Graph) (readIndex : EdgeRef → List GraphAlignment) (maxTip : Int)
    (paths : List UnbranchingPath) (id : SignedId) :
    id ∈ collectTips g readIndex maxTip paths ↔
      ∃ tip ∈ paths, tipMarked g readIndex maxTip tip = true ∧ id = tip.id.rc := by
  unfold collectTips
  suffices h : ∀ (l : List UnbranchingPath) (s : List SignedId),
      id ∈ l.foldl (fun toRemove tipPath =>
          if tipMarked g readIndex maxTip tipPath then idInsert toRemove tipPath.id.rc
          else toRemove) s ↔
        id ∈ s ∨ ∃ tip ∈ l, tipMarked g readIndex maxTip tip = true ∧ id = tip.id.rc by
    rw [h paths []]
    simp
  intro l
  induction l with
  | nil => intro s; simp
  | cons a t ih =>
    intro s
    rw [List.foldl_cons, ih]
    by_cases hm : tipMarked g readIndex maxTip a = true
    · rw [if_pos hm, mem_idInsert]
      constructor
      · rintro ((h | h) | ⟨tip, ht, h⟩)
        · exact Or.inl h
        · exact Or.inr ⟨a, List.mem_cons_self _ _, hm, h⟩
        · exact Or.inr ⟨tip, List.mem_cons_of_mem _ ht, h⟩
      · rintro (h | ⟨tip, ht, h⟩)
        · exact Or.inl (Or.inl h)
        · rcases List.mem_cons.mp ht with rfl | ht
          · exact Or.inl (Or.inr h.2)
          · exact Or.inr ⟨tip, ht, h⟩
    · rw [if_neg hm]
      constructor
      · rintro (h | ⟨tip, ht, h⟩)
        · exact Or.inl h
        · exact Or.inr ⟨tip, List.mem_cons_of_mem _ ht, h⟩
      · rintro (h | ⟨tip, ht, h⟩)
        · exact Or.inl h
        · rcases List.mem_cons.mp ht with rfl | ht
          · exact absurd h.1 hm
          · exact Or.inr ⟨tip, ht, h⟩

theorem tipMarked_iff (g : Graph) (readIndex : EdgeRef → List GraphAlignment) (maxTip : Int)
    (hfit : ∀ e, wrapInt32 ((g.edges e).meanCoverage * (g.edges e).length) =
      (g.edges e).meanCoverage * (g.edges e).length)
    (tip : UnbranchingPath) :
    tipMarked g readIndex maxTip tip = true ↔
      (g.nodes (tip.nodeLeft g)).inEdges = [] ∧ tip.length ≤ maxTip ∧
      lengthSum g (beyondTip readIndex tip) ≠ 0 ∧
      float32 (float32 ((readCoverageBeyond g readIndex tip : Int) : ℚ) / 5) >
        float32 (tip.meanCoverage : ℚ) := by
  unfold tipMarked readCoverageBeyond
  rw [tipSums_eq g readIndex hfit tip]
  by_cases h1 : (g.nodes (tip.nodeLeft g)).inEdges = []
  · by_cases h2 : tip.length ≤ maxTip
    · by_cases h3 : lengthSum g (beyondTip readIndex tip) = 0
      · simp [h1, h2, h3, not_lt.mpr h2]
      · simp [h1, h2, h3, not_lt.mpr h2]
    · simp [h1, h2, not_le.mp h2]
  · have : 0 < (g.nodes (tip.nodeLeft g)).inEdges.length := List.length_pos.mpr h1
    simp [h1, this]

/-- C13 (the failing case). While every product `meanCoverage * length` fits an `int32_t`,
`trimTips` marks exactly the ids `tip.id.rc()` of the paths `tip` whose left node has no
in-edges, whose length is at most the threshold, whose reads visit an edge after the last
edge of the tip, and for which `readCoverage / 5 > tip.meanCoverage` in single precision,
`readCoverage` being the length-weighted mean coverage of the edges beyond the tip; on
scenario S4 (tip coverage `2`, length `100`, downstream coverage `20`, threshold `500`) the
complement id of the tip is marked. On `longTipGraph`, a consistent, complement-symmetric
graph with its maximal unbranching paths, the edge beyond the tip has coverage
`100` and length `30000000`: the mean beyond the tip is `100` and `100 / 5 > 2`, yet no id
is marked, because line 371 forms `100 * 30000000` in 32 bits and adds
`-1294967296` to `sumCov`. -/
theorem trimTips_product_overflow :
    (∀ (g : Graph) (readIndex : EdgeRef → List GraphAlignment) (maxTip : Int)
      (unbranchingPaths : List UnbranchingPath),
      (∀ e, wrapInt32 ((g.edges e).meanCoverage * (g.edges e).length) =
        (g.edges e).meanCoverage * (g.edges e).length) →
      ∀ id, id ∈ collectTips g readIndex maxTip unbranchingPaths ↔
        ∃ tip ∈ unbranchingPaths,
          (g.nodes (tip.nodeLeft g)).inEdges = [] ∧ tip.length ≤ maxTip ∧
          lengthSum g (beyondTip readIndex tip) ≠ 0 ∧
          float32 (float32 ((readCoverageBeyond g readIndex tip : Int) : ℚ) / 5) >
            float32 (tip.meanCoverage : ℚ) ∧
          id = tip.id.rc) ∧
    (isExtraction tipGraph tipPaths = true ∧
      collectTips tipGraph (buildReadIndex [[0, 4]]) 500 tipPaths = [⟨0, false⟩]) ∧
    (Consistent longTipGraph ∧ ComplementSymmetric longTipGraph ∧
      isExtraction longTipGraph longTipPaths = true ∧
      (longTipGraph.nodes (UnbranchingPath.nodeLeft longTipGraph ⟨[0], ⟨0, true⟩, 2, 100⟩)).inEdges
        = [] ∧
      beyondTip (buildReadIndex [[0, 4]]) ⟨[0], ⟨0, true⟩, 2, 100⟩ = [4] ∧
      readCoverageBeyond longTipGraph (buildReadIndex [[0, 4]]) ⟨[0], ⟨0, true⟩, 2, 100⟩ = 100 ∧
      float32 (float32 (100 : ℚ) / 5) > float32 (2 : ℚ) ∧
      tipSums longTipGraph (buildReadIndex [[0, 4]]) ⟨[0], ⟨0, true⟩, 2, 100⟩ =
        (-1294967296, 30000000) ∧
      collectTips longTipGraph (buildReadIndex [[0, 4]]) 500 longTipPaths = [] ∧
      ((trimTips longTipGraph longTipPaths [[0, 4]] 500).edges 1).nodeLeft =
        (longTipGraph.edges 1).nodeLeft) := by
  refine ⟨?_, by decide!, ⟨by unfold Consistent; exact ⟨by decide!, by decide!⟩,
    by unfold ComplementSymmetric; exact ⟨by decide!, by decide!⟩, by decide!⟩⟩
  intro g readIndex maxTip paths hfit id
  rw [mem_collectTips]
  constructor
  · rintro ⟨tip, ht, hm, hid⟩
    obtain ⟨a, b, c, d⟩ := (tipMarked_iff g readIndex maxTip hfit tip).mp hm
    exact ⟨tip, ht, a, b, c, d, hid⟩
  · rintro ⟨tip, ht, a, b, c, d, hid⟩
    exact ⟨tip, ht, (tipMarked_iff g readIndex maxTip hfit tip).mpr ⟨a, b, c, d⟩, hid⟩

end RepeatGraph

namespace RepeatGraph

/-- C21. After the counting loop of `removeUnsupportedConnections`, on a graph whose
`complementEdge` is an involution and for every alignment set and edge `e`:
`rightConnections[e] = leftConnections[complement(e)]` and
`leftConnections[e] = rightConnections[complement(e)]`; and an adjacent pair whose two
edges are the same looped edge, or whose first edge has the complement id of the second,
leaves both maps as they were. -/
theorem countConnections_symmetric (g : Graph) (alignments : List GraphAlignment)
    (hinv : ∀ e, g.complementEdge (g.complementEdge e) = e) :
    (∀ e, (countConnections g alignments).rightConnections e =
        (countConnections g alignments).leftConnections (g.complementEdge e) ∧
      (countConnections g alignments).leftConnections e =
        (countConnections g alignments).rightConnections (g.complementEdge e)) ∧
    (∀ (c : Connections) (cur next : EdgeRef),
      ((cur = next ∧ (g.edges cur).isLooped = true) ∨
        (g.edges cur).edgeId = (g.edges next).edgeId.rc) →
      countPair g c cur next = c) := by
  constructor
  · intro e
    obtain ⟨h1, h2, -, -⟩ := countsBalanced_countConnections g hinv alignments e
    exact ⟨h1.symm, h2.symm⟩
  · intro c cur next h
    unfold countPair
    rcases h with h | h
    · rw [if_pos h]
    · split
      · rfl
      · rfl

/-- Witness for C21: on the one-pair graph, the read `[0, 0]` counts one connection on the
right of edge `0` and one on the left of its complement, and the read `[0, 1]`, whose second
edge is the complement of the first, counts nothing. -/
theorem countConnections_symmetric_witness :
    (∀ e, pairGraph.complementEdge (pairGraph.complementEdge e) = e) ∧
    (countConnections pairGraph [[0, 0], [0, 1]]).rightConnections 0 = 1 ∧
    (countConnections pairGraph [[0, 0], [0, 1]]).leftConnections 1 = 1 ∧
    (countConnections pairGraph [[0, 1]]).rightConnections 0 = 0 ∧
    (countConnections pairGraph [[0, 0], [0, 1]]).rightConnections 0 =
      (countConnections pairGraph [[0, 0], [0, 1]]).leftConnections
        (pairGraph.complementEdge 0) :=
  ⟨pairGraph_involution, by decide, by decide, by decide,
    ((countConnections_symmetric pairGraph [[0, 0], [0, 1]] pairGraph_involution).1 0).1⟩

/-- C22 (the failing case). On `windowGraph` (two edges of length `30`, window size `10`, so
six windows) `estimateCoverage` leaves `_meanCoverage = 0`, both without reads (sum of the
counts `0`) and with the three reads of `windowReads` (sum of the counts `5`, and
`5 div 6 = 0`); the multiplicity estimate then divides by zero. The default `1` is taken only
when there is no window at all. -/
theorem estimateCoverage_mean_zero :
    (∀ median : List Int → Int,
      (estimateCoverage median 10 windowGraph []).meanCoverage = 0) ∧
    (∀ median : List Int → Int,
      (estimateCoverage median 10 windowGraph windowReads).meanCoverage = 0) ∧
    windowCoverage windowGraph 10 windowReads 0 = [0, 2, 1] ∧
    windowCoverage windowGraph 10 windowReads 1 = [0, 1, 1] ∧
    (∀ medianCov : Int, estimatedMultiplicity medianCov 0 = none) ∧
    (∀ (g : Graph) (wnd : EdgeRef → List Int),
      (g.edgeList.dedup.map (fun e => ((wnd e).length : Int))).sum = 0 →
      meanOfWindows g wnd = 1) := by
  refine ⟨fun _ => ?_, fun _ => ?_, by decide, by decide, fun _ => rfl, ?_⟩
  · show meanOfWindows windowGraph (windowCoverage windowGraph 10 []) = 0
    decide
  · show meanOfWindows windowGraph (windowCoverage windowGraph 10 windowReads) = 0
    decide
  · intro g wnd h
    unfold meanOfWindows
    rw [if_neg (by simpa using h)]

end RepeatGraph
